import Mathlib

/-!
# Symbolic value algebra of mlir-tv (`src/value.cpp`, `src/value.h`)

A shallow embedding of the value layer.  An SMT term is represented by its value
under an ambient valuation of the free variables: a term of a bit-vector sort of
width `w` is a natural number, understood modulo `2 ^ w`; an SMT array from
indices to elements is a function on the natural numbers; a lambda over a bound
variable is a Lean function; substitution of index variables in a body is function
application.  `simplify()` preserves values, so it is the identity here; the
syntactic tests made on simplified terms (`isFalse`) are inputs of the operations
that make them.
-/

namespace MlirTv

/-! ## Bit-vector operations of the SMT library -/

/-- Modelled from the spec: bit-vector addition of the SMT library (`smt.h`, not
part of the sources), at width `w`. -/
def bvAdd (w a b : Nat) : Nat := (a + b) % 2 ^ w

/-- Modelled from the spec: bit-vector subtraction of the SMT library, at width `w`. -/
def bvSub (w a b : Nat) : Nat := (a % 2 ^ w + (2 ^ w - b % 2 ^ w)) % 2 ^ w

/-- Modelled from the spec: bit-vector multiplication of the SMT library, at width `w`. -/
def bvMul (w a b : Nat) : Nat := (a * b) % 2 ^ w

/-- Modelled from the spec: unsigned division of the SMT library (`udiv`); division
by zero yields the all-ones vector, as in SMT-LIB. -/
def bvUdiv (w a b : Nat) : Nat := if b = 0 then 2 ^ w - 1 else a / b

/-- Modelled from the spec: unsigned remainder of the SMT library (`urem`); the
remainder by zero is the dividend, as in SMT-LIB. -/
def bvUrem (a b : Nat) : Nat := if b = 0 then a else a % b

/-- Modelled from the spec: unsigned less-than of the SMT library (`ult`). -/
def bvUlt (a b : Nat) : Bool := decide (a < b)

/-- Modelled from the spec: `Expr::implies` of the SMT library. -/
def implies (a b : Bool) : Bool := !a || b

/-- Valuation of the unbound (free) SMT variables, by name. -/
abbrev Valuation := String → Nat

/-! ## Element types and sorts -/

/-- The element types `mlir::Type` that the value layer distinguishes. -/
inductive MType where
  | integerTy (width : Nat)
  | floatTy (width : Nat)
  | indexTy
  | otherTy
  deriving DecidableEq

/-- The SMT sorts of scalar values. -/
inductive SmtSort where
  | bvSort (width : Nat)
  | fpSort (width : Nat)
  deriving DecidableEq

/-- The floating-point encoding backend `aop::getFpEncoding(type)` (abstract
operations, not part of the sources), indexed by the element type. -/
structure FpBackend where
  isnan : MType → Nat → Bool
  dot : MType → (Nat → Nat) → (Nat → Nat) → Nat → Option Nat → Nat
  zero : MType → Bool → Nat
  constant : MType → Nat → Nat

/-- The ways an operation fails: the `UnsupportedException`, a failed assertion, and
the end of the fuel of a loop of the model. -/
inductive Err where
  | unsupported
  | assertion
  | outOfFuel
  deriving DecidableEq

/-- Source `Float::sort`: only `f32` and `f64` have a sort. -/
def Float.sort (t : MType) : Option SmtSort :=
  match t with
  | .floatTy 32 => some (.fpSort 32)
  | .floatTy 64 => some (.fpSort 64)
  | _ => none

/-- Source `convertPrimitiveTypeToSort` with `Index::BITS = B`. -/
def convertPrimitiveTypeToSort (B : Nat) (elemty : MType) : Option SmtSort :=
  match elemty with
  | .integerTy w => some (.bvSort w)
  | .floatTy w => Float.sort (.floatTy w)
  | .indexTy => some (.bvSort B)
  | .otherTy => none

/-- Source `getZero`; the zero of a float type is `zero()` of its encoding, here
`fp.zero ty false`. -/
def getZero (B : Nat) (fp : FpBackend) (eltType : MType) : Option Nat :=
  if convertPrimitiveTypeToSort B eltType = none then none
  else
    match eltType with
    | .floatTy _ => some (fp.zero eltType false)
    | .integerTy _ => some 0
    | .indexTy => some 0
    | .otherTy => none

/-- Source `getIdentity`; the identity of a float type is `zero(true)` of its encoding. -/
def getIdentity (B : Nat) (fp : FpBackend) (eltType : MType) : Option Nat :=
  if convertPrimitiveTypeToSort B eltType = none then none
  else
    match eltType with
    | .floatTy _ => some (fp.zero eltType true)
    | .integerTy _ => some 0
    | .indexTy => some 0
    | .otherTy => none

/-! ## Scalar values -/

/-- Source `Index`: a bit-vector of width `BITS`. -/
structure Index where
  e : Nat

/-- Source `Integer`: a bit-vector of width `bw`. -/
structure Integer where
  bw : Nat
  e : Nat

/-- Source `Float`: an SMT term together with its element type. -/
structure Float where
  e : Nat
  type : MType

/-- Source `Index::Index(unsigned i)`: the term `mkBV(i, BITS)` of a machine integer, which
is converted to `unsigned` (32 bits) on the way. -/
def Index.ofUnsigned (B : Nat) (i : Int) : Nat := (i % 2 ^ 32).toNat % 2 ^ B

/-- Source `Index::var(name, VarType::UNBOUND)`: the free variable `name`, a bit-vector of
width `B`. -/
def Index.var (B : Nat) (ρ : Valuation) (name : String) : Nat := ρ name % 2 ^ B

/-- Source `Index::refines`: `(other == this, {})`. -/
def Index.refines (self other : Index) : Bool × List String :=
  (decide (other.e = self.e), [])

/-- Source `Integer::refines`: asserts equal bit-widths, then `(other == this, {})`. -/
def Integer.refines (self other : Integer) : Option (Bool × List String) :=
  if self.bw = other.bw then some (decide (other.e = self.e), []) else none

/-- Source `Float::refines`: `(ite(nan1 | nan2, nan1 == nan2, other == this), {})`, both
`isnan` tests made with the encoding of `this->type`. -/
def Float.refines (fp : FpBackend) (self other : Float) : Bool × List String :=
  let nan1 := fp.isnan self.type self.e
  let nan2 := fp.isnan self.type other.e
  (if nan1 || nan2 then nan1 == nan2 else decide (other.e = self.e), [])

/-! ## Index linearisation -/

/-- Modelled from the spec: `get1DSize` of `smt.h` (not part of the sources), the
product of the dims as a `B`-bit vector. -/
def get1DSize (B : Nat) (dims : List Nat) : Nat :=
  dims.foldl (bvMul B) (1 % 2 ^ B)

/-- One step of `to1DIdx`: `idx = idx * dims[i] + idxs[i]`. -/
def toStep (B : Nat) (acc : Nat) (p : Nat × Nat) : Nat := bvAdd B (bvMul B acc p.2) p.1

/-- Modelled from the spec: `to1DIdx` of `smt.h` (not part of the sources), the
row-major linearisation `(..(idxs[0] * dims[1] + idxs[1]) * dims[2] + ..)` in `B`-bit
arithmetic, the same loop as the sparse constructor of `value.cpp` runs on
machine integers.  The two vectors have equal lengths (an assertion there). -/
def to1DIdx (B : Nat) (idxs dims : List Nat) : Nat :=
  match idxs with
  | [] => 0
  | i0 :: rest => (rest.zip dims.tail).foldl (toStep B) i0

/-- One step of `from1DIdx`, for the dim `d`: the digit `idx1d urem d` is put in
front of the digits found so far and the quotient `idx1d udiv d` goes on. -/
def fromStep (B : Nat) (d : Nat) (s : List Nat × Nat) : List Nat × Nat :=
  (bvUrem s.2 d :: s.1, bvUdiv B s.2 d)

/-- Modelled from the spec: `from1DIdx` of `smt.h` (not part of the sources), the
inverse of the row-major linearisation: from the last dim to the first, take the
remainder by the dim and go on with the quotient. -/
def from1DIdx (B : Nat) (idx1d : Nat) (dims : List Nat) : List Nat :=
  (dims.foldr (fromStep B) ([], idx1d)).1

/-- Modelled from the spec: `fitsInDims` of `smt.h`, also the body of
`Tensor::isInBounds`: every index is unsigned-below its dim (the lengths are
equal, an assertion there). -/
def fitsInDims (idxs sizes : List Nat) : Bool :=
  decide (idxs.length = sizes.length) && (idxs.zip sizes).all (fun p => bvUlt p.1 p.2)

/-! ## Tensors -/

/-- Source `Tensor`: element type, dims, the array of elements and the array of
initialized bits. -/
structure Tensor where
  elemType : MType
  dims : List Nat
  arr : Nat → Nat
  initialized : Nat → Bool

/-- Source `ShapedValue::getDim`. -/
def Tensor.getDim (t : Tensor) (idx : Nat) : Nat := t.dims.getD idx 0

/-- Source `ShapedValue::get1DSize`. -/
def Tensor.get1DSize (B : Nat) (t : Tensor) : Nat := MlirTv.get1DSize B t.dims

/-- Source `Tensor::getRaw`. -/
def Tensor.getRaw (t : Tensor) (indexRaw : Nat) : Nat := t.arr indexRaw

/-- Source `Tensor::get`. -/
def Tensor.get (B : Nat) (t : Tensor) (indices : List Nat) : Nat :=
  t.getRaw (to1DIdx B indices t.dims)

/-- Source `Tensor::isInitialized`. -/
def Tensor.isInitialized (B : Nat) (t : Tensor) (indices : List Nat) : Bool :=
  t.initialized (to1DIdx B indices t.dims)

/-- Source `Tensor::isInBounds`. -/
def Tensor.isInBounds (t : Tensor) (indices : List Nat) : Bool :=
  fitsInDims indices t.dims

/-- Modelled from the spec: `Expr::store` of the SMT library, the array `a` with `v` at
index `i`. -/
def store {α : Type} (a : Nat → α) (i : Nat) (v : α) : Nat → α :=
  fun j => if j = i then v else a j

/-- The splat constructor `Tensor(elemType, splat_elem, dims)`. -/
def Tensor.splat (elemType : MType) (splat_elem : Nat) (dimvec : List Nat) : Tensor :=
  ⟨elemType, dimvec, fun _ => splat_elem, fun _ => true⟩

/-- The dense 1-dimensional constructor `Tensor(elemType, elems1d)`: the fresh array
`tensor_val` with `elems1d[i]` stored at `i`, fully initialized.  The sort is read
from `elems1d[0]`, an assertion failure here when there is none; the counter `i` of
the loop is an `unsigned` and never reaches a size of `2 ^ 32` or more. -/
def Tensor.dense1D (B : Nat) (elemType : MType) (tensor_val : Nat → Nat)
    (elems1d : List Nat) : Except Err Tensor :=
  if elems1d = [] then .error .assertion
  else if 2 ^ 32 ≤ elems1d.length then .error .outOfFuel
  else
    .ok ⟨elemType, [Index.ofUnsigned B elems1d.length],
      elems1d.enum.foldl (fun arr p => store arr (p.1 % 2 ^ B) p.2) tensor_val,
      fun _ => true⟩

/-- Source `Tensor::mkLambda`.  `indexvars` is the number of index variables; `body` and
`initialized` are the two terms as functions of the values of those variables.
The result is absent when an assertion on the sizes fails. -/
def Tensor.mkLambda (B : Nat) (elemType : MType) (newdims : List Nat) (indexvars : Nat)
    (body : List Nat → Nat) (initialized : List Nat → Bool) : Option Tensor :=
  if indexvars = 0 then
    if newdims.length = 0 then
      some ⟨elemType, [1 % 2 ^ B], fun _ => body [], fun _ => initialized []⟩
    else if newdims = [1] then
      some ⟨elemType, newdims, fun _ => body [], fun _ => initialized []⟩
    else none
  else if newdims.length = indexvars then
    some ⟨elemType, newdims,
      fun idx => body (from1DIdx B idx newdims),
      fun idxForInit => initialized (from1DIdx B idxForInit newdims)⟩
  else none

/-- Source `Tensor::mkInitializedLambda`. -/
def Tensor.mkInitializedLambda (B : Nat) (elemType : MType) (newdims : List Nat)
    (indexvars : Nat) (body : List Nat → Nat) : Option Tensor :=
  Tensor.mkLambda B elemType newdims indexvars body (fun _ => true)

/-- Source `Tensor::reshape`; `simplifyList` keeps the values of the dims. -/
def Tensor.reshape (t : Tensor) (newdims : List Nat) : Option Tensor :=
  if 0 < newdims.length then some ⟨t.elemType, newdims, t.arr, t.initialized⟩ else none

/-- Source `Tensor::concat`. -/
def Tensor.concat (B : Nat) (t t2 : Tensor) (axis : Nat) : Option Tensor :=
  let r := t.dims.length
  if r = t2.dims.length ∧ t.elemType = t2.elemType ∧ axis < r then
    let dim := t.dims.set axis (bvAdd B (t.dims.getD axis 0) (t2.getDim axis))
    Tensor.mkInitializedLambda B t.elemType dim r (fun idx =>
      let idxForT2 := idx.set axis (bvSub B (idx.getD axis 0) (t.getDim axis))
      if bvUlt (idx.getD axis 0) (t.getDim axis) then t.get B idx else t2.get B idxForT2)
  else none

/-- Source `Tensor::reverse`. -/
def Tensor.reverse (B : Nat) (t : Tensor) (axis : Nat) : Option Tensor :=
  if axis < t.dims.length then
    Tensor.mkInitializedLambda B t.elemType t.dims t.dims.length (fun indVars =>
      let accessIdx :=
        indVars.set axis (bvSub B (bvSub B (t.dims.getD axis 0) (indVars.getD axis 0)) 1)
      t.get B accessIdx)
  else none

/-- Source `Tensor::tile`. -/
def Tensor.tile (B : Nat) (t : Tensor) (repeats : List Nat) : Option Tensor :=
  if repeats.length = t.dims.length then
    let newDims := List.zipWith (bvMul B) t.dims repeats
    Tensor.mkInitializedLambda B t.elemType newDims t.dims.length (fun indVars =>
      let accessIdx := List.zipWith bvUrem indVars t.dims
      t.get B accessIdx)
  else none

/-- Source `Tensor::transpose`: index variables `{j, i}`, body `get({i, j})`. -/
def Tensor.transpose (B : Nat) (t : Tensor) : Option Tensor :=
  if t.dims.length = 2 then
    Tensor.mkInitializedLambda B t.elemType [t.dims.getD 1 0, t.dims.getD 0 0] 2 (fun v =>
      let j := v.getD 0 0
      let i := v.getD 1 0
      t.get B [i, j])
  else none

/-- Source `Tensor::to1DArrayWithOfs`: the lambda `idx ↦ get(from1DIdx(idx, sizes) + offbegins)`.
The two vectors have equal lengths (an assertion there). -/
def Tensor.to1DArrayWithOfs (B : Nat) (t : Tensor) (offbegins sizes : List Nat) : Nat → Nat :=
  fun idxvar =>
    let relidxs := from1DIdx B idxvar sizes
    let absidxs := List.zipWith (bvAdd B) relidxs offbegins
    t.get B absidxs

/-- The bit-width of the elements of a type, `B` for the index type. -/
def MType.bitWidth (B : Nat) : MType → Nat
  | .integerTy w => w
  | .floatTy w => w
  | .indexTy => B
  | .otherTy => 0

/-- Modelled from the spec: `aop::intDot` (abstract operations, not part of the
sources), the reduction `init + Σ_{p < n} a[p] * b[p]` over two 1-D arrays of length
`n` with an optional initial accumulator, in the `w`-bit arithmetic of the
elements. -/
def intDot (w : Nat) (a b : Nat → Nat) (n : Nat) (initValue : Option Nat) : Nat :=
  (List.range n).foldl (fun acc p => (acc + a p * b p) % 2 ^ w) (initValue.getD 0 % 2 ^ w)

/-- The term `res` of `Tensor::matmul` at the values `i`, `j` of its two bound
variables, for the operand `bt`. -/
def Tensor.matmulRes (B : Nat) (fp : FpBackend) (a bt : Tensor) (init : Option Tensor)
    (i j : Nat) : Nat :=
  let a_row := a.to1DArrayWithOfs B [i, 0] [1 % 2 ^ B, a.dims.getD 1 0]
  let bt_row := bt.to1DArrayWithOfs B [j, 0] [1 % 2 ^ B, bt.dims.getD 1 0]
  let initVal := init.map (fun tensor => tensor.get B [i, j])
  match a.elemType with
  | .floatTy _ => fp.dot a.elemType a_row bt_row (a.dims.getD 1 0) initVal
  | _ => intDot (a.elemType.bitWidth B) a_row bt_row (a.dims.getD 1 0) initVal

/-- Source `Tensor::matmul`. -/
def Tensor.matmul (B : Nat) (fp : FpBackend) (a b : Tensor) (bTransposed : Bool)
    (init : Option Tensor) : Option Tensor :=
  if a.dims.length = 2 ∧ b.dims.length = 2 then
    (if bTransposed then some b else b.transpose B).bind fun bt =>
      Tensor.mkInitializedLambda B a.elemType [a.dims.getD 0 0, bt.dims.getD 0 0] 2
        (fun v => Tensor.matmulRes B fp a bt init (v.getD 0 0) (v.getD 1 0))
  else none

/-! ## Convolution -/

/-- Source `ShapedValue::ConvLayout`. -/
inductive ConvLayout where
  | NHWC_HWCF
  | NCHW_FCHW
  | NHWC_FHWC
  deriving DecidableEq

/-- Source `ShapedValue`: the element type with the two virtual members `getDims` and `get`. -/
structure ShapedValue where
  elemType : MType
  getDims : List Nat
  get : List Nat → Nat

/-- A tensor as a `ShapedValue`. -/
def Tensor.toShapedValue (B : Nat) (t : Tensor) : ShapedValue :=
  ⟨t.elemType, t.dims, t.get B⟩

/-- Source `ShapedValue::getDim`. -/
def ShapedValue.getDim (s : ShapedValue) (idx : Nat) : Nat := s.getDims.getD idx 0

/-- The vector `cubeSize` of `ShapedValue::conv`. -/
def convCubeSize (filter : ShapedValue) (dim : Nat) (convLayout : ConvLayout) : List Nat :=
  match convLayout with
  | .NHWC_HWCF => (List.range dim).map (fun i => filter.getDim i) ++ [filter.getDim dim]
  | .NCHW_FCHW => (List.range dim).map (fun i => filter.getDim (i + 2)) ++ [filter.getDim 1]
  | .NHWC_FHWC =>
    (List.range dim).map (fun i => filter.getDim (i + 1)) ++ [filter.getDim (dim + 1)]

/-- The vector `filterIdxs` of `ShapedValue::conv`. -/
def convFilterIdxs (convLayout : ConvLayout) (outputIdxs cubeIdxs : List Nat) : List Nat :=
  match convLayout with
  | .NHWC_HWCF => cubeIdxs ++ [outputIdxs.getLastD 0]
  | .NCHW_FCHW =>
    [outputIdxs.getD 1 0, cubeIdxs.getLastD 0] ++
      (List.range (cubeIdxs.length - 1)).map (fun i => cubeIdxs.getD i 0)
  | .NHWC_FHWC => [outputIdxs.getLastD 0] ++ cubeIdxs

/-- The vector `inputIdxs` of `ShapedValue::conv`. -/
def convInputIdxs (B : Nat) (convLayout : ConvLayout) (dim : Nat)
    (strides dilations outputIdxs cubeIdxs : List Nat) : List Nat :=
  match convLayout with
  | .NHWC_HWCF =>
    [outputIdxs.headD 0] ++
      (List.range dim).map (fun i =>
        bvAdd B (bvMul B (outputIdxs.getD (i + 1) 0) (strides.getD i 0))
          (bvMul B (cubeIdxs.getD i 0) (dilations.getD i 0))) ++
      [cubeIdxs.getLastD 0]
  | .NCHW_FCHW =>
    [outputIdxs.headD 0, cubeIdxs.getLastD 0] ++
      (List.range dim).map (fun i =>
        bvAdd B (bvMul B (outputIdxs.getD (i + 2) 0) (strides.getD i 0))
          (bvMul B (cubeIdxs.getD i 0) (dilations.getD i 0)))
  | .NHWC_FHWC =>
    [outputIdxs.headD 0] ++
      (List.range dim).map (fun i =>
        bvAdd B (bvMul B (outputIdxs.getD (i + 1) 0) (strides.getD i 0))
          (bvMul B (cubeIdxs.getD i 0) (dilations.getD i 0))) ++
      [cubeIdxs.getLastD 0]

/-- Source `ShapedValue::conv`: the number of output index variables and the output term
as a function of their values.  Absent when a rank assertion fails. -/
def ShapedValue.conv (B : Nat) (fp : FpBackend) (self filter : ShapedValue)
    (strides dilations : List Nat) (convLayout : ConvLayout)
    (getInitValue : List Nat → Option Nat) : Option (Nat × (List Nat → Nat)) :=
  if self.getDims.length = filter.getDims.length ∧ 2 < self.getDims.length then
    let dim := self.getDims.length - 2
    let cubeSize := convCubeSize filter dim convLayout
    some (self.getDims.length, fun outputIdxs =>
      let inputExpr : Nat → Nat := fun cubeIdx =>
        self.get (convInputIdxs B convLayout dim strides dilations outputIdxs
          (from1DIdx B cubeIdx cubeSize))
      let filterExpr : Nat → Nat := fun cubeIdx =>
        filter.get (convFilterIdxs convLayout outputIdxs (from1DIdx B cubeIdx cubeSize))
      let initialValue := getInitValue outputIdxs
      let sz := MlirTv.get1DSize B cubeSize
      match self.elemType with
      | .integerTy w => intDot w inputExpr filterExpr sz initialValue
      | _ => fp.dot self.elemType inputExpr filterExpr sz initialValue)
  else none

/-- The spatial output size of `Tensor::conv`:
`(originalSize - filterSize + strides[i]).udiv(strides[i])` with
`filterSize = dilations[i] * filter.getDim(..)`. -/
def convOutputDim (B : Nat) (originalSize filterDim stride dilation : Nat) : Nat :=
  let filterSize := bvMul B dilation filterDim
  bvUdiv B (bvAdd B (bvSub B originalSize filterSize) stride) stride

/-- The vector `outputDims` of `Tensor::conv`. -/
def convOutputDims (B : Nat) (self filter : Tensor) (strides dilations : List Nat)
    (layout : ConvLayout) : List Nat :=
  match layout with
  | .NHWC_HWCF =>
    [self.getDim 0] ++
      (List.range (self.dims.length - 2)).map (fun i =>
        convOutputDim B (self.getDim (i + 1)) (filter.getDim i)
          (strides.getD i 0) (dilations.getD i 0)) ++
      [filter.dims.getLastD 0]
  | .NCHW_FCHW =>
    [self.getDim 0, filter.getDim 0] ++
      (List.range (self.dims.length - 2)).map (fun i =>
        convOutputDim B (self.getDim (i + 2)) (filter.getDim (i + 2))
          (strides.getD i 0) (dilations.getD i 0))
  | .NHWC_FHWC =>
    [self.getDim 0] ++
      (List.range (self.dims.length - 2)).map (fun i =>
        convOutputDim B (self.getDim (i + 1)) (filter.getDim (i + 1))
          (strides.getD i 0) (dilations.getD i 0)) ++
      [filter.getDim 0]

/-- Source `Tensor::conv`. -/
def Tensor.conv (B : Nat) (fp : FpBackend) (self filter : Tensor)
    (strides dilations : List Nat) (layout : ConvLayout) (output : Option Tensor) :
    Option Tensor :=
  let outputDims := convOutputDims B self filter strides dilations layout
  let getInitValue : List Nat → Option Nat := fun indices =>
    output.map (fun o => o.get B indices)
  (ShapedValue.conv B fp (self.toShapedValue B) (filter.toShapedValue B) strides dilations
    layout getInitValue).bind fun r =>
      Tensor.mkInitializedLambda B self.elemType outputDims r.1 r.2

/-! ## Memory references -/

/-- Modelled from the spec: `AccessInfo` of the external `Memory`. -/
structure AccessInfo where
  inbounds : Bool
  initialized : Bool
  writable : Bool

/-- Modelled from the spec: the external `Memory` (`memory.h`, not part of the
sources), by the two members the value layer reads here. -/
structure Memory where
  load : MType → Nat → Nat → Nat × AccessInfo
  getNumElementsOfMemBlock : MType → Nat → Nat

/-- Source `MemRef::Layout`: the number of induction variables, the inbounds condition,
the mapping, the inverse mappings, the precondition and whether the
precondition is the literal `true`. -/
structure Layout where
  indVars : Nat
  inbounds : List Nat → Bool
  mapping : List Nat → Nat
  inverseMappings : Nat → List Nat
  precondition : Prop
  preconditionIsTrue : Bool

/-- Source `MemRef::Layout::Layout(dims)`, the identity layout. -/
def Layout.identity (B : Nat) (dims : List Nat) : Layout where
  indVars := dims.length
  inbounds := fun indices => fitsInDims indices dims
  mapping := fun indices => to1DIdx B indices dims
  inverseMappings := fun index => from1DIdx B index dims
  precondition := True
  preconditionIsTrue := true

/-- Source `MemRef::Layout::Layout(indVars, layout, inbounds)`.  `inverseFns i` is the
interpretation of the `i`-th fresh uninterpreted function `inverse_fn`, and
`preconditionIsTrue` is the outcome of `isTrue()` on the quantified precondition,
decided by the SMT library. -/
def Layout.strided (B : Nat) (indVars : Nat) (layout : List Nat → Nat)
    (inbounds : List Nat → Bool) (inverseFns : Nat → Nat → Nat)
    (preconditionIsTrue : Bool) : Layout where
  indVars := indVars
  inbounds := inbounds
  mapping := layout
  inverseMappings := fun idx => (List.range indVars).map (fun i => inverseFns i idx)
  precondition := ∀ v : List Nat, v.length = indVars → (∀ x ∈ v, x < 2 ^ B) →
    inbounds v = true → ∀ i, i < indVars → inverseFns i (layout v) = v.getD i 0
  preconditionIsTrue := preconditionIsTrue

/-- Source `MemRef`: memory, element type, block id, offset, dims, layout and the view
flag. -/
structure MemRef where
  m : Memory
  elemType : MType
  bid : Nat
  offset : Nat
  dims : List Nat
  layout : Layout
  isViewRef : Bool

/-- Source `MemRef::isIdentityMap`. -/
def MemRef.isIdentityMap (self : MemRef) : Bool := self.layout.preconditionIsTrue

/-- Source `MemRef::to1DIdxWithLayout`. -/
def MemRef.to1DIdxWithLayout (self : MemRef) (_idxs : List Nat) : Nat × Bool :=
  let idxs := if _idxs.isEmpty then [0] else _idxs
  (self.layout.mapping idxs, self.layout.inbounds idxs)

/-- Source `MemRef::get`. -/
def MemRef.get (B : Nat) (self : MemRef) (indices : List Nat) : Nat :=
  let idx := (self.to1DIdxWithLayout indices).1
  (self.m.load self.elemType self.bid (bvAdd B self.offset idx)).1

/-- The lambda `insertZeros` of `MemRef::createSubViewLayout`: a zero is inserted at
each position of `zeroOffsets`, in their order. -/
def insertZeros (zeroOffsets : List Nat) (indVars : List Nat) : List Nat :=
  zeroOffsets.foldl (fun acc ofs => acc.insertIdx ofs 0) indVars

/-- The lambda `transformIndices` of `MemRef::createSubViewLayout`:
`indices[i] * strides[i] + offsets[i]` for each `i` below `strides.size()`. -/
def transformIndices (B : Nat) (strides offsets : List Nat) (indices : List Nat) : List Nat :=
  (List.range strides.length).map (fun i =>
    bvAdd B (bvMul B (indices.getD i 0) (strides.getD i 0)) (offsets.getD i 0))

/-- Source `MemRef::createSubViewLayout`.  An entry of `indVarsOrZero` is `true` for an
induction variable and `false` for the constant zero.  Absent when a size
assertion fails. -/
def MemRef.createSubViewLayout (B : Nat) (self : MemRef) (inverseFns : Nat → Nat → Nat)
    (preconditionIsTrue : Bool) (indVarsOrZero : List Bool)
    (offsets strides sizes : List Nat) : Option Layout :=
  if self.layout.indVars = indVarsOrZero.length ∧ self.layout.indVars = offsets.length ∧
      self.layout.indVars = strides.length ∧ self.layout.indVars = sizes.length then
    let numVarsBefore := indVarsOrZero.length
    let zeroOffsets := (List.range numVarsBefore).filter (fun i => !indVarsOrZero.getD i true)
    let indVars := (indVarsOrZero.filter (fun v => v)).length
    let oldLayout := self.layout
    let transformedInbounds : List Nat → Bool := fun idxs =>
      let idxsOrZero := insertZeros zeroOffsets idxs
      let originalIndices := transformIndices B strides offsets idxsOrZero
      oldLayout.inbounds originalIndices && fitsInDims idxsOrZero sizes
    let transformedLayout : List Nat → Nat := fun idxs =>
      let idxsOrZero := insertZeros zeroOffsets idxs
      let originalIndices := transformIndices B strides offsets idxsOrZero
      oldLayout.mapping originalIndices
    some (Layout.strided B indVars transformedLayout transformedInbounds inverseFns
      preconditionIsTrue)
  else none

/-- Source `MemRef::subview`. -/
def MemRef.subview (B : Nat) (self : MemRef) (inverseFns : Nat → Nat → Nat)
    (preconditionIsTrue : Bool) (offsets sizes strides : List Nat) (unusedDims : List Nat)
    (rankDiff : Int) : Option MemRef :=
  if rankDiff > 0 then
    let s := (List.range sizes.length).foldl
      (fun (s : List Bool × List Nat × Int) i =>
        if s.2.2 > 0 ∧ i ∈ unusedDims then (s.1 ++ [false], s.2.1, s.2.2 - 1)
        else (s.1 ++ [true], s.2.1 ++ [sizes.getD i 0], s.2.2))
      ([], [], rankDiff)
    (self.createSubViewLayout B inverseFns preconditionIsTrue s.1 offsets strides sizes).map
      fun subviewLayout =>
        ⟨self.m, self.elemType, self.bid, self.offset, s.2.1, subviewLayout, true⟩
  else
    (self.createSubViewLayout B inverseFns preconditionIsTrue
      (List.replicate self.layout.indVars true) offsets strides sizes).map
      fun subviewLayout =>
        ⟨self.m, self.elemType, self.bid, self.offset, sizes, subviewLayout, true⟩

/-- Source `MemRef::reshape`: the assertion on `isIdentityMap()`, then the memref over
a fresh identity layout. -/
def MemRef.reshape (B : Nat) (self : MemRef) (newDims : List Nat) : Except Err MemRef :=
  if self.isIdentityMap then
    .ok ⟨self.m, self.elemType, self.bid, self.offset, newDims, Layout.identity B newDims,
      true⟩
  else .error .assertion

/-- Source `MemRef::refines`: `(other == this, {})` on `operator smt::Expr`, which
`value.h` defines as the block id. -/
def MemRef.refines (self other : MemRef) : Bool × List String :=
  (decide (other.bid = self.bid), [])

/-! ## The tagged union and refinement -/

/-- Source `ValueTy`. -/
inductive ValueTy where
  | index (v : Index)
  | integer (v : Integer)
  | float (v : Float)
  | tensor (v : Tensor)
  | memref (v : MemRef)

/-- Source `fromExpr`: the typed value of a term.  The bit-width assertion of the integer
case holds for the element of a tensor of that type. -/
def fromExpr (e : Nat) (ty : MType) : Option ValueTy :=
  match ty with
  | .indexTy => some (.index ⟨e⟩)
  | .floatTy _ => some (.float ⟨e, ty⟩)
  | .integerTy w => some (.integer ⟨w, e⟩)
  | .otherTy => none

/-- The visit of `::refines(v_tgt, v_src)` on the scalar and memref alternatives:
the lambda binds `src` to the alternative of `v_tgt` and `tgt` to that of `v_src`
and calls `tgt.refines(src)`.  Two different alternatives are reinterpreted by
the cast there; that has no value here. -/
def refinesScalar (fp : FpBackend) (v_tgt v_src : ValueTy) : Option (Bool × List String) :=
  match v_tgt, v_src with
  | .index src, .index tgt => some (tgt.refines src)
  | .integer src, .integer tgt => tgt.refines src
  | .float src, .float tgt => some (tgt.refines fp src)
  | .memref src, .memref tgt => some (tgt.refines src)
  | _, _ => none

/-- The conjunction `size_match` of `Tensor::refines`, built by its loop over the
dims of two tensors of equal rank. -/
def Tensor.sizeMatch (self other : Tensor) : Bool :=
  (self.dims.zip other.dims).foldl (fun acc p => acc && decide (p.2 = p.1)) true

/-- Source `Tensor::refines`.  `sizeMatchIsFalse` is the outcome of
`size_match.simplify().isFalse()`, decided by the SMT simplifier.  The result is
absent when an assertion fails or the element type has no typed value. -/
def Tensor.refines (B : Nat) (fp : FpBackend) (ρ : Valuation) (sizeMatchIsFalse : Bool)
    (self other : Tensor) : Option (Bool × List String) :=
  if self.elemType ≠ other.elemType then none
  else
    let sz := self.dims.length
    if other.dims.length ≠ sz then some (false, [])
    else
      let size_match := self.sizeMatch other
      if sizeMatchIsFalse then some (size_match, [])
      else
        let i := Index.var B ρ "i"
        let params := ["i"]
        match fromExpr (self.arr i) self.elemType, fromExpr (other.arr i) self.elemType with
        | some arr_i, some arr_other_i =>
          match refinesScalar fp arr_i arr_other_i with
          | some refinement =>
            if refinement.2.isEmpty then
              some (size_match &&
                implies (bvUlt i (MlirTv.get1DSize B self.dims))
                  (implies (self.initialized i)
                    (other.initialized i && refinement.1)), params)
            else none
          | none => none
        | _, _ => none

/-- Source `::refines(v_tgt, v_src)`: the visit over both alternatives.  A tensor pair
goes to `Tensor::refines`, whose elements come back through the scalar
alternatives. -/
def refines (B : Nat) (fp : FpBackend) (ρ : Valuation) (sizeMatchIsFalse : Bool)
    (v_tgt v_src : ValueTy) : Option (Bool × List String) :=
  match v_tgt, v_src with
  | .tensor src, .tensor tgt => tgt.refines B fp ρ sizeMatchIsFalse src
  | _, _ => refinesScalar fp v_tgt v_src

/-! ## Constant ingestion -/

/-- The configuration constants read by the ingestion of constants: `MAX_CONST_SIZE`
(`opts.h`), the sentinel `mlir::ShapedType::kDynamic`, and the default of the
parameter `initialized` of `Tensor::var` (declared in the header of `value.cpp`);
none of the three is part of the sources. -/
structure Config where
  MAX_CONST_SIZE : Int
  kDynamic : Int
  varInitialized : Bool

/-- Source `mlir::RankedTensorType`, by its element type and its dim sizes (`int64_t`). -/
structure RankedTensorType where
  elemType : MType
  shape : List Int

/-- The rank of a ranked tensor type. -/
def RankedTensorType.getRank (t : RankedTensorType) : Nat := t.shape.length

/-- The size of a dim of a ranked tensor type. -/
def RankedTensorType.getDimSize (t : RankedTensorType) (i : Nat) : Int := t.shape.getD i 0

/-- The conversion of an `int64_t` to `uint64_t`. -/
def asUInt64 (d : Int) : Nat := (d % 2 ^ 64).toNat

/-- The value of an integer as an `int64_t`: the two's complement value of its low 64
bits. -/
def asInt64 (x : Int) : Int := (x + 2 ^ 63) % 2 ^ 64 - 2 ^ 63

/-- Source `int64_t totalSize = 1; ... totalSize *= dsize;` of `Tensor::fromElemsAttr`:
the product of the dim sizes, accumulated in `int64_t` from the first dim to the
last. -/
def totalSizeInt64 (dims : List Int) : Int :=
  dims.foldl (fun acc dsize => asInt64 (acc * dsize)) 1

/-- Source `mlir::Attribute` of an element: a float attribute (type and value), an integer
attribute (type and sign-extended value) or another attribute. -/
inductive Attribute where
  | floatAttr (type : MType) (value : Nat)
  | integerAttr (type : MType) (value : Int)
  | otherAttr
  deriving DecidableEq

/-- The classes of `mlir::ElementsAttr` that `fromElemsAttr` tells apart. -/
inductive AttrKind where
  | dense
  | sparse
  | other
  deriving DecidableEq

/-- The interface of `mlir::ElementsAttr` consumed by the value layer, over the type
`α` of attributes: the class, `isSplat`, `getSplatValue`, `getValues<Attribute>()[idx]`,
the ranked tensor type if the type is one, `getNumElements` and the index values of a
sparse attribute. -/
structure ElementsAttrOps (α : Type) where
  kind : α → AttrKind
  isSplat : α → Bool
  getSplatValue : α → Attribute
  getValues : α → List Nat → Attribute
  getType : α → Option RankedTensorType
  getNumElements : α → Int
  getIndices : α → List Nat

/-- Source `getExpr`: the term of a value, a scalar term or the array of a tensor. -/
def getExpr (v : ValueTy) : Nat ⊕ (Nat → Nat) :=
  match v with
  | .index x => .inl x.e
  | .integer x => .inl x.e
  | .float x => .inl x.e
  | .tensor x => .inr x.arr
  | .memref x => .inl x.bid

/-- Source `attrToValueTy`.  A float constant asserts that its type has a sort; an index
constant asserts the 32-bit range of its value. -/
def attrToValueTy (B : Nat) (fp : FpBackend) (a : Attribute) : Except Err ValueTy :=
  match a with
  | .floatAttr ty v =>
    if Float.sort ty = none then .error .assertion
    else .ok (.float ⟨fp.constant ty v, ty⟩)
  | .integerAttr .indexTy ii =>
    if -2147483648 ≤ ii ∧ ii ≤ 2147483647 then .ok (.index ⟨Index.ofUnsigned B ii⟩)
    else .error .assertion
  | .integerAttr (.integerTy w) ii =>
    if 64 < w then .error .unsupported
    else .ok (.integer ⟨w, (ii % 2 ^ w).toNat⟩)
  | .integerAttr _ _ => .error .assertion
  | .otherAttr => .error .unsupported

/-- The term `getExpr(attrToValueTy(a))` of an element attribute, a scalar term. -/
def attrExpr (B : Nat) (fp : FpBackend) (a : Attribute) : Except Err Nat :=
  match attrToValueTy B fp a with
  | .ok v =>
    match getExpr v with
    | .inl e => .ok e
    | .inr _ => .error .assertion
  | .error e => .error e

/-- Source `Tensor::var` on dims given as terms: the array is the free variable `name`,
whose value is `arrVars name`.  The sort of a non-primitive element type is read
without a check there; it is an assertion failure here. -/
def Tensor.var (B : Nat) (arrVars : String → Nat → Nat) (elemType : MType) (name : String)
    (dimvec : List Nat) (initialized : Bool) : Except Err Tensor :=
  if convertPrimitiveTypeToSort B elemType = none then .error .assertion
  else .ok ⟨elemType, dimvec, arrVars name, fun _ => initialized⟩

/-- The offset `ofs` that the sparse constructor computes for an index tuple, in
`uint64_t` arithmetic. -/
def sparseOfs (dims : List Nat) (idx : List Nat) : Nat :=
  (idx.tail.zip dims.tail).foldl (fun ofs p => (ofs * p.2 + p.1) % 2 ^ 64) (idx.headD 0)

/-- The sparse constructor `Tensor(elemType, indices, elems, dims, zero)`.  Absent when an
assertion on the sizes fails. -/
def Tensor.sparse (B : Nat) (elemType : MType) (indices : List (List Nat)) (elems : List Nat)
    (dims : List Nat) (zero : Nat) : Option Tensor :=
  if indices.length = elems.length ∧ ∀ idx ∈ indices, idx.length = dims.length then
    some ⟨elemType, dims.map (fun (d : Nat) => Index.ofUnsigned B d),
      (indices.zip elems).foldl (fun arr p => store arr (sparseOfs dims p.1 % 2 ^ B) p.2)
        (fun _ => zero),
      fun _ => true⟩
  else none

/-- An index term of `Tensor::affine`: a bound index variable (by its identity), a
literal, a term without index variables (by its value) or a sum. -/
inductive IdxExpr where
  | var (id : Nat)
  | lit (value : Nat)
  | sem (value : Nat)
  | add (a b : IdxExpr)
  deriving DecidableEq

/-- Modelled from the spec: `Expr::substitute` of the SMT library on one pattern: every
occurrence of the term `pat` is replaced by a term of value `v`. -/
def IdxExpr.substitute (pat : IdxExpr) (v : Nat) : IdxExpr → IdxExpr
  | .add a b =>
    if IdxExpr.add a b = pat then .sem v
    else .add (IdxExpr.substitute pat v a) (IdxExpr.substitute pat v b)
  | e => if e = pat then .sem v else e

/-- The value of an index term; an index variable left in the term has no value of its
own and counts as zero. -/
def IdxExpr.eval (B : Nat) : IdxExpr → Nat
  | .var _ => 0
  | .lit n => n % 2 ^ B
  | .sem v => v
  | .add a b => bvAdd B (IdxExpr.eval B a) (IdxExpr.eval B b)

/-- Source `Tensor::affine`: in each source index the terms `newidxvars[j]` are replaced
one after the other by `from1DIdx(idx, newsizes)[j]`; the element is `get(srcidxs)` and
the result is initialized everywhere. -/
def Tensor.affine (B : Nat) (t : Tensor) (newidxvars srcidxs : List IdxExpr)
    (newsizes : List Nat) : Tensor :=
  ⟨t.elemType, newsizes,
    fun idxvar =>
      let indices := from1DIdx B idxvar newsizes
      let srcvals := srcidxs.map (fun e =>
        IdxExpr.eval B ((List.range newidxvars.length).foldl
          (fun newv j => IdxExpr.substitute (newidxvars.getD j (.lit 0)) (indices.getD j 0) newv)
          e))
      t.get B srcvals,
    fun _ => true⟩

/-- Source `isTransposed`: `attr1[i_1]..[i_N] = attr2[i_N][i_1]..[i_N-1]` for ranks 2, 3
and 4. -/
def isTransposed {α : Type} (ops : ElementsAttrOps α) (attr1 attr2 : α) : Bool :=
  match ops.getType attr1, ops.getType attr2 with
  | some attr1ty, some attr2ty =>
    if attr1ty.getRank ≠ attr2ty.getRank then false
    else if attr1ty.getRank = 2 then
      if attr1ty.getDimSize 0 ≠ attr2ty.getDimSize 1 ∨
          attr1ty.getDimSize 1 ≠ attr2ty.getDimSize 0 then false
      else
        (List.range (asUInt64 (attr1ty.getDimSize 0))).all fun i =>
          (List.range (asUInt64 (attr1ty.getDimSize 1))).all fun j =>
            decide (ops.getValues attr1 [i, j] = ops.getValues attr2 [j, i])
    else if attr1ty.getRank = 3 then
      if attr1ty.getDimSize 0 ≠ attr2ty.getDimSize 1 ∨
          attr1ty.getDimSize 1 ≠ attr2ty.getDimSize 2 ∨
          attr1ty.getDimSize 2 ≠ attr2ty.getDimSize 0 then false
      else
        (List.range (asUInt64 (attr1ty.getDimSize 0))).all fun i =>
          (List.range (asUInt64 (attr1ty.getDimSize 1))).all fun j =>
            (List.range (asUInt64 (attr1ty.getDimSize 2))).all fun k =>
              decide (ops.getValues attr1 [i, j, k] = ops.getValues attr2 [k, i, j])
    else if attr1ty.getRank = 4 then
      if attr1ty.getDimSize 0 ≠ attr2ty.getDimSize 1 ∨
          attr1ty.getDimSize 1 ≠ attr2ty.getDimSize 2 ∨
          attr1ty.getDimSize 2 ≠ attr2ty.getDimSize 3 ∨
          attr1ty.getDimSize 3 ≠ attr2ty.getDimSize 0 then false
      else
        (List.range (asUInt64 (attr1ty.getDimSize 0))).all fun i =>
          (List.range (asUInt64 (attr1ty.getDimSize 1))).all fun j =>
            (List.range (asUInt64 (attr1ty.getDimSize 2))).all fun k =>
              (List.range (asUInt64 (attr1ty.getDimSize 3))).all fun l =>
                decide (ops.getValues attr1 [i, j, k, l] = ops.getValues attr2 [l, i, j, k])
    else false
  | _, _ => false

/-- Source `isSimpleReduction`: `<dim x 1 x .. x 1>` against `<dim>`. -/
def isSimpleReduction {α : Type} (ops : ElementsAttrOps α) (attr1 attr2 : α) : Bool :=
  match ops.getType attr1, ops.getType attr2 with
  | some attr1ty, some attr2ty =>
    if attr1ty.getRank ≤ attr2ty.getRank ∨ attr2ty.getRank ≠ 1 then false
    else if attr1ty.getDimSize 0 ≠ attr2ty.getDimSize 0 then false
    else if (List.range attr1ty.getRank).any fun i =>
        decide (1 ≤ i) && decide (attr1ty.getDimSize i ≠ 1) then false
    else
      (List.range (asUInt64 (attr2ty.getDimSize 0))).all fun i =>
        decide (ops.getValues attr1 (i :: List.replicate (attr1ty.getRank - 1) 0)
          = ops.getValues attr2 [i])
  | _, _ => false

/-- The process-wide state of the ingestion: the abstraction cache
`abstractlyEncodedAttrs` and the two counters `count` of the dense and of the sparse
branch of `fromElemsAttr`. -/
structure IngestState (α : Type) where
  abstractlyEncodedAttrs : List (α × Tensor)
  denseCount : Nat
  sparseCount : Nat

/-- Source `resetAbstractlyEncodedAttrs`. -/
def resetAbstractlyEncodedAttrs {α : Type} (st : IngestState α) : IngestState α :=
  { st with abstractlyEncodedAttrs := [] }

/-- The tensor returned for a cached `t` whose attribute is the transposed one:
`t.affine(newVars, indVars, newDims)` with the dims and the variables rotated by
one. -/
def transposedAffine (B : Nat) (t : Tensor) : Tensor :=
  let dims := t.dims
  let indVars := (List.range dims.length).map IdxExpr.var
  let newDims := (List.range (dims.length - 1)).map (fun i => dims.getD (i + 1) 0)
    ++ [dims.getD 0 0]
  let newVars := (List.range (dims.length - 1)).map (fun i => indVars.getD (i + 1) (.lit 0))
    ++ [indVars.getD 0 (.lit 0)]
  t.affine B newVars indVars newDims

/-- The tensor returned for a cached `t` whose attribute is the simple reduction of
the new one of rank `rank`: `t.affine({idx, 0, .., 0}, {idx}, dims ++ {1, .., 1})`. -/
def reductionAffine (B : Nat) (t : Tensor) (rank : Nat) : Tensor :=
  let idx := IdxExpr.var 0
  let newVars := idx :: List.replicate (rank - 1) (IdxExpr.lit 0)
  let dims := t.dims ++ List.replicate (rank - 1) (1 % 2 ^ B)
  t.affine B newVars [idx] dims

/-- The scan of the abstraction cache in the dense branch of `fromElemsAttr`: the
first entry that is equal to `attr`, or of which `attr` is the transposed attribute
or the simple reduction, decides. -/
def lookupDense {α : Type} [DecidableEq α] (B : Nat) (ops : ElementsAttrOps α) (attr : α) :
    List (α × Tensor) → Option Tensor
  | [] => none
  | (a, t) :: rest =>
    if a = attr then some t
    else if isTransposed ops attr a then some (transposedAffine B t)
    else if isSimpleReduction ops attr a then
      some (reductionAffine B t ((ops.getType attr).map RankedTensorType.getRank |>.getD 0))
    else lookupDense B ops attr rest

/-- The scan of the abstraction cache in the sparse branch of `fromElemsAttr`. -/
def lookupSparse {α : Type} [DecidableEq α] (attr : α) : List (α × Tensor) → Option Tensor
  | [] => none
  | (a, t) :: rest => if a = attr then some t else lookupSparse attr rest

/-- The inner loop of the enumeration of `fromElemsAttr`, on the reversed vectors: from
the last axis towards the first, while the index of the axis has reached its dim and
an axis precedes it, the index is set to zero and the preceding one is increased. -/
def carryRev : List Nat → List Nat → List Nat
  | d :: ds, x :: y :: rest =>
    if x = d then 0 :: carryRev ds ((y + 1) :: rest) else x :: y :: rest
  | _, idx => idx

/-- The inner loop of the enumeration of `fromElemsAttr` on `idxND`. -/
def carry (dims idxND : List Nat) : List Nat :=
  (carryRev dims.reverse idxND.reverse).reverse

/-- The index vector with its last entry increased (`idxND.back()++`). -/
def incLast (idxND : List Nat) : List Nat :=
  idxND.dropLast ++ [idxND.getLastD 0 + 1]

/-- The enumeration loop of the dense branch of `fromElemsAttr`, with fuel.
`getValue` is the term of the element of the attribute at an index; reading an
element outside the dims is an assertion failure of the attribute library. -/
def enumLoop (getValue : List Nat → Except Err Nat) (dims : List Nat) :
    Nat → List Nat → List Nat → Except Err (List Nat)
  | 0, _, _ => .error .outOfFuel
  | fuel + 1, idxND, exprs =>
    let atEnd := decide (idxND.getLastD 0 = dims.getLastD 0)
    let idxND1 := if atEnd then carry dims idxND else idxND
    if atEnd && decide (idxND1.headD 0 = dims.headD 0) then .ok exprs
    else if fitsInDims idxND1 dims then
      match getValue idxND1 with
      | .ok e => enumLoop getValue dims fuel (incLast idxND1) (exprs ++ [e])
      | .error err => .error err
    else .error .assertion

/-- The index tuples of a sparse attribute: the index values in groups of `rank`.
With a rank of zero the loop of `fromElemsAttr` makes no progress; a last group that
is not full is read beyond the end. -/
def sparseChunks (rank : Nat) (values : List Nat) : Except Err (List (List Nat)) :=
  if values = [] then .ok []
  else if rank = 0 then .error .outOfFuel
  else if values.length % rank ≠ 0 then .error .assertion
  else .ok ((List.range (values.length / rank)).map fun k =>
    (List.range rank).map fun i => values.getD (k * rank + i) 0)

/-- The values of the index tuples of a sparse attribute, in their order; the first
element that has no term fails. -/
def sparseValues (getValue : List Nat → Except Err Nat) :
    List (List Nat) → Except Err (List Nat)
  | [] => .ok []
  | idx :: rest =>
    match getValue idx with
    | .ok e =>
      match sparseValues getValue rest with
      | .ok es => .ok (e :: es)
      | .error err => .error err
    | .error err => .error err

/-- Source `ShapedValue::getDims(shapedTy, false)`: the dims of a type without unknown
sizes; a type of rank zero has the single dim 1. -/
def getDimsOfType (B : Nat) (cfg : Config) (shapedTy : RankedTensorType) :
    Except Err (List Nat) :=
  if shapedTy.getRank = 0 then .ok [1 % 2 ^ B]
  else if shapedTy.shape.all (fun sz => decide (sz ≠ cfg.kDynamic) && decide (0 ≤ sz)) then
    .ok (shapedTy.shape.map (fun sz => Index.ofUnsigned B (asUInt64 sz)))
  else .error .assertion

/-- Source `Tensor::fromElemsAttr`.  `arrVars` is the value of the free array variables by
name, `tensor_val` the value of the fresh array of the dense constructor and `fuel`
bounds the enumeration loop.  The result is the tensor and the state after the
call. -/
def Tensor.fromElemsAttr {α : Type} [DecidableEq α] (B : Nat) (fp : FpBackend)
    (ops : ElementsAttrOps α) (cfg : Config) (arrVars : String → Nat → Nat) (fuel : Nat)
    (tensor_val : Nat → Nat) (st : IngestState α) (tensorty : RankedTensorType) (attr : α) :
    Except Err (Tensor × IngestState α) :=
  let elemType := tensorty.elemType
  match ops.kind attr with
  | .dense =>
    if ops.isSplat attr then
      match getDimsOfType B cfg tensorty with
      | .ok dims =>
        match attrExpr B fp (ops.getSplatValue attr) with
        | .ok e => .ok (Tensor.splat elemType e dims, st)
        | .error err => .error err
      | .error err => .error err
    else if tensorty.shape.any (fun dsize => decide (dsize = cfg.kDynamic)) then
      .error .assertion
    else
      let dims := tensorty.shape
      let dimExprs := dims.map (fun dsize => Index.ofUnsigned B dsize)
      let totalSize := totalSizeInt64 dims
      if cfg.MAX_CONST_SIZE ≥ 0 ∧ totalSize > cfg.MAX_CONST_SIZE then
        match lookupDense B ops attr st.abstractlyEncodedAttrs with
        | some t => .ok (t, st)
        | none =>
          match Tensor.var B arrVars elemType ("unknown_const#" ++ toString st.denseCount)
              dimExprs cfg.varInitialized with
          | .ok newt =>
            .ok (newt, { st with
              abstractlyEncodedAttrs := st.abstractlyEncodedAttrs ++ [(attr, newt)],
              denseCount := st.denseCount + 1 })
          | .error err => .error err
      else if tensorty.getRank = 0 then .error .assertion
      else
        match enumLoop (fun idxND => attrExpr B fp (ops.getValues attr idxND))
            (dims.map asUInt64) fuel (List.replicate tensorty.getRank 0) [] with
        | .ok exprs =>
          match Tensor.dense1D B elemType tensor_val exprs with
          | .ok t1d =>
            match t1d.reshape dimExprs with
            | some t => .ok (t, st)
            | none => .error .assertion
          | .error err => .error err
        | .error err => .error err
  | .sparse =>
    let totalSize := ops.getNumElements attr
    let dims := tensorty.shape.map asUInt64
    if cfg.MAX_CONST_SIZE ≥ 0 ∧ totalSize > cfg.MAX_CONST_SIZE then
      match lookupSparse attr st.abstractlyEncodedAttrs with
      | some t => .ok (t, st)
      | none =>
        match Tensor.var B arrVars elemType ("unknown_const#" ++ toString st.sparseCount)
            (dims.map (fun (d : Nat) => Index.ofUnsigned B d)) cfg.varInitialized with
        | .ok newt =>
          .ok (newt, { st with
            abstractlyEncodedAttrs := st.abstractlyEncodedAttrs ++ [(attr, newt)],
            sparseCount := st.sparseCount + 1 })
        | .error err => .error err
    else
      match getZero B fp elemType with
      | none => .error .unsupported
      | some zero =>
        match sparseChunks tensorty.getRank (ops.getIndices attr) with
        | .ok sparseIndices =>
          match sparseValues (fun idx => attrExpr B fp (ops.getValues attr idx))
              sparseIndices with
          | .ok vals =>
            match Tensor.sparse B elemType sparseIndices vals dims zero with
            | some t => .ok (t, st)
            | none => .error .assertion
          | .error err => .error err
        | .error err => .error err
  | .other => .error .unsupported

/-- The states reached from a state by calls of `fromElemsAttr` that return, on any
types and attributes, without a call of `resetAbstractlyEncodedAttrs` in between (a
call that fails leaves the cache as it is). -/
inductive Ingested {α : Type} [DecidableEq α] (B : Nat) (fp : FpBackend)
    (ops : ElementsAttrOps α) (cfg : Config) (arrVars : String → Nat → Nat) :
    IngestState α → IngestState α → Prop where
  | refl (s : IngestState α) : Ingested B fp ops cfg arrVars s s
  | step {s s1 s2 : IngestState α} (fuel : Nat) (tensor_val : Nat → Nat)
      (tensorty : RankedTensorType) (attr : α) (t : Tensor) :
      Ingested B fp ops cfg arrVars s s1 →
      Tensor.fromElemsAttr B fp ops cfg arrVars fuel tensor_val s1 tensorty attr = .ok (t, s2) →
      Ingested B fp ops cfg arrVars s s2

/-- Every tensor in the cache is initialized everywhere and has a primitive element
type. -/
def CacheOk {α : Type} (s : IngestState α) : Prop :=
  ∀ e ∈ s.abstractlyEncodedAttrs, (∀ i, e.2.initialized i = true) ∧ e.2.elemType ≠ .otherTy

/-- Modelled from the spec: `Expr::ule` of the SMT library, unsigned at-most. -/
def bvUle (a b : Nat) : Bool := decide (a ≤ b)

/-- Source `Tensor::insert`: the array with `value` at the offset of `indices` and the
element of the tensor elsewhere, the initialized bits likewise with `true` at that
offset, paired with `isInBounds(indices)`.  Absent when the assertion of `isInBounds`
on the sizes fails. -/
def Tensor.insert (B : Nat) (t : Tensor) (value : Nat) (indices : List Nat) :
    Option (Tensor × Bool) :=
  if indices.length = t.dims.length then
    let cond := fun (idxvar : Nat) => decide (idxvar = to1DIdx B indices t.dims)
    let originValue := fun (idxvar : Nat) => t.get B (from1DIdx B idxvar t.dims)
    let orgInit := fun (idxvar : Nat) => t.isInitialized B (from1DIdx B idxvar t.dims)
    some (⟨t.elemType, t.dims,
        fun idxvar => if cond idxvar then value else originValue idxvar,
        fun idxvar => if cond idxvar then true else orgInit idxvar⟩,
      t.isInBounds indices)
  else none

/-- Source `MemRef::Layout::getInverseIndices`. -/
def Layout.getInverseIndices (self : Layout) (idx : Nat) : List Nat := self.inverseMappings idx

/-- Source `ShapedValue::get1DSize` on a memref. -/
def MemRef.get1DSize (B : Nat) (self : MemRef) : Nat := MlirTv.get1DSize B self.dims

/-- Source `MemRef::noalias`. -/
def MemRef.noalias (B : Nat) (self other : MemRef) : Except Err Bool :=
  if !self.isIdentityMap || !other.isIdentityMap then .error .unsupported
  else
    let l1 := self.offset
    let r1 := bvAdd B self.offset (self.get1DSize B)
    let l2 := other.offset
    let r2 := bvAdd B other.offset (other.get1DSize B)
    .ok (!(decide (self.bid = other.bid)) ||
      (decide (self.bid = other.bid) && (bvUle r2 l1 || bvUle r1 l2)))

/-- Source `Tensor::getSort`: the array sort of a tensor of the element type, the
Unsupported error when the element type has no sort.  The array sort is given by
the sort of its elements. -/
def Tensor.getSort (B : Nat) (elemType : MType) : Except Err SmtSort :=
  match convertPrimitiveTypeToSort B elemType with
  | none => .error .unsupported
  | some elemSort => .ok elemSort

/-- The dense constructor `Tensor(elemType, elems1d, dim)`: the sort of the fresh array
is `getSort(elemType)`, the elements are stored one after the other and the dims are
`Index(dim[i])`.  The counter of the loop is an `unsigned` and never reaches a size of
`2 ^ 32` or more. -/
def Tensor.denseShaped (B : Nat) (elemType : MType) (tensor_val : Nat → Nat)
    (elems1d : List Nat) (dim : List Nat) : Except Err Tensor :=
  match Tensor.getSort B elemType with
  | .error err => .error err
  | .ok _ =>
    if 2 ^ 32 ≤ elems1d.length then .error .outOfFuel
    else
      .ok ⟨elemType, dim.map (fun (d : Nat) => Index.ofUnsigned B d),
        elems1d.enum.foldl (fun arr p => store arr (p.1 % 2 ^ B) p.2) tensor_val,
        fun _ => true⟩

/-- Source constant `Tensor::MAX_TENSOR_SIZE`. -/
def Tensor.MAX_TENSOR_SIZE : Nat := 10000

/-- Source constant `Tensor::MAX_DIM_SIZE`. -/
def Tensor.MAX_DIM_SIZE : Nat := 25

/-- Source `Tensor::getWellDefined`.  The tests `isNumeral()` of the SMT library are
syntactic: `sizeIsNumeral` is the outcome on the 1-D size and `dimIsNumeral` lists the
outcomes on the dims. -/
def Tensor.getWellDefined (B : Nat) (t : Tensor) (sizeIsNumeral : Bool)
    (dimIsNumeral : List Bool) : Bool :=
  let size := t.get1DSize B
  if sizeIsNumeral then true
  else
    (t.dims.zip dimIsNumeral).foldl
      (fun e p => if p.2 then e else e && bvUle p.1 (Tensor.MAX_DIM_SIZE % 2 ^ B))
      (bvUle size (Tensor.MAX_TENSOR_SIZE % 2 ^ B))

/-- Source `Integer::Integer(int64_t i, unsigned bw)`: the bit-vector of width `bw` of
`i`. -/
def Integer.ofInt (i : Int) (bw : Nat) : Integer := ⟨bw, (i % 2 ^ bw).toNat⟩

/-- Source `Integer::boolTrue`. -/
def Integer.boolTrue : Integer := Integer.ofInt 1 1

/-- Source `Tensor::mkIte`.  `condFn` gives the term of the condition from the values of
the index variables.  Absent when the assertion on rank and element type, or one of
`mkLambda`, fails. -/
def Tensor.mkIte (B : Nat) (condFn : List Nat → Nat) (trueValue falseValue : Tensor) :
    Option Tensor :=
  let trueDims := trueValue.dims
  let falseDims := falseValue.dims
  if trueDims.length = falseDims.length ∧ trueValue.elemType = falseValue.elemType then
    let isTrue := fun (indVars : List Nat) => decide (condFn indVars = Integer.boolTrue.e)
    Tensor.mkLambda B trueValue.elemType trueDims trueDims.length
      (fun indVars =>
        if isTrue indVars then trueValue.get B indVars else falseValue.get B indVars)
      (fun indVars =>
        if isTrue indVars then trueValue.isInitialized B indVars
        else falseValue.isInitialized B indVars)
  else none

/-- Modelled from the spec: `Expr::isVar` of the SMT library on an index term. -/
def IdxExpr.isVar : IdxExpr → Bool
  | .var _ => true
  | _ => false

/-- Modelled from the spec: `aop::intSum` (abstract operations, not part of the
sources), the reduction `init + Σ_{p < n} a[p]` over a 1-D array of length `n` with
an optional initial accumulator, in the `w`-bit arithmetic of the elements. -/
def intSum (w : Nat) (a : Nat → Nat) (n : Nat) (initValue : Option Nat) : Nat :=
  (List.range n).foldl (fun acc p => (acc + a p) % 2 ^ w) (initValue.getD 0 % 2 ^ w)

/-- The vector `subtensorSz` of `Tensor::sum(axis)`: the dim of the axis, and 1
elsewhere. -/
def Tensor.sumSubtensorSz (B : Nat) (t : Tensor) (axis : Nat) : List Nat :=
  (List.range t.dims.length).map
    (fun i => if i = axis then t.getDim i else Index.ofUnsigned B 1)

/-- The vector `newSizes` of `Tensor::sum(axis)`: 1 at the axis, and the dims of the
tensor elsewhere. -/
def Tensor.sumNewSizes (B : Nat) (t : Tensor) (axis : Nat) : List Nat :=
  (List.range t.dims.length).map
    (fun i => if i = axis then Index.ofUnsigned B 1 else t.getDim i)

/-- The term `summation` of `Tensor::sum(axis)` at the values `indVars` of its index
variables: the offsets are the index variables with a zero at the axis, the row is
`to1DArrayWithOfs(ofs, subtensorSz)` and the reduction is the `sum` of the
floating-point encoding (`fpSum`, not part of the sources) or `aop::intSum`. -/
def Tensor.sumSummation (B : Nat) (fpSum : MType → (Nat → Nat) → Nat → Nat) (t : Tensor)
    (axis : Nat) (indVars : List Nat) : Nat :=
  let ofs := indVars.take axis ++ [Index.ofUnsigned B 0] ++ indVars.drop (axis + 1)
  let row := t.to1DArrayWithOfs B ofs (t.sumSubtensorSz B axis)
  match t.elemType with
  | .floatTy _ => fpSum t.elemType row (t.getDim axis)
  | _ => intSum (t.elemType.bitWidth B) row (t.getDim axis) none

/-- Source `Tensor::sum(unsigned axis)`.  An axis outside the rank reads past the index
variables there; no tensor here. -/
def Tensor.sum (B : Nat) (fpSum : MType → (Nat → Nat) → Nat → Nat) (t : Tensor)
    (axis : Nat) : Option Tensor :=
  if axis < t.dims.length then
    Tensor.mkInitializedLambda B t.elemType (t.sumNewSizes B axis) t.dims.length
      (t.sumSummation B fpSum axis)
  else none

/-- Modelled from the spec: `Expr::uge` of the SMT library, unsigned at-least. -/
def bvUge (a b : Nat) : Bool := decide (b ≤ a)

/-- Source `MemRef::isInBounds`. -/
def MemRef.isInBounds (B : Nat) (self : MemRef) : Bool :=
  let numelem := self.m.getNumElementsOfMemBlock self.elemType self.bid
  let memrefSize := self.get1DSize B
  bvUge numelem memrefSize && bvUle self.offset (bvSub B numelem memrefSize)

/-- Source `MemRef::mkIte`.  `sameMemory` is the outcome of the comparison
`trueValue.m == falseValue.m` of the two pointers; `falseDims` is read from
`trueValue`, as the source does. -/
def MemRef.mkIte (cond : Nat) (sameMemory : Bool) (trueValue falseValue : MemRef) :
    Except Err MemRef :=
  let trueDims := trueValue.dims
  let falseDims := trueValue.dims
  if !sameMemory then .error .assertion
  else if ¬ (trueDims.length = falseDims.length ∧ trueValue.elemType = falseValue.elemType) then
    .error .assertion
  else
    let isTrue := decide (cond = Integer.boolTrue.e)
    let bid := if isTrue then trueValue.bid else falseValue.bid
    let offset := if isTrue then trueValue.offset else falseValue.offset
    let isViewRef := if isTrue then trueValue.isViewRef else falseValue.isViewRef
    .ok ⟨trueValue.m, trueValue.elemType, bid, offset, trueValue.dims, trueValue.layout,
      isViewRef⟩

/-- Modelled from the spec: `Expr::substitute(vars, vals)` of the SMT library, seen on
the values of the variables: the variable `vars[j]` takes the value `vals[j]` (the
first entry that names the variable counts) and every other variable keeps its value
in `env`. -/
def bindVars : List IdxExpr → List Nat → (Nat → Nat) → Nat → Nat
  | p :: ps, x :: xs, env, id => if p = .var id then x else bindVars ps xs env id
  | _, _, env, id => env id

/-- Source `Tensor::mkLambda` with the index variables given as terms.  `body` and
`initialized` are the two terms as functions of the values of their variables, and
`env` holds the values of the variables that are no index variables.  The assertions
on the sizes are those of `Tensor.mkLambda`; an entry of `indexvars` that is no
variable fails the assertion `iv.isVar()`. -/
def Tensor.mkLambdaOfVars (B : Nat) (elemType : MType) (newdims : List Nat)
    (indexvars : List IdxExpr) (body : (Nat → Nat) → Nat) (initialized : (Nat → Nat) → Bool)
    (env : Nat → Nat) : Except Err Tensor :=
  if indexvars.all IdxExpr.isVar then
    match Tensor.mkLambda B elemType newdims indexvars.length
        (fun vals => body (bindVars indexvars vals env))
        (fun vals => initialized (bindVars indexvars vals env)) with
    | some t => .ok t
    | none => .error .assertion
  else .error .assertion

/-! ## Row-major enumeration -/

/-- The index vectors within `dims` in row-major order: the last axis runs fastest. -/
def allIdxs : List Nat → List (List Nat)
  | [] => [[]]
  | d :: ds => (List.range d).flatMap (fun i => (allIdxs ds).map (fun idx => i :: idx))

/-- The number that an index vector denotes in the mixed radix of the dims, both
given from the last axis to the first. -/
def valRev : List Nat → List Nat → Nat
  | d :: ds, x :: xs => x + d * valRev ds xs
  | _, _ => 0

/-- Every entry of a reversed index vector but the one of the first axis is below its
dim. -/
def normRev : List Nat → List Nat → Prop
  | d :: ds, x :: y :: xs => x < d ∧ normRev ds (y :: xs)
  | _, _ => True

/-- The reversed index vector of the number `k` in the mixed radix of the reversed
dims; the entry of the first axis is not reduced. -/
def openRev : List Nat → Nat → List Nat
  | [], _ => []
  | [_], k => [k]
  | d :: d2 :: ds, k => k % d :: openRev (d2 :: ds) (k / d)

/-! ## The refinement formulas in the words of the specification -/

/-- Soundness of the verdict of the simplifier that `Tensor::refines` reads with
`isFalse()`: a conjunction reported to be the literal `false` has the value false. -/
def simplifierSound (sizeMatchIsFalse : Bool) (a b : Tensor) : Prop :=
  sizeMatchIsFalse = true → a.sizeMatch b = false

/-- The NaN-aware refinement of the specification:
`let n1 = isnan(a), n2 = isnan(b) in ite(n1 ∨ n2, n1 == n2, a == b)`. -/
def specFloatRefines (fp : FpBackend) (ty : MType) (a b : Nat) : Bool :=
  let n1 := fp.isnan ty a
  let n2 := fp.isnan ty b
  if n1 || n2 then n1 == n2 else decide (a = b)

/-- Element refinement of the specification: value equality for index and integer
elements, the NaN-aware refinement for float elements. -/
def specElementRefines (fp : FpBackend) (ty : MType) (a b : Nat) : Bool :=
  match ty with
  | .floatTy _ => specFloatRefines fp ty a b
  | _ => decide (a = b)

/-- The tensor refinement formula of the specification at the index `i`:
`(dims_match) ∧ (i < ∏dims → (this.init[i] → (other.init[i] ∧
element-refines(this.arr[i], other.arr[i]))))`, the product taken in `B` bits. -/
def specTensorRefines (B : Nat) (fp : FpBackend) (a b : Tensor) (i : Nat) : Bool :=
  decide (a.dims = b.dims) &&
    (!decide (i < a.dims.prod % 2 ^ B) ||
      (!a.initialized i ||
        (b.initialized i && specElementRefines fp a.elemType (a.arr i) (b.arr i))))

/-- The row-major offset of an index vector in the words of the specification:
`(..(idxs[0] * dims[1] + idxs[1]) * dims[2] + ..)` over the natural numbers. -/
def specRowMajor (idxs dims : List Nat) : Nat :=
  (idxs.zip dims).foldl (fun acc p => acc * p.2 + p.1) 0

/-- The no-alias formula in the words of the specification, over the ends
`l1 = a.offset`, `r1 = a.offset + size(a)`, `l2 = b.offset`, `r2 = b.offset + size(b)`
in `B`-bit arithmetic. -/
def specNoalias (B : Nat) (a b : MemRef) : Bool :=
  let l1 := a.offset
  let r1 := (a.offset + a.dims.prod % 2 ^ B) % 2 ^ B
  let l2 := b.offset
  let r2 := (b.offset + b.dims.prod % 2 ^ B) % 2 ^ B
  decide (a.bid ≠ b.bid ∨ (a.bid = b.bid ∧ (r2 ≤ l1 ∨ r1 ≤ l2)))

/-- The value that stands for the index variable `id` when each `newidxvars[j]` is
replaced by `w[j]`. -/
def specLookup : List IdxExpr → List Nat → Nat → Nat
  | p :: ps, x :: xs, id => if p = .var id then x else specLookup ps xs id
  | _, _, _ => 0

/-- The value of a source index in the words of the specification: the index term with
each `newidxvars[j]` replaced by `w[j]`, sums taken in `B`-bit arithmetic. -/
def specSubstEval (B : Nat) (newidxvars : List IdxExpr) (w : List Nat) : IdxExpr → Nat
  | .var id => specLookup newidxvars w id
  | .lit n => n % 2 ^ B
  | .sem v => v
  | .add a b =>
    bvAdd B (specSubstEval B newidxvars w a) (specSubstEval B newidxvars w b)

/-- The reduced positions in the words of the specification: walking the positions
`i, i + 1, ..` of `n` dims in ascending order, a position that is in `unusedDims` is
reduced while `rankDiff` is positive.  An entry is `true` for a position that is
kept and `false` for a reduced one. -/
def specKeptFlags (unusedDims : List Nat) : Nat → Nat → Int → List Bool
  | _, 0, _ => []
  | i, n + 1, r =>
    if r > 0 ∧ i ∈ unusedDims then false :: specKeptFlags unusedDims (i + 1) n (r - 1)
    else true :: specKeptFlags unusedDims (i + 1) n r

/-- The entries of `sizes` at the kept positions, in order. -/
def specKeptSizes : List Bool → List Nat → List Nat
  | true :: fs, x :: xs => x :: specKeptSizes fs xs
  | false :: fs, _ :: xs => specKeptSizes fs xs
  | _, _ => []

/-- The index vector `w` of the result with a zero re-inserted at each reduced position:
zeros exactly at the reduced positions and the entries of `w` in order elsewhere. -/
def specReinsert : List Bool → List Nat → List Nat
  | true :: fs, x :: xs => x :: specReinsert fs xs
  | false :: fs, xs => 0 :: specReinsert fs xs
  | _, _ => []

/-- The position of the spatial axis `i` in the dims of the input, and of the output,
of a convolution, by the axis orderings of the layout. -/
def specInputSpatial (layout : ConvLayout) (i : Nat) : Nat :=
  match layout with
  | .NHWC_HWCF => i + 1
  | .NCHW_FCHW => i + 2
  | .NHWC_FHWC => i + 1

/-- The position of the spatial axis `i` in the dims of the filter. -/
def specFilterSpatial (layout : ConvLayout) (i : Nat) : Nat :=
  match layout with
  | .NHWC_HWCF => i
  | .NCHW_FCHW => i + 2
  | .NHWC_FHWC => i + 1

/-- The position of the channel axis in the dims of an input with `n` spatial axes. -/
def specInputChannel (layout : ConvLayout) (n : Nat) : Nat :=
  match layout with
  | .NHWC_HWCF => n + 1
  | .NCHW_FCHW => 1
  | .NHWC_FHWC => n + 1

/-- The position of the input-channel axis in the dims of a filter with `n` spatial
axes. -/
def specFilterInChannel (layout : ConvLayout) (n : Nat) : Nat :=
  match layout with
  | .NHWC_HWCF => n
  | .NCHW_FCHW => 1
  | .NHWC_FHWC => n + 1

/-- The position of the output-channel axis in the dims of a filter with `n` spatial
axes; in the dims of the output the channel axis is where it is in the input. -/
def specFilterOutChannel (layout : ConvLayout) (n : Nat) : Nat :=
  match layout with
  | .NHWC_HWCF => n + 1
  | .NCHW_FCHW => 0
  | .NHWC_FHWC => 0

/-! ## Sample values -/

/-- A sample backend: `isnan` reads the IEEE-754 binary32 bit pattern (exponent all
ones, fraction not zero) and `dot` is the integer dot product on 32 bits. -/
def sampleFp : FpBackend where
  isnan := fun _ x => decide ((x / 2 ^ 23) % 256 = 255) && !decide (x % 2 ^ 23 = 0)
  dot := fun _ a b n init => intDot 32 a b n init
  zero := fun _ negative => if negative then 2 ^ 31 else 0
  constant := fun _ apf => apf

/-- A sample valuation: every free variable is `1`. -/
def sampleValuation : Valuation := fun _ => 1

/-- A sample tensor of three `f32` elements (NaN, 0, 1.0), the last one not
initialized. -/
def sampleFloatTensor : Tensor :=
  ⟨.floatTy 32, [3], fun i => if i = 0 then 0x7fc00000 else if i = 1 then 0 else 0x3f800000,
    fun i => decide (i < 2)⟩

/-- A sample 2 x 3 tensor of `i32` holding its raw offsets. -/
def sample23 : Tensor := ⟨.integerTy 32, [2, 3], fun x => x, fun _ => true⟩

/-- A sample 2 x 5 tensor of `i32` holding `100 +` its raw offsets. -/
def sample25 : Tensor := ⟨.integerTy 32, [2, 5], fun x => 100 + x, fun _ => true⟩

/-- The 1-D tensor `[10, 20, 30]` of `i32`. -/
def sampleVec : Tensor := ⟨.integerTy 32, [3], fun x => [10, 20, 30].getD x 0, fun _ => true⟩

/-- The 2 x 2 tensor `[[1, 2], [3, 4]]` of `i32`. -/
def sampleMatA : Tensor :=
  ⟨.integerTy 32, [2, 2], fun x => [1, 2, 3, 4].getD x 0, fun _ => true⟩

/-- The 2 x 2 tensor `[[5, 6], [7, 8]]` of `i32`. -/
def sampleMatB : Tensor :=
  ⟨.integerTy 32, [2, 2], fun x => [5, 6, 7, 8].getD x 0, fun _ => true⟩

/-- A sample 1 x 4 x 4 x 1 convolution input of `i32`. -/
def sampleConvInput : Tensor := ⟨.integerTy 32, [1, 4, 4, 1], fun x => x, fun _ => true⟩

/-- A sample 3 x 3 x 1 x 1 convolution filter of `i32`. -/
def sampleConvFilter : Tensor := ⟨.integerTy 32, [3, 3, 1, 1], fun _ => 1, fun _ => true⟩

/-- A 4 x (2^62 + 1) tensor of `i64` holding its raw offsets; with 64-bit indices
the product of its dims is above `2 ^ 64`. -/
def wrapTensor : Tensor := ⟨.integerTy 64, [4, 2 ^ 62 + 1], fun x => x, fun _ => true⟩

/-- A 1 x 2^62 tensor of `i64` holding its raw offsets. -/
def wrapConcatA : Tensor := ⟨.integerTy 64, [1, 2 ^ 62], fun x => x, fun _ => true⟩

/-- A 4 x 2^62 tensor of `i64` holding `1 +` its raw offsets. -/
def wrapConcatB : Tensor := ⟨.integerTy 64, [4, 2 ^ 62], fun x => x + 1, fun _ => true⟩

/-- A 1 x (2^62 + 1) tensor of `i64` holding its raw offsets. -/
def wrapTileTensor : Tensor := ⟨.integerTy 64, [1, 2 ^ 62 + 1], fun x => x, fun _ => true⟩

/-- A 4 x 1 tensor of `i64` holding `1 +` its raw offsets. -/
def wrapMatA : Tensor := ⟨.integerTy 64, [4, 1], fun x => x + 1, fun _ => true⟩

/-- A 1 x (2^62 + 1) tensor of `i64` holding `1 +` its raw offsets. -/
def wrapMatB : Tensor := ⟨.integerTy 64, [1, 2 ^ 62 + 1], fun x => x + 1, fun _ => true⟩

/-- A sample memory: the cell of block `bid` at offset `ofs` holds `1000 * bid + ofs`. -/
def sampleMemory : Memory where
  load := fun _ bid ofs => (1000 * bid + ofs, ⟨true, true, true⟩)
  getNumElementsOfMemBlock := fun _ _ => 64

/-- A sample 4 x 4 memref of `i32` with the identity layout, block 3, offset 5. -/
def sampleMemRef : MemRef :=
  ⟨sampleMemory, .integerTy 32, 3, 5, [4, 4], Layout.identity 64 [4, 4], false⟩

/-- A sample 2 x 8 memref of `f32` on block 3 at offset 9, with a 2-D row-major
layout over other dims. -/
def sampleMemRefOther : MemRef :=
  ⟨sampleMemory, .floatTy 32, 3, 9, [2, 8], Layout.identity 64 [2, 8], true⟩

/-- The interpretation of the inverse functions used for the samples. -/
def sampleInverseFns : Nat → Nat → Nat := fun _ _ => 0

/-- The shapes of the sample attributes, which are numbered. -/
def sampleShape : Nat → List Int
  | 0 => [2, 3]
  | 1 => [100, 100]
  | 2 => [10, 10]
  | 3 => [2, 2]
  | 4 => [4294967296]
  | 6 => [3, 2]
  | _ => [1]

/-- The elements of the sample attributes: attribute 3 is symmetric, attribute 6 is
attribute 0 transposed, the others hold `10 * i + j` at `(i, j)`. -/
def sampleAttrValue : Nat → List Nat → Int
  | 3, idx => if idx.getD 0 0 = idx.getD 1 0 then 1 else 2
  | 6, idx => 10 * idx.getD 1 0 + idx.getD 0 0
  | _, idx => 10 * idx.getD 0 0 + idx.getD 1 0

/-- Sample attributes: the numbers up to 6 are dense attributes of 32-bit integers that
are no splats. -/
def sampleOps : ElementsAttrOps Nat where
  kind := fun a => if a ≤ 6 then .dense else .other
  isSplat := fun _ => false
  getSplatValue := fun _ => .otherAttr
  getValues := fun a idx => .integerAttr (.integerTy 32) (sampleAttrValue a idx)
  getType := fun a => some ⟨.integerTy 32, sampleShape a⟩
  getNumElements := fun a => (sampleShape a).prod
  getIndices := fun _ => []

/-- The term of the element of a sample attribute at an index. -/
def sampleAttrTerm (a : Nat) (idx : List Nat) : Nat := (sampleAttrValue a idx % 2 ^ 32).toNat

/-- The type of a sample attribute. -/
def sampleType (a : Nat) : RankedTensorType := ⟨.integerTy 32, sampleShape a⟩

/-- A configuration with `MAX_CONST_SIZE = 100`. -/
def sampleConfig : Config := ⟨100, -9223372036854775808, true⟩

/-- A configuration with `MAX_CONST_SIZE = 3`. -/
def sampleConfigTiny : Config := ⟨3, -9223372036854775808, true⟩

/-- A configuration with a negative `MAX_CONST_SIZE`. -/
def sampleConfigOff : Config := ⟨-1, -9223372036854775808, true⟩

/-- The state of the ingestion after a reset, with both counters at zero. -/
def sampleState : IngestState Nat := ⟨[], 0, 0⟩

/-- A 4 x (2^62 + 2) x 1 input of 64-bit integers whose element at offset `x` is `x`. -/
def wrapConvInput : Tensor := ⟨.integerTy 64, [4, 2 ^ 62 + 2, 1], fun x => x, fun _ => true⟩

/-- A 2 x 1 x 1 filter of ones. -/
def wrapConvFilter : Tensor := ⟨.integerTy 64, [2, 1, 1], fun _ => 1, fun _ => true⟩

/-- A value of the free array variables. -/
def sampleArrVars : String → Nat → Nat := fun name i => name.length + i

/-- A third sample memref, an identity layout over `[4]` at offset 6 of block 0. -/
def sampleMemRefThird : MemRef :=
  ⟨sampleMemory, .integerTy 32, 0, 6, [4], Layout.identity 64 [4], false⟩

/-- A sample memref with a layout whose precondition is not the literal `true`. -/
def sampleMemRefStrided : MemRef :=
  ⟨sampleMemory, .integerTy 32, 0, 0, [4],
    Layout.strided 64 1 (fun v => 2 * v.getD 0 0) (fun v => decide (v.getD 0 0 < 4))
      sampleInverseFns false, false⟩

/-- Two sample attributes of 100 x 100 elements each: number 0 is dense, number 1 is
sparse. -/
def sampleMixedOps : ElementsAttrOps Nat where
  kind := fun a => if a = 0 then .dense else if a = 1 then .sparse else .other
  isSplat := fun _ => false
  getSplatValue := fun _ => .otherAttr
  getValues := fun _ _ => .integerAttr (.integerTy 32) 0
  getType := fun _ => some ⟨.integerTy 32, [100, 100]⟩
  getNumElements := fun _ => 10000
  getIndices := fun _ => []

/-- A sample tensor of dims `[2, 30]`. -/
def sampleSymbolicDims : Tensor := ⟨.integerTy 32, [2, 30], fun x => x, fun _ => true⟩

/-- A tensor of 64-bit integers with dims `[4, 2 ^ 62 + 1]` that holds 1 everywhere. -/
def wrapIteTrue : Tensor := ⟨.integerTy 64, [4, 2 ^ 62 + 1], fun _ => 1, fun _ => true⟩

/-- A tensor of 64-bit integers with dims `[4, 2 ^ 62 + 1]` that holds 2 everywhere. -/
def wrapIteFalse : Tensor := ⟨.integerTy 64, [4, 2 ^ 62 + 1], fun _ => 2, fun _ => true⟩

/-- A condition that is the 1-bit true exactly on the index vectors of row 3. -/
def sampleCond : List Nat → Nat := fun idx => if idx.getD 0 0 = 3 then 1 else 0

/-- A tensor of 64-bit integers with dims `[4, 2 ^ 62]` that holds its own offsets. -/
def wrapSource : Tensor := ⟨.integerTy 64, [4, 2 ^ 62], fun x => x, fun _ => true⟩

/-- A tensor of 64-bit integers with dims `[4, 2, 2 ^ 62 + 1]` that holds its own
offsets. -/
def wrapSumTensor : Tensor :=
  ⟨.integerTy 64, [4, 2, 2 ^ 62 + 1], fun x => x, fun _ => true⟩

/-- The sum of the floating-point encoding used for the samples. -/
def sampleFpSum : MType → (Nat → Nat) → Nat → Nat := fun _ _ _ => 0

/-- The dims of the sample attributes with large dims: number 0 has the dims
`2^62 x 2`, number 1 the dims `4 x (2^30 + 1)`, number 3 the dims
`4 x 2^31 x (2^31 + 1)`, number 4 the dims `2^31 x (2^31 + 1) x 4` and every other
number the dims `(2^30 + 1) x 4`. -/
def sampleLargeShape : Nat → List Int
  | 0 => [2 ^ 62, 2]
  | 1 => [4, 2 ^ 30 + 1]
  | 3 => [4, 2 ^ 31, 2 ^ 31 + 1]
  | 4 => [2 ^ 31, 2 ^ 31 + 1, 4]
  | _ => [2 ^ 30 + 1, 4]

/-- Sample attributes with large dims, all dense attributes of 32-bit integers that are
no splats.  The element of the numbers 1 and 3 is the first entry of its index; the
element of every other number is the last entry of its index, so that number 2
is the transposed attribute of number 1 and number 4 the one of number 3. -/
def sampleLargeOps : ElementsAttrOps Nat where
  kind := fun _ => .dense
  isSplat := fun _ => false
  getSplatValue := fun _ => .otherAttr
  getValues := fun a idx =>
    .integerAttr (.integerTy 32)
      (if a = 1 ∨ a = 3 then (idx.headD 0 : Nat) else (idx.getLastD 0 : Nat))
  getType := fun a => some ⟨.integerTy 32, sampleLargeShape a⟩
  getNumElements := fun a => (sampleLargeShape a).prod
  getIndices := fun _ => []

/-- The type of a sample attribute with large dims. -/
def sampleLargeType (a : Nat) : RankedTensorType := ⟨.integerTy 32, sampleLargeShape a⟩

/-- The variable `unknown_const#0` with the dims `4 x (2^30 + 1)`. -/
def sampleLargeCached : Tensor :=
  ⟨.integerTy 32, [4, 2 ^ 30 + 1], sampleArrVars "unknown_const#0", fun _ => true⟩

/-- The variable `unknown_const#0` with the dims `4 x 2^31 x (2^31 + 1)`. -/
def sampleLargeCached3 : Tensor :=
  ⟨.integerTy 32, [4, 2 ^ 31, 2 ^ 31 + 1], sampleArrVars "unknown_const#0", fun _ => true⟩

/-- A 3 x 3 x 2 x 1 filter of ones: two input channels. -/
def sampleConvFilterWide : Tensor := ⟨.integerTy 32, [3, 3, 2, 1], fun _ => 1, fun _ => true⟩

/-- A sample tensor of dims `[0, 30]`. -/
def sampleZeroDim : Tensor := ⟨.integerTy 32, [0, 30], fun x => x, fun _ => true⟩

/-- A memref of dims `[2^63, 2]` with the identity layout at offset 0 of block 3, a
block of 64 elements. -/
def wrapMemRef : MemRef :=
  ⟨sampleMemory, .integerTy 32, 3, 0, [2 ^ 63, 2], Layout.identity 64 [2 ^ 63, 2], false⟩

/-! ## Theorems -/

theorem sizeMatch_foldl (ps : List (Nat × Nat)) (acc : Bool) :
    ps.foldl (fun acc p => acc && decide (p.2 = p.1)) acc
      = (acc && decide (ps.map Prod.fst = ps.map Prod.snd)) := by
  induction ps generalizing acc with
  | nil => simp
  | cons p ps ih =>
    simp only [List.foldl_cons, ih, List.map_cons, List.cons.injEq]
    cases acc <;> simp [eq_comm]

theorem sizeMatch_eq (a b : Tensor) (h : a.dims.length = b.dims.length) :
    a.sizeMatch b = decide (a.dims = b.dims) := by
  unfold Tensor.sizeMatch
  rw [sizeMatch_foldl]
  have h1 : (a.dims.zip b.dims).map Prod.fst = a.dims := List.map_fst_zip _ _ (by omega)
  have h2 : (a.dims.zip b.dims).map Prod.snd = b.dims := List.map_snd_zip _ _ (by omega)
  rw [h1, h2]
  simp

theorem get1DSize_foldl (B : Nat) (dims : List Nat) (acc : Nat) :
    dims.foldl (bvMul B) (acc % 2 ^ B) = (acc * dims.prod) % 2 ^ B := by
  induction dims generalizing acc with
  | nil => simp
  | cons d ds ih =>
    have h : bvMul B (acc % 2 ^ B) d = (acc * d) % 2 ^ B := by
      unfold bvMul
      rw [Nat.mod_mul_mod]
    rw [List.foldl_cons, List.prod_cons, h, ih, Nat.mul_assoc]

theorem get1DSize_eq (B : Nat) (dims : List Nat) :
    get1DSize B dims = dims.prod % 2 ^ B := by
  unfold get1DSize
  rw [get1DSize_foldl]
  simp

theorem refinesScalar_fromExpr (fp : FpBackend) (ty : MType) (hty : ty ≠ .otherTy) (x y : Nat) :
    ∃ va vb, fromExpr x ty = some va ∧ fromExpr y ty = some vb ∧
      refinesScalar fp va vb = some (specElementRefines fp ty x y, []) := by
  cases ty with
  | integerTy w =>
    refine ⟨_, _, rfl, rfl, ?_⟩
    simp [refinesScalar, Integer.refines, specElementRefines]
  | floatTy w =>
    refine ⟨_, _, rfl, rfl, ?_⟩
    simp only [refinesScalar, Float.refines, specElementRefines, specFloatRefines]
    cases h1 : fp.isnan (.floatTy w) x <;> cases h2 : fp.isnan (.floatTy w) y <;> simp
  | indexTy =>
    refine ⟨_, _, rfl, rfl, ?_⟩
    simp [refinesScalar, Index.refines, specElementRefines]
  | otherTy => exact absurd rfl hty

theorem specElementRefines_self (fp : FpBackend) (ty : MType) (x : Nat) :
    specElementRefines fp ty x x = true := by
  cases ty <;> simp [specElementRefines, specFloatRefines]

theorem tensor_refines_eq (B : Nat) (fp : FpBackend) (ρ : Valuation) (a b : Tensor)
    (hty : a.elemType = b.elemType) (hprim : a.elemType ≠ .otherTy)
    (hrank : a.dims.length = b.dims.length) :
    a.refines B fp ρ false b
      = some (specTensorRefines B fp a b (Index.var B ρ "i"), ["i"]) := by
  obtain ⟨va, vb, h1, h2, h3⟩ :=
    refinesScalar_fromExpr fp a.elemType hprim (a.arr (Index.var B ρ "i"))
      (b.arr (Index.var B ρ "i"))
  unfold Tensor.refines
  simp only [hty, ne_eq, not_true_eq_false, if_false, hrank.symm]
  rw [← hty, h1, h2]
  simp only [h3, sizeMatch_eq a b hrank, get1DSize_eq, implies, bvUlt, specTensorRefines]
  simp

/-- C1: for two tensors of the same (primitive) element type and the same rank whose
dims the simplifier does not decide unequal, `a.refines(b)` returns the single
parameter `i` and the formula `(dims equal) ∧ (i <u ∏dims → (a.init[i] →
(b.init[i] ∧ elementRefines(a.arr[i], b.arr[i]))))` at the value of `i`. -/
theorem C1_tensor_refines_formula (B : Nat) (fp : FpBackend) (ρ : Valuation) (a b : Tensor)
    (hty : a.elemType = b.elemType) (hprim : a.elemType ≠ .otherTy)
    (hrank : a.dims.length = b.dims.length) :
    a.refines B fp ρ false b
      = some (specTensorRefines B fp a b (Index.var B ρ "i"), ["i"]) :=
  tensor_refines_eq B fp ρ a b hty hprim hrank

theorem C1_tensor_refines_formula_witness :
    sampleFloatTensor.refines 64 sampleFp sampleValuation false
        (Tensor.splat (.floatTy 32) 0 [3])
      = some (specTensorRefines 64 sampleFp sampleFloatTensor
          (Tensor.splat (.floatTy 32) 0 [3]) (Index.var 64 sampleValuation "i"), ["i"]) :=
  C1_tensor_refines_formula 64 sampleFp sampleValuation sampleFloatTensor
    (Tensor.splat (.floatTy 32) 0 [3]) rfl (by decide) rfl

/-- C2: refinement is reflexive.  For every value `v` (a tensor having a primitive
element type, any dims, elements and initialized bits, and a sound verdict of the
simplifier on its dims), `refines(v, v)` returns a formula that is true under
every valuation of its parameter and every `isnan` of the backend. -/
theorem C2_refines_reflexive (B : Nat) (fp : FpBackend) (ρ : Valuation)
    (sizeMatchIsFalse : Bool) (v : ValueTy)
    (hv : ∀ t, v = .tensor t → t.elemType ≠ .otherTy ∧ simplifierSound sizeMatchIsFalse t t) :
    ∃ params, refines B fp ρ sizeMatchIsFalse v v = some (true, params) := by
  cases v with
  | index x => exact ⟨[], by simp [refines, refinesScalar, Index.refines]⟩
  | integer x => exact ⟨[], by simp [refines, refinesScalar, Integer.refines]⟩
  | float x =>
    refine ⟨[], ?_⟩
    simp only [refines, refinesScalar, Float.refines]
    cases fp.isnan x.type x.e <;> simp
  | memref x => exact ⟨[], by simp [refines, refinesScalar, MemRef.refines]⟩
  | tensor t =>
    obtain ⟨hprim, hsound⟩ := hv t rfl
    have hsm : t.sizeMatch t = true := by rw [sizeMatch_eq t t rfl]; simp
    have hf : sizeMatchIsFalse = false := by
      cases h : sizeMatchIsFalse
      · rfl
      · have := hsound h
        rw [hsm] at this
        cases this
    refine ⟨["i"], ?_⟩
    simp only [refines, hf]
    rw [tensor_refines_eq B fp ρ t t rfl hprim rfl]
    simp [specTensorRefines, specElementRefines_self]

theorem C2_refines_reflexive_witness :
    ∃ params, refines 64 sampleFp sampleValuation false
      (.tensor sampleFloatTensor) (.tensor sampleFloatTensor) = some (true, params) :=
  C2_refines_reflexive 64 sampleFp sampleValuation false (.tensor sampleFloatTensor)
    (fun t ht => by
      cases ht
      exact ⟨by decide, fun h => by cases h⟩)

/-- C3: for two Floats of the same element type, `a.refines(b)` is the formula
`if isnan(a) or isnan(b) then isnan(a) == isnan(b) else a == b` with no parameters;
it is true when both are NaN and false when `a` is NaN and `b` is not. -/
theorem C3_float_refines_formula (fp : FpBackend) (a b : Float) (hty : a.type = b.type) :
    a.refines fp b = (specFloatRefines fp a.type a.e b.e, []) ∧
    (fp.isnan a.type a.e = true → fp.isnan b.type b.e = true → (a.refines fp b).1 = true) ∧
    (fp.isnan a.type a.e = true → fp.isnan b.type b.e = false →
      (a.refines fp b).1 = false) := by
  refine ⟨?_, ?_, ?_⟩
  · simp only [Float.refines, specFloatRefines]
    cases fp.isnan a.type a.e <;> cases fp.isnan a.type b.e <;> simp [eq_comm]
  · intro h1 h2
    rw [← hty] at h2
    simp [Float.refines, h1, h2]
  · intro h1 h2
    rw [← hty] at h2
    simp [Float.refines, h1, h2]

theorem C3_float_refines_formula_witness :
    (Float.refines sampleFp ⟨0x7fc00000, .floatTy 32⟩ ⟨0x7fc00001, .floatTy 32⟩).1 = true ∧
    (Float.refines sampleFp ⟨0x7fc00000, .floatTy 32⟩ ⟨0, .floatTy 32⟩).1 = false :=
  ⟨(C3_float_refines_formula sampleFp ⟨0x7fc00000, .floatTy 32⟩ ⟨0x7fc00001, .floatTy 32⟩
      rfl).2.1 (by decide) (by decide),
    (C3_float_refines_formula sampleFp ⟨0x7fc00000, .floatTy 32⟩ ⟨0, .floatTy 32⟩
      rfl).2.2 (by decide) (by decide)⟩

/-- C4: reshape preserves elements.  For every tensor `t` and non-empty `newdims`
(whatever the total sizes), `t.reshape(newdims)` has dims `newdims`, the element
type, array and initialized array of `t`, hence the same `getRaw(i)` and the same
initialized bit at every raw index `i`. -/
theorem C4_reshape_preserves (t : Tensor) (newdims : List Nat) (hne : newdims ≠ []) :
    ∃ r, t.reshape newdims = some r ∧ r.dims = newdims ∧ r.elemType = t.elemType ∧
      r.arr = t.arr ∧ r.initialized = t.initialized ∧
      (∀ i, r.getRaw i = t.getRaw i) ∧ (∀ i, r.initialized i = t.initialized i) := by
  have hpos : 0 < newdims.length := List.length_pos.mpr hne
  exact ⟨⟨t.elemType, newdims, t.arr, t.initialized⟩, by simp [Tensor.reshape, hpos],
    rfl, rfl, rfl, rfl, fun _ => rfl, fun _ => rfl⟩

theorem C4_reshape_preserves_witness :
    ∃ r, sampleFloatTensor.reshape [3, 1] = some r ∧ r.dims = [3, 1] ∧
      r.elemType = sampleFloatTensor.elemType ∧
      r.arr = sampleFloatTensor.arr ∧ r.initialized = sampleFloatTensor.initialized ∧
      (∀ i, r.getRaw i = sampleFloatTensor.getRaw i) ∧
      (∀ i, r.initialized i = sampleFloatTensor.initialized i) :=
  C4_reshape_preserves sampleFloatTensor [3, 1] (by decide)

/-! ### Row-major linearisation without wrap-around -/

theorem toStep_exact (B V d i bound : Nat) (hV : (V + 1) * d ≤ bound) (hb : bound ≤ 2 ^ B)
    (hi : i < d) : toStep B V (i, d) = V * d + i := by
  have h1 : V * d + i < 2 ^ B := by
    have : V * d + d ≤ bound := by
      have e : (V + 1) * d = V * d + d := by ring
      omega
    omega
  have h2 : V * d < 2 ^ B := by omega
  simp only [toStep, bvAdd, bvMul]
  rw [Nat.mod_eq_of_lt h2, Nat.mod_eq_of_lt h1]

theorem from_to_pairs (B : Nat) (ps : List (Nat × Nat)) :
    ∀ (acc : Nat) (tl : List Nat), (∀ p ∈ ps, p.1 < p.2) →
      (acc + 1) * (ps.map Prod.snd).prod ≤ 2 ^ B →
      ps.foldl (toStep B) acc + 1 ≤ (acc + 1) * (ps.map Prod.snd).prod ∧
      (ps.map Prod.snd).foldr (fromStep B) (tl, ps.foldl (toStep B) acc)
        = (ps.map Prod.fst ++ tl, acc) := by
  induction ps using List.reverseRecOn with
  | nil => intro acc tl _ _; simp
  | append_singleton ps p ih =>
    intro acc tl hlt hfit
    obtain ⟨i, d⟩ := p
    have hid : i < d := hlt (i, d) (by simp)
    have hlt2 : ∀ q ∈ ps, q.1 < q.2 := fun q hq => hlt q (by simp [hq])
    simp only [List.map_append, List.map_cons, List.map_nil, List.prod_append, List.prod_cons,
      List.prod_nil, Nat.mul_one] at hfit ⊢
    have hfit2 : (acc + 1) * (ps.map Prod.snd).prod ≤ 2 ^ B := by
      have : (acc + 1) * (ps.map Prod.snd).prod * 1 ≤ (acc + 1) * (ps.map Prod.snd).prod * d :=
        Nat.mul_le_mul_left _ (by omega)
      rw [Nat.mul_one, Nat.mul_assoc] at this
      omega
    obtain ⟨ih1, ih2⟩ := ih acc (i :: tl) hlt2 hfit2
    have hVd : (ps.foldl (toStep B) acc + 1) * d ≤ (acc + 1) * ((ps.map Prod.snd).prod * d) := by
      rw [← Nat.mul_assoc]
      exact Nat.mul_le_mul_right d ih1
    have hstep := toStep_exact B (ps.foldl (toStep B) acc) d i _ hVd hfit hid
    rw [List.foldl_append, List.foldl_cons, List.foldl_nil, hstep]
    constructor
    · have e : (ps.foldl (toStep B) acc + 1) * d = ps.foldl (toStep B) acc * d + d := by ring
      omega
    · rw [List.foldr_append, List.foldr_cons, List.foldr_nil]
      have hd0 : d ≠ 0 := by omega
      have hrem : bvUrem (ps.foldl (toStep B) acc * d + i) d = i := by
        simp only [bvUrem, hd0, if_false]
        rw [Nat.mul_comm, Nat.mul_add_mod, Nat.mod_eq_of_lt hid]
      have hdiv : bvUdiv B (ps.foldl (toStep B) acc * d + i) d = ps.foldl (toStep B) acc := by
        simp only [bvUdiv, hd0, if_false]
        rw [Nat.mul_comm, Nat.mul_add_div (by omega), Nat.div_eq_of_lt hid, Nat.add_zero]
      simp only [fromStep, hrem, hdiv]
      rw [ih2]
      simp

theorem fitsInDims_iff (idxs sizes : List Nat) :
    fitsInDims idxs sizes = true ↔
      idxs.length = sizes.length ∧ ∀ p ∈ idxs.zip sizes, p.1 < p.2 := by
  simp [fitsInDims, bvUlt]

/-- Without wrap-around the inverse linearisation undoes the linearisation on every
in-bounds index vector. -/
theorem from1DIdx_to1DIdx (B : Nat) (idxs dims : List Nat)
    (hin : fitsInDims idxs dims = true) (hfit : dims.prod ≤ 2 ^ B) :
    from1DIdx B (to1DIdx B idxs dims) dims = idxs := by
  rw [fitsInDims_iff] at hin
  obtain ⟨hlen, hlt⟩ := hin
  cases idxs with
  | nil =>
    cases dims with
    | nil => rfl
    | cons d ds => simp at hlen
  | cons i0 is =>
    cases dims with
    | nil => simp at hlen
    | cons d0 ds =>
      simp only [List.length_cons, Nat.add_right_cancel_iff] at hlen
      have hi0 : i0 < d0 := hlt (i0, d0) (by simp)
      have hps : ∀ p ∈ is.zip ds, p.1 < p.2 := fun p hp => hlt p (by simp [hp])
      have h1 : (is.zip ds).map Prod.fst = is := List.map_fst_zip _ _ (by omega)
      have h2 : (is.zip ds).map Prod.snd = ds := List.map_snd_zip _ _ (by omega)
      have hacc : (i0 + 1) * ((is.zip ds).map Prod.snd).prod ≤ 2 ^ B := by
        rw [h2]
        rw [List.prod_cons] at hfit
        have : (i0 + 1) * ds.prod ≤ d0 * ds.prod := Nat.mul_le_mul_right _ (by omega)
        omega
      obtain ⟨_, hr⟩ := from_to_pairs B (is.zip ds) i0 [] hps hacc
      rw [h1, h2] at hr
      simp only [to1DIdx, from1DIdx, List.tail_cons, List.foldr_cons]
      rw [hr]
      have hd0 : d0 ≠ 0 := by omega
      simp [fromStep, bvUrem, hd0, Nat.mod_eq_of_lt hi0]

theorem mkLambda_some (B : Nat) (ty : MType) (dims : List Nat) (n : Nat)
    (body : List Nat → Nat) (init : List Nat → Bool) (hn : n ≠ 0) (hlen : dims.length = n) :
    Tensor.mkLambda B ty dims n body init
      = some ⟨ty, dims, fun idx => body (from1DIdx B idx dims),
          fun idx => init (from1DIdx B idx dims)⟩ := by
  simp [Tensor.mkLambda, hn, hlen]

theorem lambda_get (B : Nat) (ty : MType) (dims : List Nat)
    (body : List Nat → Nat) (init : List Nat → Bool) (idx : List Nat)
    (hin : fitsInDims idx dims = true) (hfit : dims.prod ≤ 2 ^ B) :
    Tensor.get B ⟨ty, dims, fun x => body (from1DIdx B x dims),
      fun x => init (from1DIdx B x dims)⟩ idx = body idx := by
  simp only [Tensor.get, Tensor.getRaw]
  rw [from1DIdx_to1DIdx B idx dims hin hfit]

theorem mkInitializedLambda_spec (B : Nat) (ty : MType) (dims : List Nat) (n : Nat)
    (body : List Nat → Nat) (hn : n ≠ 0) (hlen : dims.length = n) :
    ∃ r, Tensor.mkInitializedLambda B ty dims n body = some r ∧ r.dims = dims ∧
      r.elemType = ty ∧
      (∀ idx, fitsInDims idx dims = true → dims.prod ≤ 2 ^ B → r.get B idx = body idx) ∧
      (∀ x, r.initialized x = true) :=
  ⟨_, mkLambda_some B ty dims n body (fun _ => true) hn hlen, rfl, rfl,
    fun idx hin hfit => lambda_get B ty dims body (fun _ => true) idx hin hfit, fun _ => rfl⟩

/-! ### In-bounds index vectors -/

theorem fitsInDims_cons (i d : Nat) (is ds : List Nat) :
    fitsInDims (i :: is) (d :: ds) = true ↔ i < d ∧ fitsInDims is ds = true := by
  simp only [fitsInDims, bvUlt, List.length_cons, List.zip_cons_cons, List.all_cons,
    Bool.and_eq_true, decide_eq_true_eq, Nat.add_right_cancel_iff]
  tauto

theorem fitsInDims_length (idx dims : List Nat) (h : fitsInDims idx dims = true) :
    idx.length = dims.length := ((fitsInDims_iff idx dims).mp h).1

theorem fitsInDims_getD : ∀ (idx dims : List Nat),
    fitsInDims idx dims = true ↔
      idx.length = dims.length ∧ ∀ k, k < dims.length → idx.getD k 0 < dims.getD k 0
  | [], [] => by simp [fitsInDims]
  | [], _ :: _ => by simp [fitsInDims]
  | _ :: _, [] => by simp [fitsInDims]
  | i :: is, d :: ds => by
    rw [fitsInDims_cons, fitsInDims_getD is ds]
    simp only [List.length_cons, Nat.add_right_cancel_iff]
    constructor
    · rintro ⟨h0, hl, hk⟩
      refine ⟨hl, fun k hk2 => ?_⟩
      cases k with
      | zero => simpa using h0
      | succ k => simpa using hk k (by omega)
    · rintro ⟨hl, hk⟩
      refine ⟨by simpa using hk 0 (by omega), hl, fun k hk2 => ?_⟩
      simpa using hk (k + 1) (by omega)

theorem fitsInDims_pos : ∀ (idx dims : List Nat), fitsInDims idx dims = true →
    ∀ d ∈ dims, 0 < d
  | [], [], _ => by simp
  | [], _ :: _, h => by simp [fitsInDims] at h
  | _ :: _, [], h => by simp [fitsInDims] at h
  | i :: is, d :: ds, h => by
    rw [fitsInDims_cons] at h
    intro x hx
    rcases List.mem_cons.mp hx with hx | hx
    · omega
    · exact fitsInDims_pos is ds h.2 x hx

theorem getD_le_prod (dims : List Nat) (hpos : ∀ d ∈ dims, 0 < d) (k : Nat)
    (hk : k < dims.length) : dims.getD k 0 ≤ dims.prod := by
  have hmem : dims.getD k 0 ∈ dims := by
    rw [List.getD_eq_getElem _ _ hk]
    exact List.getElem_mem hk
  exact Nat.le_of_dvd (List.prod_pos hpos) (List.dvd_prod hmem)

theorem getD_set_eq : ∀ (l : List Nat) (ax k v : Nat), ax < l.length →
    (l.set ax v).getD k 0 = if k = ax then v else l.getD k 0
  | [], ax, k, v, h => by simp at h
  | x :: l, 0, 0, v, _ => by simp
  | x :: l, 0, k + 1, v, _ => by simp
  | x :: l, ax + 1, 0, v, _ => by simp
  | x :: l, ax + 1, k + 1, v, h => by
    simp only [List.set_cons_succ, List.getD_cons_succ, Nat.add_right_cancel_iff]
    exact getD_set_eq l ax k v (by simpa using h)

theorem set_set_getD : ∀ (l : List Nat) (ax v : Nat),
    (l.set ax v).set ax (l.getD ax 0) = l
  | [], _, _ => by simp
  | x :: l, 0, v => by simp
  | x :: l, ax + 1, v => by
    show x :: ((l.set ax v).set ax (l.getD ax 0)) = x :: l
    rw [set_set_getD l ax v]

theorem fitsInDims_set (idx dims : List Nat) (ax v : Nat) (hin : fitsInDims idx dims = true)
    (hv : v < dims.getD ax 0) : fitsInDims (idx.set ax v) dims = true := by
  rw [fitsInDims_getD] at hin ⊢
  obtain ⟨hl, hk⟩ := hin
  refine ⟨by simp [hl], fun k hk2 => ?_⟩
  by_cases hax : ax < idx.length
  · rw [getD_set_eq idx ax k v hax]
    split
    · next h => rw [h]; exact hv
    · exact hk k hk2
  · rw [List.set_eq_of_length_le (by omega)]
    exact hk k hk2

theorem bvSub_exact (B x y : Nat) (hx : x < 2 ^ B) (hy : y ≤ x) : bvSub B x y = x - y := by
  unfold bvSub
  rw [Nat.mod_eq_of_lt hx, Nat.mod_eq_of_lt (by omega : y < 2 ^ B)]
  have e : x + (2 ^ B - y) = (x - y) + 2 ^ B := by omega
  rw [e, Nat.add_mod_right, Nat.mod_eq_of_lt (by omega)]

/-! ### Reverse -/

theorem reverse_get (B : Nat) (t : Tensor) (ax : Nat) (hax : ax < t.dims.length)
    (hfit : t.dims.prod < 2 ^ B) :
    ∃ r, t.reverse B ax = some r ∧ r.dims = t.dims ∧ r.elemType = t.elemType ∧
      ∀ idx, fitsInDims idx t.dims = true →
        r.get B idx = t.get B (idx.set ax (t.getDim ax - idx.getD ax 0 - 1)) := by
  obtain ⟨r, hr, hd, hty, hg, _⟩ := mkInitializedLambda_spec B t.elemType t.dims t.dims.length
    (fun indVars => t.get B (indVars.set ax
      (bvSub B (bvSub B (t.dims.getD ax 0) (indVars.getD ax 0)) 1))) (by omega) rfl
  refine ⟨r, ?_, hd, hty, ?_⟩
  · unfold Tensor.reverse
    rw [if_pos hax]
    exact hr
  · intro idx hin
    rw [hg idx hin (by omega)]
    have hpos := fitsInDims_pos idx t.dims hin
    have hle := getD_le_prod t.dims hpos ax hax
    have hlt := ((fitsInDims_getD idx t.dims).mp hin).2 ax hax
    have h1 : bvSub B (t.dims.getD ax 0) (idx.getD ax 0) = t.dims.getD ax 0 - idx.getD ax 0 :=
      bvSub_exact B _ _ (by omega) (by omega)
    have h2 : bvSub B (t.dims.getD ax 0 - idx.getD ax 0) 1
        = t.dims.getD ax 0 - idx.getD ax 0 - 1 :=
      bvSub_exact B _ _ (by omega) (by omega)
    simp only [h1, h2, Tensor.getDim]

/-- C6 (amended): reverse is an involution on elements when the row-major offsets do
not wrap.  For every tensor `t` whose dims have a product below `2 ^ B`, every axis
below the rank and every in-bounds index vector, `t.reverse(ax).get(idx)` is
`t.get` at `idx` with `idx[ax]` replaced by `dim[ax] - idx[ax] - 1`, and
`t.reverse(ax).reverse(ax)` has the dims of `t` and the element of `t` at `idx`. -/
theorem C6_reverse_involution (B : Nat) (t : Tensor) (ax : Nat) (hax : ax < t.dims.length)
    (hfit : t.dims.prod < 2 ^ B) :
    ∃ r rr, t.reverse B ax = some r ∧ r.reverse B ax = some rr ∧
      r.dims = t.dims ∧ rr.dims = t.dims ∧
      ∀ idx, fitsInDims idx t.dims = true →
        r.get B idx = t.get B (idx.set ax (t.getDim ax - idx.getD ax 0 - 1)) ∧
        rr.get B idx = t.get B idx := by
  obtain ⟨r, hr, hrd, _, hrg⟩ := reverse_get B t ax hax hfit
  obtain ⟨rr, hrr, hrrd, _, hrrg⟩ := reverse_get B r ax (by rw [hrd]; exact hax)
    (by rw [hrd]; exact hfit)
  refine ⟨r, rr, hr, hrr, hrd, by rw [hrrd, hrd], fun idx hin => ⟨hrg idx hin, ?_⟩⟩
  have hlt := ((fitsInDims_getD idx t.dims).mp hin).2 ax hax
  have hlen := fitsInDims_length idx t.dims hin
  have hin2 : fitsInDims (idx.set ax (t.getDim ax - idx.getD ax 0 - 1)) t.dims = true :=
    fitsInDims_set idx t.dims ax _ hin (by simp only [Tensor.getDim]; omega)
  have hgd : r.getDim ax = t.getDim ax := by simp only [Tensor.getDim, hrd]
  rw [hrrg idx (by rw [hrd]; exact hin), hgd, hrg _ hin2]
  have e : (idx.set ax (t.getDim ax - idx.getD ax 0 - 1)).getD ax 0
      = t.getDim ax - idx.getD ax 0 - 1 := by
    rw [getD_set_eq idx ax ax _ (by omega)]
    simp
  have e2 : t.getDim ax - (t.getDim ax - idx.getD ax 0 - 1) - 1 = idx.getD ax 0 := by
    simp only [Tensor.getDim]
    omega
  rw [e, e2, set_set_getD]

theorem C6_reverse_involution_witness :
    ∃ r rr, sampleVec.reverse 64 0 = some r ∧ r.reverse 64 0 = some rr ∧
      rr.dims = [3] ∧ r.get 64 [0] = 30 ∧
      rr.get 64 [0] = 10 ∧ rr.get 64 [1] = 20 ∧ rr.get 64 [2] = 30 := by
  obtain ⟨r, rr, hr, hrr, _, hrrd, hg⟩ :=
    C6_reverse_involution 64 sampleVec 0 (by decide) (by decide)
  refine ⟨r, rr, hr, hrr, hrrd, ?_, ?_, ?_, ?_⟩
  · rw [(hg [0] (by decide)).1]; decide
  · rw [(hg [0] (by decide)).2]; decide
  · rw [(hg [1] (by decide)).2]; decide
  · rw [(hg [2] (by decide)).2]; decide

/-- C6 as stated fails with 64-bit indices: for the 4 x (2^62 + 1) tensor holding its
raw offsets, reversed twice on axis 0, the element at the in-bounds index
`(0, 2^62 - 3)` is `3 * 2^62 + 3`, not the element `2^62 - 3` of the tensor itself;
and the element of the once reversed tensor at `(3, 2^62 - 3)` is not the element of
the tensor at `(0, 2^62 - 3)`. -/
theorem C6_reverse_involution_counterexample :
    ∃ r rr, wrapTensor.reverse 64 0 = some r ∧ r.reverse 64 0 = some rr ∧
      fitsInDims [0, 2 ^ 62 - 3] wrapTensor.dims = true ∧
      fitsInDims [3, 2 ^ 62 - 3] wrapTensor.dims = true ∧
      rr.get 64 [0, 2 ^ 62 - 3] = 3 * 2 ^ 62 + 3 ∧
      wrapTensor.get 64 [0, 2 ^ 62 - 3] = 2 ^ 62 - 3 ∧
      rr.get 64 [0, 2 ^ 62 - 3] ≠ wrapTensor.get 64 [0, 2 ^ 62 - 3] ∧
      r.get 64 [3, 2 ^ 62 - 3]
        ≠ wrapTensor.get 64 ([3, 2 ^ 62 - 3].set 0 (wrapTensor.getDim 0 - 3 - 1)) :=
  ⟨_, _, rfl, rfl, by decide, by decide, by decide, by decide, by decide, by decide⟩

/-! ### Concat -/

/-- C5 (amended): concat split when the row-major offsets of the result do not wrap.
For tensors `a`, `b` of equal rank and element type and an axis below the rank, the
result has the dims of `a` with `dim[axis] = a.dim[axis] + b.dim[axis]` in `B`-bit
arithmetic; when the product of these dims is below `2 ^ B`, at every in-bounds
index vector the element is `a.get(idx)` if `idx[axis] < a.dim[axis]` and otherwise
`b.get` at `idx` with `idx[axis]` decreased by `a.dim[axis]`. -/
theorem C5_concat_split (B : Nat) (a b : Tensor) (axis : Nat)
    (hrank : a.dims.length = b.dims.length) (hty : a.elemType = b.elemType)
    (hax : axis < a.dims.length)
    (hfit : (a.dims.set axis ((a.getDim axis + b.getDim axis) % 2 ^ B)).prod < 2 ^ B) :
    ∃ c, a.concat B b axis = some c ∧
      c.dims = a.dims.set axis ((a.getDim axis + b.getDim axis) % 2 ^ B) ∧
      ∀ idx, fitsInDims idx c.dims = true →
        c.get B idx =
          if idx.getD axis 0 < a.getDim axis then a.get B idx
          else b.get B (idx.set axis (idx.getD axis 0 - a.getDim axis)) := by
  obtain ⟨c, hc, hd, _, hg, _⟩ := mkInitializedLambda_spec B a.elemType
    (a.dims.set axis (bvAdd B (a.dims.getD axis 0) (b.getDim axis))) a.dims.length
    (fun idx => if bvUlt (idx.getD axis 0) (a.getDim axis) then a.get B idx
      else b.get B (idx.set axis (bvSub B (idx.getD axis 0) (a.getDim axis))))
    (by omega) (by simp)
  have hd2 : c.dims = a.dims.set axis ((a.getDim axis + b.getDim axis) % 2 ^ B) := by
    rw [hd]
    rfl
  refine ⟨c, ?_, hd2, ?_⟩
  · unfold Tensor.concat
    simp only []
    rw [if_pos ⟨hrank, hty, hax⟩]
    exact hc
  · intro idx hin
    have hin2 : fitsInDims idx
        (a.dims.set axis (bvAdd B (a.dims.getD axis 0) (b.getDim axis))) = true := by
      rw [← hd]; exact hin
    rw [hg idx hin2 (by rw [← hd, hd2]; omega)]
    have hlt := ((fitsInDims_getD idx c.dims).mp hin).2 axis (by rw [hd2]; simpa using hax)
    rw [hd2, getD_set_eq a.dims axis axis _ hax, if_pos rfl] at hlt
    have hpow : (a.getDim axis + b.getDim axis) % 2 ^ B < 2 ^ B :=
      Nat.mod_lt _ (by positivity)
    by_cases hc2 : idx.getD axis 0 < a.getDim axis
    · simp only [bvUlt, decide_eq_true_eq, if_pos hc2]
    · have hs : bvSub B (idx.getD axis 0) (a.getDim axis) = idx.getD axis 0 - a.getDim axis :=
        bvSub_exact B _ _ (by omega) (by omega)
      simp only [bvUlt, decide_eq_true_eq, if_neg hc2, hs]

theorem C5_concat_split_witness :
    ∃ c, sample23.concat 64 sample25 1 = some c ∧ c.dims = [2, 8] ∧
      c.get 64 [1, 2] = sample23.get 64 [1, 2] ∧ c.get 64 [1, 4] = sample25.get 64 [1, 1] := by
  obtain ⟨c, hc, hd, hg⟩ := C5_concat_split 64 sample23 sample25 1 rfl rfl (by decide) (by decide)
  have hd2 : c.dims = [2, 8] := by rw [hd]; decide
  refine ⟨c, hc, hd2, ?_, ?_⟩
  · rw [hg [1, 2] (by rw [hd2]; decide)]; decide
  · rw [hg [1, 4] (by rw [hd2]; decide)]; decide

/-- C5 as stated fails with 64-bit indices: concatenating a 1 x 2^62 and a 4 x 2^62
tensor on axis 0 gives dims 5 x 2^62, and at the in-bounds index `(4, 0)`, whose
axis-0 entry is not below `a.dim[0] = 1`, the element is not `b.get(3, 0)`: the
row-major offset `4 * 2^62` wraps to 0 and the element read is `a.get(0, 0)`. -/
theorem C5_concat_split_counterexample :
    ∃ c, wrapConcatA.concat 64 wrapConcatB 0 = some c ∧ c.dims = [5, 2 ^ 62] ∧
      fitsInDims [4, 0] c.dims = true ∧ ¬ ([4, 0].getD 0 0 < wrapConcatA.getDim 0) ∧
      c.get 64 [4, 0] = wrapConcatA.get 64 [0, 0] ∧
      c.get 64 [4, 0] ≠ wrapConcatB.get 64 ([4, 0].set 0 (4 - wrapConcatA.getDim 0)) :=
  ⟨_, rfl, by decide, by decide, by decide, by decide, by decide⟩

/-! ### Tile -/

theorem bvUrem_eq_mod (a b : Nat) : bvUrem a b = a % b := by
  unfold bvUrem
  split
  · next h => rw [h, Nat.mod_zero]
  · rfl

/-- C7 (amended): tile modulus when the row-major offsets of the result do not wrap.
For every tensor `t` of rank at least one and every repeat vector of that length,
`t.tile(r)` has `dims[i] = t.dims[i] * r[i]` in `B`-bit arithmetic; when the product
of these dims is below `2 ^ B`, at every in-bounds index vector the element is
`t.get` at the indices taken modulo the dims of `t`. -/
theorem C7_tile_modulus (B : Nat) (t : Tensor) (repeats : List Nat)
    (hlen : repeats.length = t.dims.length) (hrank : t.dims ≠ [])
    (hfit : (List.zipWith (fun d x => (d * x) % 2 ^ B) t.dims repeats).prod < 2 ^ B) :
    ∃ r, t.tile B repeats = some r ∧
      r.dims = List.zipWith (fun d x => (d * x) % 2 ^ B) t.dims repeats ∧
      ∀ idx, fitsInDims idx r.dims = true →
        r.get B idx = t.get B (List.zipWith (fun i d => i % d) idx t.dims) := by
  have hpos : t.dims.length ≠ 0 := fun h => hrank (List.length_eq_zero.mp h)
  obtain ⟨r, hr, hd, _, hg, _⟩ := mkInitializedLambda_spec B t.elemType
    (List.zipWith (bvMul B) t.dims repeats) t.dims.length
    (fun indVars => t.get B (List.zipWith bvUrem indVars t.dims)) hpos
    (by simp [hlen])
  have hd2 : r.dims = List.zipWith (fun d x => (d * x) % 2 ^ B) t.dims repeats := by
    rw [hd]
    rfl
  refine ⟨r, ?_, hd2, ?_⟩
  · unfold Tensor.tile
    rw [if_pos hlen]
    exact hr
  · intro idx hin
    rw [hg idx (by rw [← hd]; exact hin) (by rw [← hd, hd2]; omega)]
    have e : (bvUrem : Nat → Nat → Nat) = fun i d => i % d := by
      funext i d
      exact bvUrem_eq_mod i d
    rw [e]

theorem C7_tile_modulus_witness :
    ∃ r, sample23.tile 64 [2, 2] = some r ∧ r.dims = [4, 6] ∧
      r.get 64 [3, 4] = sample23.get 64 [1, 1] := by
  obtain ⟨r, hr, hd, hg⟩ := C7_tile_modulus 64 sample23 [2, 2] rfl (by decide) (by decide)
  have hd2 : r.dims = [4, 6] := by rw [hd]; decide
  refine ⟨r, hr, hd2, ?_⟩
  rw [hg [3, 4] (by rw [hd2]; decide)]
  decide

/-- C7 as stated fails with 64-bit indices: tiling the 1 x (2^62 + 1) tensor holding
its raw offsets by `[4, 1]` gives dims 4 x (2^62 + 1), and at the in-bounds index
`(3, 2^62 - 3)` the element is 0, not the element `2^62 - 3` of the tensor at the
index taken modulo its dims. -/
theorem C7_tile_modulus_counterexample :
    ∃ r, wrapTileTensor.tile 64 [4, 1] = some r ∧ r.dims = [4, 2 ^ 62 + 1] ∧
      fitsInDims [3, 2 ^ 62 - 3] r.dims = true ∧
      (∀ d ∈ wrapTileTensor.dims, d ≠ 0) ∧
      r.get 64 [3, 2 ^ 62 - 3] = 0 ∧
      wrapTileTensor.get 64 [3 % 1, (2 ^ 62 - 3) % (2 ^ 62 + 1)] = 2 ^ 62 - 3 ∧
      r.get 64 [3, 2 ^ 62 - 3]
        ≠ wrapTileTensor.get 64 [3 % 1, (2 ^ 62 - 3) % (2 ^ 62 + 1)] :=
  ⟨_, rfl, by decide, by decide, by decide, by decide, by decide, by decide⟩

/-! ### Transpose -/

theorem fitsInDims_pair (i j m n : Nat) (hi : i < m) (hj : j < n) :
    fitsInDims [i, j] [m, n] = true := by
  simp [fitsInDims, bvUlt, hi, hj]

theorem transpose_get (B : Nat) (t : Tensor) (m n : Nat) (hd : t.dims = [m, n])
    (hfit : m * n < 2 ^ B) :
    ∃ r, t.transpose B = some r ∧ r.dims = [n, m] ∧ r.elemType = t.elemType ∧
      ∀ i j, i < m → j < n → r.get B [j, i] = t.get B [i, j] := by
  obtain ⟨r, hr, hrd, hty, hg, _⟩ := mkInitializedLambda_spec B t.elemType [n, m] 2
    (fun v => t.get B [v.getD 1 0, v.getD 0 0]) (by omega) rfl
  refine ⟨r, ?_, hrd, hty, ?_⟩
  · unfold Tensor.transpose
    rw [if_pos (by rw [hd]; rfl)]
    simp only [hd, List.getD_cons_zero, List.getD_cons_succ]
    exact hr
  · intro i j hi hj
    rw [hg [j, i] (fitsInDims_pair j i n m hj hi)
      (by simp only [List.prod_cons, List.prod_nil, Nat.mul_one]; rw [Nat.mul_comm]; omega)]
    simp

/-- C8 (amended): transpose is a 2-D involution when the row-major offsets do not
wrap.  For every tensor `t` with dims `[m, n]` and `m * n` below `2 ^ B`,
`t.transpose()` has dims `[n, m]` with `get(j, i) == t.get(i, j)` for all `i < m`,
`j < n`, and `t.transpose().transpose()` has dims `[m, n]` and the element of `t` at
every in-bounds `(i, j)`. -/
theorem C8_transpose_involution (B : Nat) (t : Tensor) (m n : Nat) (hd : t.dims = [m, n])
    (hfit : m * n < 2 ^ B) :
    ∃ r rr, t.transpose B = some r ∧ r.dims = [n, m] ∧
      r.transpose B = some rr ∧ rr.dims = [m, n] ∧
      ∀ i j, i < m → j < n →
        r.get B [j, i] = t.get B [i, j] ∧ rr.get B [i, j] = t.get B [i, j] := by
  obtain ⟨r, hr, hrd, _, hrg⟩ := transpose_get B t m n hd hfit
  obtain ⟨rr, hrr, hrrd, _, hrrg⟩ := transpose_get B r n m hrd (by rw [Nat.mul_comm]; exact hfit)
  exact ⟨r, rr, hr, hrd, hrr, hrrd, fun i j hi hj =>
    ⟨hrg i j hi hj, by rw [hrrg j i hj hi, hrg i j hi hj]⟩⟩

theorem C8_transpose_involution_witness :
    ∃ r rr, sample23.transpose 64 = some r ∧ r.dims = [3, 2] ∧
      r.transpose 64 = some rr ∧ rr.dims = [2, 3] ∧
      r.get 64 [2, 1] = sample23.get 64 [1, 2] ∧ rr.get 64 [1, 2] = sample23.get 64 [1, 2] := by
  obtain ⟨r, rr, hr, hrd, hrr, hrrd, hg⟩ :=
    C8_transpose_involution 64 sample23 2 3 rfl (by decide)
  exact ⟨r, rr, hr, hrd, hrr, hrrd, (hg 1 2 (by decide) (by decide)).1,
    (hg 1 2 (by decide) (by decide)).2⟩

/-- C8 as stated fails with 64-bit indices: for the 4 x (2^62 + 1) tensor holding its
raw offsets, the transposed tensor has dims (2^62 + 1) x 4 and its element at
`(2^62, 0)` is 0, not the element `2^62` of the tensor at `(0, 2^62)`; the tensor
transposed twice differs from the tensor at the in-bounds index `(0, 2^62)`. -/
theorem C8_transpose_involution_counterexample :
    ∃ r rr, wrapTensor.transpose 64 = some r ∧ r.dims = [2 ^ 62 + 1, 4] ∧
      r.transpose 64 = some rr ∧ rr.dims = [4, 2 ^ 62 + 1] ∧
      wrapTensor.dims = [4, 2 ^ 62 + 1] ∧ 0 < 4 ∧ 2 ^ 62 < 2 ^ 62 + 1 ∧
      r.get 64 [2 ^ 62, 0] = 0 ∧ wrapTensor.get 64 [0, 2 ^ 62] = 2 ^ 62 ∧
      r.get 64 [2 ^ 62, 0] ≠ wrapTensor.get 64 [0, 2 ^ 62] ∧
      rr.get 64 [0, 2 ^ 62] ≠ wrapTensor.get 64 [0, 2 ^ 62] :=
  ⟨_, _, rfl, by decide, rfl, by decide, by decide, by decide, by decide, by decide,
    by decide, by decide, by decide⟩

/-! ### Matmul -/

theorem intDot_foldl (w : Nat) (a b : Nat → Nat) (c : Nat) : ∀ n : Nat,
    (List.range n).foldl (fun acc p => (acc + a p * b p) % 2 ^ w) (c % 2 ^ w)
      = (c + Finset.sum (Finset.range n) (fun p => a p * b p)) % 2 ^ w
  | 0 => by simp
  | n + 1 => by
    rw [List.range_succ, List.foldl_append, intDot_foldl w a b c n, Finset.sum_range_succ]
    simp only [List.foldl_cons, List.foldl_nil]
    rw [Nat.mod_add_mod, Nat.add_assoc]

theorem intDot_eq_sum (w : Nat) (a b : Nat → Nat) (n : Nat) (init : Option Nat) :
    intDot w a b n init
      = (init.getD 0 + Finset.sum (Finset.range n) (fun p => a p * b p)) % 2 ^ w := by
  unfold intDot
  exact intDot_foldl w a b _ n

theorem to1DArrayWithOfs_row (B : Nat) (t : Tensor) (i k p : Nat) (hB : 1 < 2 ^ B)
    (hi : i < 2 ^ B) (hk : k < 2 ^ B) (hp : p < k) :
    t.to1DArrayWithOfs B [i, 0] [1 % 2 ^ B, k] p = t.get B [i, p] := by
  have hk0 : k ≠ 0 := by omega
  have h1 : 1 % 2 ^ B = 1 := Nat.mod_eq_of_lt hB
  have hp2 : p < 2 ^ B := by omega
  simp only [Tensor.to1DArrayWithOfs, from1DIdx, List.foldr_cons, List.foldr_nil, fromStep,
    bvUrem, bvUdiv, h1, hk0, if_false, List.zipWith_cons_cons, List.zipWith_nil_right, bvAdd,
    Nat.mod_one, Nat.zero_add, Nat.add_zero, Nat.mod_eq_of_lt hp, Nat.mod_eq_of_lt hi,
    Nat.mod_eq_of_lt hp2, one_ne_zero]

/-- C9 (amended): matmul with init when the row-major offsets do not wrap.  For an
integer tensor `a` of dims `[m, k]` and `b` of dims `[k, n]` (or `[n, k]` with
`bTransposed`), with `k` a `B`-bit value, `m * n` below `2 ^ B` and, for `b` not
transposed, `k * n` below `2 ^ B`: the result has dims `[m, n]` and its element at
`(i, j)` is `init.get(i, j)` (absent without init) plus the sum over `p < k` of
`a.get(i, p) * b.get(p, j)` (`b.get(j, p)` with `bTransposed`), in the arithmetic of
the element width. -/
theorem C9_matmul_with_init (B : Nat) (fp : FpBackend) (a b : Tensor) (init : Option Tensor)
    (bTransposed : Bool) (m k n w : Nat) (ha : a.dims = [m, k])
    (hb : b.dims = if bTransposed then [n, k] else [k, n])
    (hint : a.elemType = .integerTy w) (hk : k < 2 ^ B) (hmn : m * n < 2 ^ B)
    (hkn : bTransposed = false → k * n < 2 ^ B) :
    ∃ r, a.matmul B fp b bTransposed init = some r ∧ r.dims = [m, n] ∧
      ∀ i j, i < m → j < n →
        r.get B [i, j] =
          ((init.map (fun t => t.get B [i, j])).getD 0 +
            Finset.sum (Finset.range k) (fun p =>
              a.get B [i, p] * b.get B (if bTransposed then [j, p] else [p, j]))) % 2 ^ w := by
  have key : ∀ bt : Tensor, bt.dims = [n, k] →
      (∀ j p, j < n → p < k → bt.get B [j, p]
        = b.get B (if bTransposed then [j, p] else [p, j])) →
      ∃ r, Tensor.mkInitializedLambda B a.elemType [a.dims.getD 0 0, bt.dims.getD 0 0] 2
          (fun v => Tensor.matmulRes B fp a bt init (v.getD 0 0) (v.getD 1 0)) = some r ∧
        r.dims = [m, n] ∧
        ∀ i j, i < m → j < n →
          r.get B [i, j] =
            ((init.map (fun t => t.get B [i, j])).getD 0 +
              Finset.sum (Finset.range k) (fun p =>
                a.get B [i, p] * b.get B (if bTransposed then [j, p] else [p, j]))) % 2 ^ w := by
    intro bt hbtd hbtg
    obtain ⟨r, hr, hrd, _, hrg, _⟩ := mkInitializedLambda_spec B a.elemType
      [a.dims.getD 0 0, bt.dims.getD 0 0] 2
      (fun v => Tensor.matmulRes B fp a bt init (v.getD 0 0) (v.getD 1 0)) (by omega) rfl
    have hdims : [a.dims.getD 0 0, bt.dims.getD 0 0] = [m, n] := by simp [ha, hbtd]
    refine ⟨r, hr, by rw [hrd, hdims], fun i j hi hj => ?_⟩
    have hm0 : 0 < m := by omega
    have hn0 : 0 < n := by omega
    have hmB : m ≤ m * n := Nat.le_mul_of_pos_right m hn0
    have hnB : n ≤ m * n := Nat.le_mul_of_pos_left n hm0
    have hB : 1 < 2 ^ B := by omega
    rw [hrg [i, j] (by rw [hdims]; exact fitsInDims_pair i j m n hi hj)
      (by rw [hdims]; simp only [List.prod_cons, List.prod_nil, Nat.mul_one]; omega)]
    simp only [List.getD_cons_zero, List.getD_cons_succ, Tensor.matmulRes, hint,
      MType.bitWidth]
    have hak : a.dims.getD 1 0 = k := by simp [ha]
    have hbk : bt.dims.getD 1 0 = k := by simp [hbtd]
    rw [intDot_eq_sum, hak, hbk]
    congr 2
    apply Finset.sum_congr rfl
    intro p hp
    have hpk : p < k := Finset.mem_range.mp hp
    rw [to1DArrayWithOfs_row B a i k p hB (by omega) hk hpk,
      to1DArrayWithOfs_row B bt j k p hB (by omega) hk hpk, hbtg j p hj hpk]
  have hlen : a.dims.length = 2 ∧ b.dims.length = 2 := by
    constructor
    · rw [ha]; rfl
    · rw [hb]; split <;> rfl
  unfold Tensor.matmul
  rw [if_pos hlen]
  cases bTransposed with
  | true =>
    simp only [if_true, Option.some_bind]
    exact key b (by simpa using hb) (fun j p _ _ => by simp)
  | false =>
    have hb2 : b.dims = [k, n] := by simpa using hb
    obtain ⟨bt, hbt, hbtd, _, hbtg⟩ := transpose_get B b k n hb2 (hkn rfl)
    simp only [Bool.false_eq_true, if_false, hbt, Option.some_bind]
    exact key bt hbtd (fun j p hj hp => by simpa using hbtg p j hp hj)

theorem C9_matmul_with_init_witness :
    ∃ r, sampleMatA.matmul 64 sampleFp sampleMatB false none = some r ∧ r.dims = [2, 2] ∧
      r.get 64 [0, 0] = 19 ∧ r.get 64 [0, 1] = 22 ∧
      r.get 64 [1, 0] = 43 ∧ r.get 64 [1, 1] = 50 := by
  obtain ⟨r, hr, hd, hg⟩ := C9_matmul_with_init 64 sampleFp sampleMatA sampleMatB none false
    2 2 2 32 rfl rfl rfl (by decide) (by decide) (fun _ => by decide)
  refine ⟨r, hr, hd, ?_, ?_, ?_, ?_⟩
  · rw [hg 0 0 (by decide) (by decide)]; decide
  · rw [hg 0 1 (by decide) (by decide)]; decide
  · rw [hg 1 0 (by decide) (by decide)]; decide
  · rw [hg 1 1 (by decide) (by decide)]; decide

/-- C9 as stated fails with 64-bit indices: for `a` of dims 4 x 1 and `b` of dims
1 x (2^62 + 1), both holding one plus their raw offsets, `a.matmul(b)` has dims
4 x (2^62 + 1) and its element at the in-bounds `(3, 2^62 - 3)` is
`a.get(0, 0) * b.get(0, 0) = 1`, not `a.get(3, 0) * b.get(0, 2^62 - 3)`. -/
theorem C9_matmul_with_init_counterexample :
    ∃ r, wrapMatA.matmul 64 sampleFp wrapMatB false none = some r ∧
      r.dims = [4, 2 ^ 62 + 1] ∧ 3 < 4 ∧ 2 ^ 62 - 3 < 2 ^ 62 + 1 ∧
      r.get 64 [3, 2 ^ 62 - 3] = 1 ∧
      (wrapMatA.get 64 [3, 0] * wrapMatB.get 64 [0, 2 ^ 62 - 3]) % 2 ^ 64 = 2 ^ 64 - 8 ∧
      r.get 64 [3, 2 ^ 62 - 3]
        ≠ (wrapMatA.get 64 [3, 0] * wrapMatB.get 64 [0, 2 ^ 62 - 3]) % 2 ^ 64 :=
  ⟨_, rfl, by decide, by decide, by decide, by decide, by decide, by decide⟩

/-! ### Convolution output dims -/

theorem getD_cons_range_map (x : Nat) (f : Nat → Nat) (n i : Nat) (rest : List Nat)
    (hi : i < n) : ([x] ++ (List.range n).map f ++ rest).getD (i + 1) 0 = f i := by
  simp [List.getD_eq_getElem?_getD, List.getElem?_append, hi]

theorem getD_cons_range_map_last (x y : Nat) (f : Nat → Nat) (n : Nat) :
    ([x] ++ (List.range n).map f ++ [y]).getD (n + 1) 0 = y := by
  simp [List.getD_eq_getElem?_getD, List.getElem?_append]

theorem getD_pair_range_map (x y : Nat) (f : Nat → Nat) (n i : Nat) (hi : i < n) :
    ([x, y] ++ (List.range n).map f).getD (i + 2) 0 = f i := by
  simp [List.getD_eq_getElem?_getD, hi]

theorem convOutputDims_length (B : Nat) (self filter : Tensor) (strides dilations : List Nat)
    (layout : ConvLayout) (h3 : 3 ≤ self.dims.length) :
    (convOutputDims B self filter strides dilations layout).length = self.dims.length := by
  cases layout <;> simp [convOutputDims] <;> omega

theorem list_eq_of_length_four (l : List Nat) (h : l.length = 4) :
    l = [l.getD 0 0, l.getD 1 0, l.getD 2 0, l.getD 3 0] := by
  match l, h with
  | [_, _, _, _], _ => rfl

theorem conv_dims (B : Nat) (fp : FpBackend) (input filter : Tensor)
    (strides dilations : List Nat) (layout : ConvLayout) (output : Option Tensor)
    (hrank : input.dims.length = filter.dims.length) (h3 : 3 ≤ input.dims.length) :
    ∃ r, input.conv B fp filter strides dilations layout output = some r ∧
      r.dims = convOutputDims B input filter strides dilations layout := by
  have hc : (input.toShapedValue B).getDims.length = (filter.toShapedValue B).getDims.length ∧
      2 < (input.toShapedValue B).getDims.length := ⟨hrank, h3⟩
  unfold Tensor.conv ShapedValue.conv
  simp only []
  rw [if_pos hc]
  simp only [Option.some_bind]
  obtain ⟨r, hr, hd, _⟩ := mkInitializedLambda_spec B input.elemType
    (convOutputDims B input filter strides dilations layout) input.dims.length _
    (by omega) (convOutputDims_length B input filter strides dilations layout h3)
  exact ⟨r, hr, hd⟩

/-- C10: conv output dims.  For an input and a filter of equal rank `R >= 3`, with one
stride and one dilation per spatial axis, `Tensor::conv` returns a tensor of rank
`R` whose dim 0 is `input.dim(0)`, whose output-channel dim is the OC axis of the
filter and whose `i`-th spatial dim is `(D_i - d_i * F_i + s_i) udiv s_i` in `B`-bit
arithmetic, with the axes `N, D', OC` for `NHWC_HWCF` (filter `D, IC, OC`) and
`NHWC_FHWC` (filter `OC, D, IC`) and `N, OC, D'` for `NCHW_FCHW` (filter
`OC, IC, D`). -/
theorem C10_conv_output_dims (B : Nat) (fp : FpBackend) (input filter : Tensor)
    (strides dilations : List Nat) (layout : ConvLayout) (output : Option Tensor)
    (hrank : input.dims.length = filter.dims.length) (h3 : 3 ≤ input.dims.length)
    (_hs : strides.length = input.dims.length - 2)
    (_hd : dilations.length = input.dims.length - 2) :
    ∃ r, input.conv B fp filter strides dilations layout output = some r ∧
      r.dims.length = input.dims.length ∧
      r.getDim 0 = input.getDim 0 ∧
      match layout with
      | .NHWC_HWCF =>
        r.getDim (input.dims.length - 1) = filter.getDim (input.dims.length - 1) ∧
        ∀ i, i < input.dims.length - 2 →
          r.getDim (i + 1) =
            bvUdiv B (bvAdd B (bvSub B (input.getDim (i + 1))
              (bvMul B (dilations.getD i 0) (filter.getDim i))) (strides.getD i 0))
              (strides.getD i 0)
      | .NCHW_FCHW =>
        r.getDim 1 = filter.getDim 0 ∧
        ∀ i, i < input.dims.length - 2 →
          r.getDim (i + 2) =
            bvUdiv B (bvAdd B (bvSub B (input.getDim (i + 2))
              (bvMul B (dilations.getD i 0) (filter.getDim (i + 2)))) (strides.getD i 0))
              (strides.getD i 0)
      | .NHWC_FHWC =>
        r.getDim (input.dims.length - 1) = filter.getDim 0 ∧
        ∀ i, i < input.dims.length - 2 →
          r.getDim (i + 1) =
            bvUdiv B (bvAdd B (bvSub B (input.getDim (i + 1))
              (bvMul B (dilations.getD i 0) (filter.getDim (i + 1)))) (strides.getD i 0))
              (strides.getD i 0) := by
  obtain ⟨r, hr, hd⟩ := conv_dims B fp input filter strides dilations layout output hrank h3
  have hR : input.dims.length - 1 = (input.dims.length - 2) + 1 := by omega
  refine ⟨r, hr, ?_, ?_, ?_⟩
  · rw [hd]
    exact convOutputDims_length B input filter strides dilations layout h3
  · cases layout <;> simp [Tensor.getDim, hd, convOutputDims]
  · cases layout
    · refine ⟨?_, fun i hi => ?_⟩
      · simp only [Tensor.getDim, hd, convOutputDims]
        rw [hR, getD_cons_range_map_last]
        rw [List.getLastD_eq_getLast?, List.getLast?_eq_getElem?, ← hrank,
          List.getD_eq_getElem?_getD, ← hR]
      · simp only [Tensor.getDim, hd, convOutputDims]
        rw [getD_cons_range_map _ _ _ _ _ hi]
        rfl
    · refine ⟨?_, fun i hi => ?_⟩
      · simp [Tensor.getDim, hd, convOutputDims]
      · simp only [Tensor.getDim, hd, convOutputDims]
        rw [getD_pair_range_map _ _ _ _ _ hi]
        rfl
    · refine ⟨?_, fun i hi => ?_⟩
      · simp only [Tensor.getDim, hd, convOutputDims]
        rw [hR, getD_cons_range_map_last]
      · simp only [Tensor.getDim, hd, convOutputDims]
        rw [getD_cons_range_map _ _ _ _ _ hi]
        rfl

theorem C10_conv_output_dims_witness :
    ∃ r, sampleConvInput.conv 64 sampleFp sampleConvFilter [1, 1] [1, 1] .NHWC_HWCF none
        = some r ∧ r.dims = [1, 2, 2, 1] := by
  obtain ⟨r, hr, hlen, h0, h3, hmid⟩ := C10_conv_output_dims 64 sampleFp sampleConvInput
    sampleConvFilter [1, 1] [1, 1] .NHWC_HWCF none rfl (by decide) rfl rfl
  refine ⟨r, hr, ?_⟩
  have e0 : r.dims.getD 0 0 = 1 := h0.trans (by decide)
  have e1 : r.dims.getD 1 0 = 2 := (hmid 0 (by decide)).trans (by decide)
  have e2 : r.dims.getD 2 0 = 2 := (hmid 1 (by decide)).trans (by decide)
  have e3 : r.dims.getD 3 0 = 1 := h3.trans (by decide)
  rw [list_eq_of_length_four r.dims (hlen.trans rfl), e0, e1, e2, e3]

/-! ### Subview -/

theorem zeroOffsets_replicate (n : Nat) :
    (List.range n).filter (fun i => !(List.replicate n true).getD i true) = [] := by
  rw [List.filter_eq_nil_iff]
  intro i _
  simp [List.getD_eq_getElem?_getD, List.getElem?_replicate]
  split <;> rfl

theorem subview_some (B : Nat) (p : MemRef) (inverseFns : Nat → Nat → Nat)
    (preconditionIsTrue : Bool) (offsets sizes strides : List Nat)
    (ho : offsets.length = p.layout.indVars) (hs : sizes.length = p.layout.indVars)
    (hst : strides.length = p.layout.indVars) :
    p.subview B inverseFns preconditionIsTrue offsets sizes strides [] 0 =
      some ⟨p.m, p.elemType, p.bid, p.offset, sizes,
        Layout.strided B p.layout.indVars
          (fun idxs => p.layout.mapping (transformIndices B strides offsets idxs))
          (fun idxs => p.layout.inbounds (transformIndices B strides offsets idxs) &&
            fitsInDims idxs sizes)
          inverseFns preconditionIsTrue, true⟩ := by
  have hc : p.layout.indVars = (List.replicate p.layout.indVars true).length ∧
      p.layout.indVars = offsets.length ∧ p.layout.indVars = strides.length ∧
      p.layout.indVars = sizes.length := ⟨by simp, ho.symm, hst.symm, hs.symm⟩
  have hf : ((List.replicate p.layout.indVars true).filter (fun v => v)).length
      = p.layout.indVars := by
    rw [List.filter_eq_self.mpr]
    · simp
    · intro a ha
      simp [List.eq_of_mem_replicate ha]
  have hc2 : True ∧ p.layout.indVars = offsets.length ∧ p.layout.indVars = strides.length ∧
      p.layout.indVars = sizes.length := ⟨trivial, hc.2⟩
  simp only [MemRef.subview, Int.lt_irrefl, gt_iff_lt, if_false,
    MemRef.createSubViewLayout, List.length_replicate,
    zeroOffsets_replicate, insertZeros, List.foldl_nil, hf, if_pos hc2, Option.map_some']

/-- C12: subview mapping.  For every memref `p` of rank at least one whose layout has
one induction variable per dim (an identity layout has) and offsets, sizes,
strides of that length, `p.subview(offsets, sizes, strides, {}, 0)` is a view memref
on the same memory, block id and offset with dims `sizes`, and for every index
vector `i` of that length it reads the cell that `p` reads at
`i[k] * strides[k] + offsets[k]` (in `B`-bit arithmetic) for each `k`. -/
theorem C12_subview_mapping (B : Nat) (p : MemRef) (inverseFns : Nat → Nat → Nat)
    (preconditionIsTrue : Bool) (offsets sizes strides : List Nat)
    (hrank : p.layout.indVars = p.dims.length) (hpos : 0 < p.dims.length)
    (ho : offsets.length = p.dims.length) (hs : sizes.length = p.dims.length)
    (hst : strides.length = p.dims.length) :
    ∃ v, p.subview B inverseFns preconditionIsTrue offsets sizes strides [] 0 = some v ∧
      v.m = p.m ∧ v.elemType = p.elemType ∧ v.bid = p.bid ∧ v.offset = p.offset ∧
      v.dims = sizes ∧ v.isViewRef = true ∧
      ∀ i : List Nat, i.length = p.dims.length →
        v.get B i = p.get B ((List.range p.dims.length).map (fun k =>
          bvAdd B (bvMul B (i.getD k 0) (strides.getD k 0)) (offsets.getD k 0))) := by
  refine ⟨_, subview_some B p inverseFns preconditionIsTrue offsets sizes strides
    (by omega) (by omega) (by omega), rfl, rfl, rfl, rfl, rfl, rfl, fun i hi => ?_⟩
  have hi0 : i.isEmpty = false := by
    cases i with
    | nil => simp at hi; omega
    | cons a l => rfl
  have hr0 : ((List.range p.dims.length).map (fun k =>
      bvAdd B (bvMul B (i.getD k 0) (strides.getD k 0)) (offsets.getD k 0))).isEmpty
      = false := by
    cases h : p.dims.length with
    | zero => omega
    | succ n => simp [List.range_succ]
  simp only [MemRef.get, MemRef.to1DIdxWithLayout, hi0, hr0, Layout.strided,
    transformIndices, hst, Bool.false_eq_true, if_false]

theorem C12_subview_mapping_witness :
    ∃ v, sampleMemRef.subview 64 sampleInverseFns false [1, 1] [2, 2] [1, 1] [] 0 = some v ∧
      v.bid = sampleMemRef.bid ∧ v.offset = sampleMemRef.offset ∧
      v.get 64 [0, 0] = sampleMemRef.get 64 [1, 1] := by
  obtain ⟨v, hv, _, _, hb, ho, _, _, hg⟩ := C12_subview_mapping 64 sampleMemRef
    sampleInverseFns false [1, 1] [2, 2] [1, 1] rfl (by decide) rfl rfl rfl
  refine ⟨v, hv, hb, ho, ?_⟩
  rw [hg [0, 0] rfl]
  rfl

/-! ### Primitive sorts -/

/-- C18 (amended): `convertPrimitiveTypeToSort` returns a sort if and only if the
element type is an integer type (of any width), the `f32` or `f64` float type, or the
index type; for every other type (a 16-bit float for example) it returns absent, and
then `getZero` and `getIdentity` return absent too. -/
theorem C18_primitive_sort (B : Nat) (fp : FpBackend) (ty : MType) :
    ((convertPrimitiveTypeToSort B ty).isSome = true ↔
      ((∃ w, ty = .integerTy w) ∨ ty = .floatTy 32 ∨ ty = .floatTy 64 ∨ ty = .indexTy)) ∧
    convertPrimitiveTypeToSort B (.floatTy 16) = none ∧
    (convertPrimitiveTypeToSort B ty = none →
      getZero B fp ty = none ∧ getIdentity B fp ty = none) := by
  refine ⟨?_, rfl, fun h => ⟨by simp [getZero, h], by simp [getIdentity, h]⟩⟩
  cases ty with
  | integerTy w => simp [convertPrimitiveTypeToSort]
  | floatTy w =>
    simp only [convertPrimitiveTypeToSort, Float.sort]
    split <;> simp_all
  | indexTy => simp [convertPrimitiveTypeToSort]
  | otherTy => simp [convertPrimitiveTypeToSort]

theorem C18_primitive_sort_witness :
    convertPrimitiveTypeToSort 64 (.floatTy 16) = none ∧
    getZero 64 sampleFp (.floatTy 16) = none ∧ getIdentity 64 sampleFp (.floatTy 16) = none :=
  ⟨rfl, (C18_primitive_sort 64 sampleFp (.floatTy 16)).2.2 rfl⟩

/-- C18 as stated fails: the integer type of width 128 is wider than 64 bits and
`convertPrimitiveTypeToSort` returns the bit-vector sort of width 128 for it, and
`getZero` and `getIdentity` return a zero. -/
theorem C18_primitive_sort_counterexample :
    64 < 128 ∧ convertPrimitiveTypeToSort 64 (.integerTy 128) = some (.bvSort 128) ∧
    getZero 64 sampleFp (.integerTy 128) = some 0 ∧
    getIdentity 64 sampleFp (.integerTy 128) = some 0 :=
  ⟨by decide, rfl, rfl, rfl⟩

/-! ### MemRef reshape and refinement -/

/-- C19 (amended): `MemRef::reshape(newDims)` on a memref whose layout is not the
identity fails its assertion (it returns no memref, and the failure is not the
Unsupported error); on an identity-layout memref it returns a memref with the same
memory, element type, bid and offset, dims `newDims`, a fresh identity layout over
`newDims` and `isViewRef = true`. -/
theorem C19_memref_reshape (B : Nat) (r : MemRef) (newDims : List Nat) :
    (r.isIdentityMap = false → r.reshape B newDims = .error .assertion) ∧
    (r.isIdentityMap = true →
      r.reshape B newDims =
        .ok ⟨r.m, r.elemType, r.bid, r.offset, newDims, Layout.identity B newDims, true⟩) := by
  constructor <;> intro h <;> simp [MemRef.reshape, h]

theorem C19_memref_reshape_witness :
    sampleMemRef.reshape 64 [2, 8] =
      .ok ⟨sampleMemRef.m, sampleMemRef.elemType, sampleMemRef.bid, sampleMemRef.offset,
        [2, 8], Layout.identity 64 [2, 8], true⟩ :=
  (C19_memref_reshape 64 sampleMemRef [2, 8]).2 rfl

/-- C19 as stated fails: the subview of the sample 4 x 4 memref at offsets `[1, 1]`,
sizes `[2, 2]`, strides `[1, 1]` has a layout that is not the identity, and reshaping
it to `[4]` fails the assertion, which is not the Unsupported error. -/
theorem C19_memref_reshape_counterexample :
    ∃ v, sampleMemRef.subview 64 sampleInverseFns false [1, 1] [2, 2] [1, 1] [] 0 = some v ∧
      v.isIdentityMap = false ∧ v.reshape 64 [4] = .error .assertion ∧
      v.reshape 64 [4] ≠ .error .unsupported :=
  ⟨_, rfl, rfl, rfl, by
    intro h
    cases h⟩

/-- C20 (amended): for every two MemRefs `a` and `b`, `a.refines(b)` has no parameters
and its formula is true exactly when their block ids are equal (offsets, dims and
layouts are not compared). -/
theorem C20_memref_refines (a b : MemRef) :
    a.refines b = (decide (b.bid = a.bid), []) ∧
    ((a.refines b).1 = true ↔ a.bid = b.bid) := by
  refine ⟨rfl, ?_⟩
  simp [MemRef.refines, eq_comm]

/-- C20 as stated fails: two memrefs on the same block with different offsets,
different dims and different layouts refine each other. -/
theorem C20_memref_refines_counterexample :
    sampleMemRef.bid = sampleMemRefOther.bid ∧
    sampleMemRef.offset ≠ sampleMemRefOther.offset ∧
    sampleMemRef.dims ≠ sampleMemRefOther.dims ∧
    sampleMemRef.layout.mapping [1, 0] ≠ sampleMemRefOther.layout.mapping [1, 0] ∧
    sampleMemRef.refines sampleMemRefOther = (true, []) ∧
    sampleMemRefOther.refines sampleMemRef = (true, []) :=
  ⟨rfl, by decide, by decide, by decide, rfl, rfl⟩

/-! ### Sparse tensors -/

theorem sparseOfs_eq_to1DIdx (dims idx : List Nat) : sparseOfs dims idx = to1DIdx 64 idx dims := by
  cases idx with
  | nil => rfl
  | cons i0 rest =>
    have hf : (fun (ofs : Nat) (p : Nat × Nat) => (ofs * p.2 + p.1) % 2 ^ 64) = toStep 64 := by
      funext ofs p
      simp only [toStep, bvAdd, bvMul, Nat.mod_add_mod]
    simp only [sparseOfs, to1DIdx, List.tail_cons, List.headD_cons, hf]

theorem to1DIdx_lt (B : Nat) (idxs dims : List Nat) (hin : fitsInDims idxs dims = true)
    (hne : idxs ≠ []) (hfit : dims.prod ≤ 2 ^ B) : to1DIdx B idxs dims < dims.prod := by
  rw [fitsInDims_iff] at hin
  obtain ⟨hlen, hlt⟩ := hin
  cases idxs with
  | nil => exact absurd rfl hne
  | cons i0 is =>
    cases dims with
    | nil => simp at hlen
    | cons d0 ds =>
      simp only [List.length_cons, Nat.add_right_cancel_iff] at hlen
      have hi0 : i0 < d0 := hlt (i0, d0) (by simp)
      have hps : ∀ p ∈ is.zip ds, p.1 < p.2 := fun p hp => hlt p (by simp [hp])
      have h2 : (is.zip ds).map Prod.snd = ds := List.map_snd_zip _ _ (by omega)
      have hle : (i0 + 1) * ds.prod ≤ d0 * ds.prod := Nat.mul_le_mul_right _ (by omega)
      rw [List.prod_cons] at hfit ⊢
      have hacc : (i0 + 1) * ((is.zip ds).map Prod.snd).prod ≤ 2 ^ B := by
        rw [h2]; omega
      obtain ⟨hb, _⟩ := from_to_pairs B (is.zip ds) i0 [] hps hacc
      rw [h2] at hb
      simp only [to1DIdx, List.tail_cons]
      omega

theorem foldl_toStep_indep (B C : Nat) (ps : List (Nat × Nat)) :
    ∀ (acc : Nat), (∀ p ∈ ps, p.1 < p.2) →
      (acc + 1) * (ps.map Prod.snd).prod ≤ 2 ^ B →
      (acc + 1) * (ps.map Prod.snd).prod ≤ 2 ^ C →
      ps.foldl (toStep B) acc = ps.foldl (toStep C) acc := by
  induction ps using List.reverseRecOn with
  | nil => intro acc _ _ _; rfl
  | append_singleton ps p ih =>
    intro acc hlt hB hC
    obtain ⟨i, d⟩ := p
    have hid : i < d := hlt (i, d) (by simp)
    have hlt2 : ∀ q ∈ ps, q.1 < q.2 := fun q hq => hlt q (by simp [hq])
    simp only [List.map_append, List.map_cons, List.map_nil, List.prod_append, List.prod_cons,
      List.prod_nil, Nat.mul_one] at hB hC
    have hle : (acc + 1) * (ps.map Prod.snd).prod * 1 ≤ (acc + 1) * (ps.map Prod.snd).prod * d :=
      Nat.mul_le_mul_left _ (by omega)
    rw [Nat.mul_one, Nat.mul_assoc] at hle
    have hB2 : (acc + 1) * (ps.map Prod.snd).prod ≤ 2 ^ B := by omega
    have hC2 : (acc + 1) * (ps.map Prod.snd).prod ≤ 2 ^ C := by omega
    obtain ⟨hb1, _⟩ := from_to_pairs B ps acc [] hlt2 hB2
    obtain ⟨hc1, _⟩ := from_to_pairs C ps acc [] hlt2 hC2
    have e := ih acc hlt2 hB2 hC2
    rw [List.foldl_append, List.foldl_append, List.foldl_cons, List.foldl_cons, List.foldl_nil,
      List.foldl_nil]
    have hVB : (ps.foldl (toStep B) acc + 1) * d ≤ (acc + 1) * ((ps.map Prod.snd).prod * d) := by
      rw [← Nat.mul_assoc]
      exact Nat.mul_le_mul_right d hb1
    have hVC : (ps.foldl (toStep C) acc + 1) * d ≤ (acc + 1) * ((ps.map Prod.snd).prod * d) := by
      rw [← Nat.mul_assoc]
      exact Nat.mul_le_mul_right d hc1
    rw [toStep_exact B _ d i _ hVB hB hid, toStep_exact C _ d i _ hVC hC hid, e]

theorem to1DIdx_indep (B C : Nat) (idxs dims : List Nat) (hin : fitsInDims idxs dims = true)
    (hB : dims.prod ≤ 2 ^ B) (hC : dims.prod ≤ 2 ^ C) :
    to1DIdx B idxs dims = to1DIdx C idxs dims := by
  rw [fitsInDims_iff] at hin
  obtain ⟨hlen, hlt⟩ := hin
  cases idxs with
  | nil => rfl
  | cons i0 is =>
    cases dims with
    | nil => simp at hlen
    | cons d0 ds =>
      simp only [List.length_cons, Nat.add_right_cancel_iff] at hlen
      have hi0 : i0 < d0 := hlt (i0, d0) (by simp)
      have hps : ∀ p ∈ is.zip ds, p.1 < p.2 := fun p hp => hlt p (by simp [hp])
      have h2 : (is.zip ds).map Prod.snd = ds := List.map_snd_zip _ _ (by omega)
      have hle : (i0 + 1) * ds.prod ≤ d0 * ds.prod := Nat.mul_le_mul_right _ (by omega)
      rw [List.prod_cons] at hB hC
      simp only [to1DIdx, List.tail_cons]
      exact foldl_toStep_indep B C (is.zip ds) i0 hps (by rw [h2]; omega) (by rw [h2]; omega)

theorem to1DIdx_inj (B : Nat) (i j dims : List Nat) (hi : fitsInDims i dims = true)
    (hj : fitsInDims j dims = true) (hfit : dims.prod ≤ 2 ^ B)
    (h : to1DIdx B i dims = to1DIdx B j dims) : i = j := by
  rw [← from1DIdx_to1DIdx B i dims hi hfit, ← from1DIdx_to1DIdx B j dims hj hfit, h]

theorem store_foldl_miss {β : Type} (key : β → Nat) (k : Nat) :
    ∀ (l : List (β × Nat)) (base : Nat → Nat), (∀ p ∈ l, key p.1 ≠ k) →
      l.foldl (fun arr p => store arr (key p.1) p.2) base k = base k
  | [], _, _ => rfl
  | p :: l, base, h => by
    rw [List.foldl_cons, store_foldl_miss key k l _ (fun q hq => h q (by simp [hq]))]
    have := h p (by simp)
    simp only [store]
    rw [if_neg (fun e => this e.symm)]

theorem store_foldl_hit {β : Type} (key : β → Nat) :
    ∀ (l : List (β × Nat)) (base : Nat → Nat), (l.map (fun p => key p.1)).Nodup →
      ∀ p ∈ l, l.foldl (fun arr p => store arr (key p.1) p.2) base (key p.1) = p.2
  | [], _, _, p, hp => by simp at hp
  | q :: l, base, hnd, p, hp => by
    rw [List.map_cons, List.nodup_cons] at hnd
    rw [List.foldl_cons]
    rcases List.mem_cons.mp hp with hp | hp
    · subst hp
      rw [store_foldl_miss key (key p.1) l _ (fun r hr e => hnd.1 (by
        rw [← e]; exact List.mem_map_of_mem (fun p => key p.1) hr))]
      simp [store]
    · exact store_foldl_hit key l _ hnd.2 p hp

theorem ofUnsigned_cast (B d : Nat) (h32 : d < 2 ^ 32) (hB : d < 2 ^ B) :
    Index.ofUnsigned B (d : Int) = d := by
  unfold Index.ofUnsigned
  rw [Int.emod_eq_of_lt (by positivity) (by exact_mod_cast h32), Int.toNat_ofNat,
    Nat.mod_eq_of_lt hB]

theorem mem_lt_of_prod_lt (dims : List Nat) (hpos : ∀ d ∈ dims, 0 < d) (n : Nat)
    (h : dims.prod < n) : ∀ d ∈ dims, d < n := fun _ hd =>
  Nat.lt_of_le_of_lt (Nat.le_of_dvd (List.prod_pos hpos) (List.dvd_prod hd)) h

theorem map_ofUnsigned_eq_self (B : Nat) (dims : List Nat) (h32 : ∀ d ∈ dims, d < 2 ^ 32)
    (hB : ∀ d ∈ dims, d < 2 ^ B) :
    dims.map (fun (d : Nat) => Index.ofUnsigned B d) = dims := by
  calc dims.map (fun (d : Nat) => Index.ofUnsigned B d) = dims.map id :=
        List.map_congr_left (fun d hd => ofUnsigned_cast B d (h32 d hd) (hB d hd))
    _ = dims := List.map_id _

/-- C17 (amended): sparse tensor construction when the offsets do not wrap.  For dims
of rank at least one, each below `2 ^ 32`, whose product is below `2 ^ B` and below
`2 ^ 64`, pairwise
distinct in-bounds index tuples `indices` with values `elems` of the same length and
a zero value, the sparse constructor returns a tensor `T` with `T.get(indices[k]) =
elems[k]` for every `k`, `T.get(idx) = zero` at every in-bounds `idx` that is not
listed, and every element initialized; at each in-bounds index the constructor's
offset, as a `B`-bit vector, is the row-major offset that `get` uses. -/
theorem C17_sparse_construction (B : Nat) (elemType : MType) (indices : List (List Nat))
    (elems : List Nat) (dims : List Nat) (zeroElem : Nat) (_hrank : 0 < dims.length)
    (hlen : indices.length = elems.length)
    (hin : ∀ idx ∈ indices, fitsInDims idx dims = true) (hnd : indices.Nodup)
    (h32 : ∀ d ∈ dims, d < 2 ^ 32) (hB : dims.prod < 2 ^ B) (h64 : dims.prod < 2 ^ 64) :
    ∃ T, Tensor.sparse B elemType indices elems dims zeroElem = some T ∧
      (∀ k, k < indices.length → T.get B (indices.getD k []) = elems.getD k 0) ∧
      (∀ idx, fitsInDims idx dims = true → idx ∉ indices → T.get B idx = zeroElem) ∧
      (∀ i, T.initialized i = true) ∧
      (∀ idx, fitsInDims idx dims = true →
        sparseOfs dims idx % 2 ^ B = to1DIdx B idx T.dims) := by
  have hc : indices.length = elems.length ∧ ∀ idx ∈ indices, idx.length = dims.length :=
    ⟨hlen, fun idx h => fitsInDims_length idx dims (hin idx h)⟩
  have hofs : ∀ idx, fitsInDims idx dims = true →
      sparseOfs dims idx % 2 ^ B = to1DIdx B idx dims ∧
      dims.map (fun (d : Nat) => Index.ofUnsigned B d) = dims := by
    intro idx hi
    have hne : idx ≠ [] := by
      intro e
      have := fitsInDims_length idx dims hi
      rw [e] at this
      simp at this
      omega
    have hlt := to1DIdx_lt B idx dims hi hne (by omega)
    rw [sparseOfs_eq_to1DIdx, ← to1DIdx_indep B 64 idx dims hi (by omega) (by omega),
      Nat.mod_eq_of_lt (by omega)]
    exact ⟨rfl, map_ofUnsigned_eq_self B dims h32
      (mem_lt_of_prod_lt dims (fitsInDims_pos idx dims hi) _ hB)⟩
  have hkeys : ((indices.zip elems).map (fun p => sparseOfs dims p.1 % 2 ^ B)).Nodup := by
    have e : (indices.zip elems).map (fun p => sparseOfs dims p.1 % 2 ^ B)
        = indices.map (fun idx => sparseOfs dims idx % 2 ^ B) := by
      rw [← List.map_fst_zip indices elems (by omega), List.map_map]
      simp only [List.map_fst_zip indices elems (Nat.le_of_eq hlen)]
      rfl
    rw [e]
    refine List.Nodup.map_on (fun i hi j hj h => ?_) hnd
    rw [(hofs i (hin i hi)).1, (hofs j (hin j hj)).1] at h
    exact to1DIdx_inj B i j dims (hin i hi) (hin j hj) (by omega) h
  refine ⟨_, if_pos hc, fun k hk => ?_, fun idx hi hni => ?_, fun _ => rfl, fun idx hi => ?_⟩
  · have hk2 : k < (indices.zip elems).length := by simp [List.length_zip, ← hlen, hk]
    have hmem : (indices.getD k [], elems.getD k 0) ∈ indices.zip elems := by
      have : (indices.zip elems)[k] = (indices.getD k [], elems.getD k 0) := by
        rw [List.getElem_zip, List.getD_eq_getElem _ _ hk,
          List.getD_eq_getElem _ _ (by omega : k < elems.length)]
      rw [← this]
      exact List.getElem_mem hk2
    have hik : indices.getD k [] ∈ indices := by
      rw [List.getD_eq_getElem _ _ hk]
      exact List.getElem_mem hk
    obtain ⟨h1, h2⟩ := hofs _ (hin _ hik)
    have := store_foldl_hit (fun idx => sparseOfs dims idx % 2 ^ B) (indices.zip elems)
      (fun _ => zeroElem) hkeys _ hmem
    simp only [Tensor.get, Tensor.getRaw, h2]
    rw [← h1]
    exact this
  · obtain ⟨h1, h2⟩ := hofs idx hi
    simp only [Tensor.get, Tensor.getRaw, h2]
    rw [← h1]
    refine store_foldl_miss (fun idx => sparseOfs dims idx % 2 ^ B) _ (indices.zip elems)
      (fun _ => zeroElem) (fun p hp e => hni ?_)
    have hp1 : p.1 ∈ indices := (List.of_mem_zip hp).1
    have e2 : sparseOfs dims p.1 % 2 ^ B = sparseOfs dims idx % 2 ^ B := e
    rw [(hofs p.1 (hin p.1 hp1)).1, h1] at e2
    rw [← to1DIdx_inj B p.1 idx dims (hin p.1 hp1) hi (by omega) e2]
    exact hp1
  · obtain ⟨h1, h2⟩ := hofs idx hi
    simp only [h2]
    exact h1

theorem C17_sparse_construction_witness :
    ∃ T, Tensor.sparse 64 (.integerTy 32) [[0, 1], [2, 0]] [7, 9] [3, 2] 0 = some T ∧
      T.get 64 [0, 1] = 7 ∧ T.get 64 [2, 0] = 9 ∧ T.get 64 [1, 1] = 0 := by
  obtain ⟨T, hT, hk, hz, _, _⟩ := C17_sparse_construction 64 (.integerTy 32)
    [[0, 1], [2, 0]] [7, 9] [3, 2] 0 (by decide) rfl (by decide) (by decide) (by decide)
    (by decide) (by decide)
  exact ⟨T, hT, hk 0 (by decide), hk 1 (by decide), hz [1, 1] (by decide) (by decide)⟩

/-- C17 as stated fails with 64-bit indices: for dims 4 x 2^31 x (2^31 + 1) the distinct
in-bounds tuples `(0, 0, 0)` and `(3, 2^31 - 4, 4)` have the same offset, since
`(3 * 2^31 + 2^31 - 4) * (2^31 + 1) + 4 = 2^64` wraps to 0; the second store
overwrites the first and `T.get(0, 0, 0)` is the second value. -/
theorem C17_sparse_construction_counterexample :
    ∃ T, Tensor.sparse 64 (.integerTy 32) [[0, 0, 0], [3, 2 ^ 31 - 4, 4]] [7, 9]
        [4, 2 ^ 31, 2 ^ 31 + 1] 0 = some T ∧
      T.dims = [4, 2 ^ 31, 2 ^ 31 + 1] ∧
      [[0, 0, 0], [3, 2 ^ 31 - 4, 4]].Nodup ∧
      (∀ idx ∈ [[0, 0, 0], [3, 2 ^ 31 - 4, 4]],
        fitsInDims idx [4, 2 ^ 31, 2 ^ 31 + 1] = true) ∧
      sparseOfs [4, 2 ^ 31, 2 ^ 31 + 1] [3, 2 ^ 31 - 4, 4] = 0 ∧
      T.get 64 ([[0, 0, 0], [3, 2 ^ 31 - 4, 4]].getD 0 []) = 9 ∧
      T.get 64 ([[0, 0, 0], [3, 2 ^ 31 - 4, 4]].getD 0 []) ≠ [7, 9].getD 0 0 :=
  ⟨_, rfl, by decide, by decide, by decide, by decide, by decide, by decide⟩

/-! ### The enumeration loop -/

theorem carryRev_length : ∀ (ds xs : List Nat), (carryRev ds xs).length = xs.length
  | [], _ => by simp [carryRev]
  | _ :: _, [] => by simp [carryRev]
  | _ :: _, [_] => by simp [carryRev]
  | d :: ds, x :: y :: rest => by
    simp only [carryRev]
    split
    · simp [carryRev_length ds ((y + 1) :: rest)]
    · rfl

theorem carryRev_val : ∀ (ds xs : List Nat), xs.length = ds.length →
    valRev ds (carryRev ds xs) = valRev ds xs
  | [], _, _ => by simp [carryRev]
  | _ :: _, [], _ => by simp [carryRev]
  | _ :: _, [_], _ => by simp [carryRev]
  | d :: ds, x :: y :: rest, h => by
    simp only [carryRev]
    split
    · next hx =>
      have hl : ((y + 1) :: rest).length = ds.length := by simpa using h
      simp only [valRev]
      rw [carryRev_val ds ((y + 1) :: rest) hl, hx]
      cases ds with
      | nil => simp at hl
      | cons d2 ds2 =>
        simp only [valRev]
        ring
    · rfl

theorem carryRev_norm : ∀ (ds : List Nat) (x : Nat) (xs : List Nat),
    (x :: xs).length = ds.length → (∀ d ∈ ds, 0 < d) → (xs ≠ [] → x ≤ ds.headD 0) →
    normRev ds.tail xs → normRev ds (carryRev ds (x :: xs))
  | [], _, _, h, _, _, _ => by simp at h
  | _ :: _, _, [], _, _, _, _ => by simp [carryRev, normRev]
  | d :: ds, x, y :: rest, h, hpos, hx, hn => by
    have hxd : x ≤ d := by simpa using hx (by simp)
    simp only [carryRev]
    split
    · next hxe =>
      have hl : ((y + 1) :: rest).length = ds.length := by simpa using h
      have hpos2 : ∀ e ∈ ds, 0 < e := fun e he => hpos e (by simp [he])
      have ih := carryRev_norm ds (y + 1) rest hl hpos2
      have hlen := carryRev_length ds ((y + 1) :: rest)
      have hd : 0 < d := hpos d (by simp)
      cases hc : carryRev ds ((y + 1) :: rest) with
      | nil => rw [hc] at hlen; simp at hlen
      | cons c0 cs =>
        rw [hc] at ih
        refine ⟨hd, ih ?_ ?_⟩
        · intro hne
          cases ds with
          | nil => simp at hl
          | cons d2 ds2 =>
            cases rest with
            | nil => exact absurd rfl hne
            | cons z rest2 =>
              have : y < d2 := hn.1
              simp only [List.headD_cons]
              omega
        · cases ds with
          | nil => simp at hl
          | cons d2 ds2 =>
            cases rest with
            | nil => cases ds2 <;> simp [normRev]
            | cons z rest2 => exact hn.2
    · next hxe =>
      exact ⟨by omega, hn⟩

theorem normRev_unique : ∀ (ds xs ys : List Nat), xs.length = ds.length →
    ys.length = ds.length → (∀ d ∈ ds, 0 < d) → normRev ds xs → normRev ds ys →
    valRev ds xs = valRev ds ys → xs = ys
  | [], [], [], _, _, _, _, _, _ => rfl
  | [], _ :: _, _, h, _, _, _, _, _ => by simp at h
  | [], [], _ :: _, _, h, _, _, _, _ => by simp at h
  | _ :: _, [], _, h, _, _, _, _, _ => by simp at h
  | _ :: _, _ :: _, [], _, h, _, _, _, _ => by simp at h
  | [d], [x], [y], _, _, _, _, _, hv => by
    simp only [valRev, Nat.mul_zero, Nat.add_zero] at hv
    rw [hv]
  | [_], _ :: _ :: _, _, h, _, _, _, _, _ => by simp at h
  | [_], [_], _ :: _ :: _, _, h, _, _, _, _ => by simp at h
  | _ :: _ :: _, [_], _, h, _, _, _, _, _ => by simp at h
  | _ :: _ :: _, _ :: _ :: _, [_], _, h, _, _, _, _ => by simp at h
  | d :: d2 :: ds, x :: x2 :: xs, y :: y2 :: ys, hx, hy, hpos, hnx, hny, hv => by
    have hd : 0 < d := hpos d (by simp)
    have hxd : x < d := hnx.1
    have hyd : y < d := hny.1
    have hv2 : x + d * valRev (d2 :: ds) (x2 :: xs) = y + d * valRev (d2 :: ds) (y2 :: ys) := hv
    have h1 : x = y := by
      have := congrArg (fun n => n % d) hv2
      simpa [Nat.add_mul_mod_self_left, Nat.mod_eq_of_lt hxd, Nat.mod_eq_of_lt hyd] using this
    have h2 : valRev (d2 :: ds) (x2 :: xs) = valRev (d2 :: ds) (y2 :: ys) := by
      rw [h1] at hv2
      exact Nat.eq_of_mul_eq_mul_left hd (Nat.add_left_cancel hv2)
    rw [h1, normRev_unique (d2 :: ds) (x2 :: xs) (y2 :: ys) (by simpa using hx)
      (by simpa using hy) (fun e he => hpos e (by simp [he])) hnx.2 hny.2 h2]

theorem openRev_length : ∀ (ds : List Nat) (k : Nat), (openRev ds k).length = ds.length
  | [], _ => rfl
  | [_], _ => rfl
  | d :: d2 :: ds, k => by
    simp only [openRev, List.length_cons, openRev_length (d2 :: ds) (k / d)]

theorem openRev_val : ∀ (ds : List Nat) (k : Nat), ds ≠ [] → valRev ds (openRev ds k) = k
  | [], _, h => absurd rfl h
  | [_], k, _ => by simp [openRev, valRev]
  | d :: d2 :: ds, k, _ => by
    simp only [openRev, valRev]
    have := openRev_val (d2 :: ds) (k / d) (by simp)
    cases ho : openRev (d2 :: ds) (k / d) with
    | nil =>
      have hl := openRev_length (d2 :: ds) (k / d)
      rw [ho] at hl
      simp at hl
    | cons o os =>
      rw [ho] at this
      simp only [valRev] at this ⊢
      rw [this]
      exact Nat.mod_add_div k d

theorem openRev_norm : ∀ (ds : List Nat) (k : Nat), (∀ d ∈ ds, 0 < d) →
    normRev ds (openRev ds k)
  | [], _, _ => by simp [openRev, normRev]
  | [_], _, _ => by simp [openRev, normRev]
  | d :: d2 :: ds, k, hpos => by
    have ih := openRev_norm (d2 :: ds) (k / d) (fun e he => hpos e (by simp [he]))
    simp only [openRev]
    cases ho : openRev (d2 :: ds) (k / d) with
    | nil =>
      have hl := openRev_length (d2 :: ds) (k / d)
      rw [ho] at hl
      simp at hl
    | cons o os =>
      rw [ho] at ih
      exact ⟨Nat.mod_lt _ (hpos d (by simp)), ih⟩

theorem valRev_succ (ds : List Nat) (x : Nat) (xs : List Nat) (h : ds ≠ []) :
    valRev ds ((x + 1) :: xs) = valRev ds (x :: xs) + 1 := by
  cases ds with
  | nil => exact absurd rfl h
  | cons d ds =>
    simp only [valRev]
    omega

theorem normRev_tail : ∀ (ds : List Nat) (x : Nat) (xs : List Nat),
    normRev ds (x :: xs) → normRev ds.tail xs
  | [], _, _, _ => by simp [normRev]
  | _ :: ds, _, [], _ => by cases ds <;> simp [normRev]
  | _ :: _, _, _ :: _, h => h.2

/-- The carry of the increased index vector of `k` is the index vector of `k + 1`. -/
theorem carryRev_openRev (ds : List Nat) (k x : Nat) (xs : List Nat) (hpos : ∀ d ∈ ds, 0 < d)
    (ho : openRev ds k = x :: xs) : carryRev ds ((x + 1) :: xs) = openRev ds (k + 1) := by
  have hne : ds ≠ [] := by
    intro e
    rw [e] at ho
    simp [openRev] at ho
  have hl : (x :: xs).length = ds.length := by rw [← ho, openRev_length]
  have hl2 : ((x + 1) :: xs).length = ds.length := by simpa using hl
  have hn := openRev_norm ds k hpos
  rw [ho] at hn
  refine normRev_unique ds _ _ (by rw [carryRev_length, hl2]) (openRev_length ds (k + 1)) hpos
    (carryRev_norm ds (x + 1) xs hl2 hpos ?_ (normRev_tail ds x xs hn))
    (openRev_norm ds (k + 1) hpos) ?_
  · intro hxs
    cases ds with
    | nil => exact absurd rfl hne
    | cons d ds =>
      cases xs with
      | nil => exact absurd rfl hxs
      | cons y rest =>
        have : x < d := hn.1
        simp only [List.headD_cons]
        omega
  · rw [carryRev_val ds _ hl2, valRev_succ ds x xs hne, openRev_val ds (k + 1) hne, ← ho,
      openRev_val ds k hne]

theorem openRev_getLastD : ∀ (ds : List Nat) (k : Nat), ds ≠ [] →
    (openRev ds k).getLastD 0 = k / ds.dropLast.prod
  | [], _, h => absurd rfl h
  | [_], k, _ => by simp [openRev]
  | d :: d2 :: ds, k, _ => by
    have ih := openRev_getLastD (d2 :: ds) (k / d) (by simp)
    simp only [openRev, List.dropLast_cons₂, List.prod_cons]
    cases ho : openRev (d2 :: ds) (k / d) with
    | nil =>
      have hl := openRev_length (d2 :: ds) (k / d)
      rw [ho] at hl
      simp at hl
    | cons o os =>
      rw [ho] at ih
      rw [← Nat.div_div_eq_div_mul, ← ih]
      simp [List.getLastD]

theorem openRev_head (d d2 : Nat) (ds : List Nat) (k : Nat) :
    (openRev (d :: d2 :: ds) k).headD 0 = k % d := rfl

theorem openRev_zero : ∀ (ds : List Nat), openRev ds 0 = List.replicate ds.length 0
  | [] => rfl
  | [_] => rfl
  | d :: d2 :: ds => by
    simp only [openRev, Nat.zero_mod, Nat.zero_div, List.length_cons]
    rw [openRev_zero (d2 :: ds)]
    simp [List.replicate_succ]

/-- The index vector of `k` in the mixed radix of the dims is `from1DIdx` of `k` when `k`
is below the product of the dims. -/
theorem foldl_fromStep_openRev (B : Nat) : ∀ (dr : List Nat) (k : Nat) (tl : List Nat),
    (∀ d ∈ dr, 0 < d) → dr ≠ [] → k < dr.prod →
    (dr.foldl (fun s d => fromStep B d s) (tl, k)).1 = (openRev dr k).reverse ++ tl
  | [], _, _, _, h, _ => absurd rfl h
  | [d], k, tl, _, _, hk => by
    have hk2 : k < d := by simpa using hk
    have hd : d ≠ 0 := by omega
    simp [fromStep, bvUrem, hd, openRev, Nat.mod_eq_of_lt hk2]
  | d :: d2 :: ds, k, tl, hpos, _, hk => by
    have hd : 0 < d := hpos d (by simp)
    have hd0 : d ≠ 0 := by omega
    have hk2 : k / d < (d2 :: ds).prod := by
      rw [List.prod_cons] at hk
      exact Nat.div_lt_of_lt_mul hk
    have ih := foldl_fromStep_openRev B (d2 :: ds) (k / d) (k % d :: tl)
      (fun e he => hpos e (by simp [he])) (by simp) hk2
    rw [List.foldl_cons]
    have e : fromStep B d (tl, k) = (k % d :: tl, k / d) := by
      simp [fromStep, bvUrem, bvUdiv, hd0]
    rw [e, ih]
    simp [openRev]

theorem from1DIdx_eq_openRev (B : Nat) (dims : List Nat) (k : Nat) (hpos : ∀ d ∈ dims, 0 < d)
    (hne : dims ≠ []) (hk : k < dims.prod) :
    from1DIdx B k dims = (openRev dims.reverse k).reverse := by
  have h := foldl_fromStep_openRev B dims.reverse k [] (fun d hd => hpos d (by simpa using hd))
    (by simpa using hne) (by rw [List.prod_reverse]; exact hk)
  rw [List.foldl_reverse] at h
  simpa [from1DIdx] using h

theorem from1DIdx_fits (B : Nat) : ∀ (dims : List Nat) (k : Nat), (∀ d ∈ dims, 0 < d) →
    fitsInDims (from1DIdx B k dims) dims = true
  | [], _, _ => rfl
  | d :: ds, k, hpos => by
    have ih := from1DIdx_fits B ds k (fun e he => hpos e (by simp [he]))
    have hd : 0 < d := hpos d (by simp)
    have hd0 : d ≠ 0 := by omega
    simp only [from1DIdx, List.foldr_cons, fromStep] at ih ⊢
    rw [fitsInDims_cons]
    exact ⟨by simp only [bvUrem, hd0, if_false]; exact Nat.mod_lt _ hd, ih⟩

theorem incLast_reverse (x : Nat) (xs : List Nat) :
    incLast (x :: xs).reverse = ((x + 1) :: xs).reverse := by
  simp [incLast]

theorem carry_incLast (dims : List Nat) (k : Nat) (hpos : ∀ d ∈ dims, 0 < d)
    (hne : dims ≠ []) :
    carry dims (incLast (openRev dims.reverse k).reverse) = (openRev dims.reverse (k + 1)).reverse := by
  cases ho : openRev dims.reverse k with
  | nil =>
    have hl := openRev_length dims.reverse k
    rw [ho] at hl
    simp at hl
    exact absurd (List.length_eq_zero.mp hl.symm) hne
  | cons x xs =>
    rw [incLast_reverse, carry, List.reverse_reverse,
      carryRev_openRev dims.reverse k x xs (fun d hd => hpos d (by simpa using hd)) ho]

theorem carry_noop (dims S : List Nat) (hl : S.length = dims.length)
    (h : S.getLastD 0 ≠ dims.getLastD 0) : carry dims S = S := by
  have hS : S = S.reverse.reverse := by simp
  have hD : dims = dims.reverse.reverse := by simp
  have hl2 : S.reverse.length = dims.reverse.length := by simpa using hl
  unfold carry
  generalize S.reverse = xs at hS hl2
  generalize dims.reverse = ds at hD hl2
  subst hS hD
  cases xs with
  | nil => simp [carryRev]
  | cons x xs =>
    cases ds with
    | nil => simp at hl2
    | cons d ds =>
      cases xs with
      | nil => simp [carryRev]
      | cons y rest =>
        have hx : x ≠ d := by simpa using h
        simp [carryRev, hx]

theorem prod_dropLast (l : List Nat) (hne : l ≠ []) :
    l.prod = l.dropLast.prod * l.getLastD 0 := by
  have h := List.dropLast_append_getLast hne
  have e : l.getLastD 0 = l.getLast hne := by
    rw [List.getLastD_eq_getLast?, List.getLast?_eq_getLast l hne]
    rfl
  rw [e]
  conv_lhs => rw [← h]
  simp

theorem enumLoop_run (getValue : List Nat → Except Err Nat) (v : List Nat → Nat)
    (dims : List Nat) (hne : dims ≠ []) (hpos : ∀ d ∈ dims, 0 < d)
    (hval : ∀ idx, fitsInDims idx dims = true → getValue idx = .ok (v idx)) :
    ∀ (m k : Nat) (S exprs : List Nat) (fuel : Nat), k + m = dims.prod → m < fuel →
      S.length = dims.length → carry dims S = (openRev dims.reverse k).reverse →
      (k = dims.prod → S.getLastD 0 = dims.getLastD 0) →
      enumLoop getValue dims fuel S exprs
        = .ok (exprs ++ (List.range' k m).map (fun j => v (openRev dims.reverse j).reverse)) := by
  have hrne : dims.reverse ≠ [] := by simpa using hne
  have hrpos : ∀ d ∈ dims.reverse, 0 < d := fun d hd => hpos d (by simpa using hd)
  have hprod : dims.prod = dims.reverse.dropLast.prod * dims.headD 0 := by
    rw [← List.prod_reverse, prod_dropLast dims.reverse hrne]
    simp
  have hPpos : 0 < dims.reverse.dropLast.prod :=
    List.prod_pos (fun d hd => hrpos d (List.mem_of_mem_dropLast hd))
  have hhead : ∀ k, ((openRev dims.reverse k).reverse).headD 0
      = k / dims.reverse.dropLast.prod := by
    intro k
    rw [← openRev_getLastD dims.reverse k hrne]
    simp
  intro m
  induction m with
  | zero =>
    intro k S exprs fuel hk hf hl hc hlast
    obtain ⟨fuel, rfl⟩ : ∃ f, fuel = f + 1 := ⟨fuel - 1, by omega⟩
    have hkn : k = dims.prod := by omega
    have hat : S.getLastD 0 = dims.getLastD 0 := hlast hkn
    have hh : ((openRev dims.reverse k).reverse).headD 0 = dims.headD 0 := by
      rw [hhead, hkn, hprod, Nat.mul_comm, Nat.mul_div_cancel _ hPpos]
    simp only [enumLoop, hat, decide_True, if_true, hc, hh, Bool.and_self]
    simp
  | succ m ih =>
    intro k S exprs fuel hk hf hl hc hlast
    obtain ⟨fuel, rfl⟩ : ∃ f, fuel = f + 1 := ⟨fuel - 1, by omega⟩
    have hkn : k < dims.prod := by omega
    have h1 : (if decide (S.getLastD 0 = dims.getLastD 0) = true then carry dims S else S)
        = (openRev dims.reverse k).reverse := by
      by_cases hat : S.getLastD 0 = dims.getLastD 0
      · simp only [hat, decide_True, if_true, hc]
      · rw [← hc, carry_noop dims S hl hat]
        simp [hat]
    have hh : ((openRev dims.reverse k).reverse).headD 0 ≠ dims.headD 0 := by
      rw [hhead]
      have : k / dims.reverse.dropLast.prod < dims.headD 0 := by
        rw [Nat.div_lt_iff_lt_mul hPpos, Nat.mul_comm, ← hprod]
        exact hkn
      omega
    have hfit : fitsInDims (openRev dims.reverse k).reverse dims = true := by
      rw [← from1DIdx_eq_openRev 0 dims k hpos hne hkn]
      exact from1DIdx_fits 0 dims k hpos
    have hstep := ih (k + 1) (incLast (openRev dims.reverse k).reverse)
      (exprs ++ [v (openRev dims.reverse k).reverse]) fuel (by omega) (by omega)
      (by
        have := openRev_length dims.reverse k
        cases ho : openRev dims.reverse k with
        | nil => rw [ho] at this; simp at this; exact absurd (List.length_eq_zero.mp this.symm) hne
        | cons x xs =>
          rw [incLast_reverse]
          rw [ho] at this
          simpa using this)
      (carry_incLast dims k hpos hne)
      (by
        intro hk1
        by_contra hat
        have hno := carry_noop dims _ (by
          have := openRev_length dims.reverse k
          cases ho : openRev dims.reverse k with
          | nil => rw [ho] at this; simp at this; exact absurd (List.length_eq_zero.mp this.symm) hne
          | cons x xs =>
            rw [incLast_reverse]
            rw [ho] at this
            simpa using this) hat
        rw [carry_incLast dims k hpos hne] at hno
        have hrev := congrArg List.reverse hno
        rw [List.reverse_reverse] at hrev
        cases ho : openRev dims.reverse k with
        | nil =>
          have := openRev_length dims.reverse k
          rw [ho] at this; simp at this; exact absurd (List.length_eq_zero.mp this.symm) hne
        | cons x xs =>
          rw [ho, incLast_reverse, List.reverse_reverse] at hrev
          rw [ho, incLast_reverse] at hat
          have hx : ((x + 1) :: xs).reverse.getLastD 0 = x + 1 := by simp
          rw [hx] at hat
          cases hd : dims.reverse with
          | nil => exact absurd hd hrne
          | cons d ds =>
            have hdl : dims.getLastD 0 = d := by
              have : dims = (d :: ds).reverse := by rw [← hd]; simp
              rw [this]; simp
            rw [hd] at hrev ho
            cases ds with
            | nil =>
              simp only [openRev, List.cons.injEq, and_true] at hrev ho
              have hp : dims.prod = d := by
                rw [← List.prod_reverse, hd]; simp
              omega
            | cons d2 ds2 =>
              have h0 := congrArg (fun l => l.headD 0) hrev
              simp only [openRev, List.headD_cons] at h0
              have hp : dims.prod = d * (d2 :: ds2).prod := by
                rw [← List.prod_reverse, hd]; simp
              rw [hk1, hp, Nat.mul_mod_right] at h0
              omega)
    simp only [enumLoop, h1, hfit, if_true, hval _ hfit]
    rw [hstep]
    have hb : decide (((openRev dims.reverse k).reverse).headD 0 = dims.headD 0) = false :=
      decide_eq_false hh
    rw [hb, Bool.and_false]
    simp [List.range'_succ]

/-- With enough fuel the enumeration loop returns the values of the attribute at the
index vectors of `0, 1, .., product(dims) - 1`, in this order. -/
theorem enumLoop_spec (B : Nat) (getValue : List Nat → Except Err Nat) (v : List Nat → Nat)
    (dims : List Nat) (hne : dims ≠ []) (hpos : ∀ d ∈ dims, 0 < d)
    (hval : ∀ idx, fitsInDims idx dims = true → getValue idx = .ok (v idx))
    (fuel : Nat) (hf : dims.prod < fuel) :
    enumLoop getValue dims fuel (List.replicate dims.length 0) []
      = .ok ((List.range dims.prod).map (fun k => v (from1DIdx B k dims))) := by
  have hz : (openRev dims.reverse 0).reverse = List.replicate dims.length 0 := by
    rw [openRev_zero]
    simp
  have hlast : (List.replicate dims.length 0).getLastD 0 ≠ dims.getLastD 0 := by
    have hd : 0 < dims.getLastD 0 := by
      have : dims.getLastD 0 = dims.getLast hne := by
        rw [List.getLastD_eq_getLast?, List.getLast?_eq_getLast dims hne]
        rfl
      rw [this]
      exact hpos _ (List.getLast_mem hne)
    have hz0 : (List.replicate dims.length 0).getLastD 0 = 0 := by
      cases h : dims.length with
      | zero => rfl
      | succ n => rw [List.replicate_succ', List.getLastD_concat]
    omega
  have hn : 0 < dims.prod := List.prod_pos hpos
  rw [enumLoop_run getValue v dims hne hpos hval dims.prod 0 _ [] fuel (by omega) hf (by simp)
    (by rw [carry_noop dims _ (by simp) hlast, hz]) (by omega)]
  rw [List.nil_append, ← List.range_eq_range']
  congr 1
  apply List.map_congr_left
  intro k hk
  rw [from1DIdx_eq_openRev B dims k hpos hne (List.mem_range.mp hk)]

theorem foldr_fromStep_split (B : Nat) : ∀ (ds : List Nat) (k : Nat), (∀ d ∈ ds, 0 < d) →
    ds.foldr (fromStep B) ([], k) = (from1DIdx B (k % ds.prod) ds, k / ds.prod)
  | [], k, _ => by simp [from1DIdx, Nat.mod_one]
  | d :: ds, k, hpos => by
    have hpos2 : ∀ e ∈ ds, 0 < e := fun e he => hpos e (by simp [he])
    have hd : 0 < d := hpos d (by simp)
    have hd0 : d ≠ 0 := by omega
    have ih1 := foldr_fromStep_split B ds k hpos2
    have ih2 := foldr_fromStep_split B ds (k % (d * ds.prod)) hpos2
    simp only [from1DIdx, List.foldr_cons, List.prod_cons] at ih1 ih2 ⊢
    rw [ih1, ih2]
    simp only [fromStep, bvUrem, bvUdiv, hd0, if_false]
    rw [Nat.mod_mul_left_mod, Nat.mod_mul_left_div_self, Nat.mod_mod, Nat.div_div_eq_div_mul,
      Nat.mul_comm ds.prod d]

theorem from1DIdx_cons (B : Nat) (d : Nat) (ds : List Nat) (k : Nat) (hpos : ∀ e ∈ ds, 0 < e) :
    from1DIdx B k (d :: ds) = bvUrem (k / ds.prod) d :: from1DIdx B (k % ds.prod) ds := by
  simp only [from1DIdx, List.foldr_cons]
  rw [foldr_fromStep_split B ds k hpos]
  rfl

theorem allIdxs_length : ∀ (dims : List Nat), (allIdxs dims).length = dims.prod
  | [] => rfl
  | d :: ds => by
    have ih := allIdxs_length ds
    simp only [allIdxs, List.prod_cons]
    induction d with
    | zero => simp
    | succ d ihd =>
      rw [List.range_succ, List.flatMap_append, List.length_append, ihd]
      simp [ih]
      ring

/-- The index vectors of `0, 1, .., product(dims) - 1` are the index vectors within the
dims in row-major order. -/
theorem range_map_from1DIdx (B : Nat) : ∀ (dims : List Nat), (∀ d ∈ dims, 0 < d) →
    (List.range dims.prod).map (fun k => from1DIdx B k dims) = allIdxs dims
  | [], _ => by simp [allIdxs, from1DIdx]
  | d :: ds, hpos => by
    have hpos2 : ∀ e ∈ ds, 0 < e := fun e he => hpos e (by simp [he])
    have ih := range_map_from1DIdx B ds hpos2
    have hP : 0 < ds.prod := List.prod_pos hpos2
    have key : ∀ m, m ≤ d → (List.range (m * ds.prod)).map (fun k => from1DIdx B k (d :: ds))
        = (List.range m).flatMap (fun i => (allIdxs ds).map (fun idx => i :: idx)) := by
      intro m
      induction m with
      | zero => intro _; simp
      | succ m ihm =>
        intro hm
        have e : (m + 1) * ds.prod = m * ds.prod + ds.prod := by ring
        rw [e, List.range_add, List.map_append, ihm (by omega), List.range_succ,
          List.flatMap_append]
        congr 1
        simp only [List.flatMap_cons, List.flatMap_nil, List.append_nil, List.map_map]
        rw [← ih, List.map_map]
        apply List.map_congr_left
        intro j hj
        have hj2 : j < ds.prod := List.mem_range.mp hj
        have hd0 : d ≠ 0 := by omega
        simp only [Function.comp]
        rw [from1DIdx_cons B d ds _ hpos2]
        have h1 : (m * ds.prod + j) / ds.prod = m := by
          rw [Nat.mul_comm, Nat.mul_add_div hP, Nat.div_eq_of_lt hj2, Nat.add_zero]
        have h2 : (m * ds.prod + j) % ds.prod = j := by
          rw [Nat.mul_comm, Nat.mul_add_mod, Nat.mod_eq_of_lt hj2]
        rw [h1, h2]
        simp only [bvUrem, hd0, if_false]
        rw [Nat.mod_eq_of_lt (by omega)]
    simpa [allIdxs] using key d (Nat.le_refl d)

theorem dense1D_ok (B : Nat) (ty : MType) (tensor_val : Nat → Nat) (elems : List Nat)
    (hne : elems ≠ []) (h32 : elems.length < 2 ^ 32) :
    Tensor.dense1D B ty tensor_val elems
      = .ok ⟨ty, [Index.ofUnsigned B elems.length],
        elems.enum.foldl (fun arr p => store arr (p.1 % 2 ^ B) p.2) tensor_val,
        fun _ => true⟩ := by
  unfold Tensor.dense1D
  rw [if_neg hne, if_neg (by omega)]

theorem dense1D_arr (B : Nat) (tensor_val : Nat → Nat) (elems : List Nat)
    (k : Nat) (hk : k < elems.length) (hB : elems.length ≤ 2 ^ B) :
    elems.enum.foldl (fun arr p => store arr (p.1 % 2 ^ B) p.2) tensor_val k
      = elems.getD k 0 := by
  have hmem : (k, elems.getD k 0) ∈ elems.enum := by
    rw [List.mk_mem_enum_iff_getElem?, List.getD_eq_getElem _ _ hk]
    exact List.getElem?_eq_getElem hk
  have hnd : (elems.enum.map (fun p => p.1 % 2 ^ B)).Nodup := by
    have e : elems.enum.map (fun p => p.1 % 2 ^ B) = List.range elems.length := by
      rw [List.enum_eq_zip_range]
      have h1 : ((List.range elems.length).zip elems).map (fun p => p.1 % 2 ^ B)
          = (((List.range elems.length).zip elems).map Prod.fst).map (fun i => i % 2 ^ B) := by
        rw [List.map_map]; rfl
      rw [h1, List.map_fst_zip _ _ (by simp)]
      calc (List.range elems.length).map (fun i => i % 2 ^ B)
          = (List.range elems.length).map id :=
            List.map_congr_left (fun i hi =>
              Nat.mod_eq_of_lt (by have := List.mem_range.mp hi; omega))
        _ = List.range elems.length := List.map_id _
    rw [e]
    exact List.nodup_range _
  have := store_foldl_hit (fun i => i % 2 ^ B) elems.enum tensor_val hnd _ hmem
  simp only [Nat.mod_eq_of_lt (by omega : k < 2 ^ B)] at this
  exact this

theorem asUInt64_cast (d : Nat) (h : d < 2 ^ 64) : asUInt64 (d : Int) = d := by
  unfold asUInt64
  rw [Int.emod_eq_of_lt (by positivity) (by exact_mod_cast h)]
  simp

theorem map_asUInt64_cast (dims : List Nat) (h : ∀ d ∈ dims, d < 2 ^ 64) :
    (dims.map Int.ofNat).map asUInt64 = dims := by
  rw [List.map_map]
  calc dims.map (asUInt64 ∘ Int.ofNat) = dims.map id :=
        List.map_congr_left (fun d hd => asUInt64_cast d (h d hd))
    _ = dims := List.map_id _

theorem map_dimExpr_cast (B : Nat) (dims : List Nat) (h32 : ∀ d ∈ dims, d < 2 ^ 32)
    (h : ∀ d ∈ dims, d < 2 ^ B) :
    (dims.map Int.ofNat).map (fun dsize => Index.ofUnsigned B dsize) = dims := by
  rw [List.map_map]
  calc dims.map ((fun dsize : Int => Index.ofUnsigned B dsize) ∘ Int.ofNat) = dims.map id :=
        List.map_congr_left (fun d hd => ofUnsigned_cast B d (h32 d hd) (h d hd))
    _ = dims := List.map_id _

theorem prod_map_cast (dims : List Nat) : (dims.map Int.ofNat).prod = (dims.prod : Int) := by
  induction dims with
  | nil => rfl
  | cons d ds ih => simp [ih]

theorem asInt64_of_lt (x : Int) (h0 : -2 ^ 63 ≤ x) (h1 : x < 2 ^ 63) : asInt64 x = x := by
  unfold asInt64
  rw [Int.emod_eq_of_lt (by omega) (by omega)]
  omega

theorem asInt64_mul_left (x y : Int) : asInt64 (asInt64 x * y) = asInt64 (x * y) := by
  unfold asInt64
  have h : ((x + 2 ^ 63) % 2 ^ 64 - 2 ^ 63) * y + 2 ^ 63
      = x * y + 2 ^ 63 - 2 ^ 64 * (((x + 2 ^ 63) / 2 ^ 64) * y) := by
    have e : (x + 2 ^ 63) % 2 ^ 64 = x + 2 ^ 63 - 2 ^ 64 * ((x + 2 ^ 63) / 2 ^ 64) := by omega
    rw [e]; ring
  rw [h, Int.sub_emod, Int.mul_emod_right, sub_zero, Int.emod_emod]

theorem asInt64_idem (x : Int) : asInt64 (asInt64 x) = asInt64 x := by
  have h := asInt64_mul_left x 1
  rwa [mul_one, mul_one] at h

theorem totalSizeInt64_fold (dims : List Int) (a : Int) (ha : asInt64 a = a) :
    dims.foldl (fun acc dsize => asInt64 (acc * dsize)) a = asInt64 (a * dims.prod) := by
  induction dims generalizing a with
  | nil => simp [ha]
  | cons d ds ih =>
    rw [List.foldl_cons, ih _ (asInt64_idem _), asInt64_mul_left, List.prod_cons, mul_assoc]

/-- The `int64_t` product of the dims is the two's complement value of their product. -/
theorem totalSizeInt64_eq (dims : List Int) : totalSizeInt64 dims = asInt64 dims.prod := by
  unfold totalSizeInt64
  rw [totalSizeInt64_fold dims 1 (by decide), one_mul]

/-- Below 2^63 the `int64_t` product of the dims is their product. -/
theorem totalSizeInt64_cast (dims : List Nat) (h : dims.prod < 2 ^ 63) :
    totalSizeInt64 (dims.map Int.ofNat) = (dims.prod : Int) := by
  rw [totalSizeInt64_eq, prod_map_cast]
  exact asInt64_of_lt _ (by omega) (by exact_mod_cast h)
/-- The dense branch of `fromElemsAttr` on a small attribute: the enumerated values
are stored in row-major order and the tensor reads them back. -/
theorem fromElemsAttr_small {α : Type} [DecidableEq α] (B : Nat) (fp : FpBackend)
    (ops : ElementsAttrOps α) (cfg : Config) (arrVars : String → Nat → Nat) (fuel : Nat)
    (tensor_val : Nat → Nat) (st : IngestState α) (tensorty : RankedTensorType) (attr : α)
    (dims : List Nat) (v : List Nat → Nat)
    (hk : ops.kind attr = .dense) (hs : ops.isSplat attr = false)
    (hshape : tensorty.shape = dims.map Int.ofNat) (hne : dims ≠ [])
    (hpos : ∀ d ∈ dims, 0 < d) (hstatic : ∀ d ∈ dims, (d : Int) ≠ cfg.kDynamic)
    (h64 : ∀ d ∈ dims, d < 2 ^ 64)
    (hsmall : ¬ (cfg.MAX_CONST_SIZE ≥ 0 ∧ (dims.prod : Int) > cfg.MAX_CONST_SIZE))
    (h32 : dims.prod < 2 ^ 32) (hB : dims.prod < 2 ^ B)
    (hval : ∀ idx, fitsInDims idx dims = true →
      attrExpr B fp (ops.getValues attr idx) = .ok (v idx))
    (hf : dims.prod < fuel) :
    ∃ T, Tensor.fromElemsAttr B fp ops cfg arrVars fuel tensor_val st tensorty attr
        = .ok (T, st) ∧
      T.elemType = tensorty.elemType ∧ T.dims = dims ∧ (∀ i, T.initialized i = true) ∧
      ∀ idx, fitsInDims idx dims = true → T.get B idx = v idx := by
  have hdB : ∀ d ∈ dims, d < 2 ^ B := mem_lt_of_prod_lt dims hpos _ hB
  have hd32 : ∀ d ∈ dims, d < 2 ^ 32 := mem_lt_of_prod_lt dims hpos _ h32
  have hany : tensorty.shape.any (fun dsize => decide (dsize = cfg.kDynamic)) = false := by
    rw [hshape, List.any_eq_false]
    intro x hx
    obtain ⟨d, hd, rfl⟩ := List.mem_map.mp hx
    simpa using hstatic d hd
  have hrank : tensorty.getRank ≠ 0 := by
    simp [RankedTensorType.getRank, hshape, hne]
  have hrank2 : tensorty.getRank = dims.length := by
    simp [RankedTensorType.getRank, hshape]
  have hsmall2 : ¬ (cfg.MAX_CONST_SIZE ≥ 0 ∧
      totalSizeInt64 tensorty.shape > cfg.MAX_CONST_SIZE) := by
    rw [hshape, totalSizeInt64_cast dims (lt_trans h32 (by norm_num))]; exact hsmall
  have hloop := enumLoop_spec B (fun idxND => attrExpr B fp (ops.getValues attr idxND)) v dims
    hne hpos hval fuel hf
  have hn : 0 < dims.prod := List.prod_pos hpos
  have hexne : (List.range dims.prod).map (fun k => v (from1DIdx B k dims)) ≠ [] := by
    intro e
    have := congrArg List.length e
    rw [List.length_map, List.length_range, List.length_nil] at this
    omega
  have hlen : 0 < dims.length := List.length_pos.mpr hne
  have hex32 : ((List.range dims.prod).map (fun k => v (from1DIdx B k dims))).length
      < 2 ^ 32 := by
    rw [List.length_map, List.length_range]
    exact h32
  refine ⟨⟨tensorty.elemType, dims,
    ((List.range dims.prod).map (fun k => v (from1DIdx B k dims))).enum.foldl
      (fun arr p => store arr (p.1 % 2 ^ B) p.2) tensor_val, fun _ => true⟩,
    ?_, rfl, rfl, fun _ => rfl, fun idx hin => ?_⟩
  · simp only [Tensor.fromElemsAttr, hk, hs, hany, Bool.false_eq_true, if_false, hsmall2, hrank]
    rw [hshape, map_asUInt64_cast dims h64, map_dimExpr_cast B dims hd32 hdB, hrank2, hloop]
    simp only [dense1D_ok B _ tensor_val _ hexne hex32, Tensor.reshape, hlen, if_true]
  · have hne2 : idx ≠ [] := by
      intro e
      have := fitsInDims_length idx dims hin
      rw [e] at this
      simp at this
      exact hne (List.length_eq_zero.mp this.symm)
    have hlt := to1DIdx_lt B idx dims hin hne2 (by omega)
    simp only [Tensor.get, Tensor.getRaw]
    rw [dense1D_arr B _ _ _ (by simpa using hlt) (by simp; omega)]
    rw [List.getD_eq_getElem _ _ (by simpa using hlt)]
    simp only [List.getElem_map, List.getElem_range]
    rw [from1DIdx_to1DIdx B idx dims hin (by omega)]

/-! ### Ingestion of small dense constants -/

theorem sampleAttrTerm_ok (a : Nat) (idx : List Nat) :
    attrExpr 64 sampleFp (sampleOps.getValues a idx) = .ok (sampleAttrTerm a idx) := rfl

/-- The dense branch of `fromElemsAttr` on a small attribute with `2 ^ 32` elements or
more: the enumeration returns, and the loop of the dense constructor, whose
counter is an `unsigned`, never ends. -/
theorem fromElemsAttr_hang {α : Type} [DecidableEq α] (B : Nat) (fp : FpBackend)
    (ops : ElementsAttrOps α) (cfg : Config) (arrVars : String → Nat → Nat) (fuel : Nat)
    (tensor_val : Nat → Nat) (st : IngestState α) (tensorty : RankedTensorType) (attr : α)
    (dims : List Nat) (v : List Nat → Nat)
    (hk : ops.kind attr = .dense) (hs : ops.isSplat attr = false)
    (hshape : tensorty.shape = dims.map Int.ofNat) (hne : dims ≠ [])
    (hpos : ∀ d ∈ dims, 0 < d) (hstatic : ∀ d ∈ dims, (d : Int) ≠ cfg.kDynamic)
    (h64 : ∀ d ∈ dims, d < 2 ^ 64)
    (hsmall : ¬ (cfg.MAX_CONST_SIZE ≥ 0 ∧
      totalSizeInt64 (dims.map Int.ofNat) > cfg.MAX_CONST_SIZE))
    (h32 : 2 ^ 32 ≤ dims.prod)
    (hval : ∀ idx, fitsInDims idx dims = true →
      attrExpr B fp (ops.getValues attr idx) = .ok (v idx))
    (hf : dims.prod < fuel) :
    Tensor.fromElemsAttr B fp ops cfg arrVars fuel tensor_val st tensorty attr
      = .error .outOfFuel := by
  have hany : tensorty.shape.any (fun dsize => decide (dsize = cfg.kDynamic)) = false := by
    rw [hshape, List.any_eq_false]
    intro x hx
    obtain ⟨d, hd, rfl⟩ := List.mem_map.mp hx
    simpa using hstatic d hd
  have hrank : tensorty.getRank ≠ 0 := by
    simp [RankedTensorType.getRank, hshape, hne]
  have hrank2 : tensorty.getRank = dims.length := by
    simp [RankedTensorType.getRank, hshape]
  have hsmall2 : ¬ (cfg.MAX_CONST_SIZE ≥ 0 ∧
      totalSizeInt64 tensorty.shape > cfg.MAX_CONST_SIZE) := by
    rw [hshape]; exact hsmall
  have hloop := enumLoop_spec B (fun idxND => attrExpr B fp (ops.getValues attr idxND)) v dims
    hne hpos hval fuel hf
  have hexne : (List.range dims.prod).map (fun k => v (from1DIdx B k dims)) ≠ [] := by
    intro e
    have := congrArg List.length e
    rw [List.length_map, List.length_range, List.length_nil] at this
    have : 0 < 2 ^ 32 := by positivity
    omega
  have hex32 : 2 ^ 32 ≤ ((List.range dims.prod).map (fun k => v (from1DIdx B k dims))).length := by
    rw [List.length_map, List.length_range]
    exact h32
  simp only [Tensor.fromElemsAttr, hk, hs, hany, Bool.false_eq_true, if_false, hsmall2, hrank]
  rw [hshape, map_asUInt64_cast dims h64, hrank2, hloop]
  simp only [Tensor.dense1D, hexne, if_false, hex32, if_true]

/-- C16 (amended): small dense ingestion is row-major.  For a dense attribute that is not
a splat, of rank at least one with static dims `dims` all at least one, a size not
over the threshold, below `2 ^ 32` and below `2 ^ B`, and elements that all have a
term (`v idx` at `idx`): with more fuel than `product(dims)` the enumeration loop
returns exactly `product(dims)` values, the values of the attribute at the index
vectors in row-major order, and `fromElemsAttr` returns a tensor with the dims of
the attribute, initialized everywhere, whose `get(idx)` is the value of the
attribute at `idx` for every in-bounds `idx`; the state is unchanged. -/
theorem C16_small_dense_row_major {α : Type} [DecidableEq α] (B : Nat) (fp : FpBackend)
    (ops : ElementsAttrOps α) (cfg : Config) (arrVars : String → Nat → Nat) (fuel : Nat)
    (tensor_val : Nat → Nat) (st : IngestState α) (tensorty : RankedTensorType) (attr : α)
    (dims : List Nat) (v : List Nat → Nat)
    (hk : ops.kind attr = .dense) (hs : ops.isSplat attr = false)
    (hshape : tensorty.shape = dims.map Int.ofNat) (hne : dims ≠ [])
    (hpos : ∀ d ∈ dims, 0 < d) (hstatic : ∀ d ∈ dims, (d : Int) ≠ cfg.kDynamic)
    (h64 : ∀ d ∈ dims, d < 2 ^ 64)
    (hsmall : ¬ (cfg.MAX_CONST_SIZE ≥ 0 ∧ (dims.prod : Int) > cfg.MAX_CONST_SIZE))
    (h32 : dims.prod < 2 ^ 32) (hB : dims.prod < 2 ^ B)
    (hval : ∀ idx, fitsInDims idx dims = true →
      attrExpr B fp (ops.getValues attr idx) = .ok (v idx))
    (hf : dims.prod < fuel) :
    enumLoop (fun idxND => attrExpr B fp (ops.getValues attr idxND)) dims fuel
        (List.replicate dims.length 0) [] = .ok ((allIdxs dims).map v) ∧
    ((allIdxs dims).map v).length = dims.prod ∧
    ∃ T, Tensor.fromElemsAttr B fp ops cfg arrVars fuel tensor_val st tensorty attr
        = .ok (T, st) ∧
      T.dims = dims ∧ (∀ i, T.initialized i = true) ∧
      ∀ idx, fitsInDims idx dims = true → T.get B idx = v idx := by
  refine ⟨?_, by rw [List.length_map, allIdxs_length], ?_⟩
  · rw [enumLoop_spec B _ v dims hne hpos hval fuel hf, ← range_map_from1DIdx B dims hpos,
      List.map_map]
    rfl
  · obtain ⟨T, hT, _, hd, hi, hg⟩ := fromElemsAttr_small B fp ops cfg arrVars fuel tensor_val
      st tensorty attr dims v hk hs hshape hne hpos hstatic h64 hsmall h32 hB hval hf
    exact ⟨T, hT, hd, hi, hg⟩

theorem C16_small_dense_row_major_witness :
    enumLoop (fun idxND => attrExpr 64 sampleFp (sampleOps.getValues 0 idxND)) [2, 3] 7
        (List.replicate 2 0) [] = .ok [0, 1, 2, 10, 11, 12] ∧
    ∃ T, Tensor.fromElemsAttr 64 sampleFp sampleOps sampleConfig sampleArrVars 7 (fun _ => 0)
        sampleState (sampleType 0) 0 = .ok (T, sampleState) ∧
      T.dims = [2, 3] ∧ T.get 64 [1, 2] = 12 := by
  obtain ⟨h1, _, T, hT, hd, _, hg⟩ := C16_small_dense_row_major 64 sampleFp sampleOps
    sampleConfig sampleArrVars 7 (fun _ => 0) sampleState (sampleType 0) 0 [2, 3]
    (sampleAttrTerm 0) rfl rfl rfl (by decide) (by decide) (by decide) (by decide) (by decide)
    (by decide) (by decide) (fun idx _ => sampleAttrTerm_ok 0 idx) (by decide)
  exact ⟨h1, T, hT, hd, hg [1, 2] (by decide)⟩

/-- C16 as stated fails: the sample attribute 4 is a dense attribute of rank one with
the static dim `2 ^ 32`, and with a negative `MAX_CONST_SIZE` its size is not over the
threshold.  The enumeration returns its `2 ^ 32` values, but the loop of the dense
constructor counts with an `unsigned`, which never reaches `2 ^ 32`, so that
`fromElemsAttr` returns no tensor. -/
theorem C16_small_dense_row_major_counterexample :
    sampleOps.kind 4 = .dense ∧ sampleOps.isSplat 4 = false ∧
    (sampleType 4).shape = [2 ^ 32] ∧
    ¬ (sampleConfigOff.MAX_CONST_SIZE ≥ 0 ∧
      ([2 ^ 32].prod : Int) > sampleConfigOff.MAX_CONST_SIZE) ∧
    enumLoop (fun idxND => attrExpr 64 sampleFp (sampleOps.getValues 4 idxND)) [2 ^ 32]
        (2 ^ 32 + 1) (List.replicate 1 0) [] = .ok ((allIdxs [2 ^ 32]).map (sampleAttrTerm 4)) ∧
    Tensor.fromElemsAttr 64 sampleFp sampleOps sampleConfigOff sampleArrVars (2 ^ 32 + 1)
        (fun _ => 0) sampleState (sampleType 4) 4 = .error .outOfFuel := by
  refine ⟨rfl, rfl, rfl, by decide, ?_, ?_⟩
  · have h := enumLoop_spec 64 (fun idxND => attrExpr 64 sampleFp (sampleOps.getValues 4 idxND))
      (sampleAttrTerm 4) [2 ^ 32] (by decide) (by decide)
      (fun idx _ => sampleAttrTerm_ok 4 idx) (2 ^ 32 + 1) (by decide)
    rw [← range_map_from1DIdx 64 [2 ^ 32] (by decide), List.map_map]
    exact h
  · exact fromElemsAttr_hang 64 sampleFp sampleOps sampleConfigOff sampleArrVars (2 ^ 32 + 1)
      (fun _ => 0) sampleState (sampleType 4) 4 [2 ^ 32] (sampleAttrTerm 4) rfl rfl
      (by decide) (by decide) (by decide) (by decide) (by decide) (by decide) (by decide)
      (fun idx _ => sampleAttrTerm_ok 4 idx) (by decide)

/-! ### The abstraction threshold -/

theorem lookupDense_append_miss {α : Type} [DecidableEq α] (B : Nat) (ops : ElementsAttrOps α)
    (attr : α) : ∀ (pre l : List (α × Tensor)), lookupDense B ops attr pre = none →
      lookupDense B ops attr (pre ++ l) = lookupDense B ops attr l
  | [], _, _ => rfl
  | (a, t) :: pre, l, h => by
    simp only [lookupDense, List.cons_append] at h ⊢
    split at h
    · cases h
    · split at h
      · cases h
      · split at h
        · cases h
        · next h1 h2 h3 =>
          rw [if_neg h1, if_neg h2, if_neg h3]
          exact lookupDense_append_miss B ops attr pre l h

theorem transposedAffine_get2 (B : Nat) (t : Tensor) (d0 d1 : Nat) (ht : t.dims = [d0, d1])
    (hfit : d1 * d0 ≤ 2 ^ B) :
    (transposedAffine B t).dims = [d1, d0] ∧
    ∀ i j : Nat, i < d1 → j < d0 →
      (transposedAffine B t).get B [i, j] = t.get B [j, i] := by
  have hdims : (transposedAffine B t).dims = [d1, d0] := by
    simp [transposedAffine, Tensor.affine, ht, List.range_succ]
  refine ⟨hdims, fun i j hi hj => ?_⟩
  have hrt := from1DIdx_to1DIdx B [i, j] [d1, d0] (fitsInDims_pair i j d1 d0 hi hj)
    (by simpa using hfit)
  simp only [Tensor.get, Tensor.getRaw, hdims]
  simp [transposedAffine, Tensor.affine, ht, List.range_succ, hrt, IdxExpr.substitute,
    IdxExpr.eval, Tensor.get, Tensor.getRaw]

theorem fitsInDims_triple (i j k d0 d1 d2 : Nat) (hi : i < d0) (hj : j < d1) (hk : k < d2) :
    fitsInDims [i, j, k] [d0, d1, d2] = true := by
  simp [fitsInDims, bvUlt, hi, hj, hk]

theorem fitsInDims_quad (i j k l d0 d1 d2 d3 : Nat) (hi : i < d0) (hj : j < d1) (hk : k < d2)
    (hl : l < d3) : fitsInDims [i, j, k, l] [d0, d1, d2, d3] = true := by
  simp [fitsInDims, bvUlt, hi, hj, hk, hl]

theorem transposedAffine_get3 (B : Nat) (t : Tensor) (d0 d1 d2 : Nat)
    (ht : t.dims = [d0, d1, d2]) (hfit : d1 * (d2 * d0) ≤ 2 ^ B) :
    (transposedAffine B t).dims = [d1, d2, d0] ∧
    ∀ i j k : Nat, i < d1 → j < d2 → k < d0 →
      (transposedAffine B t).get B [i, j, k] = t.get B [k, i, j] := by
  have hdims : (transposedAffine B t).dims = [d1, d2, d0] := by
    simp [transposedAffine, Tensor.affine, ht, List.range_succ]
  refine ⟨hdims, fun i j k hi hj hk => ?_⟩
  have hrt := from1DIdx_to1DIdx B [i, j, k] [d1, d2, d0]
    (fitsInDims_triple i j k d1 d2 d0 hi hj hk) (by simpa using hfit)
  simp only [Tensor.get, Tensor.getRaw, hdims]
  simp [transposedAffine, Tensor.affine, ht, List.range_succ, hrt, IdxExpr.substitute,
    IdxExpr.eval, Tensor.get, Tensor.getRaw]

theorem transposedAffine_get4 (B : Nat) (t : Tensor) (d0 d1 d2 d3 : Nat)
    (ht : t.dims = [d0, d1, d2, d3]) (hfit : d1 * (d2 * (d3 * d0)) ≤ 2 ^ B) :
    (transposedAffine B t).dims = [d1, d2, d3, d0] ∧
    ∀ i j k l : Nat, i < d1 → j < d2 → k < d3 → l < d0 →
      (transposedAffine B t).get B [i, j, k, l] = t.get B [l, i, j, k] := by
  have hdims : (transposedAffine B t).dims = [d1, d2, d3, d0] := by
    simp [transposedAffine, Tensor.affine, ht, List.range_succ]
  refine ⟨hdims, fun i j k l hi hj hk hl => ?_⟩
  have hrt := from1DIdx_to1DIdx B [i, j, k, l] [d1, d2, d3, d0]
    (fitsInDims_quad i j k l d1 d2 d3 d0 hi hj hk hl) (by simpa using hfit)
  simp only [Tensor.get, Tensor.getRaw, hdims]
  simp [transposedAffine, Tensor.affine, ht, List.range_succ, hrt, IdxExpr.substitute,
    IdxExpr.eval, Tensor.get, Tensor.getRaw]


theorem length_four_exists (l : List Nat) (h : l.length = 4) :
    ∃ a b c d, l = [a, b, c, d] :=
  ⟨_, _, _, _, list_eq_of_length_four l h⟩

theorem isTransposed_of {α : Type} (ops : ElementsAttrOps α) (attr a : α) (adims : List Nat)
    (e1 e2 : MType)
    (hrank : adims.length = 2 ∨ adims.length = 3 ∨ adims.length = 4)
    (hta : ops.getType a = some ⟨e2, adims.map Int.ofNat⟩)
    (htattr : ops.getType attr = some ⟨e1, (adims.tail ++ [adims.headD 0]).map Int.ofNat⟩)
    (h64 : ∀ d ∈ adims, d < 2 ^ 64)
    (hvals : ∀ idx, fitsInDims idx (adims.tail ++ [adims.headD 0]) = true →
      ops.getValues attr idx = ops.getValues a (idx.getLastD 0 :: idx.dropLast)) :
    isTransposed ops attr a = true := by
  rcases hrank with h | h | h
  · obtain ⟨d0, d1, rfl⟩ := List.length_eq_two.mp h
    have h0 := asUInt64_cast d0 (h64 d0 (by simp))
    have h1 := asUInt64_cast d1 (h64 d1 (by simp))
    simp only [isTransposed, hta, htattr, RankedTensorType.getRank,
      RankedTensorType.getDimSize, List.tail_cons, List.headD_cons, List.cons_append,
      List.nil_append, List.map_cons, List.map_nil, List.length_cons, List.length_nil,
      List.getD_cons_zero, List.getD_cons_succ, Int.ofNat_eq_coe, h0, h1, ne_eq,
      not_true_eq_false, or_self, if_false, if_true, List.all_eq_true, List.mem_range,
      decide_eq_true_eq, Nat.reduceAdd]
    intro i hi j hj
    exact hvals [i, j] (fitsInDims_pair i j d1 d0 hi hj)
  · obtain ⟨d0, d1, d2, rfl⟩ := List.length_eq_three.mp h
    have h0 := asUInt64_cast d0 (h64 d0 (by simp))
    have h1 := asUInt64_cast d1 (h64 d1 (by simp))
    have h2 := asUInt64_cast d2 (h64 d2 (by simp))
    simp only [isTransposed, hta, htattr, RankedTensorType.getRank,
      RankedTensorType.getDimSize, List.tail_cons, List.headD_cons, List.cons_append,
      List.nil_append, List.map_cons, List.map_nil, List.length_cons, List.length_nil,
      List.getD_cons_zero, List.getD_cons_succ, Int.ofNat_eq_coe, h0, h1, h2, ne_eq,
      not_true_eq_false, or_self, if_false, if_true, List.all_eq_true, List.mem_range,
      decide_eq_true_eq, Nat.reduceAdd, Nat.reduceEqDiff]
    intro i hi j hj k hk
    exact hvals [i, j, k] (fitsInDims_triple i j k d1 d2 d0 hi hj hk)
  · obtain ⟨d0, d1, d2, d3, rfl⟩ := length_four_exists adims h
    have h0 := asUInt64_cast d0 (h64 d0 (by simp))
    have h1 := asUInt64_cast d1 (h64 d1 (by simp))
    have h2 := asUInt64_cast d2 (h64 d2 (by simp))
    have h3 := asUInt64_cast d3 (h64 d3 (by simp))
    simp only [isTransposed, hta, htattr, RankedTensorType.getRank,
      RankedTensorType.getDimSize, List.tail_cons, List.headD_cons, List.cons_append,
      List.nil_append, List.map_cons, List.map_nil, List.length_cons, List.length_nil,
      List.getD_cons_zero, List.getD_cons_succ, Int.ofNat_eq_coe, h0, h1, h2, h3, ne_eq,
      not_true_eq_false, or_self, if_false, if_true, List.all_eq_true, List.mem_range,
      decide_eq_true_eq, Nat.reduceAdd, Nat.reduceEqDiff]
    intro i hi j hj k hk l hl
    exact hvals [i, j, k, l] (fitsInDims_quad i j k l d1 d2 d3 d0 hi hj hk hl)

theorem transposedAffine_get (B : Nat) (t : Tensor) (adims : List Nat)
    (hrank : adims.length = 2 ∨ adims.length = 3 ∨ adims.length = 4)
    (ht : t.dims = adims) (hB : adims.prod ≤ 2 ^ B) :
    (transposedAffine B t).dims = adims.tail ++ [adims.headD 0] ∧
    ∀ idx, fitsInDims idx (adims.tail ++ [adims.headD 0]) = true →
      (transposedAffine B t).get B idx = t.get B (idx.getLastD 0 :: idx.dropLast) := by
  rcases hrank with h | h | h
  · obtain ⟨d0, d1, rfl⟩ := List.length_eq_two.mp h
    have hfit : d1 * d0 ≤ 2 ^ B := by
      have e : [d0, d1].prod = d1 * d0 := by simp [Nat.mul_comm]
      omega
    obtain ⟨hd, hg⟩ := transposedAffine_get2 B t d0 d1 ht hfit
    refine ⟨hd, fun idx hin => ?_⟩
    obtain ⟨i, j, rfl⟩ := List.length_eq_two.mp (fitsInDims_length idx _ hin)
    have hin2 : fitsInDims [i, j] [d1, d0] = true := hin
    rw [fitsInDims_cons, fitsInDims_cons] at hin2
    exact hg i j hin2.1 hin2.2.1
  · obtain ⟨d0, d1, d2, rfl⟩ := List.length_eq_three.mp h
    have hfit : d1 * (d2 * d0) ≤ 2 ^ B := by
      have e : [d0, d1, d2].prod = d1 * (d2 * d0) := by simp; ring
      omega
    obtain ⟨hd, hg⟩ := transposedAffine_get3 B t d0 d1 d2 ht hfit
    refine ⟨hd, fun idx hin => ?_⟩
    obtain ⟨i, j, k, rfl⟩ := List.length_eq_three.mp (fitsInDims_length idx _ hin)
    have hin2 : fitsInDims [i, j, k] [d1, d2, d0] = true := hin
    rw [fitsInDims_cons, fitsInDims_cons, fitsInDims_cons] at hin2
    exact hg i j k hin2.1 hin2.2.1 hin2.2.2.1
  · obtain ⟨d0, d1, d2, d3, rfl⟩ := length_four_exists adims h
    have hfit : d1 * (d2 * (d3 * d0)) ≤ 2 ^ B := by
      have e : [d0, d1, d2, d3].prod = d1 * (d2 * (d3 * d0)) := by simp; ring
      omega
    obtain ⟨hd, hg⟩ := transposedAffine_get4 B t d0 d1 d2 d3 ht hfit
    refine ⟨hd, fun idx hin => ?_⟩
    obtain ⟨i, j, k, l, rfl⟩ := length_four_exists idx (fitsInDims_length idx _ hin)
    have hin2 : fitsInDims [i, j, k, l] [d1, d2, d3, d0] = true := hin
    rw [fitsInDims_cons, fitsInDims_cons, fitsInDims_cons, fitsInDims_cons] at hin2
    exact hg i j k l hin2.1 hin2.2.1 hin2.2.2.1 hin2.2.2.2.1

/-- The dense branch of `fromElemsAttr` on an attribute over the threshold that is the
transposed attribute of a cached one, with no match before: the result is the
rotated view of the cached tensor and the state is unchanged. -/
theorem fromElemsAttr_transposed {α : Type} [DecidableEq α] (B : Nat) (fp : FpBackend)
    (ops : ElementsAttrOps α) (cfg : Config) (arrVars : String → Nat → Nat) (fuel : Nat)
    (tensor_val : Nat → Nat) (st : IngestState α) (tensorty : RankedTensorType) (attr a : α)
    (t : Tensor) (pre post : List (α × Tensor)) (adims : List Nat) (e1 e2 : MType)
    (hk : ops.kind attr = .dense) (hs : ops.isSplat attr = false)
    (hstatic : tensorty.shape.any (fun dsize => decide (dsize = cfg.kDynamic)) = false)
    (hbig : cfg.MAX_CONST_SIZE ≥ 0 ∧ totalSizeInt64 tensorty.shape > cfg.MAX_CONST_SIZE)
    (hcache : st.abstractlyEncodedAttrs = pre ++ (a, t) :: post)
    (hpre : lookupDense B ops attr pre = none)
    (hnew : a ≠ attr)
    (hrank : adims.length = 2 ∨ adims.length = 3 ∨ adims.length = 4)
    (hta : ops.getType a = some ⟨e2, adims.map Int.ofNat⟩)
    (htattr : ops.getType attr = some ⟨e1, (adims.tail ++ [adims.headD 0]).map Int.ofNat⟩)
    (h64 : ∀ d ∈ adims, d < 2 ^ 64)
    (hvals : ∀ idx, fitsInDims idx (adims.tail ++ [adims.headD 0]) = true →
      ops.getValues attr idx = ops.getValues a (idx.getLastD 0 :: idx.dropLast)) :
    Tensor.fromElemsAttr B fp ops cfg arrVars fuel tensor_val st tensorty attr
      = .ok (transposedAffine B t, st) := by
  have hlook : lookupDense B ops attr st.abstractlyEncodedAttrs
      = some (transposedAffine B t) := by
    rw [hcache, lookupDense_append_miss B ops attr pre _ hpre]
    simp only [lookupDense, if_neg hnew,
      isTransposed_of ops attr a adims e1 e2 hrank hta htattr h64 hvals, if_true]
  simp only [Tensor.fromElemsAttr, hk, hs, hstatic, Bool.false_eq_true, if_false, hbig,
    and_self, if_true, hlook]

/-- C15 (amended): the transposed constant.  The cache holds `(a, t)` with `t` of the dims
`adims` of `a`, of rank 2, 3 or 4 and a product of at most `2 ^ B`; no entry before it
matches the dense attribute `attr`, which is over the threshold (`MAX_CONST_SIZE >= 0`
and the product of its dims taken in `int64_t` is above `MAX_CONST_SIZE`), is not `a`
itself, has the dims of `a` rotated by one (`d_2, .., d_N, d_1`) and satisfies
`attr[i_1, .., i_N] = a[i_N, i_1, .., i_N-1]` at every index within its dims.  Then
`fromElemsAttr` returns a tensor `T` with the dims of `attr` and
`T.get(i_1, .., i_N) = t.get(i_N, i_1, .., i_N-1)` at every in-bounds index, and leaves
the state unchanged. -/
theorem C15_transposed_constant {α : Type} [DecidableEq α] (B : Nat) (fp : FpBackend)
    (ops : ElementsAttrOps α) (cfg : Config) (arrVars : String → Nat → Nat) (fuel : Nat)
    (tensor_val : Nat → Nat) (st : IngestState α) (tensorty : RankedTensorType) (attr a : α)
    (t : Tensor) (pre post : List (α × Tensor)) (adims : List Nat) (e1 e2 : MType)
    (hk : ops.kind attr = .dense) (hs : ops.isSplat attr = false)
    (hstatic : tensorty.shape.any (fun dsize => decide (dsize = cfg.kDynamic)) = false)
    (hbig : cfg.MAX_CONST_SIZE ≥ 0 ∧ totalSizeInt64 tensorty.shape > cfg.MAX_CONST_SIZE)
    (hcache : st.abstractlyEncodedAttrs = pre ++ (a, t) :: post)
    (hpre : lookupDense B ops attr pre = none)
    (hnew : a ≠ attr)
    (hrank : adims.length = 2 ∨ adims.length = 3 ∨ adims.length = 4)
    (hta : ops.getType a = some ⟨e2, adims.map Int.ofNat⟩)
    (htattr : ops.getType attr = some ⟨e1, (adims.tail ++ [adims.headD 0]).map Int.ofNat⟩)
    (h64 : ∀ d ∈ adims, d < 2 ^ 64)
    (hvals : ∀ idx, fitsInDims idx (adims.tail ++ [adims.headD 0]) = true →
      ops.getValues attr idx = ops.getValues a (idx.getLastD 0 :: idx.dropLast))
    (ht : t.dims = adims) (hB : adims.prod ≤ 2 ^ B) :
    ∃ T, Tensor.fromElemsAttr B fp ops cfg arrVars fuel tensor_val st tensorty attr
        = .ok (T, st) ∧
      T.dims = adims.tail ++ [adims.headD 0] ∧
      ∀ idx, fitsInDims idx T.dims = true →
        T.get B idx = t.get B (idx.getLastD 0 :: idx.dropLast) := by
  obtain ⟨hd, hg⟩ := transposedAffine_get B t adims hrank ht hB
  exact ⟨transposedAffine B t,
    fromElemsAttr_transposed B fp ops cfg arrVars fuel tensor_val st tensorty attr a t pre
      post adims e1 e2 hk hs hstatic hbig hcache hpre hnew hrank hta htattr h64 hvals,
    hd, fun idx hin => hg idx (by rw [← hd]; exact hin)⟩

theorem sample_transposed_values (idx : List Nat) (h : fitsInDims idx [3, 2] = true) :
    sampleOps.getValues 6 idx = sampleOps.getValues 0 (idx.getLastD 0 :: idx.dropLast) := by
  obtain ⟨i, j, rfl⟩ := List.length_eq_two.mp (fitsInDims_length idx _ h)
  rfl

theorem C15_transposed_constant_witness :
    ∃ T, Tensor.fromElemsAttr 64 sampleFp sampleOps sampleConfigTiny sampleArrVars 0
        (fun _ => 0) ⟨[(0, sample23)], 1, 0⟩ (sampleType 6) 6
        = .ok (T, ⟨[(0, sample23)], 1, 0⟩) ∧
      T.dims = [3, 2] ∧ T.get 64 [2, 1] = sample23.get 64 [1, 2] := by
  obtain ⟨T, hT, hd, hg⟩ := C15_transposed_constant 64 sampleFp sampleOps sampleConfigTiny
    sampleArrVars 0 (fun _ => 0) ⟨[(0, sample23)], 1, 0⟩ (sampleType 6) 6 0 sample23 [] []
    [2, 3] (.integerTy 32) (.integerTy 32) rfl rfl rfl (by decide) rfl rfl (by decide)
    (by decide) rfl rfl (by decide) sample_transposed_values rfl (by decide)
  exact ⟨T, hT, hd, hg [2, 1] (by rw [hd]; decide)⟩

theorem sampleLarge_values2 (idx : List Nat)
    (h : fitsInDims idx (([4, 2 ^ 30 + 1] : List Nat).tail ++ [([4, 2 ^ 30 + 1] : List Nat).headD 0])
      = true) :
    sampleLargeOps.getValues 2 idx
      = sampleLargeOps.getValues 1 (idx.getLastD 0 :: idx.dropLast) := by
  obtain ⟨i, j, rfl⟩ := List.length_eq_two.mp (fitsInDims_length idx _ h)
  rfl

theorem sampleLarge_values4 (idx : List Nat)
    (h : fitsInDims idx (([4, 2 ^ 31, 2 ^ 31 + 1] : List Nat).tail
      ++ [([4, 2 ^ 31, 2 ^ 31 + 1] : List Nat).headD 0]) = true) :
    sampleLargeOps.getValues 4 idx
      = sampleLargeOps.getValues 3 (idx.getLastD 0 :: idx.dropLast) := by
  obtain ⟨i, j, k, rfl⟩ := List.length_eq_three.mp (fitsInDims_length idx _ h)
  rfl

theorem sampleLarge_first :
    Tensor.fromElemsAttr 32 sampleFp sampleLargeOps sampleConfig sampleArrVars 0
        (fun _ => 0) sampleState (sampleLargeType 1) 1
      = .ok (sampleLargeCached, ⟨[(1, sampleLargeCached)], 1, 0⟩) := by
  have h63 : totalSizeInt64 (sampleLargeType 1).shape = 2 ^ 32 + 4 := by decide
  have hk : sampleLargeOps.kind 1 = .dense := rfl
  have hs : sampleLargeOps.isSplat 1 = false := rfl
  have hany : (sampleLargeType 1).shape.any
      (fun dsize => decide (dsize = sampleConfig.kDynamic)) = false := by decide
  have hbig : sampleConfig.MAX_CONST_SIZE ≥ 0 ∧
      totalSizeInt64 (sampleLargeType 1).shape > sampleConfig.MAX_CONST_SIZE := by
    rw [h63]; decide
  have hdims : (sampleLargeType 1).shape.map (fun dsize => Index.ofUnsigned 32 dsize)
      = [4, 2 ^ 30 + 1] := by decide
  simp only [Tensor.fromElemsAttr, hk, hs, hany, Bool.false_eq_true, if_false, hbig,
    and_self, if_true, hdims]
  rfl

theorem sampleLarge_first3 :
    Tensor.fromElemsAttr 64 sampleFp sampleLargeOps sampleConfig sampleArrVars 0
        (fun _ => 0) sampleState (sampleLargeType 3) 3
      = .ok (sampleLargeCached3, ⟨[(3, sampleLargeCached3)], 1, 0⟩) := by
  have h63 : totalSizeInt64 (sampleLargeType 3).shape = 2 ^ 33 := by decide
  have hk : sampleLargeOps.kind 3 = .dense := rfl
  have hs : sampleLargeOps.isSplat 3 = false := rfl
  have hany : (sampleLargeType 3).shape.any
      (fun dsize => decide (dsize = sampleConfig.kDynamic)) = false := by decide
  have hbig : sampleConfig.MAX_CONST_SIZE ≥ 0 ∧
      totalSizeInt64 (sampleLargeType 3).shape > sampleConfig.MAX_CONST_SIZE := by
    rw [h63]; decide
  have hdims : (sampleLargeType 3).shape.map (fun dsize => Index.ofUnsigned 64 dsize)
      = [4, 2 ^ 31, 2 ^ 31 + 1] := by decide
  simp only [Tensor.fromElemsAttr, hk, hs, hany, Bool.false_eq_true, if_false, hbig,
    and_self, if_true, hdims]
  rfl

/-- C15 as stated fails for dims whose product exceeds `2 ^ BITS`.  With `BITS = 32` and
`MAX_CONST_SIZE = 100`: the sample attribute 1 is a dense `4 x (2^30 + 1)` attribute whose
element at `[i, j]` is `i`; ingested from the empty cache it is encoded as the
variable `unknown_const#0` `t` of its dims, and the cache holds `(1, t)`.  The sample
attribute 2 is a new dense attribute of rank 2, of dims `(2^30 + 1) x 4`, over the
threshold, with `attr[i, j] = a[j, i]` at every index within its dims.  Its
ingestion returns the rotated view `T` of `t` with the dims of the attribute and
leaves the state unchanged, but at the in-bounds index `[2^30, 0]` the offset
`2^30 * 4` is `2^32`, which is `0` in 32 bits: `T.get(2^30, 0)` is `t.get(0, 0) = 15`, not
`t.get(0, 2^30) = 15 + 2^30`.  With `BITS = 64` the same happens at rank 3 for the sample
attributes 3, of dims `4 x 2^31 x (2^31 + 1)`, and 4, of dims `2^31 x (2^31 + 1) x 4`, at
the in-bounds index `[2^31 - 1, 1, 0]`. -/
theorem C15_transposed_constant_counterexample :
    (Tensor.fromElemsAttr 32 sampleFp sampleLargeOps sampleConfig sampleArrVars 0
        (fun _ => 0) sampleState (sampleLargeType 1) 1
      = .ok (sampleLargeCached, ⟨[(1, sampleLargeCached)], 1, 0⟩) ∧
    sampleLargeCached.dims = [4, 2 ^ 30 + 1] ∧
    (sampleLargeType 1).shape = [4, 2 ^ 30 + 1] ∧
    (sampleLargeType 2).shape = [2 ^ 30 + 1, 4] ∧
    sampleLargeOps.kind 2 = .dense ∧ sampleLargeOps.isSplat 2 = false ∧
    (sampleConfig.MAX_CONST_SIZE ≥ 0 ∧
      (sampleLargeType 2).shape.prod > sampleConfig.MAX_CONST_SIZE ∧
      totalSizeInt64 (sampleLargeType 2).shape > sampleConfig.MAX_CONST_SIZE) ∧
    (∀ i j, i < 2 ^ 30 + 1 → j < 4 →
      sampleLargeOps.getValues 2 [i, j] = sampleLargeOps.getValues 1 [j, i]) ∧
    Tensor.fromElemsAttr 32 sampleFp sampleLargeOps sampleConfig sampleArrVars 0
        (fun _ => 0) ⟨[(1, sampleLargeCached)], 1, 0⟩ (sampleLargeType 2) 2
      = .ok (transposedAffine 32 sampleLargeCached, ⟨[(1, sampleLargeCached)], 1, 0⟩) ∧
    (transposedAffine 32 sampleLargeCached).dims = [2 ^ 30 + 1, 4] ∧
    fitsInDims [2 ^ 30, 0] [2 ^ 30 + 1, 4] = true ∧
    (transposedAffine 32 sampleLargeCached).get 32 [2 ^ 30, 0] = 15 ∧
    sampleLargeCached.get 32 [0, 2 ^ 30] = 15 + 2 ^ 30) ∧
    (Tensor.fromElemsAttr 64 sampleFp sampleLargeOps sampleConfig sampleArrVars 0
        (fun _ => 0) sampleState (sampleLargeType 3) 3
      = .ok (sampleLargeCached3, ⟨[(3, sampleLargeCached3)], 1, 0⟩) ∧
    sampleLargeCached3.dims = [4, 2 ^ 31, 2 ^ 31 + 1] ∧
    (sampleLargeType 3).shape = [4, 2 ^ 31, 2 ^ 31 + 1] ∧
    (sampleLargeType 4).shape = [2 ^ 31, 2 ^ 31 + 1, 4] ∧
    sampleLargeOps.kind 4 = .dense ∧ sampleLargeOps.isSplat 4 = false ∧
    (sampleConfig.MAX_CONST_SIZE ≥ 0 ∧
      (sampleLargeType 4).shape.prod > sampleConfig.MAX_CONST_SIZE ∧
      totalSizeInt64 (sampleLargeType 4).shape > sampleConfig.MAX_CONST_SIZE) ∧
    (∀ i j k, i < 2 ^ 31 → j < 2 ^ 31 + 1 → k < 4 →
      sampleLargeOps.getValues 4 [i, j, k] = sampleLargeOps.getValues 3 [k, i, j]) ∧
    Tensor.fromElemsAttr 64 sampleFp sampleLargeOps sampleConfig sampleArrVars 0
        (fun _ => 0) ⟨[(3, sampleLargeCached3)], 1, 0⟩ (sampleLargeType 4) 4
      = .ok (transposedAffine 64 sampleLargeCached3, ⟨[(3, sampleLargeCached3)], 1, 0⟩) ∧
    (transposedAffine 64 sampleLargeCached3).dims = [2 ^ 31, 2 ^ 31 + 1, 4] ∧
    fitsInDims [2 ^ 31 - 1, 1, 0] [2 ^ 31, 2 ^ 31 + 1, 4] = true ∧
    (transposedAffine 64 sampleLargeCached3).get 64 [2 ^ 31 - 1, 1, 0] = 15 ∧
    sampleLargeCached3.get 64 [0, 2 ^ 31 - 1, 1] = 15 + 2 ^ 62) := by
  refine ⟨⟨sampleLarge_first, rfl, rfl, rfl, rfl, rfl, by decide, fun i j _ _ => rfl, ?_, rfl,
    by decide, by decide, by decide⟩,
    ⟨sampleLarge_first3, rfl, rfl, rfl, rfl, rfl, by decide, fun i j k _ _ _ => rfl, ?_, rfl,
    by decide, by decide, by decide⟩⟩
  · exact fromElemsAttr_transposed 32 sampleFp sampleLargeOps sampleConfig sampleArrVars 0
      (fun _ => 0) ⟨[(1, sampleLargeCached)], 1, 0⟩ (sampleLargeType 2) 2 1 sampleLargeCached
      [] [] [4, 2 ^ 30 + 1] (.integerTy 32) (.integerTy 32) rfl rfl (by decide) (by decide)
      rfl rfl (by decide) (by decide) (by simp [sampleLargeOps, sampleLargeShape])
      (by simp [sampleLargeOps, sampleLargeShape]) (by decide) sampleLarge_values2
  · exact fromElemsAttr_transposed 64 sampleFp sampleLargeOps sampleConfig sampleArrVars 0
      (fun _ => 0) ⟨[(3, sampleLargeCached3)], 1, 0⟩ (sampleLargeType 4) 4 3
      sampleLargeCached3 [] [] [4, 2 ^ 31, 2 ^ 31 + 1] (.integerTy 32) (.integerTy 32) rfl rfl
      (by decide) (by decide) rfl rfl (by decide) (by decide)
      (by simp [sampleLargeOps, sampleLargeShape])
      (by simp [sampleLargeOps, sampleLargeShape]) (by decide) sampleLarge_values4

/-! ### Stability of the abstraction cache -/

theorem lookupDense_append_hit {α : Type} [DecidableEq α] (B : Nat) (ops : ElementsAttrOps α)
    (attr : α) (t : Tensor) : ∀ (l ext : List (α × Tensor)), lookupDense B ops attr l = some t →
      lookupDense B ops attr (l ++ ext) = some t
  | [], _, h => by simp [lookupDense] at h
  | (a, u) :: l, ext, h => by
    simp only [lookupDense, List.cons_append] at h ⊢
    split
    · next h1 => rw [if_pos h1] at h; exact h
    · next h1 =>
      rw [if_neg h1] at h
      split
      · next h2 => rw [if_pos h2] at h; exact h
      · next h2 =>
        rw [if_neg h2] at h
        split
        · next h3 => rw [if_pos h3] at h; exact h
        · next h3 =>
          rw [if_neg h3] at h
          exact lookupDense_append_hit B ops attr t l ext h

theorem lookupSparse_append_hit {α : Type} [DecidableEq α] (attr : α) (t : Tensor) :
    ∀ (l ext : List (α × Tensor)), lookupSparse attr l = some t →
      lookupSparse attr (l ++ ext) = some t
  | [], _, h => by simp [lookupSparse] at h
  | (a, u) :: l, ext, h => by
    simp only [lookupSparse, List.cons_append] at h ⊢
    split
    · next h1 => rw [if_pos h1] at h; exact h
    · next h1 =>
      rw [if_neg h1] at h
      exact lookupSparse_append_hit attr t l ext h

theorem lookupSparse_append_miss {α : Type} [DecidableEq α] (attr : α) :
    ∀ (pre l : List (α × Tensor)), lookupSparse attr pre = none →
      lookupSparse attr (pre ++ l) = lookupSparse attr l
  | [], _, _ => rfl
  | (a, t) :: pre, l, h => by
    simp only [lookupSparse, List.cons_append] at h ⊢
    split at h
    · cases h
    · next h1 =>
      rw [if_neg h1]
      exact lookupSparse_append_miss attr pre l h

theorem lookupDense_ok {α : Type} [DecidableEq α] (B : Nat) (ops : ElementsAttrOps α)
    (attr : α) (t : Tensor) : ∀ (l : List (α × Tensor)),
    (∀ e ∈ l, (∀ i, e.2.initialized i = true) ∧ e.2.elemType ≠ .otherTy) →
    lookupDense B ops attr l = some t →
    (∀ i, t.initialized i = true) ∧ t.elemType ≠ .otherTy
  | [], _, h => by simp [lookupDense] at h
  | (a, u) :: l, hl, h => by
    have hu := hl (a, u) (by simp)
    simp only [lookupDense] at h
    split at h
    · cases h; exact hu
    · split at h
      · cases h; exact ⟨fun _ => rfl, hu.2⟩
      · split at h
        · cases h; exact ⟨fun _ => rfl, hu.2⟩
        · exact lookupDense_ok B ops attr t l (fun e he => hl e (by simp [he])) h

theorem lookupSparse_ok {α : Type} [DecidableEq α] (attr : α) (t : Tensor) :
    ∀ (l : List (α × Tensor)),
    (∀ e ∈ l, (∀ i, e.2.initialized i = true) ∧ e.2.elemType ≠ .otherTy) →
    lookupSparse attr l = some t →
    (∀ i, t.initialized i = true) ∧ t.elemType ≠ .otherTy
  | [], _, h => by simp [lookupSparse] at h
  | (a, u) :: l, hl, h => by
    have hu := hl (a, u) (by simp)
    simp only [lookupSparse] at h
    split at h
    · cases h; exact hu
    · exact lookupSparse_ok attr t l (fun e he => hl e (by simp [he])) h

theorem var_ok (B : Nat) (arrVars : String → Nat → Nat) (ty : MType) (name : String)
    (dims : List Nat) (init : Bool) (t : Tensor)
    (h : Tensor.var B arrVars ty name dims init = .ok t) :
    t = ⟨ty, dims, arrVars name, fun _ => init⟩ ∧ ty ≠ .otherTy := by
  unfold Tensor.var at h
  split at h
  · cases h
  · next hc =>
    cases h
    refine ⟨rfl, ?_⟩
    intro e
    rw [e] at hc
    exact hc rfl

/-- A call of `fromElemsAttr` that returns leaves the state as it is or appends one
entry, the attribute with a fresh variable, to the cache. -/
theorem fromElemsAttr_state {α : Type} [DecidableEq α] (B : Nat) (fp : FpBackend)
    (ops : ElementsAttrOps α) (cfg : Config) (arrVars : String → Nat → Nat) (fuel : Nat)
    (tensor_val : Nat → Nat) (s s1 : IngestState α) (tensorty : RankedTensorType) (attr : α)
    (t : Tensor)
    (h : Tensor.fromElemsAttr B fp ops cfg arrVars fuel tensor_val s tensorty attr
      = .ok (t, s1)) :
    s1 = s ∨
    (s1.abstractlyEncodedAttrs = s.abstractlyEncodedAttrs ++ [(attr, t)] ∧
      (∀ i, t.initialized i = cfg.varInitialized) ∧ t.elemType ≠ .otherTy) := by
  unfold Tensor.fromElemsAttr at h
  simp only [] at h
  split at h
  · split at h
    · split at h
      · split at h
        · cases h; left; rfl
        · cases h
      · cases h
    · split at h
      · cases h
      · split at h
        · split at h
          · cases h; left; rfl
          · split at h
            · next newt hv =>
              obtain ⟨hn, hp⟩ := var_ok _ _ _ _ _ _ _ hv
              cases h
              right
              exact ⟨rfl, fun i => by rw [hn], by rw [hn]; exact hp⟩
            · cases h
        · split at h
          · cases h
          · split at h
            · split at h
              · split at h
                · cases h; left; rfl
                · cases h
              · cases h
            · cases h
  · split at h
    · split at h
      · cases h; left; rfl
      · split at h
        · next newt hv =>
          obtain ⟨hn, hp⟩ := var_ok _ _ _ _ _ _ _ hv
          cases h
          right
          exact ⟨rfl, fun i => by rw [hn], by rw [hn]; exact hp⟩
        · cases h
    · split at h
      · cases h
      · split at h
        · split at h
          · split at h
            · cases h; left; rfl
            · cases h
          · cases h
        · cases h
  · cases h

theorem ingested_extends {α : Type} [DecidableEq α] (B : Nat) (fp : FpBackend)
    (ops : ElementsAttrOps α) (cfg : Config) (arrVars : String → Nat → Nat)
    (s s1 : IngestState α) (h : Ingested B fp ops cfg arrVars s s1) :
    ∃ ext, s1.abstractlyEncodedAttrs = s.abstractlyEncodedAttrs ++ ext := by
  induction h with
  | refl => exact ⟨[], by simp⟩
  | step fuel tv ty a t _ hc ih =>
    obtain ⟨ext, he⟩ := ih
    rcases fromElemsAttr_state B fp ops cfg arrVars fuel tv _ _ ty a t hc with h1 | h1
    · exact ⟨ext, by rw [h1, he]⟩
    · exact ⟨ext ++ [(a, t)], by rw [h1.1, he, List.append_assoc]⟩

theorem ingested_ok {α : Type} [DecidableEq α] (B : Nat) (fp : FpBackend)
    (ops : ElementsAttrOps α) (cfg : Config) (arrVars : String → Nat → Nat)
    (hinit : cfg.varInitialized = true)
    (s s1 : IngestState α) (h : Ingested B fp ops cfg arrVars s s1) (hs : CacheOk s) :
    CacheOk s1 := by
  induction h with
  | refl => exact hs
  | step fuel tv ty a t _ hc ih =>
    rcases fromElemsAttr_state B fp ops cfg arrVars fuel tv _ _ ty a t hc with h1 | h1
    · rw [h1]; exact ih
    · intro e he
      rw [h1.1, List.mem_append] at he
      rcases he with he | he
      · exact ih e he
      · simp only [List.mem_singleton] at he
        rw [he]
        exact ⟨fun i => by rw [h1.2.1 i, hinit], h1.2.2⟩

theorem enumLoop_step (dims S ex : List Nat) :
    ∃ (b : Bool) (S1 : List Nat), ∀ (gv : List Nat → Except Err Nat) (f : Nat),
      enumLoop gv dims (f + 1) S ex =
        if b = true then .ok ex
        else if fitsInDims S1 dims = true then
          match gv S1 with
          | .ok e => enumLoop gv dims f (incLast S1) (ex ++ [e])
          | .error err => .error err
        else .error .assertion :=
  ⟨_, _, fun _ _ => rfl⟩

theorem enumLoop_det (gv : List Nat → Except Err Nat) (dims : List Nat) :
    ∀ (f1 f2 : Nat) (S ex r1 r2 : List Nat), enumLoop gv dims f1 S ex = .ok r1 →
      enumLoop gv dims f2 S ex = .ok r2 → r1 = r2 := by
  intro f1
  induction f1 with
  | zero => intro f2 S ex r1 r2 h1 _; simp [enumLoop] at h1
  | succ f1 ih =>
    intro f2 S ex r1 r2 h1 h2
    cases f2 with
    | zero => simp [enumLoop] at h2
    | succ f2 =>
      obtain ⟨b, S1, hstep⟩ := enumLoop_step dims S ex
      rw [hstep] at h1 h2
      cases b with
      | true =>
        simp only [if_true] at h1 h2
        cases h1; cases h2; rfl
      | false =>
        simp only [Bool.false_eq_true, if_false] at h1 h2
        by_cases hfit : fitsInDims S1 dims = true
        · rw [if_pos hfit] at h1 h2
          cases hg : gv S1 with
          | ok e =>
            rw [hg] at h1 h2
            exact ih f2 _ _ r1 r2 h1 h2
          | error err =>
            rw [hg] at h1
            cases h1
        · rw [if_neg hfit] at h1
          cases h1

/-- A run of the enumeration loop that returns is also a run of the loop on the
attribute whose unreadable elements are replaced by zero. -/
theorem enumLoop_total (gv : List Nat → Except Err Nat) (dims : List Nat) :
    ∀ (f : Nat) (S ex r : List Nat), enumLoop gv dims f S ex = .ok r →
      enumLoop (fun idx => .ok (match gv idx with | .ok e => e | .error _ => 0)) dims f S ex
        = .ok r := by
  intro f
  induction f with
  | zero => intro S ex r h; simp [enumLoop] at h
  | succ f ih =>
    intro S ex r h
    obtain ⟨b, S1, hstep⟩ := enumLoop_step dims S ex
    rw [hstep] at h ⊢
    cases b with
    | true => exact h
    | false =>
      simp only [Bool.false_eq_true, if_false] at h ⊢
      by_cases hfit : fitsInDims S1 dims = true
      · rw [if_pos hfit] at h ⊢
        cases hg : gv S1 with
        | ok e =>
          rw [hg] at h
          simp only []
          exact ih _ _ r h
        | error err =>
          rw [hg] at h
          cases h
      · rw [if_neg hfit] at h
        cases h

theorem enumLoop_pos (gv : List Nat → Except Err Nat) (dims : List Nat) (f : Nat)
    (r : List Nat) (h : enumLoop gv dims f (List.replicate dims.length 0) [] = .ok r)
    (hr : r ≠ []) : ∀ d ∈ dims, 0 < d := by
  cases f with
  | zero => simp [enumLoop] at h
  | succ f =>
    obtain ⟨b, S1, hstep⟩ := enumLoop_step dims (List.replicate dims.length 0) []
    rw [hstep] at h
    cases b with
    | true =>
      simp only [if_true] at h
      cases h
      exact absurd rfl hr
    | false =>
      simp only [Bool.false_eq_true, if_false] at h
      by_cases hfit : fitsInDims S1 dims = true
      · exact fitsInDims_pos _ dims hfit
      · rw [if_neg hfit] at h
        cases h

/-- A run of the enumeration loop that returns a value at all returns as many values
as the product of the dims, which are all positive. -/
theorem enumLoop_length (gv : List Nat → Except Err Nat) (dims : List Nat) (f : Nat)
    (r : List Nat) (hne : dims ≠ [])
    (h : enumLoop gv dims f (List.replicate dims.length 0) [] = .ok r) (hr : r ≠ []) :
    (∀ d ∈ dims, 0 < d) ∧ r.length = dims.prod := by
  have hpos := enumLoop_pos gv dims f r h hr
  refine ⟨hpos, ?_⟩
  have h1 := enumLoop_total gv dims f _ _ r h
  have h2 := enumLoop_spec 0 (fun idx => .ok (match gv idx with | .ok e => e | .error _ => 0))
    (fun idx => match gv idx with | .ok e => e | .error _ => 0) dims hne hpos
    (fun _ _ => rfl) (dims.prod + 1) (by omega)
  rw [enumLoop_det _ dims f (dims.prod + 1) _ _ r _ h1 h2]
  simp

theorem store_foldl_agree {β : Type} (key : β → Nat) (x : Nat) :
    ∀ (l : List (β × Nat)) (base1 base2 : Nat → Nat), (∃ p ∈ l, key p.1 = x) →
      l.foldl (fun arr p => store arr (key p.1) p.2) base1 x
        = l.foldl (fun arr p => store arr (key p.1) p.2) base2 x
  | [], _, _, h => by simp at h
  | p :: l, base1, base2, h => by
    rw [List.foldl_cons, List.foldl_cons]
    by_cases hl : ∃ q ∈ l, key q.1 = x
    · exact store_foldl_agree key x l _ _ hl
    · have hmiss : ∀ q ∈ l, key q.1 ≠ x := fun q hq e => hl ⟨q, hq, e⟩
      rw [store_foldl_miss key x l _ hmiss, store_foldl_miss key x l _ hmiss]
      obtain ⟨q, hq, hk⟩ := h
      rcases List.mem_cons.mp hq with rfl | hq
      · simp [store, hk]
      · exact absurd ⟨q, hq, hk⟩ hl

theorem dense_agree (B : Nat) (tv1 tv2 : Nat → Nat) (elems : List Nat) (x : Nat)
    (hx : x < elems.length) (hB : x < 2 ^ B) :
    elems.enum.foldl (fun arr p => store arr (p.1 % 2 ^ B) p.2) tv1 x
      = elems.enum.foldl (fun arr p => store arr (p.1 % 2 ^ B) p.2) tv2 x := by
  refine store_foldl_agree (fun i => i % 2 ^ B) x elems.enum tv1 tv2
    ⟨(x, elems.getD x 0), ?_, Nat.mod_eq_of_lt hB⟩
  rw [List.mk_mem_enum_iff_getElem?, List.getD_eq_getElem _ _ hx]
  exact List.getElem?_eq_getElem hx

theorem prod_map_mod (B : Nat) : ∀ (l : List Nat),
    (l.map (fun d => d % 2 ^ B)).prod % 2 ^ B = l.prod % 2 ^ B
  | [] => rfl
  | d :: l => by
    simp only [List.map_cons, List.prod_cons]
    rw [Nat.mul_mod, prod_map_mod B l, Nat.mod_mod, ← Nat.mul_mod]

theorem ofUnsigned_asUInt64 (B : Nat) (d : Int) (h : asUInt64 d < 2 ^ 32) :
    Index.ofUnsigned B d = asUInt64 d % 2 ^ B := by
  unfold Index.ofUnsigned asUInt64 at *
  have h0 : (0 : Int) ≤ d % 2 ^ 64 := Int.emod_nonneg _ (by positivity)
  have h1 : d % 2 ^ 32 = d % 2 ^ 64 := by
    have hd : d % 2 ^ 32 = (d % 2 ^ 64) % 2 ^ 32 :=
      (Int.emod_emod_of_dvd d (by norm_num : (2 : Int) ^ 32 ∣ 2 ^ 64)).symm
    rw [hd]
    apply Int.emod_eq_of_lt h0
    have := (Int.toNat_lt h0).mp h
    exact_mod_cast this
  rw [h1]

theorem dense1D_inv (B : Nat) (ty : MType) (tv : Nat → Nat) (ex : List Nat) (t : Tensor)
    (h : Tensor.dense1D B ty tv ex = .ok t) :
    ex ≠ [] ∧ ex.length < 2 ^ 32 ∧
    t = ⟨ty, [Index.ofUnsigned B ex.length],
      ex.enum.foldl (fun arr p => store arr (p.1 % 2 ^ B) p.2) tv, fun _ => true⟩ := by
  unfold Tensor.dense1D at h
  split at h
  · cases h
  · next hne =>
    split at h
    · cases h
    · next hlt =>
      cases h
      exact ⟨hne, by omega, rfl⟩

theorem reshape_inv (t u : Tensor) (dims : List Nat) (h : t.reshape dims = some u) :
    u = ⟨t.elemType, dims, t.arr, t.initialized⟩ := by
  unfold Tensor.reshape at h
  split at h
  · cases h; rfl
  · cases h

theorem sparse_inv (B : Nat) (ty : MType) (indices : List (List Nat)) (elems dims : List Nat)
    (z : Nat) (t : Tensor) (h : Tensor.sparse B ty indices elems dims z = some t) :
    t.elemType = ty ∧ ∀ i, t.initialized i = true := by
  unfold Tensor.sparse at h
  split at h
  · cases h; exact ⟨rfl, fun _ => rfl⟩
  · cases h

/-- Two calls of `fromElemsAttr` on the same type and attribute, the second from a state
reached from the state after the first: the two tensors have the same element
type and dims, are initialized everywhere and agree below their size. -/
theorem fromElemsAttr_twice {α : Type} [DecidableEq α] (B : Nat) (fp : FpBackend)
    (ops : ElementsAttrOps α) (cfg : Config) (arrVars : String → Nat → Nat)
    (s0 s1 s2 s3 : IngestState α) (ty : RankedTensorType) (a : α)
    (f1 f2 : Nat) (tv1 tv2 : Nat → Nat) (t1 t2 : Tensor)
    (hinit : cfg.varInitialized = true) (h0 : CacheOk s0) (hprim : ty.elemType ≠ .otherTy)
    (h1 : Tensor.fromElemsAttr B fp ops cfg arrVars f1 tv1 s0 ty a = .ok (t1, s1))
    (hmid : Ingested B fp ops cfg arrVars s1 s2)
    (h2 : Tensor.fromElemsAttr B fp ops cfg arrVars f2 tv2 s2 ty a = .ok (t2, s3)) :
    t1.elemType = t2.elemType ∧ t1.elemType ≠ .otherTy ∧ t1.dims = t2.dims ∧
    (∀ i, t1.initialized i = true) ∧ (∀ i, t2.initialized i = true) ∧
    ∀ i, i < get1DSize B t1.dims → t1.arr i = t2.arr i := by
  obtain ⟨ext, hext⟩ := ingested_extends B fp ops cfg arrVars s1 s2 hmid
  cases hk : ops.kind a with
  | dense =>
    cases hs : ops.isSplat a with
    | true =>
      simp only [Tensor.fromElemsAttr, hk, hs, if_true] at h1 h2
      cases hg : getDimsOfType B cfg ty with
      | error err => rw [hg] at h1; cases h1
      | ok dims =>
        cases hx : attrExpr B fp (ops.getSplatValue a) with
        | error err => rw [hg, hx] at h1; cases h1
        | ok e =>
          rw [hg, hx] at h1 h2
          cases h1; cases h2
          exact ⟨rfl, hprim, rfl, fun _ => rfl, fun _ => rfl, fun _ _ => rfl⟩
    | false =>
      cases hany : ty.shape.any (fun dsize => decide (dsize = cfg.kDynamic)) with
      | true =>
        simp only [Tensor.fromElemsAttr, hk, hs, hany, Bool.false_eq_true, if_false,
          if_true] at h1
        cases h1
      | false =>
        by_cases hbig : cfg.MAX_CONST_SIZE ≥ 0 ∧ totalSizeInt64 ty.shape > cfg.MAX_CONST_SIZE
        · simp only [Tensor.fromElemsAttr, hk, hs, hany, Bool.false_eq_true, if_false, hbig,
            and_self, if_true] at h1 h2
          cases hl : lookupDense B ops a s0.abstractlyEncodedAttrs with
          | some t =>
            rw [hl] at h1
            cases h1
            have hl2 : lookupDense B ops a s2.abstractlyEncodedAttrs = some t1 := by
              rw [hext]; exact lookupDense_append_hit B ops a t1 _ ext hl
            rw [hl2] at h2
            cases h2
            obtain ⟨hi, hp⟩ := lookupDense_ok B ops a t1 _ h0 hl
            exact ⟨rfl, hp, rfl, hi, hi, fun _ _ => rfl⟩
          | none =>
            rw [hl] at h1
            cases hv : Tensor.var B arrVars ty.elemType
                ("unknown_const#" ++ toString s0.denseCount)
                (ty.shape.map (fun dsize => Index.ofUnsigned B dsize)) cfg.varInitialized with
            | error err => rw [hv] at h1; cases h1
            | ok newt =>
              rw [hv] at h1
              cases h1
              obtain ⟨hn, hp⟩ := var_ok _ _ _ _ _ _ _ hv
              have hl2 : lookupDense B ops a s2.abstractlyEncodedAttrs = some t1 := by
                rw [hext]
                simp only [List.append_assoc]
                rw [lookupDense_append_miss B ops a _ _ hl]
                simp [lookupDense]
              rw [hl2] at h2
              cases h2
              have hi : ∀ i, t1.initialized i = true := fun i => by rw [hn]; exact hinit
              exact ⟨rfl, by rw [hn]; exact hp, rfl, hi, hi, fun _ _ => rfl⟩
        · simp only [Tensor.fromElemsAttr, hk, hs, hany, Bool.false_eq_true, if_false,
            hbig] at h1 h2
          by_cases hr : ty.getRank = 0
          · rw [if_pos hr] at h1; cases h1
          · rw [if_neg hr] at h1 h2
            cases he1 : enumLoop (fun idxND => attrExpr B fp (ops.getValues a idxND))
                (ty.shape.map asUInt64) f1 (List.replicate ty.getRank 0) [] with
            | error err => rw [he1] at h1; cases h1
            | ok ex1 =>
              cases he2 : enumLoop (fun idxND => attrExpr B fp (ops.getValues a idxND))
                  (ty.shape.map asUInt64) f2 (List.replicate ty.getRank 0) [] with
              | error err => rw [he2] at h2; cases h2
              | ok ex2 =>
                have hex : ex2 = ex1 := enumLoop_det _ _ f2 f1 _ _ ex2 ex1 he2 he1
                rw [he1] at h1
                rw [he2, hex] at h2
                simp only [] at h1 h2
                cases hd1 : Tensor.dense1D B ty.elemType tv1 ex1 with
                | error err => rw [hd1] at h1; cases h1
                | ok u1 =>
                  cases hd2 : Tensor.dense1D B ty.elemType tv2 ex1 with
                  | error err => rw [hd2] at h2; cases h2
                  | ok u2 =>
                    rw [hd1] at h1
                    rw [hd2] at h2
                    simp only [] at h1 h2
                    cases hr1 : u1.reshape (ty.shape.map (fun dsize => Index.ofUnsigned B dsize))
                      with
                    | none => rw [hr1] at h1; cases h1
                    | some v1 =>
                      cases hr2 : u2.reshape
                          (ty.shape.map (fun dsize => Index.ofUnsigned B dsize)) with
                      | none => rw [hr2] at h2; cases h2
                      | some v2 =>
                        rw [hr1] at h1
                        rw [hr2] at h2
                        cases h1; cases h2
                        obtain ⟨hne1, h32, hu1⟩ := dense1D_inv B _ tv1 ex1 u1 hd1
                        obtain ⟨_, _, hu2⟩ := dense1D_inv B _ tv2 ex1 u2 hd2
                        have hv1 := reshape_inv u1 t1 _ hr1
                        have hv2 := reshape_inv u2 t2 _ hr2
                        rw [hu1] at hv1
                        rw [hu2] at hv2
                        have hdne : ty.shape.map asUInt64 ≠ [] := by
                          intro e
                          apply hr
                          have := congrArg List.length e
                          simpa [RankedTensorType.getRank] using this
                        have hrk : ty.getRank = (ty.shape.map asUInt64).length := by
                          simp [RankedTensorType.getRank]
                        rw [hrk] at he1
                        obtain ⟨hpos, hlen⟩ := enumLoop_length _ _ f1 ex1 hdne he1 hne1
                        have hd32 : ∀ d ∈ ty.shape.map asUInt64, d < 2 ^ 32 :=
                          mem_lt_of_prod_lt _ hpos _ (by rw [← hlen]; exact h32)
                        have hdimE : ty.shape.map (fun dsize => Index.ofUnsigned B dsize)
                            = (ty.shape.map asUInt64).map (fun d => d % 2 ^ B) := by
                          rw [List.map_map]
                          apply List.map_congr_left
                          intro d hd
                          exact ofUnsigned_asUInt64 B d
                            (hd32 _ (List.mem_map_of_mem asUInt64 hd))
                        refine ⟨by rw [hv1, hv2], by rw [hv1]; exact hprim, by rw [hv1, hv2],
                          fun _ => by rw [hv1], fun _ => by rw [hv2], fun i hi => ?_⟩
                        rw [hv1] at hi ⊢
                        rw [hv2]
                        simp only [] at hi ⊢
                        rw [get1DSize_eq, hdimE, prod_map_mod, ← hlen] at hi
                        have hB : 0 < 2 ^ B := by positivity
                        have hi1 : i < ex1.length :=
                          Nat.lt_of_lt_of_le hi (Nat.mod_le _ _)
                        have hi2 : i < 2 ^ B := Nat.lt_trans hi (Nat.mod_lt _ hB)
                        exact dense_agree B tv1 tv2 ex1 i hi1 hi2
  | sparse =>
    by_cases hbig : cfg.MAX_CONST_SIZE ≥ 0 ∧ ops.getNumElements a > cfg.MAX_CONST_SIZE
    · simp only [Tensor.fromElemsAttr, hk, hbig, and_self, if_true] at h1 h2
      cases hl : lookupSparse a s0.abstractlyEncodedAttrs with
      | some t =>
        rw [hl] at h1
        cases h1
        have hl2 : lookupSparse a s2.abstractlyEncodedAttrs = some t1 := by
          rw [hext]; exact lookupSparse_append_hit a t1 _ ext hl
        rw [hl2] at h2
        cases h2
        obtain ⟨hi, hp⟩ := lookupSparse_ok a t1 _ h0 hl
        exact ⟨rfl, hp, rfl, hi, hi, fun _ _ => rfl⟩
      | none =>
        rw [hl] at h1
        cases hv : Tensor.var B arrVars ty.elemType
            ("unknown_const#" ++ toString s0.sparseCount)
            ((ty.shape.map asUInt64).map (fun (d : Nat) => Index.ofUnsigned B d))
            cfg.varInitialized with
        | error err => rw [hv] at h1; cases h1
        | ok newt =>
          rw [hv] at h1
          cases h1
          obtain ⟨hn, hp⟩ := var_ok _ _ _ _ _ _ _ hv
          have hl2 : lookupSparse a s2.abstractlyEncodedAttrs = some t1 := by
            rw [hext]
            simp only [List.append_assoc]
            rw [lookupSparse_append_miss a _ _ hl]
            simp [lookupSparse]
          rw [hl2] at h2
          cases h2
          have hi : ∀ i, t1.initialized i = true := fun i => by rw [hn]; exact hinit
          exact ⟨rfl, by rw [hn]; exact hp, rfl, hi, hi, fun _ _ => rfl⟩
    · simp only [Tensor.fromElemsAttr, hk, hbig, if_false] at h1 h2
      cases hz : getZero B fp ty.elemType with
      | none => rw [hz] at h1; cases h1
      | some z =>
        rw [hz] at h1 h2
        simp only [] at h1 h2
        cases hc : sparseChunks ty.getRank (ops.getIndices a) with
        | error err => rw [hc] at h1; cases h1
        | ok chunks =>
          rw [hc] at h1 h2
          simp only [] at h1 h2
          cases hsv : sparseValues (fun idx => attrExpr B fp (ops.getValues a idx)) chunks with
          | error err => rw [hsv] at h1; cases h1
          | ok vals =>
            rw [hsv] at h1 h2
            simp only [] at h1 h2
            cases hsp : Tensor.sparse B ty.elemType chunks vals (ty.shape.map asUInt64) z with
            | none => rw [hsp] at h1; cases h1
            | some t =>
              rw [hsp] at h1 h2
              cases h1; cases h2
              obtain ⟨he, hi⟩ := sparse_inv _ _ _ _ _ _ _ hsp
              exact ⟨rfl, by rw [he]; exact hprim, rfl, hi, hi, fun _ _ => rfl⟩
  | other =>
    simp only [Tensor.fromElemsAttr, hk] at h1
    cases h1

theorem refines_of_agree (B : Nat) (fp : FpBackend) (ρ : Valuation) (sizeMatchIsFalse : Bool)
    (t1 t2 : Tensor) (hty : t1.elemType = t2.elemType) (hp : t1.elemType ≠ .otherTy)
    (hdims : t1.dims = t2.dims) (hi2 : ∀ i, t2.initialized i = true)
    (hag : ∀ i, i < get1DSize B t1.dims → t1.arr i = t2.arr i)
    (hsound : simplifierSound sizeMatchIsFalse t1 t2) :
    t1.refines B fp ρ sizeMatchIsFalse t2 = some (true, ["i"]) := by
  have hlen : t1.dims.length = t2.dims.length := by rw [hdims]
  have hsm : t1.sizeMatch t2 = true := by rw [sizeMatch_eq t1 t2 hlen]; simp [hdims]
  have hf : sizeMatchIsFalse = false := by
    cases h : sizeMatchIsFalse
    · rfl
    · have := hsound h
      rw [hsm] at this
      cases this
  rw [hf, tensor_refines_eq B fp ρ t1 t2 hty hp hlen]
  have hspec : specTensorRefines B fp t1 t2 (Index.var B ρ "i") = true := by
    simp only [specTensorRefines, hdims, decide_True, Bool.true_and, hi2, Bool.or_eq_true,
      Bool.not_eq_true', decide_eq_false_iff_not]
    by_cases hi : Index.var B ρ "i" < t2.dims.prod % 2 ^ B
    · right; right
      have := hag (Index.var B ρ "i") (by rw [get1DSize_eq, hdims]; exact hi)
      rw [this]
      exact specElementRefines_self fp _ _
    · left; exact hi
  rw [hspec]

/-- C13: stability of the abstraction cache.  From a state reached from a reset by calls
of `fromElemsAttr`, with a tensor type of a primitive element type and fresh
variables that are initialized: a call `fromElemsAttr(ty, a)` and a later one, with
any other calls and no reset in between, return tensors with equal dims that
agree on every element below the total size and are both initialized everywhere,
and (for a sound verdict of the simplifier on the dims) each refines the other;
the cache after the calls is the cache before them with entries appended, and
`resetAbstractlyEncodedAttrs` empties it. -/
theorem C13_cache_stability {α : Type} [DecidableEq α] (B : Nat) (fp : FpBackend)
    (ops : ElementsAttrOps α) (cfg : Config) (arrVars : String → Nat → Nat) (ρ : Valuation)
    (sInit s0 s1 s2 s3 : IngestState α) (ty : RankedTensorType) (a : α)
    (f1 f2 : Nat) (tv1 tv2 : Nat → Nat) (t1 t2 : Tensor) (verdict12 verdict21 : Bool)
    (hinit : cfg.varInitialized = true) (hprim : ty.elemType ≠ .otherTy)
    (hreach : Ingested B fp ops cfg arrVars (resetAbstractlyEncodedAttrs sInit) s0)
    (h1 : Tensor.fromElemsAttr B fp ops cfg arrVars f1 tv1 s0 ty a = .ok (t1, s1))
    (hmid : Ingested B fp ops cfg arrVars s1 s2)
    (h2 : Tensor.fromElemsAttr B fp ops cfg arrVars f2 tv2 s2 ty a = .ok (t2, s3))
    (hsound12 : simplifierSound verdict12 t1 t2) (hsound21 : simplifierSound verdict21 t2 t1) :
    t1.dims = t2.dims ∧
    (∀ i, i < get1DSize B t1.dims → t1.arr i = t2.arr i) ∧
    (∀ i, t1.initialized i = true ∧ t2.initialized i = true) ∧
    t1.refines B fp ρ verdict12 t2 = some (true, ["i"]) ∧
    t2.refines B fp ρ verdict21 t1 = some (true, ["i"]) ∧
    (∃ ext, s3.abstractlyEncodedAttrs = s0.abstractlyEncodedAttrs ++ ext) ∧
    (resetAbstractlyEncodedAttrs s3).abstractlyEncodedAttrs = [] := by
  have hok0 : CacheOk s0 := ingested_ok B fp ops cfg arrVars hinit _ s0 hreach (by
    intro e he
    simp [resetAbstractlyEncodedAttrs] at he)
  obtain ⟨hty, hp, hdims, hi1, hi2, hag⟩ := fromElemsAttr_twice B fp ops cfg arrVars s0 s1 s2 s3
    ty a f1 f2 tv1 tv2 t1 t2 hinit hok0 hprim h1 hmid h2
  have hall : Ingested B fp ops cfg arrVars s0 s3 :=
    Ingested.step f2 tv2 ty a t2
      (by
        have h01 : Ingested B fp ops cfg arrVars s0 s1 :=
          Ingested.step f1 tv1 ty a t1 (Ingested.refl s0) h1
        clear h1 h2 hreach
        induction hmid with
        | refl => exact h01
        | step fuel tv ty2 a2 t _ hc ih => exact Ingested.step fuel tv ty2 a2 t ih hc)
      h2
  refine ⟨hdims, hag, fun i => ⟨hi1 i, hi2 i⟩,
    refines_of_agree B fp ρ verdict12 t1 t2 hty hp hdims hi2 hag hsound12,
    refines_of_agree B fp ρ verdict21 t2 t1 hty.symm (by rw [← hty]; exact hp) hdims.symm hi1
      (fun i hi => (hag i (by rw [hdims]; exact hi)).symm) hsound21,
    ingested_extends B fp ops cfg arrVars s0 s3 hall, rfl⟩

theorem C13_cache_stability_witness :
    ∃ u0 t1 u2 t2 : Tensor,
      Tensor.fromElemsAttr 64 sampleFp sampleOps sampleConfigTiny sampleArrVars 0 (fun _ => 0)
        (resetAbstractlyEncodedAttrs sampleState) (sampleType 0) 0
        = .ok (u0, ⟨[(0, u0)], 1, 0⟩) ∧
      Tensor.fromElemsAttr 64 sampleFp sampleOps sampleConfigTiny sampleArrVars 0 (fun _ => 0)
        ⟨[(0, u0)], 1, 0⟩ (sampleType 2) 2 = .ok (t1, ⟨[(0, u0), (2, t1)], 2, 0⟩) ∧
      Tensor.fromElemsAttr 64 sampleFp sampleOps sampleConfigTiny sampleArrVars 0 (fun _ => 0)
        ⟨[(0, u0), (2, t1)], 2, 0⟩ (sampleType 3) 3
        = .ok (u2, ⟨[(0, u0), (2, t1), (3, u2)], 3, 0⟩) ∧
      Tensor.fromElemsAttr 64 sampleFp sampleOps sampleConfigTiny sampleArrVars 0 (fun _ => 1)
        ⟨[(0, u0), (2, t1), (3, u2)], 3, 0⟩ (sampleType 2) 2
        = .ok (t2, ⟨[(0, u0), (2, t1), (3, u2)], 3, 0⟩) ∧
      t1.arr = sampleArrVars "unknown_const#1" ∧
      t1.dims = t2.dims ∧ (∀ i, i < get1DSize 64 t1.dims → t1.arr i = t2.arr i) ∧
      (∀ i, t1.initialized i = true ∧ t2.initialized i = true) ∧
      t1.refines 64 sampleFp sampleValuation false t2 = some (true, ["i"]) ∧
      t2.refines 64 sampleFp sampleValuation false t1 = some (true, ["i"]) ∧
      ∃ ext, [(0, u0), (2, t1), (3, u2)] = [(0, u0)] ++ ext := by
  have hn1 : "unknown_const#" ++ toString (1 : Nat) = "unknown_const#1" := by decide
  have hn2 : "unknown_const#" ++ toString (2 : Nat) = "unknown_const#2" := by decide
  obtain ⟨U0, hU0⟩ : ∃ T : Tensor,
      T = ⟨.integerTy 32, [2, 3], sampleArrVars "unknown_const#0", fun _ => true⟩ := ⟨_, rfl⟩
  obtain ⟨U1, hU1⟩ : ∃ T : Tensor,
      T = ⟨.integerTy 32, [10, 10], sampleArrVars "unknown_const#1", fun _ => true⟩ := ⟨_, rfl⟩
  obtain ⟨U2, hU2⟩ : ∃ T : Tensor,
      T = ⟨.integerTy 32, [2, 2], sampleArrVars "unknown_const#2", fun _ => true⟩ := ⟨_, rfl⟩
  have h0 : Tensor.fromElemsAttr 64 sampleFp sampleOps sampleConfigTiny sampleArrVars 0
      (fun _ => 0) (resetAbstractlyEncodedAttrs sampleState) (sampleType 0) 0
      = .ok (U0, ⟨[(0, U0)], 1, 0⟩) := by
    subst hU0
    rfl
  have h1 : Tensor.fromElemsAttr 64 sampleFp sampleOps sampleConfigTiny sampleArrVars 0
      (fun _ => 0) ⟨[(0, U0)], 1, 0⟩ (sampleType 2) 2
      = .ok (U1, ⟨[(0, U0), (2, U1)], 2, 0⟩) := by
    have hl : lookupDense 64 sampleOps 2 [(0, U0)] = none := by
      simp [lookupDense, isTransposed, isSimpleReduction, sampleOps, sampleShape,
        RankedTensorType.getRank, RankedTensorType.getDimSize]
    have hbig : sampleConfigTiny.MAX_CONST_SIZE ≥ 0 ∧
        totalSizeInt64 (sampleType 2).shape > sampleConfigTiny.MAX_CONST_SIZE := by decide
    have hk : sampleOps.kind 2 = .dense := rfl
    have hs : sampleOps.isSplat 2 = false := rfl
    have hany : (sampleType 2).shape.any
        (fun dsize => decide (dsize = sampleConfigTiny.kDynamic)) = false := by decide
    simp only [Tensor.fromElemsAttr, hk, hs, hany, Bool.false_eq_true, if_false, hbig,
      and_self, if_true, hl, hn1]
    subst hU1
    rfl
  have hm : Tensor.fromElemsAttr 64 sampleFp sampleOps sampleConfigTiny sampleArrVars 0
      (fun _ => 0) ⟨[(0, U0), (2, U1)], 2, 0⟩ (sampleType 3) 3
      = .ok (U2, ⟨[(0, U0), (2, U1), (3, U2)], 3, 0⟩) := by
    have hl : lookupDense 64 sampleOps 3 [(0, U0), (2, U1)] = none := by
      simp [lookupDense, isTransposed, isSimpleReduction, sampleOps, sampleShape,
        RankedTensorType.getRank, RankedTensorType.getDimSize]
    have hbig : sampleConfigTiny.MAX_CONST_SIZE ≥ 0 ∧
        totalSizeInt64 (sampleType 3).shape > sampleConfigTiny.MAX_CONST_SIZE := by decide
    have hk : sampleOps.kind 3 = .dense := rfl
    have hs : sampleOps.isSplat 3 = false := rfl
    have hany : (sampleType 3).shape.any
        (fun dsize => decide (dsize = sampleConfigTiny.kDynamic)) = false := by decide
    simp only [Tensor.fromElemsAttr, hk, hs, hany, Bool.false_eq_true, if_false, hbig,
      and_self, if_true, hl, hn2]
    subst hU2
    rfl
  have h2 : Tensor.fromElemsAttr 64 sampleFp sampleOps sampleConfigTiny sampleArrVars 0
      (fun _ => 1) ⟨[(0, U0), (2, U1), (3, U2)], 3, 0⟩ (sampleType 2) 2
      = .ok (U1, ⟨[(0, U0), (2, U1), (3, U2)], 3, 0⟩) := by
    have hl : lookupDense 64 sampleOps 2 [(0, U0), (2, U1), (3, U2)] = some U1 := by
      simp [lookupDense, isTransposed, isSimpleReduction, sampleOps, sampleShape,
        RankedTensorType.getRank, RankedTensorType.getDimSize]
    have hbig : sampleConfigTiny.MAX_CONST_SIZE ≥ 0 ∧
        totalSizeInt64 (sampleType 2).shape > sampleConfigTiny.MAX_CONST_SIZE := by decide
    have hk : sampleOps.kind 2 = .dense := rfl
    have hs : sampleOps.isSplat 2 = false := rfl
    have hany : (sampleType 2).shape.any
        (fun dsize => decide (dsize = sampleConfigTiny.kDynamic)) = false := by decide
    simp only [Tensor.fromElemsAttr, hk, hs, hany, Bool.false_eq_true, if_false, hbig,
      and_self, if_true, hl]
  obtain ⟨hd, ha, hi, hr1, hr2, hext, _⟩ := C13_cache_stability 64 sampleFp sampleOps
    sampleConfigTiny sampleArrVars sampleValuation sampleState ⟨[(0, U0)], 1, 0⟩
    ⟨[(0, U0), (2, U1)], 2, 0⟩ ⟨[(0, U0), (2, U1), (3, U2)], 3, 0⟩
    ⟨[(0, U0), (2, U1), (3, U2)], 3, 0⟩
    (sampleType 2) 2 0 0 (fun _ => 0) (fun _ => 1) U1 U1 false false rfl (by decide)
    (Ingested.step 0 (fun _ => 0) (sampleType 0) 0 U0 (Ingested.refl _) h0) h1
    (Ingested.step 0 (fun _ => 0) (sampleType 3) 3 U2 (Ingested.refl _) hm) h2
    (fun h => by cases h) (fun h => by cases h)
  exact ⟨U0, U1, U2, U1, h0, h1, hm, h2, by rw [hU1], hd, ha, hi, hr1, hr2, hext⟩

/-! ### Convolution elements -/

theorem from1DIdx_inj (B : Nat) (dims : List Nat) (hpos : ∀ d ∈ dims, 0 < d) (i j : Nat)
    (hi : i < dims.prod) (hj : j < dims.prod)
    (h : from1DIdx B i dims = from1DIdx B j dims) : i = j := by
  by_cases hne : dims = []
  · subst hne
    simp at hi hj
    omega
  · rw [from1DIdx_eq_openRev B dims i hpos hne hi, from1DIdx_eq_openRev B dims j hpos hne hj] at h
    have h2 := congrArg List.reverse h
    rw [List.reverse_reverse, List.reverse_reverse] at h2
    have hr : dims.reverse ≠ [] := by simpa using hne
    rw [← openRev_val dims.reverse i hr, ← openRev_val dims.reverse j hr, h2]

theorem range_map_from1DIdx_all (B : Nat) (dims : List Nat) :
    (List.range dims.prod).map (fun k => from1DIdx B k dims) = allIdxs dims := by
  by_cases hpos : ∀ d ∈ dims, 0 < d
  · exact range_map_from1DIdx B dims hpos
  · have h0 : dims.prod = 0 := by
      push_neg at hpos
      obtain ⟨d, hd, hd0⟩ := hpos
      have : d = 0 := by omega
      rw [this] at hd
      exact List.prod_eq_zero hd
    have hl := allIdxs_length dims
    rw [h0] at hl ⊢
    rw [List.length_eq_zero.mp hl]
    rfl

theorem allIdxs_nodup (dims : List Nat) : (allIdxs dims).Nodup := by
  by_cases hpos : ∀ d ∈ dims, 0 < d
  · rw [← range_map_from1DIdx 0 dims hpos]
    exact List.Nodup.map_on (fun i hi j hj h =>
      from1DIdx_inj 0 dims hpos i j (List.mem_range.mp hi) (List.mem_range.mp hj) h)
      (List.nodup_range _)
  · have h0 : dims.prod = 0 := by
      push_neg at hpos
      obtain ⟨d, hd, hd0⟩ := hpos
      have : d = 0 := by omega
      rw [this] at hd
      exact List.prod_eq_zero hd
    have hl := allIdxs_length dims
    rw [h0] at hl
    rw [List.length_eq_zero.mp hl]
    exact List.nodup_nil

theorem mem_allIdxs : ∀ (dims c : List Nat), c ∈ allIdxs dims ↔ fitsInDims c dims = true
  | [], c => by
    cases c with
    | nil => simp [allIdxs, fitsInDims]
    | cons x xs => simp [allIdxs, fitsInDims]
  | d :: ds, c => by
    cases c with
    | nil => simp [allIdxs, fitsInDims]
    | cons x xs =>
      rw [fitsInDims_cons, ← mem_allIdxs ds xs]
      simp only [allIdxs, List.mem_flatMap, List.mem_range, List.mem_map, List.cons.injEq]
      constructor
      · rintro ⟨i, hi, idx, hidx, rfl, rfl⟩
        exact ⟨hi, hidx⟩
      · rintro ⟨hx, hxs⟩
        exact ⟨x, hx, xs, hxs, rfl, rfl⟩

theorem intDot_foldl_list (w : Nat) (f : Nat → Nat) (c : Nat) : ∀ n : Nat,
    (List.range n).foldl (fun acc p => (acc + f p) % 2 ^ w) (c % 2 ^ w)
      = (c + ((List.range n).map f).sum) % 2 ^ w
  | 0 => by simp
  | n + 1 => by
    rw [List.range_succ, List.foldl_append, intDot_foldl_list w f c n, List.map_append,
      List.sum_append]
    simp only [List.foldl_cons, List.foldl_nil, List.map_cons, List.map_nil, List.sum_cons,
      List.sum_nil, Nat.add_zero]
    rw [Nat.mod_add_mod, Nat.add_assoc]

theorem intDot_eq_listSum (w : Nat) (a b : Nat → Nat) (n : Nat) (init : Option Nat) :
    intDot w a b n init
      = (init.getD 0 + ((List.range n).map (fun p => a p * b p)).sum) % 2 ^ w := by
  unfold intDot
  exact intDot_foldl_list w (fun p => a p * b p) _ n

/-- C11 (amended): the conv element formula for `NHWC_HWCF` and integer elements of width
`w`, when the offsets do not wrap.  For an input and a filter of equal rank `n + 2`
(at least 3) such that the product of the output dims is at most `2 ^ B` and the
product of the dims `F_0, .., F_n-1, IC` of the filter cube is below `2 ^ B`, at every
output index `(b, x, k)` in bounds the element of `input.conv(filter, strides,
dilations, NHWC_HWCF, output)` is, in `w`-bit arithmetic, `output.get(b, x, k)` (nothing
when no output tensor is given) plus the sum over the index vectors `(z, q)` within
the cube of `filter.get(z, q, k) * input.get(b, x_i * strides[i] + z_i * dilations[i], q)`
(the index arithmetic in `B` bits); the index vectors of the cube are pairwise
distinct, they are the vectors in bounds of the cube, and the 1-D cube index runs
through them in order. -/
theorem C11_conv_element (B : Nat) (fp : FpBackend) (input filter : Tensor)
    (strides dilations : List Nat) (output : Option Tensor) (w : Nat)
    (hty : input.elemType = .integerTy w)
    (hrank : input.dims.length = filter.dims.length) (h3 : 3 ≤ input.dims.length)
    (hout : (convOutputDims B input filter strides dilations .NHWC_HWCF).prod ≤ 2 ^ B)
    (hcube : (convCubeSize (filter.toShapedValue B) (input.dims.length - 2) .NHWC_HWCF).prod
      < 2 ^ B)
    (idx : List Nat)
    (hin : fitsInDims idx (convOutputDims B input filter strides dilations .NHWC_HWCF) = true) :
    ∃ r, input.conv B fp filter strides dilations .NHWC_HWCF output = some r ∧
      r.get B idx =
        ((output.map (fun o => o.get B idx)).getD 0 +
          ((allIdxs (convCubeSize (filter.toShapedValue B) (input.dims.length - 2)
              .NHWC_HWCF)).map (fun c =>
            filter.get B (c ++ [idx.getLastD 0]) *
              input.get B ([idx.headD 0] ++
                (List.range (input.dims.length - 2)).map (fun i =>
                  bvAdd B (bvMul B (idx.getD (i + 1) 0) (strides.getD i 0))
                    (bvMul B (c.getD i 0) (dilations.getD i 0))) ++
                [c.getLastD 0]))).sum) % 2 ^ w ∧
      (allIdxs (convCubeSize (filter.toShapedValue B) (input.dims.length - 2)
        .NHWC_HWCF)).Nodup ∧
      (∀ c, c ∈ allIdxs (convCubeSize (filter.toShapedValue B) (input.dims.length - 2)
          .NHWC_HWCF) ↔
        fitsInDims c (convCubeSize (filter.toShapedValue B) (input.dims.length - 2)
          .NHWC_HWCF) = true) ∧
      (List.range (get1DSize B (convCubeSize (filter.toShapedValue B)
          (input.dims.length - 2) .NHWC_HWCF))).map
        (fun p => from1DIdx B p (convCubeSize (filter.toShapedValue B)
          (input.dims.length - 2) .NHWC_HWCF))
        = allIdxs (convCubeSize (filter.toShapedValue B) (input.dims.length - 2)
          .NHWC_HWCF) := by
  have hc : (input.toShapedValue B).getDims.length = (filter.toShapedValue B).getDims.length ∧
      2 < (input.toShapedValue B).getDims.length := ⟨hrank, h3⟩
  have hsz : get1DSize B (convCubeSize (filter.toShapedValue B) (input.dims.length - 2)
      .NHWC_HWCF)
      = (convCubeSize (filter.toShapedValue B) (input.dims.length - 2) .NHWC_HWCF).prod := by
    rw [get1DSize_eq, Nat.mod_eq_of_lt hcube]
  have hrange := range_map_from1DIdx_all B
    (convCubeSize (filter.toShapedValue B) (input.dims.length - 2) .NHWC_HWCF)
  obtain ⟨r, hr, _, _, hg, _⟩ := mkInitializedLambda_spec B input.elemType
    (convOutputDims B input filter strides dilations .NHWC_HWCF) input.dims.length
    (fun outputIdxs =>
      let inputExpr : Nat → Nat := fun cubeIdx =>
        (input.toShapedValue B).get (convInputIdxs B .NHWC_HWCF
          ((input.toShapedValue B).getDims.length - 2) strides dilations outputIdxs
          (from1DIdx B cubeIdx (convCubeSize (filter.toShapedValue B)
            ((input.toShapedValue B).getDims.length - 2) .NHWC_HWCF)))
      let filterExpr : Nat → Nat := fun cubeIdx =>
        (filter.toShapedValue B).get (convFilterIdxs .NHWC_HWCF outputIdxs
          (from1DIdx B cubeIdx (convCubeSize (filter.toShapedValue B)
            ((input.toShapedValue B).getDims.length - 2) .NHWC_HWCF)))
      let initialValue := output.map (fun o => o.get B outputIdxs)
      let sz := MlirTv.get1DSize B (convCubeSize (filter.toShapedValue B)
        ((input.toShapedValue B).getDims.length - 2) .NHWC_HWCF)
      match (input.toShapedValue B).elemType with
      | .integerTy w => intDot w inputExpr filterExpr sz initialValue
      | _ => fp.dot (input.toShapedValue B).elemType inputExpr filterExpr sz initialValue)
    (by omega) (convOutputDims_length B input filter strides dilations .NHWC_HWCF h3)
  refine ⟨r, ?_, ?_, allIdxs_nodup _, fun c => mem_allIdxs _ c, by rw [hsz]; exact hrange⟩
  · unfold Tensor.conv ShapedValue.conv
    simp only []
    rw [if_pos hc]
    simp only [Option.some_bind]
    exact hr
  · rw [hg idx hin hout]
    simp only [Tensor.toShapedValue] at hsz hrange
    simp only [Tensor.toShapedValue, hty]
    rw [intDot_eq_listSum, hsz, ← hrange, List.map_map]
    congr 3
    apply List.map_congr_left
    intro p _
    simp only [Function.comp, convInputIdxs, convFilterIdxs]
    rw [Nat.mul_comm]

theorem C11_conv_element_witness :
    ∃ r, sampleConvInput.conv 64 sampleFp sampleConvFilter [1, 1] [1, 1] .NHWC_HWCF none
        = some r ∧
      r.get 64 [0, 1, 1, 0] = 90 := by
  obtain ⟨r, hr, hg, _⟩ := C11_conv_element 64 sampleFp sampleConvInput sampleConvFilter
    [1, 1] [1, 1] none 32 rfl rfl (by decide) (by decide) (by decide) [0, 1, 1, 0] (by decide)
  refine ⟨r, hr, ?_⟩
  rw [hg]
  decide

/-- C11 as stated fails with 64-bit indices: a 4 x (2^62 + 2) x 1 input whose element at
offset `x` is `x`, a 2 x 1 x 1 filter of ones, stride 1 and dilation 1 give the output
dims 4 x (2^62 + 1) x 1; at the in-bounds output index `(3, 2^62 - 3, 0)` the row-major
offset wraps to 0, the element is the sum at `(0, 0, 0)`, which is 1, and not the sum
of `filter.get(z, 0, 0) * input.get(3, 2^62 - 3 + z, 0)` over `z < 2`, which is 7. -/
theorem C11_conv_element_counterexample :
    ∃ r, wrapConvInput.conv 64 sampleFp wrapConvFilter [1] [1] .NHWC_HWCF none = some r ∧
      r.dims = [4, 2 ^ 62 + 1, 1] ∧ fitsInDims [3, 2 ^ 62 - 3, 0] r.dims = true ∧
      r.get 64 [3, 2 ^ 62 - 3, 0] = 1 ∧
      ((allIdxs [2, 1]).map (fun c =>
        wrapConvFilter.get 64 (c ++ [0]) *
          wrapConvInput.get 64 ([3] ++
            (List.range 1).map (fun i =>
              bvAdd 64 (bvMul 64 ([3, 2 ^ 62 - 3, 0].getD (i + 1) 0) ([1].getD i 0))
                (bvMul 64 (c.getD i 0) ([1].getD i 0))) ++
            [c.getLastD 0]))).sum % 2 ^ 64 = 7 :=
  ⟨_, rfl, by decide, by decide, by decide, by decide⟩

/-! ### The inverse round trip of the linearisation -/

theorem to1DIdx_from1DIdx (B : Nat) (dims : List Nat) (i : Nat) (hne : dims ≠ [])
    (hpos : ∀ d ∈ dims, 0 < d) (hfit : dims.prod ≤ 2 ^ B) (hi : i < dims.prod) :
    to1DIdx B (from1DIdx B i dims) dims = i := by
  have hin := from1DIdx_fits B dims i hpos
  have hl := fitsInDims_length _ _ hin
  have hne2 : from1DIdx B i dims ≠ [] := by
    intro h
    rw [h] at hl
    exact hne (List.length_eq_zero.mp hl.symm)
  have hlt := to1DIdx_lt B _ dims hin hne2 hfit
  exact from1DIdx_inj B dims hpos _ _ hlt hi (from1DIdx_to1DIdx B _ dims hin hfit)

theorem foldl_toStep_exact (B : Nat) (ps : List (Nat × Nat)) :
    ∀ (acc : Nat), (∀ p ∈ ps, p.1 < p.2) →
      (acc + 1) * (ps.map Prod.snd).prod ≤ 2 ^ B →
      ps.foldl (toStep B) acc = ps.foldl (fun a p => a * p.2 + p.1) acc := by
  induction ps using List.reverseRecOn with
  | nil => intro acc _ _; rfl
  | append_singleton ps p ih =>
    intro acc hlt hB
    obtain ⟨i, d⟩ := p
    have hid : i < d := hlt (i, d) (by simp)
    have hlt2 : ∀ q ∈ ps, q.1 < q.2 := fun q hq => hlt q (by simp [hq])
    simp only [List.map_append, List.map_cons, List.map_nil, List.prod_append, List.prod_cons,
      List.prod_nil, Nat.mul_one] at hB
    have hle : (acc + 1) * (ps.map Prod.snd).prod * 1 ≤ (acc + 1) * (ps.map Prod.snd).prod * d :=
      Nat.mul_le_mul_left _ (by omega)
    rw [Nat.mul_one, Nat.mul_assoc] at hle
    have hB2 : (acc + 1) * (ps.map Prod.snd).prod ≤ 2 ^ B := by omega
    obtain ⟨hb1, _⟩ := from_to_pairs B ps acc [] hlt2 hB2
    have e := ih acc hlt2 hB2
    rw [List.foldl_append, List.foldl_append, List.foldl_cons, List.foldl_cons, List.foldl_nil,
      List.foldl_nil]
    have hVB : (ps.foldl (toStep B) acc + 1) * d ≤ (acc + 1) * ((ps.map Prod.snd).prod * d) := by
      rw [← Nat.mul_assoc]
      exact Nat.mul_le_mul_right d hb1
    rw [toStep_exact B _ d i _ hVB hB hid, e]

theorem to1DIdx_exact (B : Nat) (idxs dims : List Nat) (hin : fitsInDims idxs dims = true)
    (hfit : dims.prod ≤ 2 ^ B) : to1DIdx B idxs dims = specRowMajor idxs dims := by
  rw [fitsInDims_iff] at hin
  obtain ⟨hlen, hlt⟩ := hin
  cases idxs with
  | nil => rfl
  | cons i0 is =>
    cases dims with
    | nil => simp at hlen
    | cons d0 ds =>
      simp only [List.length_cons, Nat.add_right_cancel_iff] at hlen
      have hi0 : i0 < d0 := hlt (i0, d0) (by simp)
      have hps : ∀ p ∈ is.zip ds, p.1 < p.2 := fun p hp => hlt p (by simp [hp])
      have h2 : (is.zip ds).map Prod.snd = ds := List.map_snd_zip _ _ (by omega)
      have hacc : (i0 + 1) * ((is.zip ds).map Prod.snd).prod ≤ 2 ^ B := by
        rw [h2]
        rw [List.prod_cons] at hfit
        have : (i0 + 1) * ds.prod ≤ d0 * ds.prod := Nat.mul_le_mul_right _ (by omega)
        omega
      simp only [to1DIdx, specRowMajor, List.tail_cons, List.zip_cons_cons, List.foldl_cons,
        Nat.zero_mul, Nat.zero_add]
      exact foldl_toStep_exact B _ i0 hps hacc

/-! ### The identity layout -/

/-- C28: for dims of length at least 1, all positive, with a product below `2 ^ B`,
the identity layout has the precondition `true`, is in bounds exactly on the index
vectors that are entry-wise below the dims, maps an in-bounds index vector to its
row-major offset, and its inverse indices undo the mapping both ways: on every
in-bounds index vector, and on every 1-D index below the product, whose inverse
indices are in bounds. -/
theorem C28_identity_layout_round_trip (B : Nat) (dims : List Nat) (hlen : 1 ≤ dims.length)
    (hpos : ∀ d ∈ dims, 0 < d) (hfit : dims.prod < 2 ^ B) :
    (Layout.identity B dims).precondition ∧
    (Layout.identity B dims).preconditionIsTrue = true ∧
    (∀ idxs : List Nat, idxs.length = dims.length →
      ((Layout.identity B dims).inbounds idxs = true ↔
        ∀ k, k < dims.length → idxs.getD k 0 < dims.getD k 0)) ∧
    (∀ idxs : List Nat, (Layout.identity B dims).inbounds idxs = true →
      (Layout.identity B dims).mapping idxs = specRowMajor idxs dims ∧
      (Layout.identity B dims).getInverseIndices ((Layout.identity B dims).mapping idxs)
        = idxs) ∧
    (∀ i : Nat, i < dims.prod →
      (Layout.identity B dims).mapping ((Layout.identity B dims).getInverseIndices i) = i ∧
      (Layout.identity B dims).inbounds ((Layout.identity B dims).getInverseIndices i)
        = true) := by
  have hne : dims ≠ [] := by
    intro h
    rw [h] at hlen
    simp at hlen
  refine ⟨trivial, rfl, ?_, ?_, ?_⟩
  · intro idxs hl
    show fitsInDims idxs dims = true ↔ _
    rw [fitsInDims_getD]
    exact ⟨fun h => h.2, fun h => ⟨hl, h⟩⟩
  · intro idxs hin
    exact ⟨to1DIdx_exact B idxs dims hin (Nat.le_of_lt hfit),
      from1DIdx_to1DIdx B idxs dims hin (Nat.le_of_lt hfit)⟩
  · intro i hi
    exact ⟨to1DIdx_from1DIdx B dims i hne hpos (Nat.le_of_lt hfit) hi,
      from1DIdx_fits B dims i hpos⟩

/-- The identity layout over `[2, 3]` with 64-bit indices. -/
theorem C28_identity_layout_round_trip_witness :
    (Layout.identity 64 [2, 3]).precondition ∧
    (Layout.identity 64 [2, 3]).preconditionIsTrue = true ∧
    (∀ idxs : List Nat, idxs.length = [2, 3].length →
      ((Layout.identity 64 [2, 3]).inbounds idxs = true ↔
        ∀ k, k < [2, 3].length → idxs.getD k 0 < [2, 3].getD k 0)) ∧
    (∀ idxs : List Nat, (Layout.identity 64 [2, 3]).inbounds idxs = true →
      (Layout.identity 64 [2, 3]).mapping idxs = specRowMajor idxs [2, 3] ∧
      (Layout.identity 64 [2, 3]).getInverseIndices ((Layout.identity 64 [2, 3]).mapping idxs)
        = idxs) ∧
    (∀ i : Nat, i < [2, 3].prod →
      (Layout.identity 64 [2, 3]).mapping ((Layout.identity 64 [2, 3]).getInverseIndices i) = i ∧
      (Layout.identity 64 [2, 3]).inbounds ((Layout.identity 64 [2, 3]).getInverseIndices i)
        = true) :=
  C28_identity_layout_round_trip 64 [2, 3] (by decide) (by decide) (by decide)

/-! ### Insert -/

/-- C22: for a tensor whose dims have a product below `2 ^ B` (the dims are positive, as
they have an in-bounds index vector), a value `v` and an in-bounds index vector `ind`,
`insert` returns a tensor `T` with the dims of `t`, paired with `isInBounds(ind)`; at
an in-bounds `idx` the element of `T` is `v` and the cell is initialized if
`idx = ind`, and element and initialized bit are those of `t` otherwise. -/
theorem C22_insert (B : Nat) (t : Tensor) (v : Nat) (ind : List Nat)
    (hfit : t.dims.prod < 2 ^ B) (hind : t.isInBounds ind = true) :
    ∃ T : Tensor, t.insert B v ind = some (T, t.isInBounds ind) ∧ T.dims = t.dims ∧
      T.elemType = t.elemType ∧
      ∀ idx : List Nat, T.isInBounds idx = true →
        (idx = ind → T.get B idx = v ∧ T.isInitialized B idx = true) ∧
        (idx ≠ ind → T.get B idx = t.get B idx ∧
          T.isInitialized B idx = t.isInitialized B idx) := by
  have hle : t.dims.prod ≤ 2 ^ B := Nat.le_of_lt hfit
  have hl : ind.length = t.dims.length := fitsInDims_length _ _ hind
  refine ⟨⟨t.elemType, t.dims,
      fun idxvar => if decide (idxvar = to1DIdx B ind t.dims) then v
        else t.get B (from1DIdx B idxvar t.dims),
      fun idxvar => if decide (idxvar = to1DIdx B ind t.dims) then true
        else t.isInitialized B (from1DIdx B idxvar t.dims)⟩,
    by simp only [Tensor.insert, hl, if_true], rfl, rfl, ?_⟩
  intro idx hidx
  have hidx2 : fitsInDims idx t.dims = true := hidx
  have hrt := from1DIdx_to1DIdx B idx t.dims hidx2 hle
  constructor
  · intro e
    subst e
    simp [Tensor.get, Tensor.getRaw, Tensor.isInitialized]
  · intro hne
    have hne2 : to1DIdx B idx t.dims ≠ to1DIdx B ind t.dims :=
      fun h => hne (to1DIdx_inj B idx ind t.dims hidx2 hind hle h)
    simp only [Tensor.get, Tensor.getRaw, Tensor.isInitialized, hne2, decide_False,
      Bool.false_eq_true, if_false, hrt]
    exact ⟨trivial, trivial⟩

/-- The insertion of 7 at `(1, 2)` into the sample tensor of dims `[2, 3]`. -/
theorem C22_insert_witness :
    ∃ T : Tensor, sample23.insert 64 7 [1, 2] = some (T, sample23.isInBounds [1, 2]) ∧
      T.dims = sample23.dims ∧ T.elemType = sample23.elemType ∧
      ∀ idx : List Nat, T.isInBounds idx = true →
        (idx = [1, 2] → T.get 64 idx = 7 ∧ T.isInitialized 64 idx = true) ∧
        (idx ≠ [1, 2] → T.get 64 idx = sample23.get 64 idx ∧
          T.isInitialized 64 idx = sample23.isInitialized 64 idx) :=
  C22_insert 64 sample23 7 [1, 2] (by decide) (by decide)

/-! ### No-alias -/

theorem specNoalias_symm (B : Nat) (a b : MemRef) : specNoalias B a b = specNoalias B b a := by
  simp only [specNoalias]
  apply decide_eq_decide.mpr
  constructor
  · rintro (h | ⟨h, h2 | h2⟩)
    · exact Or.inl (fun e => h e.symm)
    · exact Or.inr ⟨h.symm, Or.inr h2⟩
    · exact Or.inr ⟨h.symm, Or.inl h2⟩
  · rintro (h | ⟨h, h2 | h2⟩)
    · exact Or.inl (fun e => h e.symm)
    · exact Or.inr ⟨h.symm, Or.inr h2⟩
    · exact Or.inr ⟨h.symm, Or.inl h2⟩

theorem noalias_ok (B : Nat) (a b : MemRef) (ha : a.isIdentityMap = true)
    (hb : b.isIdentityMap = true) : a.noalias B b = .ok (specNoalias B a b) := by
  simp only [MemRef.noalias, ha, hb, Bool.not_true, Bool.or_self, Bool.false_eq_true, if_false,
    specNoalias, MemRef.get1DSize, get1DSize_eq, bvAdd, bvUle]
  congr 1
  by_cases h : a.bid = b.bid <;> simp [h]

/-- C21: `a.noalias(b)` fails with the Unsupported error exactly when the layout of `a`
or of `b` is no identity layout; for two identity layouts it returns the formula
`a.bid ≠ b.bid ∨ (a.bid = b.bid ∧ (r2 ≤ l1 ∨ r1 ≤ l2))` over the ends of the two
regions in `B`-bit arithmetic, and the result is the same with `a` and `b` swapped. -/
theorem C21_noalias (B : Nat) (a b : MemRef) :
    (a.noalias B b = .error .unsupported ↔
      (a.isIdentityMap = false ∨ b.isIdentityMap = false)) ∧
    (a.isIdentityMap = true → b.isIdentityMap = true →
      a.noalias B b = .ok (specNoalias B a b) ∧ a.noalias B b = b.noalias B a) := by
  constructor
  · cases ha : a.isIdentityMap <;> cases hb : b.isIdentityMap <;>
      simp [MemRef.noalias, ha, hb]
  · intro ha hb
    refine ⟨noalias_ok B a b ha hb, ?_⟩
    rw [noalias_ok B a b ha hb, noalias_ok B b a hb ha, specNoalias_symm]

/-- Two sample memrefs of block 0 over disjoint regions, and a memref with a strided
layout. -/
theorem C21_noalias_witness :
    sampleMemRef.isIdentityMap = true ∧ sampleMemRefThird.isIdentityMap = true ∧
    sampleMemRef.noalias 64 sampleMemRefThird = .ok (specNoalias 64 sampleMemRef sampleMemRefThird) ∧
    sampleMemRef.noalias 64 sampleMemRefThird = sampleMemRefThird.noalias 64 sampleMemRef ∧
    sampleMemRef.noalias 64 sampleMemRefStrided = .error .unsupported :=
  ⟨rfl, rfl, ((C21_noalias 64 sampleMemRef sampleMemRefThird).2 rfl rfl).1,
    ((C21_noalias 64 sampleMemRef sampleMemRefThird).2 rfl rfl).2,
    (C21_noalias 64 sampleMemRef sampleMemRefStrided).1.mpr (Or.inr rfl)⟩

/-! ### Attributes and typed values -/

/-- C26, as amended: a float attribute of a type with a sort gives the Float constant of
its type, and an assertion failure for another float type; an index attribute gives
the Index built from its value when the value is in the signed 32-bit range (the
value itself when it is not negative and below `2 ^ B`), and an assertion failure
otherwise; an integer attribute of a width up to 64 gives the Integer of that width
with the value modulo `2 ^ w`, a wider one and any other attribute give the
Unsupported error; `getExpr (fromExpr e ty) = e` for a primitive type, and `fromExpr`
is absent exactly for a type that is neither index, float nor integer. -/
theorem C26_attrToValueTy_amended (B : Nat) (fp : FpBackend) :
    (∀ ty v, Float.sort ty ≠ none →
      attrToValueTy B fp (.floatAttr ty v) = .ok (.float ⟨fp.constant ty v, ty⟩)) ∧
    (∀ ty v, Float.sort ty = none →
      attrToValueTy B fp (.floatAttr ty v) = .error .assertion) ∧
    (∀ ii : Int, -2147483648 ≤ ii → ii ≤ 2147483647 →
      attrToValueTy B fp (.integerAttr .indexTy ii) = .ok (.index ⟨Index.ofUnsigned B ii⟩)) ∧
    (∀ ii : Int, 0 ≤ ii → ii ≤ 2147483647 → ii < 2 ^ B → Index.ofUnsigned B ii = ii.toNat) ∧
    (∀ ii : Int, (ii < -2147483648 ∨ 2147483647 < ii) →
      attrToValueTy B fp (.integerAttr .indexTy ii) = .error .assertion) ∧
    (∀ (w : Nat) (ii : Int), w ≤ 64 →
      attrToValueTy B fp (.integerAttr (.integerTy w) ii)
        = .ok (.integer ⟨w, (ii % 2 ^ w).toNat⟩)) ∧
    (∀ (w : Nat) (ii : Int), 64 < w →
      attrToValueTy B fp (.integerAttr (.integerTy w) ii) = .error .unsupported) ∧
    attrToValueTy B fp .otherAttr = .error .unsupported ∧
    (∀ (e : Nat) (ty : MType), convertPrimitiveTypeToSort B ty ≠ none →
      ∃ v, fromExpr e ty = some v ∧ getExpr v = .inl e) ∧
    (∀ (e : Nat) (ty : MType), fromExpr e ty = none ↔ ty = .otherTy) := by
  refine ⟨?_, ?_, ?_, ?_, ?_, ?_, ?_, rfl, ?_, ?_⟩
  · intro ty v h
    simp only [attrToValueTy, h, if_false]
  · intro ty v h
    simp only [attrToValueTy, h, if_true]
  · intro ii h1 h2
    simp only [attrToValueTy, h1, h2, and_self, if_true]
  · intro ii h0 h1 hB
    have h32 : ii % 2 ^ 32 = ii := Int.emod_eq_of_lt h0 (by omega)
    simp only [Index.ofUnsigned, h32]
    apply Nat.mod_eq_of_lt
    have : ((ii.toNat : Nat) : Int) < ((2 ^ B : Nat) : Int) := by
      rw [Int.toNat_of_nonneg h0]
      push_cast
      exact hB
    exact_mod_cast this
  · intro ii h
    have : ¬ (-2147483648 ≤ ii ∧ ii ≤ 2147483647) := by omega
    simp only [attrToValueTy, this, if_false]
  · intro w ii h
    have : ¬ 64 < w := by omega
    simp only [attrToValueTy, this, if_false]
  · intro w ii h
    simp only [attrToValueTy, h, if_true]
  · intro e ty h
    cases ty with
    | integerTy w => exact ⟨_, rfl, rfl⟩
    | floatTy w => exact ⟨_, rfl, rfl⟩
    | indexTy => exact ⟨_, rfl, rfl⟩
    | otherTy => exact absurd rfl h
  · intro e ty
    cases ty <;> simp [fromExpr]

/-- The sample attributes of C26: a float attribute of type `f32`, the index attribute
7, the 8-bit integer attribute -1 and a term of type `f64`. -/
theorem C26_attrToValueTy_amended_witness :
    attrToValueTy 64 sampleFp (.floatAttr (.floatTy 32) 3)
      = .ok (.float ⟨sampleFp.constant (.floatTy 32) 3, .floatTy 32⟩) ∧
    attrToValueTy 64 sampleFp (.integerAttr .indexTy 7) = .ok (.index ⟨7⟩) ∧
    attrToValueTy 64 sampleFp (.integerAttr (.integerTy 8) (-1)) = .ok (.integer ⟨8, 255⟩) ∧
    (∃ v, fromExpr 5 (.floatTy 64) = some v ∧ getExpr v = .inl 5) :=
  ⟨(C26_attrToValueTy_amended 64 sampleFp).1 (.floatTy 32) 3 (by decide),
    (C26_attrToValueTy_amended 64 sampleFp).2.2.1 7 (by decide) (by decide),
    (C26_attrToValueTy_amended 64 sampleFp).2.2.2.2.2.1 8 (-1) (by decide),
    (C26_attrToValueTy_amended 64 sampleFp).2.2.2.2.2.2.2.2.1 5 (.floatTy 64) (by decide)⟩

/-- C26 fails as stated: the index attribute `2 ^ 31` is an index-typed integer
attribute, and the conversion is neither an Index nor the Unsupported error but an
assertion failure; and `f16` is no primitive type, yet `fromExpr` returns a Float
for it. -/
theorem C26_attrToValueTy_counterexample :
    attrToValueTy 64 sampleFp (.integerAttr .indexTy 2147483648) = .error .assertion ∧
    convertPrimitiveTypeToSort 64 (.floatTy 16) = none ∧
    fromExpr 5 (.floatTy 16) = some (.float ⟨5, .floatTy 16⟩) :=
  ⟨rfl, rfl, rfl⟩

/-! ### Element types of the constructors -/

/-- C27, as amended: with an element type that is not primitive, the dense constructor
with dims fails with the Unsupported error whatever the elements (the sort is read
before the array is built); the splat constructor, the dense 1-D constructor and the
sparse constructor do not look at the element type and build the tensor; `Tensor::var`
reads the sort without a check, which is no Unsupported error. -/
theorem C27_constructor_types_amended (B : Nat) (elemType : MType)
    (hty : convertPrimitiveTypeToSort B elemType = none) :
    (∀ tensor_val elems1d dim,
      Tensor.denseShaped B elemType tensor_val elems1d dim = .error .unsupported) ∧
    (∀ e dimvec, (Tensor.splat elemType e dimvec).elemType = elemType ∧
      (Tensor.splat elemType e dimvec).dims = dimvec ∧
      ∀ i, (Tensor.splat elemType e dimvec).arr i = e) ∧
    (∀ tensor_val elems1d, elems1d ≠ [] → elems1d.length < 2 ^ 32 →
      ∃ t, Tensor.dense1D B elemType tensor_val elems1d = .ok t ∧ t.elemType = elemType) ∧
    (∀ indices elems dims z, indices.length = elems.length →
      (∀ idx ∈ indices, idx.length = dims.length) →
      ∃ t, Tensor.sparse B elemType indices elems dims z = some t ∧
        t.elemType = elemType) ∧
    (∀ arrVars name dimvec initialized,
      Tensor.var B arrVars elemType name dimvec initialized = .error .assertion) := by
  refine ⟨?_, ?_, ?_, ?_, ?_⟩
  · intro tv es dim
    simp only [Tensor.denseShaped, Tensor.getSort, hty]
  · intro e dimvec
    exact ⟨rfl, rfl, fun _ => rfl⟩
  · intro tv es hne hlt
    have : ¬ 2 ^ 32 ≤ es.length := by omega
    simp only [Tensor.dense1D, hne, this, if_false]
    exact ⟨_, rfl, rfl⟩
  · intro indices elems dims z h1 h2
    have h : indices.length = elems.length ∧ ∀ idx ∈ indices, idx.length = dims.length :=
      ⟨h1, h2⟩
    rw [Tensor.sparse, if_pos h]
    exact ⟨_, rfl, rfl⟩
  · intro arrVars name dimvec init
    simp only [Tensor.var, hty, if_true]

/-- The constructors on the element type that is neither index, integer nor float. -/
theorem C27_constructor_types_amended_witness :
    Tensor.denseShaped 64 .otherTy (fun _ => 0) [5, 6] [2] = .error .unsupported ∧
    (∃ t, Tensor.dense1D 64 .otherTy (fun _ => 0) [5, 6] = .ok t ∧ t.elemType = .otherTy) :=
  ⟨(C27_constructor_types_amended 64 .otherTy rfl).1 (fun _ => 0) [5, 6] [2],
    (C27_constructor_types_amended 64 .otherTy rfl).2.2.1 (fun _ => 0) [5, 6] (by decide)
      (by decide)⟩

/-- C27 fails as stated: on an element type that is not primitive the splat
constructor returns the tensor that holds 7 everywhere, the dense 1-D constructor
returns the tensor of its elements, and `Tensor::var` reads the absent sort, which is
no Unsupported error. -/
theorem C27_constructor_types_counterexample :
    convertPrimitiveTypeToSort 64 .otherTy = none ∧
    (Tensor.splat .otherTy 7 [2]).get 64 [1] = 7 ∧
    (∃ t, Tensor.dense1D 64 .otherTy (fun _ => 0) [5, 6] = .ok t ∧ t.get 64 [1] = 6) ∧
    Tensor.var 64 sampleArrVars .otherTy "x" [2] true = .error .assertion :=
  ⟨rfl, rfl, ⟨_, rfl, rfl⟩, rfl⟩

/-! ### Names of the minted constants -/

/-- C30 fails in the code: from the empty state, the dense attribute 0 and the sparse
attribute 1, both above the threshold, are minted one after the other; each gets a
cache entry of its own, and for every value of the array variables the two tensors
are the array variable of the same name `unknown_const#0`. -/
theorem C30_minted_names_collide (arrVars : String → Nat → Nat) (fuel : Nat)
    (tensor_val : Nat → Nat) :
    ∃ t0 s1 t1 s2,
      Tensor.fromElemsAttr 64 sampleFp sampleMixedOps sampleConfig arrVars fuel tensor_val
        ⟨[], 0, 0⟩ ⟨.integerTy 32, [100, 100]⟩ 0 = .ok (t0, s1) ∧
      Tensor.fromElemsAttr 64 sampleFp sampleMixedOps sampleConfig arrVars fuel tensor_val
        s1 ⟨.integerTy 32, [100, 100]⟩ 1 = .ok (t1, s2) ∧
      s2.abstractlyEncodedAttrs = [(0, t0), (1, t1)] ∧
      t0.arr = arrVars "unknown_const#0" ∧ t1.arr = arrVars "unknown_const#0" ∧
      t0 = t1 := by
  have hname : "unknown_const#" ++ toString (0 : Nat) = "unknown_const#0" := by decide
  obtain ⟨T, hT⟩ : ∃ T : Tensor,
      T = ⟨.integerTy 32, [100, 100], arrVars "unknown_const#0", fun _ => true⟩ := ⟨_, rfl⟩
  refine ⟨T, ⟨[(0, T)], 1, 0⟩, T, ⟨[(0, T), (1, T)], 1, 1⟩, ?_, ?_, rfl, ?_, ?_, rfl⟩
  · subst hT
    rfl
  · have h100 : Index.ofUnsigned 64 ((asUInt64 100 : Nat) : Int) = 100 := by decide
    subst hT
    simp [Tensor.fromElemsAttr, sampleMixedOps, sampleConfig, lookupSparse, Tensor.var,
      convertPrimitiveTypeToSort, h100, hname]
  · subst hT
    rfl
  · subst hT
    rfl

/-! ### Well-defined tensors -/

theorem wellDefined_foldl (M : Nat) : ∀ (l : List (Nat × Bool)) (e0 : Bool),
    (l.foldl (fun e p => if p.2 then e else e && bvUle p.1 M) e0 = true ↔
      e0 = true ∧ ∀ p ∈ l, p.2 = false → p.1 ≤ M)
  | [], e0 => by simp
  | p :: l, e0 => by
    rw [List.foldl_cons, wellDefined_foldl M l]
    cases hp : p.2
    · simp only [Bool.false_eq_true, if_false, Bool.and_eq_true, bvUle, decide_eq_true_eq,
        List.mem_cons, forall_eq_or_imp, hp, true_implies]
      tauto
    · simp only [if_true, List.mem_cons, forall_eq_or_imp, hp, Bool.true_eq_false, false_implies,
        true_and]

/-- C25 (amended): the test of `getWellDefined` is on the 1-D size term, not on the dims.
When the 1-D size is a numeral `getWellDefined` is true whatever the sizes; when it
is no numeral `getWellDefined` holds exactly when the product of the dims, in `B`
bits, is at most `MAX_TENSOR_SIZE` and every dim that is no literal is at most
`MAX_DIM_SIZE`, with literal dims not bounded individually. -/
theorem C25_getWellDefined_amended (B : Nat) (t : Tensor) (sizeIsNumeral : Bool)
    (dimIsNumeral : List Bool) :
    (sizeIsNumeral = true → t.getWellDefined B sizeIsNumeral dimIsNumeral = true) ∧
    (sizeIsNumeral = false →
      (t.getWellDefined B sizeIsNumeral dimIsNumeral = true ↔
        t.dims.prod % 2 ^ B ≤ Tensor.MAX_TENSOR_SIZE % 2 ^ B ∧
        ∀ p ∈ t.dims.zip dimIsNumeral, p.2 = false → p.1 ≤ Tensor.MAX_DIM_SIZE % 2 ^ B)) := by
  constructor
  · intro h
    simp only [Tensor.getWellDefined, h, if_true]
  · intro hs
    simp only [Tensor.getWellDefined, hs, Bool.false_eq_true, if_false]
    rw [wellDefined_foldl]
    simp only [bvUle, decide_eq_true_eq, Tensor.get1DSize, get1DSize_eq]

/-- A tensor of dims `[2, 30]` whose second dim is no literal and whose 1-D size is no
numeral: it is not well defined, since 30 exceeds `MAX_DIM_SIZE`; a tensor of dims
`[200, 200]` whose 1-D size is a numeral is well defined. -/
theorem C25_getWellDefined_amended_witness :
    (sampleSymbolicDims.getWellDefined 64 false [true, false] = true ↔
      sampleSymbolicDims.dims.prod % 2 ^ 64 ≤ Tensor.MAX_TENSOR_SIZE % 2 ^ 64 ∧
      ∀ p ∈ sampleSymbolicDims.dims.zip [true, false], p.2 = false →
        p.1 ≤ Tensor.MAX_DIM_SIZE % 2 ^ 64) ∧
    sampleSymbolicDims.getWellDefined 64 false [true, false] = false ∧
    sampleSymbolicDims.getWellDefined 64 true [true, true] = true :=
  ⟨(C25_getWellDefined_amended 64 sampleSymbolicDims false [true, false]).2 rfl, rfl,
    (C25_getWellDefined_amended 64 sampleSymbolicDims true [true, true]).1 rfl⟩

/-- C25 as stated fails: the sample tensor of dims `[0, 30]` has the literal dim 0 and a
second dim, of value 30, that is no literal, so it has at least one non-literal
dim; its 1-D size, the product with the literal 0, is the numeral 0.  `getWellDefined`
is true, but the formula of the claim is false: the product 0 is at most
`MAX_TENSOR_SIZE`, and the non-literal dim 30 exceeds `MAX_DIM_SIZE = 25`. -/
theorem C25_getWellDefined_counterexample :
    sampleZeroDim.dims = [0, 30] ∧ (∃ b ∈ [true, false], b = false) ∧
    sampleZeroDim.get1DSize 64 = 0 ∧
    sampleZeroDim.getWellDefined 64 true [true, false] = true ∧
    ¬ (sampleZeroDim.dims.prod % 2 ^ 64 ≤ Tensor.MAX_TENSOR_SIZE % 2 ^ 64 ∧
      ∀ p ∈ sampleZeroDim.dims.zip [true, false], p.2 = false →
        p.1 ≤ Tensor.MAX_DIM_SIZE % 2 ^ 64) := by
  refine ⟨rfl, by decide, by decide, rfl, ?_⟩
  intro h
  have := h.2 (30, false) (by decide) rfl
  exact absurd this (by decide)

/-! ### Ternary select -/

theorem lambda_isInitialized (B : Nat) (ty : MType) (dims : List Nat)
    (body : List Nat → Nat) (init : List Nat → Bool) (idx : List Nat)
    (hin : fitsInDims idx dims = true) (hfit : dims.prod ≤ 2 ^ B) :
    Tensor.isInitialized B ⟨ty, dims, fun x => body (from1DIdx B x dims),
      fun x => init (from1DIdx B x dims)⟩ idx = init idx := by
  simp only [Tensor.isInitialized]
  rw [from1DIdx_to1DIdx B idx dims hin hfit]

/-- C24, as amended: for tensors `tv` and `fv` of the same element type and the same dims
(at least one dim, as every tensor has) whose product is at most `2 ^ B`, `mkIte`
returns a tensor with the dims of `tv` whose element and initialized bit at an
in-bounds `idx` are those of `tv` if `c(idx)` is the 1-bit true constant, and those of
`fv` otherwise. -/
theorem C24_mkIte_amended (B : Nat) (c : List Nat → Nat) (tv fv : Tensor)
    (hne : tv.dims ≠ []) (hty : tv.elemType = fv.elemType) (hdims : tv.dims = fv.dims)
    (hfit : tv.dims.prod ≤ 2 ^ B) :
    ∃ T : Tensor, Tensor.mkIte B c tv fv = some T ∧ T.dims = tv.dims ∧
      T.elemType = tv.elemType ∧
      ∀ idx : List Nat, T.isInBounds idx = true →
        (c idx = Integer.boolTrue.e →
          T.get B idx = tv.get B idx ∧ T.isInitialized B idx = tv.isInitialized B idx) ∧
        (c idx ≠ Integer.boolTrue.e →
          T.get B idx = fv.get B idx ∧ T.isInitialized B idx = fv.isInitialized B idx) := by
  have hn : tv.dims.length ≠ 0 := fun h => hne (List.length_eq_zero.mp h)
  have hcond : tv.dims.length = fv.dims.length ∧ tv.elemType = fv.elemType :=
    ⟨by rw [hdims], hty⟩
  have hmk : Tensor.mkIte B c tv fv
      = Tensor.mkLambda B tv.elemType tv.dims tv.dims.length
        (fun indVars => if decide (c indVars = Integer.boolTrue.e) then tv.get B indVars
          else fv.get B indVars)
        (fun indVars =>
          if decide (c indVars = Integer.boolTrue.e) then tv.isInitialized B indVars
          else fv.isInitialized B indVars) := by
    simp only [Tensor.mkIte]
    rw [if_pos hcond]
  rw [mkLambda_some B _ _ _ _ _ hn rfl] at hmk
  refine ⟨_, hmk, rfl, rfl, ?_⟩
  · intro idx hin
    have hin2 : fitsInDims idx tv.dims = true := hin
    have hrt := from1DIdx_to1DIdx B idx tv.dims hin2 hfit
    constructor
    · intro hc
      simp only [Tensor.get, Tensor.getRaw, Tensor.isInitialized, hrt, hc, decide_True, if_true,
        and_self]
    · intro hc
      simp only [Tensor.get, Tensor.getRaw, Tensor.isInitialized, hrt, hc, decide_False,
        Bool.false_eq_true, if_false, and_self]

/-- The select between the sample tensor of dims `[2, 3]` and the splat of 9 with the
same dims, by the row index. -/
theorem C24_mkIte_amended_witness :
    ∃ T : Tensor, Tensor.mkIte 64 (fun idx => idx.getD 0 0) sample23
        (Tensor.splat (.integerTy 32) 9 [2, 3]) = some T ∧
      T.dims = sample23.dims ∧ T.elemType = sample23.elemType ∧
      ∀ idx : List Nat, T.isInBounds idx = true →
        ((fun idx : List Nat => idx.getD 0 0) idx = Integer.boolTrue.e →
          T.get 64 idx = sample23.get 64 idx ∧
          T.isInitialized 64 idx = sample23.isInitialized 64 idx) ∧
        ((fun idx : List Nat => idx.getD 0 0) idx ≠ Integer.boolTrue.e →
          T.get 64 idx = (Tensor.splat (.integerTy 32) 9 [2, 3]).get 64 idx ∧
          T.isInitialized 64 idx
            = (Tensor.splat (.integerTy 32) 9 [2, 3]).isInitialized 64 idx) :=
  C24_mkIte_amended 64 (fun idx => idx.getD 0 0) sample23
    (Tensor.splat (.integerTy 32) 9 [2, 3]) (by decide) rfl rfl (by decide)

/-- C24 fails as stated: with 64-bit indices and dims `[4, 2 ^ 62 + 1]`, whose product
exceeds `2 ^ 64`, the index vector `(3, 2 ^ 62 - 3)` is in bounds and the condition is
true on it, yet the element of the select there is the 2 of `fv`, not the 1 of
`tv`. -/
theorem C24_mkIte_counterexample :
    ∃ T : Tensor, Tensor.mkIte 64 sampleCond wrapIteTrue wrapIteFalse = some T ∧
      T.isInBounds [3, 2 ^ 62 - 3] = true ∧
      sampleCond [3, 2 ^ 62 - 3] = Integer.boolTrue.e ∧
      T.get 64 [3, 2 ^ 62 - 3] = 2 ∧ wrapIteTrue.get 64 [3, 2 ^ 62 - 3] = 1 :=
  ⟨_, rfl, by decide, by decide, by decide, by decide⟩

/-! ### Affine -/

theorem substitute_var_eval (B : Nat) (id x : Nat) (ps : List IdxExpr) (xs : List Nat) :
    ∀ e : IdxExpr, specSubstEval B ps xs (IdxExpr.substitute (.var id) x e)
      = specSubstEval B (.var id :: ps) (x :: xs) e
  | .var id2 => by
    by_cases h : id2 = id
    · subst h
      simp [IdxExpr.substitute, specSubstEval, specLookup]
    · have h2 : ¬ id = id2 := fun e => h e.symm
      simp [IdxExpr.substitute, specSubstEval, specLookup, h, h2]
  | .lit n => by simp [IdxExpr.substitute, specSubstEval]
  | .sem v => by simp [IdxExpr.substitute, specSubstEval]
  | .add a b => by
    have ha := substitute_var_eval B id x ps xs a
    have hb := substitute_var_eval B id x ps xs b
    simp only [IdxExpr.substitute, reduceCtorEq, if_false, specSubstEval, ha, hb]

theorem eval_eq_specSubstEval_nil (B : Nat) (xs : List Nat) :
    ∀ e : IdxExpr, IdxExpr.eval B e = specSubstEval B [] xs e
  | .var _ => by simp [IdxExpr.eval, specSubstEval, specLookup]
  | .lit _ => rfl
  | .sem _ => rfl
  | .add a b => by
    simp only [IdxExpr.eval, specSubstEval, eval_eq_specSubstEval_nil B xs a,
      eval_eq_specSubstEval_nil B xs b]

theorem affine_substitute (B : Nat) : ∀ (vars : List IdxExpr) (ind : List Nat) (e : IdxExpr),
    (∀ p ∈ vars, p.isVar = true) → ind.length = vars.length →
    IdxExpr.eval B ((List.range vars.length).foldl
      (fun newv j => IdxExpr.substitute (vars.getD j (.lit 0)) (ind.getD j 0) newv) e)
      = specSubstEval B vars ind e
  | [], ind, e, _, _ => by
    simp only [List.length_nil, List.range_zero, List.foldl_nil]
    exact eval_eq_specSubstEval_nil B ind e
  | p :: ps, [], e, _, hl => by simp at hl
  | p :: ps, x :: xs, e, hv, hl => by
    obtain ⟨id, rfl⟩ : ∃ id, p = IdxExpr.var id := by
      have := hv p (by simp)
      cases p with
      | var id => exact ⟨id, rfl⟩
      | lit _ => simp [IdxExpr.isVar] at this
      | sem _ => simp [IdxExpr.isVar] at this
      | add _ _ => simp [IdxExpr.isVar] at this
    have hv2 : ∀ q ∈ ps, q.isVar = true := fun q hq => hv q (by simp [hq])
    have hl2 : xs.length = ps.length := by simpa using hl
    have ih := affine_substitute B ps xs (IdxExpr.substitute (.var id) x e) hv2 hl2
    rw [List.length_cons, List.range_succ_eq_map, List.foldl_cons, List.foldl_map]
    simp only [List.getD_cons_zero, List.getD_cons_succ]
    rw [ih]
    exact substitute_var_eval B id x ps xs e

/-- C23, as amended: for index variables `newidxvars`, source index terms `srcidxs` and
`newsizes` of the length of `newidxvars` whose product is at most `2 ^ B`, the tensor
`t.affine(newidxvars, srcidxs, newsizes)` has the dims `newsizes`, is initialized
everywhere, and at every `w` in bounds of `newsizes` its element is
`t.get(srcidxs with each newidxvars[j] replaced by w[j])`. -/
theorem C23_affine_amended (B : Nat) (t : Tensor) (newidxvars srcidxs : List IdxExpr)
    (newsizes : List Nat) (hvars : ∀ p ∈ newidxvars, p.isVar = true)
    (hlen : newsizes.length = newidxvars.length) (hfit : newsizes.prod ≤ 2 ^ B) :
    (t.affine B newidxvars srcidxs newsizes).dims = newsizes ∧
    (t.affine B newidxvars srcidxs newsizes).elemType = t.elemType ∧
    (∀ i, (t.affine B newidxvars srcidxs newsizes).initialized i = true) ∧
    ∀ w : List Nat, fitsInDims w newsizes = true →
      (t.affine B newidxvars srcidxs newsizes).get B w
        = t.get B (srcidxs.map (specSubstEval B newidxvars w)) := by
  refine ⟨rfl, rfl, fun _ => rfl, ?_⟩
  intro w hw
  have hwl : w.length = newidxvars.length := by rw [fitsInDims_length _ _ hw, hlen]
  simp only [Tensor.affine, Tensor.get, Tensor.getRaw]
  rw [from1DIdx_to1DIdx B w newsizes hw hfit]
  congr 2
  apply List.map_congr_left
  intro e _
  exact affine_substitute B newidxvars w e hvars hwl

/-- The example of the specification: with `newidxvars = [x, y, z]` and
`srcidxs = [x, y + z]` over the sample tensor of dims `[2, 5]`, the element at
`(1, 2, 1)` of the result of dims `[2, 3, 2]` is the element at `(1, 3)`. -/
theorem C23_affine_amended_witness :
    (sample25.affine 64 [.var 0, .var 1, .var 2] [.var 0, .add (.var 1) (.var 2)]
      [2, 3, 2]).dims = [2, 3, 2] ∧
    (sample25.affine 64 [.var 0, .var 1, .var 2] [.var 0, .add (.var 1) (.var 2)]
      [2, 3, 2]).get 64 [1, 2, 1] = sample25.get 64 [1, 3] :=
  ⟨(C23_affine_amended 64 sample25 [.var 0, .var 1, .var 2]
      [.var 0, .add (.var 1) (.var 2)] [2, 3, 2] (by decide) rfl (by decide)).1,
    (C23_affine_amended 64 sample25 [.var 0, .var 1, .var 2]
      [.var 0, .add (.var 1) (.var 2)] [2, 3, 2] (by decide) rfl (by decide)).2.2.2
      [1, 2, 1] (by decide)⟩

/-- C23 fails as stated: with 64-bit indices, `newidxvars = [x, y]`, `srcidxs = [x, y]`
and `newsizes = [4, 2 ^ 62 + 1]`, whose product exceeds `2 ^ 64`, the index vector
`(3, 2 ^ 62 - 3)` is in bounds of `newsizes`, yet the element of the result there is
the element of `t` at `(0, 0)`, not the one at `(3, 2 ^ 62 - 3)`. -/
theorem C23_affine_counterexample :
    fitsInDims [3, 2 ^ 62 - 3] [4, 2 ^ 62 + 1] = true ∧
    (wrapSource.affine 64 [.var 0, .var 1] [.var 0, .var 1] [4, 2 ^ 62 + 1]).get 64
      [3, 2 ^ 62 - 3] = 0 ∧
    wrapSource.get 64 [specSubstEval 64 [.var 0, .var 1] [3, 2 ^ 62 - 3] (.var 0),
      specSubstEval 64 [.var 0, .var 1] [3, 2 ^ 62 - 3] (.var 1)] = 2 ^ 64 - 3 :=
  ⟨by decide, by decide, by decide⟩

/-! ### Axis-wise sum -/

theorem intSum_eq_listSum (w : Nat) (a : Nat → Nat) (n : Nat) :
    intSum w a n none = ((List.range n).map a).sum % 2 ^ w := by
  unfold intSum
  rw [intDot_foldl_list w a _ n]
  simp

theorem ofUnsigned_zero (B : Nat) : Index.ofUnsigned B 0 = 0 := by
  simp [Index.ofUnsigned]

theorem ofUnsigned_one (B : Nat) (hB : 1 < 2 ^ B) : Index.ofUnsigned B 1 = 1 := by
  have h : ((1 : Int) % 2 ^ 32).toNat = 1 := by decide
  simp only [Index.ofUnsigned, h]
  exact Nat.mod_eq_of_lt hB

theorem range_map_ite_set (l : List Nat) (axis c : Nat) :
    (List.range l.length).map (fun i => if i = axis then c else l.getD i 0)
      = l.set axis c := by
  apply List.ext_getElem
  · simp
  · intro n h1 h2
    have hn : n < l.length := by simpa using h1
    rw [List.getElem_map, List.getElem_range, List.getElem_set, List.getD_eq_getElem l 0 hn]
    by_cases h : n = axis
    · subst h
      simp
    · have h3 : ¬ axis = n := fun e => h e.symm
      simp [h, h3]

theorem range_map_ite_unit (n axis d : Nat) (h : axis < n) :
    (List.range n).map (fun i => if i = axis then d else 1)
      = List.replicate axis 1 ++ d :: List.replicate (n - axis - 1) 1 := by
  apply List.ext_getElem
  · simp
    omega
  · intro m h1 h2
    rw [List.getElem_map, List.getElem_range]
    by_cases hm : m < axis
    · rw [List.getElem_append_left (by simpa using hm)]
      have : m ≠ axis := by omega
      simp [this]
    · rw [List.getElem_append_right (by simpa using hm)]
      by_cases he : m = axis
      · subst he
        simp
      · have h3 : m - axis = (m - axis - 1) + 1 := by omega
        simp only [List.length_replicate, he, if_false]
        rw [List.getElem_cons, dif_neg (by omega)]
        simp

theorem from1DIdx_ones (B : Nat) : ∀ (b k : Nat),
    from1DIdx B k (List.replicate b 1) = List.replicate b 0
  | 0, _ => rfl
  | b + 1, k => by
    rw [List.replicate_succ, from1DIdx_cons B 1 _ k (by simp), from1DIdx_ones B b,
      List.replicate_succ]
    simp [bvUrem, Nat.mod_one]

theorem from1DIdx_unit_tail (B : Nat) (b d p : Nat) (hp : p < d) :
    from1DIdx B p (d :: List.replicate b 1) = p :: List.replicate b 0 := by
  have hd : d ≠ 0 := by omega
  rw [from1DIdx_cons B d _ p (by simp), from1DIdx_ones B b]
  simp [bvUrem, hd, Nat.mod_eq_of_lt hp]

theorem from1DIdx_unit (B : Nat) (b d p : Nat) (hp : p < d) : ∀ a : Nat,
    from1DIdx B p (List.replicate a 1 ++ d :: List.replicate b 1)
      = List.replicate a 0 ++ p :: List.replicate b 0
  | 0 => from1DIdx_unit_tail B b d p hp
  | a + 1 => by
    have hpos : ∀ e ∈ List.replicate a 1 ++ d :: List.replicate b 1, 0 < e := by
      intro e he
      rcases List.mem_append.mp he with h | h
      · rw [(List.mem_replicate.mp h).2]
        exact Nat.one_pos
      · rcases List.mem_cons.mp h with h | h
        · omega
        · rw [(List.mem_replicate.mp h).2]
          exact Nat.one_pos
    have hprod : (List.replicate a 1 ++ d :: List.replicate b 1).prod = d := by
      simp [List.prod_append, List.prod_replicate]
    rw [List.replicate_succ, List.cons_append, from1DIdx_cons B 1 _ p hpos, hprod,
      Nat.mod_eq_of_lt hp, from1DIdx_unit B b d p hp a, List.replicate_succ, List.cons_append]
    simp [bvUrem, Nat.mod_one]

theorem zipWith_bvAdd_zeros (B : Nat) : ∀ (l : List Nat), (∀ x ∈ l, x < 2 ^ B) →
    List.zipWith (bvAdd B) (List.replicate l.length 0) l = l
  | [], _ => rfl
  | x :: xs, h => by
    have hx : x < 2 ^ B := h x (by simp)
    rw [List.length_cons, List.replicate_succ, List.zipWith_cons_cons,
      zipWith_bvAdd_zeros B xs (fun y hy => h y (by simp [hy]))]
    simp [bvAdd, Nat.mod_eq_of_lt hx]

theorem fits_entries_lt (n : Nat) : ∀ (idx sizes : List Nat), fitsInDims idx sizes = true →
    (∀ s ∈ sizes, s < n) → ∀ x ∈ idx, x < n
  | [], _, _, _ => by simp
  | _ :: _, [], h, _ => by simp [fitsInDims] at h
  | i :: is, s :: ss, h, hs => by
    rw [fitsInDims_cons] at h
    intro x hx
    rcases List.mem_cons.mp hx with hx | hx
    · have := hs s (by simp)
      omega
    · exact fits_entries_lt n is ss h.2 (fun y hy => hs y (by simp [hy])) x hx

theorem prod_set_one_le (l : List Nat) (axis : Nat) (hpos : ∀ d ∈ l, 0 < d) :
    (l.set axis 1).prod ≤ l.prod := by
  by_cases h : axis < l.length
  · rw [List.prod_set, if_pos h, Nat.mul_one]
    have e : l.prod = (l.take axis).prod * (l[axis] * (l.drop (axis + 1)).prod) := by
      conv_lhs => rw [← List.take_append_drop axis l, List.drop_eq_getElem_cons h]
      rw [List.prod_append, List.prod_cons]
    rw [e]
    apply Nat.mul_le_mul_left
    have hd : 0 < l[axis] := hpos _ (List.getElem_mem h)
    exact Nat.le_mul_of_pos_left _ hd
  · rw [List.set_eq_of_length_le (by omega)]

theorem sum_row (B : Nat) (t : Tensor) (axis : Nat) (idx : List Nat) (p : Nat)
    (haxis : axis < t.dims.length) (hB : 1 < 2 ^ B) (hlen : idx.length = t.dims.length)
    (hidx : ∀ x ∈ idx, x < 2 ^ B) (hp : p < t.dims.getD axis 0) (hp2 : p < 2 ^ B) :
    t.to1DArrayWithOfs B (idx.take axis ++ [Index.ofUnsigned B 0] ++ idx.drop (axis + 1))
      (t.sumSubtensorSz B axis) p = t.get B (idx.set axis p) := by
  have hsub : t.sumSubtensorSz B axis
      = List.replicate axis 1 ++ t.dims.getD axis 0
        :: List.replicate (t.dims.length - axis - 1) 1 := by
    simp only [Tensor.sumSubtensorSz, Tensor.getDim, ofUnsigned_one B hB]
    rw [← range_map_ite_unit t.dims.length axis (t.dims.getD axis 0) haxis]
    apply List.map_congr_left
    intro i _
    by_cases h : i = axis
    · subst h
      simp
    · simp [h]
  have hax : axis < idx.length := by omega
  simp only [Tensor.to1DArrayWithOfs, hsub, ofUnsigned_zero]
  rw [from1DIdx_unit B _ _ p hp axis, List.append_assoc,
    List.zipWith_append _ _ _ _ _ (by simp; omega), List.singleton_append,
    List.zipWith_cons_cons]
  have h1 : List.zipWith (bvAdd B) (List.replicate axis 0) (idx.take axis) = idx.take axis := by
    have hl : (idx.take axis).length = axis := by simp; omega
    have := zipWith_bvAdd_zeros B (idx.take axis)
      (fun x hx => hidx x (List.mem_of_mem_take hx))
    rw [hl] at this
    exact this
  have h2 : List.zipWith (bvAdd B) (List.replicate (t.dims.length - axis - 1) 0)
      (idx.drop (axis + 1)) = idx.drop (axis + 1) := by
    have hl : (idx.drop (axis + 1)).length = t.dims.length - axis - 1 := by simp; omega
    have := zipWith_bvAdd_zeros B (idx.drop (axis + 1))
      (fun x hx => hidx x (List.mem_of_mem_drop hx))
    rw [hl] at this
    exact this
  have h3 : bvAdd B p 0 = p := by simp [bvAdd, Nat.mod_eq_of_lt hp2]
  rw [h1, h2, h3, List.set_eq_take_append_cons_drop, if_pos hax]

/-- C29, as amended: for a tensor `t` of integers of width `w` with positive dims whose
product is below `2 ^ B`, and an axis below the rank, `t.sum(axis)` has the dims of `t`
with a 1 at the axis, is initialized everywhere, and at every in-bounds `idx` of the
result (so `idx[axis] = 0`) its element is the sum over `k < t.dims[axis]` of
`t.get(idx with idx[axis] := k)`, in `w`-bit arithmetic. -/
theorem C29_sum_axis_amended (B w : Nat) (fpSum : MType → (Nat → Nat) → Nat → Nat)
    (t : Tensor) (axis : Nat) (hty : t.elemType = .integerTy w)
    (hpos : ∀ d ∈ t.dims, 0 < d) (haxis : axis < t.dims.length)
    (hfit : t.dims.prod < 2 ^ B) :
    ∃ T : Tensor, t.sum B fpSum axis = some T ∧ T.dims = t.dims.set axis 1 ∧
      T.elemType = t.elemType ∧ (∀ i, T.initialized i = true) ∧
      ∀ idx : List Nat, T.isInBounds idx = true →
        idx.getD axis 0 = 0 ∧
        T.get B idx
          = ((List.range (t.dims.getD axis 0)).map
              (fun k => t.get B (idx.set axis k))).sum % 2 ^ w := by
  have hprod : 0 < t.dims.prod := List.prod_pos hpos
  have hB : 1 < 2 ^ B := by omega
  have hn : t.dims.length ≠ 0 := by omega
  have hns : t.sumNewSizes B axis = t.dims.set axis 1 := by
    simp only [Tensor.sumNewSizes, Tensor.getDim, ofUnsigned_one B hB]
    exact range_map_ite_set t.dims axis 1
  have hnsfit : (t.dims.set axis 1).prod ≤ 2 ^ B :=
    Nat.le_of_lt (Nat.lt_of_le_of_lt (prod_set_one_le t.dims axis hpos) hfit)
  have hnspos : ∀ d ∈ t.dims.set axis 1, 0 < d := by
    intro d hd
    rcases List.mem_or_eq_of_mem_set hd with h | h
    · exact hpos d h
    · omega
  obtain ⟨r, hr, hd, he, hg, hi⟩ := mkInitializedLambda_spec B t.elemType (t.dims.set axis 1)
    t.dims.length (t.sumSummation B fpSum axis) hn (by simp)
  refine ⟨r, ?_, hd, he, hi, ?_⟩
  · simp only [Tensor.sum, haxis, if_true, hns]
    exact hr
  · intro idx hin
    have hin2 : fitsInDims idx (t.dims.set axis 1) = true := by
      rw [← hd]
      exact hin
    have hlen : idx.length = t.dims.length := by
      rw [fitsInDims_length _ _ hin2, List.length_set]
    have hax0 : idx.getD axis 0 = 0 := by
      have h := ((fitsInDims_getD idx _).mp hin2).2 axis (by simpa using haxis)
      have e : (t.dims.set axis 1).getD axis 0 = 1 := by
        rw [List.getD_eq_getElem _ 0 (by simpa using haxis)]
        exact List.getElem_set_self _
      rw [e] at h
      omega
    have hidx : ∀ x ∈ idx, x < 2 ^ B :=
      fits_entries_lt (2 ^ B) idx _ hin2
        (mem_lt_of_prod_lt _ hnspos (2 ^ B)
          (Nat.lt_of_le_of_lt (prod_set_one_le t.dims axis hpos) hfit))
    have hdle : t.dims.getD axis 0 ≤ t.dims.prod := getD_le_prod t.dims hpos axis haxis
    refine ⟨hax0, ?_⟩
    rw [hg idx hin2 hnsfit]
    simp only [Tensor.sumSummation, hty, MType.bitWidth, Tensor.getDim]
    rw [intSum_eq_listSum]
    congr 2
    apply List.map_congr_left
    intro p hp
    have hp1 : p < t.dims.getD axis 0 := List.mem_range.mp hp
    exact sum_row B t axis idx p haxis hB hlen hidx hp1 (by omega)

/-- The sum of the sample tensor of dims `[2, 3]` along axis 1: the result has dims
`[2, 1]` and its element at `(1, 0)` is the sum `3 + 4 + 5` of row 1. -/
theorem C29_sum_axis_amended_witness :
    ∃ T : Tensor, sample23.sum 64 sampleFpSum 1 = some T ∧ T.dims = [2, 1] ∧
      T.get 64 [1, 0] = 12 := by
  obtain ⟨T, hT, hd, _, _, hg⟩ := C29_sum_axis_amended 64 32 sampleFpSum sample23 1 rfl
    (by decide) (by decide) (by decide)
  refine ⟨T, hT, hd, ?_⟩
  rw [(hg [1, 0] (by rw [Tensor.isInBounds, hd]; decide)).2]
  decide

/-- C29 fails as stated: with 64-bit indices and a tensor of dims `[4, 2, 2 ^ 62 + 1]`
that holds its offsets, the sum along axis 1 has the dims `[4, 1, 2 ^ 62 + 1]`, whose
product exceeds `2 ^ 64`; the index vector `(3, 0, 2 ^ 62 - 3)` is in bounds of the
result, yet the element there is the sum of the elements at `(0, 0, 0)` and
`(0, 1, 0)`, not the sum of those at `(3, 0, 2 ^ 62 - 3)` and `(3, 1, 2 ^ 62 - 3)`. -/
theorem C29_sum_axis_counterexample :
    ∃ T : Tensor, wrapSumTensor.sum 64 sampleFpSum 1 = some T ∧
      T.isInBounds [3, 0, 2 ^ 62 - 3] = true ∧
      T.get 64 [3, 0, 2 ^ 62 - 3] = 4611686018427387905 ∧
      ((List.range (wrapSumTensor.dims.getD 1 0)).map
        (fun k => wrapSumTensor.get 64 ([3, 0, 2 ^ 62 - 3].set 1 k))).sum % 2 ^ 64
        = 13835058055282163719 :=
  ⟨_, rfl, by decide, by decide, by decide⟩

/-! ### Refinement on a shape mismatch -/

/-- C31: for two tensors of the same element type, `refines` returns the formula `false`
with an empty parameter list when the ranks differ, whatever the simplifier says,
and when the ranks agree and the simplifier reports the conjunction of the dim
equalities to be `false`; the result is the same for every valuation, the variable
`i` is not reached. -/
theorem C31_refines_shape_mismatch (B : Nat) (fp : FpBackend) (a b : Tensor)
    (hty : a.elemType = b.elemType) :
    (a.dims.length ≠ b.dims.length →
      ∀ (ρ : Valuation) (sizeMatchIsFalse : Bool),
        a.refines B fp ρ sizeMatchIsFalse b = some (false, [])) ∧
    (a.dims.length = b.dims.length → simplifierSound true a b →
      ∀ ρ : Valuation, a.refines B fp ρ true b = some (false, [])) := by
  constructor
  · intro hr ρ smf
    have hr2 : b.dims.length ≠ a.dims.length := fun e => hr e.symm
    simp only [Tensor.refines, hty, ne_eq, not_true_eq_false, if_false, hr2, not_false_eq_true,
      if_true]
  · intro hr hs ρ
    have hsm : a.sizeMatch b = false := hs rfl
    simp only [Tensor.refines, hty, ne_eq, not_true_eq_false, if_false, hr, if_true, hsm]

/-- The sample tensors of dims `[2, 3]` and `[2, 5]`, and of dims `[2, 3]` and `[3]`. -/
theorem C31_refines_shape_mismatch_witness :
    sample23.refines 64 sampleFp sampleValuation true sample25 = some (false, []) ∧
    sample23.refines 64 sampleFp sampleValuation false sampleVec = some (false, []) :=
  ⟨(C31_refines_shape_mismatch 64 sampleFp sample23 sample25 rfl).2 rfl (fun _ => by decide)
      sampleValuation,
    (C31_refines_shape_mismatch 64 sampleFp sample23 sampleVec rfl).1 (by decide)
      sampleValuation false⟩

/-! ### Memrefs within their block -/

/-- C32 (amended): for a memref whose block has a `B`-bit number `n` of elements,
`isInBounds()` holds exactly when `offset + sz ≤ n` over the natural numbers, `sz`
being the 1-D size of the memref, the product of the dims in `B` bits; when the
product of the dims is below `2 ^ B` this is `offset + product(dims) ≤ n`. -/
theorem C32_memref_isInBounds_amended (B : Nat) (m : MemRef)
    (hn : m.m.getNumElementsOfMemBlock m.elemType m.bid < 2 ^ B) :
    (m.isInBounds B = true ↔
      m.offset + m.get1DSize B ≤ m.m.getNumElementsOfMemBlock m.elemType m.bid) ∧
    (m.dims.prod < 2 ^ B →
      (m.isInBounds B = true ↔
        m.offset + m.dims.prod ≤ m.m.getNumElementsOfMemBlock m.elemType m.bid)) := by
  have key : m.isInBounds B = true ↔
      m.offset + m.get1DSize B ≤ m.m.getNumElementsOfMemBlock m.elemType m.bid := by
    simp only [MemRef.isInBounds, bvUge, bvUle, Bool.and_eq_true, decide_eq_true_eq]
    constructor
    · rintro ⟨h1, h2⟩
      rw [bvSub_exact B _ _ hn h1] at h2
      omega
    · intro h
      have h1 : m.get1DSize B ≤ m.m.getNumElementsOfMemBlock m.elemType m.bid := by omega
      refine ⟨h1, ?_⟩
      rw [bvSub_exact B _ _ hn h1]
      omega
  refine ⟨key, fun hp => ?_⟩
  rw [key, MemRef.get1DSize, get1DSize_eq, Nat.mod_eq_of_lt hp]

/-- The sample 4 x 4 memref at offset 5 of a block of 64 elements. -/
theorem C32_memref_isInBounds_amended_witness :
    (sampleMemRef.isInBounds 64 = true ↔
      sampleMemRef.offset + sampleMemRef.dims.prod
        ≤ sampleMemRef.m.getNumElementsOfMemBlock sampleMemRef.elemType sampleMemRef.bid) ∧
    sampleMemRef.isInBounds 64 = true :=
  ⟨(C32_memref_isInBounds_amended 64 sampleMemRef (by decide)).2 (by decide), by decide⟩

/-- C32 as stated fails: the memref of dims `[2^63, 2]` at offset 0 of a block of 64
elements has the product of dims `2^64`, so the block does not contain
`offset + product(dims)` elements; its 1-D size in 64 bits is 0, and `isInBounds()`
holds. -/
theorem C32_memref_isInBounds_counterexample :
    wrapMemRef.dims = [2 ^ 63, 2] ∧ wrapMemRef.offset = 0 ∧
    wrapMemRef.m.getNumElementsOfMemBlock wrapMemRef.elemType wrapMemRef.bid = 64 ∧
    wrapMemRef.get1DSize 64 = 0 ∧
    wrapMemRef.isInBounds 64 = true ∧
    ¬ (wrapMemRef.offset + wrapMemRef.dims.prod
      ≤ wrapMemRef.m.getNumElementsOfMemBlock wrapMemRef.elemType wrapMemRef.bid) := by
  refine ⟨rfl, rfl, rfl, by decide, by decide, by decide⟩

/-! ### Float refinement as an equivalence -/

/-- C39: for Floats `a`, `b`, `c` of one element type and every `isnan`, `a.refines(b)`
holds exactly when `b.refines(a)` does, and `a.refines(b)` with `b.refines(c)` gives
`a.refines(c)` (the type of `c` is not read by these three formulas). -/
theorem C39_float_refines_equivalence (fp : FpBackend) (a b c : Float)
    (hab : a.type = b.type) :
    ((a.refines fp b).1 = true ↔ (b.refines fp a).1 = true) ∧
    ((a.refines fp b).1 = true → (b.refines fp c).1 = true → (a.refines fp c).1 = true) := by
  simp only [Float.refines, ← hab]
  constructor
  · cases fp.isnan a.type a.e <;> cases fp.isnan a.type b.e <;> simp [eq_comm]
  · cases fp.isnan a.type a.e <;> cases fp.isnan a.type b.e <;> cases fp.isnan a.type c.e <;>
      simp
    intro h1 h2
    rw [h2, h1]

/-- Three `f32` NaNs with different payloads under the sample encoding: each refines
the others. -/
theorem C39_float_refines_equivalence_witness :
    (((⟨2143289344, .floatTy 32⟩ : Float).refines sampleFp ⟨2143289345, .floatTy 32⟩).1 = true ↔
      ((⟨2143289345, .floatTy 32⟩ : Float).refines sampleFp ⟨2143289344, .floatTy 32⟩).1
        = true) ∧
    ((⟨2143289344, .floatTy 32⟩ : Float).refines sampleFp ⟨2141192192, .floatTy 32⟩).1 = true :=
  ⟨(C39_float_refines_equivalence sampleFp ⟨2143289344, .floatTy 32⟩ ⟨2143289345, .floatTy 32⟩
      ⟨2141192192, .floatTy 32⟩ rfl).1,
    (C39_float_refines_equivalence sampleFp ⟨2143289344, .floatTy 32⟩ ⟨2143289345, .floatTy 32⟩
      ⟨2141192192, .floatTy 32⟩ rfl).2 (by decide) (by decide)⟩

/-! ### Soundness of no-alias -/

/-- C40: for two identity-layout memrefs whose ends `offset + size` do not wrap, if
`a.noalias(b)` is true then no 1-D offset of a common block lies in both regions; and
a memref of non-zero size does not satisfy `noalias` with itself. -/
theorem C40_noalias_sound (B : Nat) (a b : MemRef) (ha : a.isIdentityMap = true)
    (hb : b.isIdentityMap = true) (hwa : a.offset + a.get1DSize B < 2 ^ B)
    (hwb : b.offset + b.get1DSize B < 2 ^ B) :
    (a.noalias B b = .ok true →
      ¬ ∃ o : Nat, a.bid = b.bid ∧
        a.offset ≤ o ∧ o < a.offset + a.get1DSize B ∧
        b.offset ≤ o ∧ o < b.offset + b.get1DSize B) ∧
    (a.get1DSize B ≠ 0 → a.noalias B a = .ok false) := by
  constructor
  · intro h
    rintro ⟨o, hbid, h1, h2, h3, h4⟩
    simp only [MemRef.noalias, ha, hb, Bool.not_true, Bool.or_self, Bool.false_eq_true,
      if_false, hbid, decide_True, Bool.true_and, Bool.false_or, bvUle, bvAdd,
      Nat.mod_eq_of_lt hwa, Nat.mod_eq_of_lt hwb, Except.ok.injEq, Bool.or_eq_true,
      decide_eq_true_eq] at h
    omega
  · intro hsz
    simp only [MemRef.noalias, ha, Bool.not_true, Bool.or_self, Bool.false_eq_true, if_false,
      decide_True, Bool.true_and, Bool.false_or, bvUle, bvAdd, Nat.mod_eq_of_lt hwa,
      Except.ok.injEq, Bool.or_self, decide_eq_false_iff_not]
    omega

/-- The sample memrefs of block 3 at offsets 5 and 9, over 16 elements each, overlap:
`noalias` is false on them, and on the first one with itself. -/
theorem C40_noalias_sound_witness :
    (sampleMemRef.noalias 64 sampleMemRefOther = .ok true →
      ¬ ∃ o : Nat, sampleMemRef.bid = sampleMemRefOther.bid ∧
        sampleMemRef.offset ≤ o ∧ o < sampleMemRef.offset + sampleMemRef.get1DSize 64 ∧
        sampleMemRefOther.offset ≤ o ∧
        o < sampleMemRefOther.offset + sampleMemRefOther.get1DSize 64) ∧
    sampleMemRef.noalias 64 sampleMemRef = .ok false :=
  ⟨(C40_noalias_sound 64 sampleMemRef sampleMemRefOther rfl rfl (by decide) (by decide)).1,
    (C40_noalias_sound 64 sampleMemRef sampleMemRefOther rfl rfl (by decide) (by decide)).2
      (by decide)⟩

/-! ### The precondition of a strided layout -/

theorem range_map_getD (x : List Nat) : (List.range x.length).map (fun i => x.getD i 0) = x := by
  apply List.ext_getElem
  · simp
  · intro n h1 h2
    rw [List.getElem_map, List.getElem_range, List.getD_eq_getElem x 0 h2]

theorem strided_inverse (B n : Nat) (layout : List Nat → Nat) (inbounds : List Nat → Bool)
    (inverseFns : Nat → Nat → Nat) (pit : Bool)
    (hpre : (Layout.strided B n layout inbounds inverseFns pit).precondition)
    (x : List Nat) (hl : x.length = n) (hx : ∀ e ∈ x, e < 2 ^ B) (hin : inbounds x = true) :
    (Layout.strided B n layout inbounds inverseFns pit).getInverseIndices
      ((Layout.strided B n layout inbounds inverseFns pit).mapping x) = x := by
  have h := hpre x hl hx hin
  simp only [Layout.getInverseIndices, Layout.strided]
  conv_rhs => rw [← range_map_getD x]
  rw [hl]
  apply List.map_congr_left
  intro i hi
  exact h i (List.mem_range.mp hi)

/-- C38: for a layout built from `n` induction variables, a mapping and an inbounds
predicate, under every interpretation of the inverse functions that satisfies the
precondition, `getInverseIndices(mapping(x)) = x` for every in-bounds index vector
`x`, and two in-bounds index vectors with the same offset are equal; hence no
interpretation satisfies the precondition when two different in-bounds index
vectors have the same offset.  Index vectors have `n` entries of `B` bits. -/
theorem C38_strided_precondition (B n : Nat) (layout : List Nat → Nat)
    (inbounds : List Nat → Bool) (pit : Bool) :
    (∀ inverseFns : Nat → Nat → Nat,
      (Layout.strided B n layout inbounds inverseFns pit).precondition →
      (∀ x : List Nat, x.length = n → (∀ e ∈ x, e < 2 ^ B) → inbounds x = true →
        (Layout.strided B n layout inbounds inverseFns pit).getInverseIndices
          ((Layout.strided B n layout inbounds inverseFns pit).mapping x) = x) ∧
      (∀ x y : List Nat, x.length = n → (∀ e ∈ x, e < 2 ^ B) → inbounds x = true →
        y.length = n → (∀ e ∈ y, e < 2 ^ B) → inbounds y = true →
        (Layout.strided B n layout inbounds inverseFns pit).mapping x
          = (Layout.strided B n layout inbounds inverseFns pit).mapping y → x = y)) ∧
    ((∃ x y : List Nat, x.length = n ∧ (∀ e ∈ x, e < 2 ^ B) ∧ inbounds x = true ∧
        y.length = n ∧ (∀ e ∈ y, e < 2 ^ B) ∧ inbounds y = true ∧ x ≠ y ∧
        layout x = layout y) →
      ∀ inverseFns : Nat → Nat → Nat,
        ¬ (Layout.strided B n layout inbounds inverseFns pit).precondition) := by
  have inj : ∀ inverseFns : Nat → Nat → Nat,
      (Layout.strided B n layout inbounds inverseFns pit).precondition →
      ∀ x y : List Nat, x.length = n → (∀ e ∈ x, e < 2 ^ B) → inbounds x = true →
        y.length = n → (∀ e ∈ y, e < 2 ^ B) → inbounds y = true →
        layout x = layout y → x = y := by
    intro inverseFns hpre x y hxl hx hxin hyl hy hyin hxy
    have e1 := strided_inverse B n layout inbounds inverseFns pit hpre x hxl hx hxin
    have e2 := strided_inverse B n layout inbounds inverseFns pit hpre y hyl hy hyin
    have hm : (Layout.strided B n layout inbounds inverseFns pit).mapping x
        = (Layout.strided B n layout inbounds inverseFns pit).mapping y := hxy
    rw [hm, e2] at e1
    exact e1.symm
  refine ⟨fun inverseFns hpre => ⟨fun x hl hx hin =>
    strided_inverse B n layout inbounds inverseFns pit hpre x hl hx hin,
    fun x y hxl hx hxin hyl hy hyin hxy => inj inverseFns hpre x y hxl hx hxin hyl hy hyin hxy⟩,
    ?_⟩
  rintro ⟨x, y, hxl, hx, hxin, hyl, hy, hyin, hne, hxy⟩ inverseFns hpre
  exact hne (inj inverseFns hpre x y hxl hx hxin hyl hy hyin hxy)

/-- The layout `(i) ↦ 2 * i` on `i < 4` with the inverse function `o ↦ o / 2`, whose
precondition holds, and the constant layout on `i < 2`, whose precondition has no
interpretation. -/
theorem C38_strided_precondition_witness :
    (Layout.strided 64 1 (fun v => 2 * v.getD 0 0) (fun v => decide (v.getD 0 0 < 4))
      (fun _ o => o / 2) false).getInverseIndices
      ((Layout.strided 64 1 (fun v => 2 * v.getD 0 0) (fun v => decide (v.getD 0 0 < 4))
        (fun _ o => o / 2) false).mapping [3]) = [3] ∧
    ∀ inverseFns : Nat → Nat → Nat,
      ¬ (Layout.strided 64 1 (fun _ => 0) (fun v => decide (v.getD 0 0 < 2))
        inverseFns false).precondition := by
  constructor
  · refine ((C38_strided_precondition 64 1 (fun v => 2 * v.getD 0 0)
      (fun v => decide (v.getD 0 0 < 4)) false).1 (fun _ o => o / 2) ?_).1 [3] rfl
      (by decide) (by decide)
    intro v hl _ _ i hi
    have hi0 : i = 0 := by omega
    subst hi0
    show 2 * v.getD 0 0 / 2 = v.getD 0 0
    omega
  · exact (C38_strided_precondition 64 1 (fun _ => 0) (fun v => decide (v.getD 0 0 < 2))
      false).2 ⟨[0], [1], rfl, by decide, by decide, rfl, by decide, by decide, by decide, rfl⟩

/-! ### The select of two memrefs -/

/-- C37 fails in the code: the rank assertion of `MemRef::mkIte` compares the rank of
`trueValue` with itself, so for operands on the same memory with the same element
type a memref is returned whatever the two ranks are: it has the dims and the
layout of `trueValue`, and bid, offset and the view flag are chosen by the
condition.  The sample memrefs of dims `[4, 4]` and `[4]` are such operands. -/
theorem C37_mkIte_rank_unchecked :
    (∀ (cond : Nat) (tv fv : MemRef), tv.elemType = fv.elemType →
      MemRef.mkIte cond true tv fv = .ok ⟨tv.m, tv.elemType,
        if cond = Integer.boolTrue.e then tv.bid else fv.bid,
        if cond = Integer.boolTrue.e then tv.offset else fv.offset,
        tv.dims, tv.layout,
        if cond = Integer.boolTrue.e then tv.isViewRef else fv.isViewRef⟩) ∧
    sampleMemRef.dims.length ≠ sampleMemRefThird.dims.length ∧
    ∃ r, MemRef.mkIte 1 true sampleMemRef sampleMemRefThird = .ok r ∧ r.dims = [4, 4] ∧
      r.bid = 3 ∧ r.offset = 5 := by
  refine ⟨?_, by decide, _, rfl, rfl, rfl, rfl⟩
  intro cond tv fv hty
  simp only [MemRef.mkIte, Bool.not_true, Bool.false_eq_true, if_false, hty, and_self,
    not_true_eq_false, decide_eq_true_eq]

/-! ### The bound of the conv output size -/

theorem convOutputDim_exact (B D F s d : Nat) (hs : 1 ≤ s) (hfit : d * F ≤ D)
    (hD : D < 2 ^ B) (hsum : D - d * F + s < 2 ^ B) :
    convOutputDim B D F s d = (D - d * F + s) / s := by
  have hs0 : s ≠ 0 := by omega
  have hm : bvMul B d F = d * F := Nat.mod_eq_of_lt (by omega)
  simp only [convOutputDim, hm, bvSub_exact B D (d * F) hD hfit, bvAdd, Nat.mod_eq_of_lt hsum,
    bvUdiv, hs0, if_false]

theorem lt_convOutputDim_iff (B D F s d x : Nat) (hs : 1 ≤ s) (hfit : d * F ≤ D)
    (hD : D < 2 ^ B) (hsum : D - d * F + s < 2 ^ B) :
    x < convOutputDim B D F s d ↔ x * s + d * F ≤ D := by
  rw [convOutputDim_exact B D F s d hs hfit hD hsum]
  have h : x + 1 ≤ (D - d * F + s) / s ↔ (x + 1) * s ≤ D - d * F + s :=
    Nat.le_div_iff_mul_le (by omega)
  have e : (x + 1) * s = x * s + s := by ring
  rw [e] at h
  constructor
  · intro hx
    have := h.mp hx
    omega
  · intro hx
    have := h.mpr (by omega)
    omega

/-- C34, as amended: for an input size `D`, a filter size `F ≥ 1`, a stride `s ≥ 1` and a
dilation `d ≥ 1` with `d * F ≤ D` and no wrap-around, an output position `x` is below
`D_out = (D - d * F + s) udiv s` exactly when `x * s + d * F ≤ D`; then every input
coordinate `x * s + d * z` with `z < F` is below `D`, and for `d = 1` the converse
holds too. -/
theorem C34_conv_output_bound_amended (B D F s d x : Nat) (hF : 1 ≤ F) (hs : 1 ≤ s)
    (hd : 1 ≤ d) (hfit : d * F ≤ D) (hD : D < 2 ^ B) (hsum : D - d * F + s < 2 ^ B) :
    (x < convOutputDim B D F s d ↔ x * s + d * F ≤ D) ∧
    (x < convOutputDim B D F s d → ∀ z, z < F → x * s + d * z < D) ∧
    (d = 1 → ((∀ z, z < F → x * s + d * z < D) → x < convOutputDim B D F s d)) := by
  have key := lt_convOutputDim_iff B D F s d x hs hfit hD hsum
  refine ⟨key, ?_, ?_⟩
  · intro hx z hz
    have h1 := key.mp hx
    have h2 : d * (z + 1) ≤ d * F := Nat.mul_le_mul_left d hz
    rw [Nat.mul_succ] at h2
    omega
  · intro hd1 hall
    subst hd1
    apply key.mpr
    have := hall (F - 1) (by omega)
    omega

/-- The spatial axis of size 4 with a filter of size 3, stride 1 and dilation 1: the
output size is 2. -/
theorem C34_conv_output_bound_amended_witness :
    (1 < convOutputDim 64 4 3 1 1 ↔ 1 * 1 + 1 * 3 ≤ 4) ∧
    (1 < convOutputDim 64 4 3 1 1 → ∀ z, z < 3 → 1 * 1 + 1 * z < 4) ∧
    (1 = 1 → ((∀ z, z < 3 → 1 * 1 + 1 * z < 4) → 1 < convOutputDim 64 4 3 1 1)) :=
  C34_conv_output_bound_amended 64 4 3 1 1 1 (by decide) (by decide) (by decide) (by decide)
    (by decide) (by decide)

/-- C34 fails as stated: with `D = 5`, `F = 2`, stride 1 and dilation 2 the output size is
2, and at the position `x = 2` every input coordinate `x + 2 * z` with `z < 2` is below
5, yet `x` is not below the output size. -/
theorem C34_conv_output_bound_counterexample :
    convOutputDim 64 5 2 1 2 = 2 ∧ 2 * 2 ≤ 5 ∧
    (∀ z, z < 2 → 2 * 1 + 2 * z < 5) ∧ ¬ (2 < convOutputDim 64 5 2 1 2) :=
  ⟨by decide, by decide, by decide, by decide⟩

/-! ### Lambda tensors -/

theorem bindVars_nodup (env : Nat → Nat) (id : Nat) : ∀ (vars : List IdxExpr) (w : List Nat)
    (j : Nat), vars.Nodup → w.length = vars.length → j < vars.length →
    vars.getD j (.lit 0) = .var id → bindVars vars w env id = w.getD j 0
  | [], _, _, _, _, hj, _ => by simp at hj
  | _ :: _, [], _, _, hl, _, _ => by simp at hl
  | p :: ps, x :: xs, 0, _, _, _, hp => by
    have hp2 : p = .var id := by simpa using hp
    simp [bindVars, hp2]
  | p :: ps, x :: xs, j + 1, hnd, hl, hj, hp => by
    have hp2 : ps.getD j (.lit 0) = .var id := by simpa using hp
    have hj2 : j < ps.length := by simpa using hj
    have hmem : IdxExpr.var id ∈ ps := by
      rw [← hp2, List.getD_eq_getElem ps _ hj2]
      exact List.getElem_mem hj2
    have hne : p ≠ .var id := fun e => (List.nodup_cons.mp hnd).1 (e ▸ hmem)
    have ih := bindVars_nodup env id ps xs j (List.nodup_cons.mp hnd).2 (by simpa using hl) hj2 hp2
    simp only [bindVars, hne, if_false, ih, List.getD_cons_succ]

theorem bindVars_other (env : Nat → Nat) (id : Nat) : ∀ (vars : List IdxExpr) (w : List Nat),
    IdxExpr.var id ∉ vars → bindVars vars w env id = env id
  | [], _, _ => by simp [bindVars]
  | _ :: _, [], _ => by simp [bindVars]
  | p :: ps, x :: xs, h => by
    have hne : p ≠ .var id := fun e => h (by simp [e])
    have ih := bindVars_other env id ps xs (fun hm => h (by simp [hm]))
    simp only [bindVars, hne, if_false, ih]

/-- C33: for dims of length `n ≥ 1` whose product is below `2 ^ B` (they are positive when
they have an in-bounds index vector) and `n` distinct index variables `vars`,
`mkLambda(E, dims, vars, body, init)` has those dims and at every in-bounds `w` its
element is `body` and its initialized bit is `init` with the variables bound to `w`:
`vars[j]` has the value `w[j]`, every other variable keeps its value.  With an empty
list of variables the tensor has the single dim 1; `mkInitializedLambda` is `mkLambda`
with `init = true`; an entry of `vars` that is no variable is rejected by an
assertion. -/
theorem C33_mkLambda (B : Nat) (E : MType) (dims : List Nat) (vars : List IdxExpr)
    (body : (Nat → Nat) → Nat) (init : (Nat → Nat) → Bool) (env : Nat → Nat)
    (hn : 1 ≤ dims.length) (hlen : vars.length = dims.length)
    (hvars : ∀ p ∈ vars, p.isVar = true) (hnodup : vars.Nodup) (hfit : dims.prod < 2 ^ B) :
    (∃ T : Tensor, Tensor.mkLambdaOfVars B E dims vars body init env = .ok T ∧
      T.dims = dims ∧ T.elemType = E ∧
      ∀ w : List Nat, T.isInBounds w = true →
        T.get B w = body (bindVars vars w env) ∧
        T.isInitialized B w = init (bindVars vars w env) ∧
        (∀ j id, j < vars.length → vars.getD j (.lit 0) = .var id →
          bindVars vars w env id = w.getD j 0) ∧
        (∀ id, IdxExpr.var id ∉ vars → bindVars vars w env id = env id)) ∧
    (∃ T : Tensor, Tensor.mkLambdaOfVars B E [] [] body init env = .ok T ∧
      T.dims = [1 % 2 ^ B] ∧ T.get B [0] = body env) ∧
    (∃ T : Tensor, Tensor.mkLambdaOfVars B E [1] [] body init env = .ok T ∧ T.dims = [1]) ∧
    (∀ (m : Nat) (b : List Nat → Nat),
      Tensor.mkInitializedLambda B E dims m b = Tensor.mkLambda B E dims m b (fun _ => true)) ∧
    (∀ vs : List IdxExpr, (∃ p ∈ vs, p.isVar = false) →
      Tensor.mkLambdaOfVars B E dims vs body init env = .error .assertion) := by
  have hall : vars.all IdxExpr.isVar = true := List.all_eq_true.mpr hvars
  have hn0 : vars.length ≠ 0 := by omega
  refine ⟨?_, ⟨_, rfl, rfl, rfl⟩, ⟨_, rfl, rfl⟩, fun _ _ => rfl, ?_⟩
  · have hmk : Tensor.mkLambdaOfVars B E dims vars body init env
        = .ok ⟨E, dims, fun idx => body (bindVars vars (from1DIdx B idx dims) env),
            fun idx => init (bindVars vars (from1DIdx B idx dims) env)⟩ := by
      simp only [Tensor.mkLambdaOfVars, hall, if_true]
      rw [mkLambda_some B E dims vars.length _ _ hn0 hlen.symm]
    refine ⟨_, hmk, rfl, rfl, ?_⟩
    intro w hw
    have hw2 : fitsInDims w dims = true := hw
    have hrt := from1DIdx_to1DIdx B w dims hw2 (Nat.le_of_lt hfit)
    have hwl : w.length = vars.length := by rw [fitsInDims_length _ _ hw2, hlen]
    refine ⟨?_, ?_, ?_, ?_⟩
    · simp only [Tensor.get, Tensor.getRaw, hrt]
    · simp only [Tensor.isInitialized, hrt]
    · intro j id hj hp
      exact bindVars_nodup env id vars w j hnodup hwl hj hp
    · intro id hid
      exact bindVars_other env id vars w hid
  · rintro vs ⟨p, hp, hpv⟩
    have hnot : ¬ vs.all IdxExpr.isVar = true := by
      intro h
      have := List.all_eq_true.mp h p hp
      rw [hpv] at this
      exact absurd this (by decide)
    simp only [Tensor.mkLambdaOfVars, hnot, Bool.false_eq_true, if_false]

/-- The lambda tensor of dims `[2, 3]` over the variables `x`, `y` with the body
`10 * x + y`: its element at `(1, 2)` is 12. -/
theorem C33_mkLambda_witness :
    ∃ T : Tensor, Tensor.mkLambdaOfVars 64 (.integerTy 32) [2, 3] [.var 0, .var 1]
        (fun v => 10 * v 0 + v 1) (fun _ => true) (fun _ => 0) = .ok T ∧
      T.dims = [2, 3] ∧ T.get 64 [1, 2] = 12 := by
  obtain ⟨⟨T, hT, hd, _, hg⟩, _⟩ := C33_mkLambda 64 (.integerTy 32) [2, 3] [.var 0, .var 1]
    (fun v => 10 * v 0 + v 1) (fun _ => true) (fun _ => 0) (by decide) rfl (by decide)
    (by decide) (by decide)
  refine ⟨T, hT, hd, ?_⟩
  rw [(hg [1, 2] (by rw [Tensor.isInBounds, hd]; decide)).1]
  rfl

/-! ### Subview with reduced dims -/

theorem subview_fold (unusedDims sizes : List Nat) : ∀ (n i : Nat) (r : Int)
    (fl : List Bool) (sz : List Nat), i + n = sizes.length →
    ∃ r2 : Int, (List.range' i n).foldl
      (fun (s : List Bool × List Nat × Int) i =>
        if s.2.2 > 0 ∧ i ∈ unusedDims then (s.1 ++ [false], s.2.1, s.2.2 - 1)
        else (s.1 ++ [true], s.2.1 ++ [sizes.getD i 0], s.2.2))
      (fl, sz, r)
      = (fl ++ specKeptFlags unusedDims i n r,
          sz ++ specKeptSizes (specKeptFlags unusedDims i n r) (sizes.drop i), r2)
  | 0, i, r, fl, sz, _ => ⟨r, by simp [specKeptFlags, specKeptSizes]⟩
  | n + 1, i, r, fl, sz, h => by
    have hi : i < sizes.length := by omega
    have hdrop : sizes.drop i = sizes.getD i 0 :: sizes.drop (i + 1) := by
      rw [List.getD_eq_getElem sizes 0 hi]
      exact List.drop_eq_getElem_cons hi
    rw [List.range'_succ, List.foldl_cons]
    by_cases hc : r > 0 ∧ i ∈ unusedDims
    · obtain ⟨r2, ih⟩ := subview_fold unusedDims sizes n (i + 1) (r - 1) (fl ++ [false]) sz
        (by omega)
      refine ⟨r2, ?_⟩
      simp only [hc, and_self, if_true]
      rw [ih, hdrop]
      simp [specKeptFlags, specKeptSizes, hc]
    · obtain ⟨r2, ih⟩ := subview_fold unusedDims sizes n (i + 1) r (fl ++ [true])
        (sz ++ [sizes.getD i 0]) (by omega)
      refine ⟨r2, ?_⟩
      simp only [hc, if_false]
      rw [ih, hdrop]
      simp [specKeptFlags, specKeptSizes, hc]

theorem specKeptFlags_length (unusedDims : List Nat) : ∀ (n i : Nat) (r : Int),
    (specKeptFlags unusedDims i n r).length = n
  | 0, _, _ => rfl
  | n + 1, i, r => by
    simp only [specKeptFlags]
    split <;> simp [specKeptFlags_length unusedDims n]

theorem specKeptSizes_length : ∀ (flags : List Bool) (sizes : List Nat),
    flags.length = sizes.length → (specKeptSizes flags sizes).length = flags.count true
  | [], [], _ => rfl
  | [], _ :: _, h => by simp at h
  | _ :: _, [], h => by simp at h
  | true :: fs, x :: xs, h => by
    simp [specKeptSizes, specKeptSizes_length fs xs (by simpa using h)]
  | false :: fs, x :: xs, h => by
    simp [specKeptSizes, specKeptSizes_length fs xs (by simpa using h)]

theorem specReinsert_length : ∀ (flags : List Bool) (w : List Nat),
    w.length = flags.count true → (specReinsert flags w).length = flags.length
  | [], _, _ => by simp [specReinsert]
  | true :: fs, [], h => by simp at h
  | true :: fs, x :: xs, h => by
    simp [specReinsert, specReinsert_length fs xs (by simpa using h)]
  | false :: fs, w, h => by
    simp [specReinsert, specReinsert_length fs w (by simpa using h)]

theorem filter_true_length : ∀ l : List Bool,
    (l.filter (fun v => v)).length = l.count true
  | [] => rfl
  | true :: l => by simp [filter_true_length l]
  | false :: l => by simp [filter_true_length l]

theorem zeroOffsets_cons (f : Bool) (fs : List Bool) :
    (List.range (f :: fs).length).filter (fun i => !(f :: fs).getD i true)
      = (if f then [] else [0]) ++
        ((List.range fs.length).filter (fun i => !fs.getD i true)).map (fun i => i + 1) := by
  rw [List.length_cons, List.range_succ_eq_map, List.filter_cons, List.filter_map]
  cases f <;> simp [Function.comp_def]

theorem insertZeros_shift : ∀ (zs : List Nat) (x : Nat) (acc : List Nat),
    (zs.map (fun i => i + 1)).foldl (fun acc ofs => acc.insertIdx ofs 0) (x :: acc)
      = x :: zs.foldl (fun acc ofs => acc.insertIdx ofs 0) acc
  | [], _, _ => rfl
  | z :: zs, x, acc => by
    rw [List.map_cons, List.foldl_cons, List.foldl_cons, List.insertIdx_succ_cons,
      insertZeros_shift zs x]

theorem insertZeros_eq_specReinsert : ∀ (flags : List Bool) (w : List Nat),
    w.length = flags.count true →
    insertZeros ((List.range flags.length).filter (fun i => !flags.getD i true)) w
      = specReinsert flags w
  | [], w, h => by
    have hw : w = [] := List.length_eq_zero.mp (by simpa using h)
    subst hw
    rfl
  | true :: fs, [], h => by simp at h
  | true :: fs, x :: xs, h => by
    have ih := insertZeros_eq_specReinsert fs xs (by simpa using h)
    rw [zeroOffsets_cons]
    simp only [if_true, List.nil_append, insertZeros, specReinsert] at ih ⊢
    rw [insertZeros_shift, ih]
  | false :: fs, w, h => by
    have ih := insertZeros_eq_specReinsert fs w (by simpa using h)
    rw [zeroOffsets_cons]
    simp only [Bool.false_eq_true, if_false, List.singleton_append, insertZeros, specReinsert,
      List.foldl_cons, List.insertIdx_zero] at ih ⊢
    rw [insertZeros_shift, ih]

/-- C36: for a parent memref of rank `n` with layout `L` and a subview with `offsets`,
`sizes`, `strides` of length `n` and a positive `rankDiff`, the positions reduced are
those of `unusedDims` in ascending order while `rankDiff` is positive.  The result
keeps memory, element type, bid and offset, has `isViewRef = true`, its dims are the
sizes at the kept positions, so its rank is `n` minus the number of reduced positions,
and for every index vector `w` of the result, with `u` the vector `w` with a zero
re-inserted at each reduced position (of length `n`) and
`p[k] = u[k] * strides[k] + offsets[k]`: `mapping(w) = L.mapping(p)` and
`inbounds(w) = L.inbounds(p) ∧ u within sizes`. -/
theorem C36_subview_reduced (B : Nat) (p : MemRef) (inverseFns : Nat → Nat → Nat)
    (preconditionIsTrue : Bool) (offsets sizes strides unusedDims : List Nat) (rankDiff : Int)
    (hr : 0 < rankDiff) (ho : offsets.length = p.layout.indVars)
    (hs : sizes.length = p.layout.indVars) (hst : strides.length = p.layout.indVars) :
    ∃ v : MemRef,
      p.subview B inverseFns preconditionIsTrue offsets sizes strides unusedDims rankDiff
        = some v ∧
      v.m = p.m ∧ v.elemType = p.elemType ∧ v.bid = p.bid ∧ v.offset = p.offset ∧
      v.isViewRef = true ∧
      v.dims = specKeptSizes (specKeptFlags unusedDims 0 sizes.length rankDiff) sizes ∧
      v.dims.length
        = sizes.length - (specKeptFlags unusedDims 0 sizes.length rankDiff).count false ∧
      v.layout.indVars = v.dims.length ∧
      ∀ w : List Nat, w.length = v.dims.length →
        (specReinsert (specKeptFlags unusedDims 0 sizes.length rankDiff) w).length
          = sizes.length ∧
        v.layout.mapping w = p.layout.mapping ((List.range sizes.length).map (fun k =>
          bvAdd B (bvMul B
            ((specReinsert (specKeptFlags unusedDims 0 sizes.length rankDiff) w).getD k 0)
            (strides.getD k 0)) (offsets.getD k 0))) ∧
        v.layout.inbounds w = (p.layout.inbounds ((List.range sizes.length).map (fun k =>
          bvAdd B (bvMul B
            ((specReinsert (specKeptFlags unusedDims 0 sizes.length rankDiff) w).getD k 0)
            (strides.getD k 0)) (offsets.getD k 0))) &&
          fitsInDims (specReinsert (specKeptFlags unusedDims 0 sizes.length rankDiff) w)
            sizes) := by
  obtain ⟨r2, hfold⟩ := subview_fold unusedDims sizes sizes.length 0 rankDiff [] []
    (by omega)
  rw [← List.range_eq_range'] at hfold
  simp only [List.nil_append, List.drop_zero] at hfold
  have hfl := specKeptFlags_length unusedDims sizes.length 0 rankDiff
  have hks := specKeptSizes_length (specKeptFlags unusedDims 0 sizes.length rankDiff) sizes hfl
  have hcnt := List.count_true_add_count_false
    (specKeptFlags unusedDims 0 sizes.length rankDiff)
  have hc : p.layout.indVars = (specKeptFlags unusedDims 0 sizes.length rankDiff).length ∧
      p.layout.indVars = offsets.length ∧ p.layout.indVars = strides.length ∧
      p.layout.indVars = sizes.length := ⟨by omega, ho.symm, hst.symm, hs.symm⟩
  have hfilt : ((specKeptFlags unusedDims 0 sizes.length rankDiff).filter (fun v => v)).length
      = (specKeptFlags unusedDims 0 sizes.length rankDiff).count true := by
    exact filter_true_length _
  have hsub : p.subview B inverseFns preconditionIsTrue offsets sizes strides unusedDims
      rankDiff = some ⟨p.m, p.elemType, p.bid, p.offset,
        specKeptSizes (specKeptFlags unusedDims 0 sizes.length rankDiff) sizes,
        Layout.strided B
          ((specKeptFlags unusedDims 0 sizes.length rankDiff).filter (fun v => v)).length
          (fun idxs => p.layout.mapping (transformIndices B strides offsets
            (insertZeros ((List.range
              (specKeptFlags unusedDims 0 sizes.length rankDiff).length).filter
                (fun i => !(specKeptFlags unusedDims 0 sizes.length rankDiff).getD i true))
              idxs)))
          (fun idxs => p.layout.inbounds (transformIndices B strides offsets
            (insertZeros ((List.range
              (specKeptFlags unusedDims 0 sizes.length rankDiff).length).filter
                (fun i => !(specKeptFlags unusedDims 0 sizes.length rankDiff).getD i true))
              idxs)) &&
            fitsInDims (insertZeros ((List.range
              (specKeptFlags unusedDims 0 sizes.length rankDiff).length).filter
                (fun i => !(specKeptFlags unusedDims 0 sizes.length rankDiff).getD i true))
              idxs) sizes)
          inverseFns preconditionIsTrue, true⟩ := by
    have hr2 : rankDiff > 0 := hr
    simp only [MemRef.subview, hr2, if_true, hfold, MemRef.createSubViewLayout]
    rw [if_pos hc]
    rfl
  refine ⟨_, hsub, rfl, rfl, rfl, rfl, rfl, rfl, ?_, ?_, ?_⟩
  · show (specKeptSizes _ sizes).length = _
    omega
  · show ((specKeptFlags unusedDims 0 sizes.length rankDiff).filter (fun v => v)).length
      = (specKeptSizes _ sizes).length
    omega
  · intro w hw
    have hw2 : w.length = (specKeptFlags unusedDims 0 sizes.length rankDiff).count true := by
      have : w.length = (specKeptSizes (specKeptFlags unusedDims 0 sizes.length rankDiff)
        sizes).length := hw
      omega
    have hins := insertZeros_eq_specReinsert
      (specKeptFlags unusedDims 0 sizes.length rankDiff) w hw2
    have hlen := specReinsert_length (specKeptFlags unusedDims 0 sizes.length rankDiff) w hw2
    have hsl : strides.length = sizes.length := by omega
    refine ⟨by omega, ?_, ?_⟩
    · show p.layout.mapping (transformIndices B strides offsets (insertZeros _ w)) = _
      rw [hins, transformIndices, hsl]
    · show (p.layout.inbounds (transformIndices B strides offsets (insertZeros _ w)) &&
        fitsInDims (insertZeros _ w) sizes) = _
      rw [hins, transformIndices, hsl]

/-- The subview of the sample 4 x 4 memref with offsets `[1, 0]`, sizes `[1, 2]`, strides
`[1, 1]` and the first dim reduced: the result has dims `[2]` and maps `(1)` to the
offset of `(1, 1)` in the parent, which is 5. -/
theorem C36_subview_reduced_witness :
    ∃ v : MemRef, sampleMemRef.subview 64 sampleInverseFns false [1, 0] [1, 2] [1, 1] [0] 1
        = some v ∧
      v.dims = [2] ∧ v.layout.mapping [1] = 5 ∧ v.layout.inbounds [1] = true := by
  obtain ⟨v, hv, _, _, _, _, _, hd, _, _, hw⟩ := C36_subview_reduced 64 sampleMemRef
    sampleInverseFns false [1, 0] [1, 2] [1, 1] [0] 1 (by decide) rfl rfl rfl
  have hd2 : v.dims = [2] := by rw [hd]; decide
  obtain ⟨_, hm, hi⟩ := hw [1] (by rw [hd2]; rfl)
  refine ⟨v, hv, hd2, ?_, ?_⟩
  · rw [hm]
    decide
  · rw [hi]
    decide

/-! ### Conv reads -/

theorem lt_convOutputDim_le (B D F s d x : Nat) (hs : 1 ≤ s) (hfit : d * F ≤ D)
    (hD : D < 2 ^ B) (hx : x < convOutputDim B D F s d) : x * s + d * F ≤ D := by
  have hs0 : s ≠ 0 := by omega
  have hm : bvMul B d F = d * F := Nat.mod_eq_of_lt (by omega)
  simp only [convOutputDim, hm, bvSub_exact B D (d * F) hD hfit, bvAdd, bvUdiv, hs0,
    if_false] at hx
  have hle : (D - d * F + s) % 2 ^ B ≤ D - d * F + s := Nat.mod_le _ _
  have h : (x + 1) * s ≤ (D - d * F + s) % 2 ^ B :=
    (Nat.le_div_iff_mul_le (by omega)).mp hx
  have e : (x + 1) * s = x * s + s := by ring
  omega

theorem conv_coord (B D F s d x z : Nat) (hs : 1 ≤ s) (hd : 1 ≤ d) (hfit : d * F ≤ D)
    (hD : D < 2 ^ B) (hx : x < convOutputDim B D F s d) (hz : z < F) :
    bvAdd B (bvMul B x s) (bvMul B z d) = x * s + z * d ∧ x * s + z * d < D := by
  have h1 := lt_convOutputDim_le B D F s d x hs hfit hD hx
  have h2 : d * (z + 1) ≤ d * F := Nat.mul_le_mul_left d hz
  rw [Nat.mul_succ, Nat.mul_comm d z] at h2
  have h3 : x * s + z * d < D := by omega
  refine ⟨?_, h3⟩
  simp only [bvAdd, bvMul]
  rw [Nat.mod_eq_of_lt (by omega : x * s < 2 ^ B), Nat.mod_eq_of_lt (by omega : z * d < 2 ^ B),
    Nat.mod_eq_of_lt (by omega)]

theorem fits_of_getD (idx dims : List Nat) (hl : idx.length = dims.length)
    (h : ∀ k, k < dims.length → idx.getD k 0 < dims.getD k 0) : fitsInDims idx dims = true :=
  (fitsInDims_getD idx dims).mpr ⟨hl, h⟩

theorem getLastD_eq_getD (c : List Nat) (n : Nat) (h : c.length = n + 1) :
    c.getLastD 0 = c.getD n 0 := by
  induction c generalizing n with
  | nil => simp at h
  | cons x xs ih =>
    cases xs with
    | nil =>
      have : n = 0 := by simpa using h.symm
      subst this
      rfl
    | cons y ys =>
      cases n with
      | zero => simp at h
      | succ m =>
        have := ih m (by simpa using h)
        rw [List.getLastD_cons, List.getLastD_cons, List.getD_cons_succ]
        rw [List.getLastD_cons] at this
        exact this

theorem headD_eq_getD (o : List Nat) : o.headD 0 = o.getD 0 0 := by
  cases o <;> rfl

theorem getD_range_map_append (f : Nat → Nat) (n i : Nat) (rest : List Nat) (hi : i < n) :
    ((List.range n).map f ++ rest).getD i 0 = f i := by
  simp [List.getD_eq_getElem?_getD, List.getElem?_append, hi]

theorem getD_range_map_append_last (f : Nat → Nat) (n y : Nat) :
    ((List.range n).map f ++ [y]).getD n 0 = y := by
  simp [List.getD_eq_getElem?_getD, List.getElem?_append]

theorem getD_append_lt (l r : List Nat) (k : Nat) (h : k < l.length) :
    (l ++ r).getD k 0 = l.getD k 0 := by
  simp [List.getD_eq_getElem?_getD, List.getElem?_append, h]

theorem getD_append_length (l : List Nat) (y : Nat) : (l ++ [y]).getD l.length 0 = y := by
  simp [List.getD_eq_getElem?_getD, List.getElem?_append]

theorem prod_ne_zero_pos (l : List Nat) (h : l.prod ≠ 0) : ∀ d ∈ l, 0 < d := by
  intro d hd
  rcases Nat.eq_zero_or_pos d with h0 | h0
  · subst h0
    exact absurd (List.prod_eq_zero hd) h
  · exact h0

theorem zero_or_succ (k : Nat) : k = 0 ∨ ∃ i, k = i + 1 := by
  cases k with
  | zero => exact Or.inl rfl
  | succ i => exact Or.inr ⟨i, rfl⟩

theorem cube_getD (filter : Tensor) (B n : Nat) (layout : ConvLayout) :
    (convCubeSize (filter.toShapedValue B) n layout).length = n + 1 ∧
    (∀ i, i < n → (convCubeSize (filter.toShapedValue B) n layout).getD i 0
      = filter.getDim (specFilterSpatial layout i)) ∧
    (convCubeSize (filter.toShapedValue B) n layout).getD n 0
      = filter.getDim (specFilterInChannel layout n) := by
  cases layout <;>
    refine ⟨by simp [convCubeSize], fun i hi => ?_, ?_⟩ <;>
    simp only [convCubeSize, specFilterSpatial, specFilterInChannel, ShapedValue.getDim,
      Tensor.toShapedValue, Tensor.getDim]
  · exact getD_range_map_append _ n i _ hi
  · exact getD_range_map_append_last _ n _
  · exact getD_range_map_append _ n i _ hi
  · exact getD_range_map_append_last _ n _
  · exact getD_range_map_append _ n i _ hi
  · exact getD_range_map_append_last _ n _

theorem outputDims_spatial (B : Nat) (input filter : Tensor) (strides dilations : List Nat)
    (layout : ConvLayout) (n i : Nat) (hN : input.dims.length = n + 2) (hi : i < n) :
    (convOutputDims B input filter strides dilations layout).getD (specInputSpatial layout i) 0
      = convOutputDim B (input.getDim (specInputSpatial layout i))
          (filter.getDim (specFilterSpatial layout i)) (strides.getD i 0)
          (dilations.getD i 0) := by
  have hn : input.dims.length - 2 = n := by omega
  cases layout <;> simp only [convOutputDims, specInputSpatial, specFilterSpatial, hn]
  · exact getD_cons_range_map _ _ n i _ hi
  · exact getD_pair_range_map _ _ _ n i hi
  · exact getD_cons_range_map _ _ n i _ hi

theorem outputDims_batch (B : Nat) (input filter : Tensor) (strides dilations : List Nat)
    (layout : ConvLayout) :
    (convOutputDims B input filter strides dilations layout).getD 0 0 = input.getDim 0 := by
  cases layout <;> simp [convOutputDims]

theorem outputDims_channel (B : Nat) (input filter : Tensor) (strides dilations : List Nat)
    (layout : ConvLayout) (n : Nat) (hN : input.dims.length = n + 2)
    (hF : filter.dims.length = n + 2) :
    (convOutputDims B input filter strides dilations layout).getD (specInputChannel layout n) 0
      = filter.getDim (specFilterOutChannel layout n) := by
  have hn : input.dims.length - 2 = n := by omega
  cases layout <;> simp only [convOutputDims, hn, specInputChannel, specFilterOutChannel]
  · rw [getD_cons_range_map_last, getLastD_eq_getD filter.dims (n + 1) hF]
    rfl
  · simp
  · exact getD_cons_range_map_last _ _ _ n

theorem conv_input_spatial (B : Nat) (layout : ConvLayout) (n : Nat)
    (strides dilations o c : List Nat) (i : Nat) (hi : i < n) :
    (convInputIdxs B layout n strides dilations o c).getD (specInputSpatial layout i) 0
      = bvAdd B (bvMul B (o.getD (specInputSpatial layout i) 0) (strides.getD i 0))
          (bvMul B (c.getD i 0) (dilations.getD i 0)) := by
  cases layout <;> simp only [convInputIdxs, specInputSpatial]
  · exact getD_cons_range_map _ _ n i _ hi
  · exact getD_pair_range_map _ _ _ n i hi
  · exact getD_cons_range_map _ _ n i _ hi

theorem conv_input_length (B : Nat) (layout : ConvLayout) (n : Nat)
    (strides dilations o c : List Nat) :
    (convInputIdxs B layout n strides dilations o c).length = n + 2 := by
  cases layout <;> simp [convInputIdxs]

theorem conv_input_batch (B : Nat) (layout : ConvLayout) (n : Nat)
    (strides dilations o c : List Nat) :
    (convInputIdxs B layout n strides dilations o c).getD 0 0 = o.getD 0 0 := by
  cases layout <;> cases o <;> rfl

theorem conv_input_channel (B : Nat) (layout : ConvLayout) (n : Nat)
    (strides dilations o c : List Nat) (hc : c.length = n + 1) :
    (convInputIdxs B layout n strides dilations o c).getD (specInputChannel layout n) 0
      = c.getD n 0 := by
  cases layout <;> simp only [convInputIdxs, specInputChannel]
  · rw [getD_cons_range_map_last, getLastD_eq_getD c n hc]
  · rw [getLastD_eq_getD c n hc]
    rfl
  · rw [getD_cons_range_map_last, getLastD_eq_getD c n hc]

theorem input_axis_cases (layout : ConvLayout) (n k : Nat) (hk : k < n + 2) :
    k = 0 ∨ k = specInputChannel layout n ∨ ∃ i, i < n ∧ k = specInputSpatial layout i := by
  cases layout <;> simp only [specInputChannel, specInputSpatial]
  · by_cases h0 : k = 0
    · exact Or.inl h0
    · by_cases h1 : k = n + 1
      · exact Or.inr (Or.inl h1)
      · exact Or.inr (Or.inr ⟨k - 1, by omega, by omega⟩)
  · by_cases h0 : k = 0
    · exact Or.inl h0
    · by_cases h1 : k = 1
      · exact Or.inr (Or.inl h1)
      · exact Or.inr (Or.inr ⟨k - 2, by omega, by omega⟩)
  · by_cases h0 : k = 0
    · exact Or.inl h0
    · by_cases h1 : k = n + 1
      · exact Or.inr (Or.inl h1)
      · exact Or.inr (Or.inr ⟨k - 1, by omega, by omega⟩)

theorem conv_filter_length (layout : ConvLayout) (n : Nat) (o c : List Nat)
    (hc : c.length = n + 1) : (convFilterIdxs layout o c).length = n + 2 := by
  cases layout <;> simp [convFilterIdxs, hc]

theorem conv_filter_spatial (layout : ConvLayout) (n : Nat) (o c : List Nat)
    (hc : c.length = n + 1) (i : Nat) (hi : i < n) :
    (convFilterIdxs layout o c).getD (specFilterSpatial layout i) 0 = c.getD i 0 := by
  cases layout <;> simp only [convFilterIdxs, specFilterSpatial]
  · exact getD_append_lt c _ i (by omega)
  · have e : c.length - 1 = n := by omega
    rw [e]
    exact getD_pair_range_map _ _ _ n i hi
  · rfl

theorem conv_filter_inChannel (layout : ConvLayout) (n : Nat) (o c : List Nat)
    (hc : c.length = n + 1) :
    (convFilterIdxs layout o c).getD (specFilterInChannel layout n) 0 = c.getD n 0 := by
  cases layout <;> simp only [convFilterIdxs, specFilterInChannel]
  · exact getD_append_lt c _ n (by omega)
  · rw [getLastD_eq_getD c n hc]
    rfl
  · rfl

theorem conv_filter_outChannel (layout : ConvLayout) (n : Nat) (o c : List Nat)
    (hc : c.length = n + 1) (ho : o.length = n + 2) :
    (convFilterIdxs layout o c).getD (specFilterOutChannel layout n) 0
      = o.getD (specInputChannel layout n) 0 := by
  cases layout <;> simp only [convFilterIdxs, specFilterOutChannel, specInputChannel]
  · rw [← hc, getD_append_length, getLastD_eq_getD o (n + 1) ho, hc]
  · rfl
  · rw [getLastD_eq_getD o (n + 1) ho]
    rfl

theorem filter_axis_cases (layout : ConvLayout) (n k : Nat) (hk : k < n + 2) :
    k = specFilterOutChannel layout n ∨ k = specFilterInChannel layout n ∨
      ∃ i, i < n ∧ k = specFilterSpatial layout i := by
  cases layout <;> simp only [specFilterOutChannel, specFilterInChannel, specFilterSpatial]
  · by_cases h0 : k = n + 1
    · exact Or.inl h0
    · by_cases h1 : k = n
      · exact Or.inr (Or.inl h1)
      · exact Or.inr (Or.inr ⟨k, by omega, rfl⟩)
  · by_cases h0 : k = 0
    · exact Or.inl h0
    · by_cases h1 : k = 1
      · exact Or.inr (Or.inl h1)
      · exact Or.inr (Or.inr ⟨k - 2, by omega, by omega⟩)
  · by_cases h0 : k = 0
    · exact Or.inl h0
    · by_cases h1 : k = n + 1
      · exact Or.inr (Or.inl h1)
      · exact Or.inr (Or.inr ⟨k - 1, by omega, by omega⟩)

theorem spatial_lt (layout : ConvLayout) (n i : Nat) (hi : i < n) :
    specInputSpatial layout i < n + 2 ∧ specInputChannel layout n < n + 2 := by
  cases layout <;> simp only [specInputSpatial, specInputChannel] <;> omega

/-- C35 (amended): for every layout, an input and a filter of rank `n + 2 ≥ 3` whose
channel axes match (the input-channel dim of the filter is the channel dim of the
input, which `conv` does not assert), and on every spatial axis an input size
`D < 2 ^ B`, a filter size `F ≥ 1`, a stride `s ≥ 1` and a dilation `d ≥ 1` with
`d * F ≤ D`: for every output position `x < (D - d * F + s) udiv s` and every filter
position `z < F` the coordinate `x * s + z * d`, as computed in `B` bits, is the
natural number `x * s + z * d` and is below `D`; it is the entry of the input index
vector of `ShapedValue.conv` at that axis; for every in-bounds output index vector and
every cube index below the 1-D size of the cube, the input cell and the filter cell
read there are in bounds; and `Tensor.conv` returns a tensor of the output dims whose
element at an in-bounds index is the dot product, over the cube indices `p` below
the 1-D size of the cube, of the input cells at `inputIdxs(o, p)` and the filter
cells at `filterIdxs(o, p)` for an in-bounds output index vector `o`. -/
theorem C35_conv_reads_in_bounds_amended (B : Nat) (input filter : Tensor)
    (strides dilations : List Nat) (layout : ConvLayout) (n : Nat) (hn : 1 ≤ n)
    (hN : input.dims.length = n + 2) (hF : filter.dims.length = n + 2)
    (hax : ∀ i, i < n →
      1 ≤ filter.getDim (specFilterSpatial layout i) ∧ 1 ≤ strides.getD i 0 ∧
      1 ≤ dilations.getD i 0 ∧
      dilations.getD i 0 * filter.getDim (specFilterSpatial layout i)
        ≤ input.getDim (specInputSpatial layout i) ∧
      input.getDim (specInputSpatial layout i) < 2 ^ B)
    (hch : filter.getDim (specFilterInChannel layout n)
      = input.getDim (specInputChannel layout n)) :
    (∀ i x z, i < n →
      x < convOutputDim B (input.getDim (specInputSpatial layout i))
        (filter.getDim (specFilterSpatial layout i)) (strides.getD i 0)
        (dilations.getD i 0) →
      z < filter.getDim (specFilterSpatial layout i) →
      bvAdd B (bvMul B x (strides.getD i 0)) (bvMul B z (dilations.getD i 0))
        = x * strides.getD i 0 + z * dilations.getD i 0 ∧
      x * strides.getD i 0 + z * dilations.getD i 0
        < input.getDim (specInputSpatial layout i)) ∧
    (∀ (o c : List Nat) (i : Nat), i < n →
      (convInputIdxs B layout n strides dilations o c).getD (specInputSpatial layout i) 0
        = bvAdd B (bvMul B (o.getD (specInputSpatial layout i) 0) (strides.getD i 0))
            (bvMul B (c.getD i 0) (dilations.getD i 0))) ∧
    (∀ (o : List Nat) (p : Nat),
      fitsInDims o (convOutputDims B input filter strides dilations layout) = true →
      p < get1DSize B (convCubeSize (filter.toShapedValue B) n layout) →
      fitsInDims (convInputIdxs B layout n strides dilations o
        (from1DIdx B p (convCubeSize (filter.toShapedValue B) n layout))) input.dims = true ∧
      fitsInDims (convFilterIdxs layout o
        (from1DIdx B p (convCubeSize (filter.toShapedValue B) n layout))) filter.dims
          = true) ∧
    (∀ (fp : FpBackend) (output : Option Tensor),
      ∃ r : Tensor,
        input.conv B fp filter strides dilations layout output = some r ∧
        r.dims = convOutputDims B input filter strides dilations layout ∧
        ∀ idx : List Nat, r.isInBounds idx = true →
          ∃ o : List Nat,
            fitsInDims o (convOutputDims B input filter strides dilations layout) = true ∧
            r.get B idx =
              match input.elemType with
              | .integerTy w =>
                intDot w
                  (fun p => input.get B (convInputIdxs B layout n strides dilations o
                    (from1DIdx B p (convCubeSize (filter.toShapedValue B) n layout))))
                  (fun p => filter.get B (convFilterIdxs layout o
                    (from1DIdx B p (convCubeSize (filter.toShapedValue B) n layout))))
                  (get1DSize B (convCubeSize (filter.toShapedValue B) n layout))
                  (output.map (fun t => t.get B o))
              | _ =>
                fp.dot input.elemType
                  (fun p => input.get B (convInputIdxs B layout n strides dilations o
                    (from1DIdx B p (convCubeSize (filter.toShapedValue B) n layout))))
                  (fun p => filter.get B (convFilterIdxs layout o
                    (from1DIdx B p (convCubeSize (filter.toShapedValue B) n layout))))
                  (get1DSize B (convCubeSize (filter.toShapedValue B) n layout))
                  (output.map (fun t => t.get B o))) := by
  have coord : ∀ i x z, i < n →
      x < convOutputDim B (input.getDim (specInputSpatial layout i))
        (filter.getDim (specFilterSpatial layout i)) (strides.getD i 0)
        (dilations.getD i 0) →
      z < filter.getDim (specFilterSpatial layout i) →
      bvAdd B (bvMul B x (strides.getD i 0)) (bvMul B z (dilations.getD i 0))
        = x * strides.getD i 0 + z * dilations.getD i 0 ∧
      x * strides.getD i 0 + z * dilations.getD i 0
        < input.getDim (specInputSpatial layout i) := by
    intro i x z hi hx hz
    obtain ⟨_, h2, h3, h4, h5⟩ := hax i hi
    exact conv_coord B _ _ _ _ x z h2 h3 h4 h5 hx hz
  refine ⟨coord, fun o c i hi => conv_input_spatial B layout n strides dilations o c i hi, ?_,
    ?_⟩
  rotate_left
  · intro fp output
    have hc : (input.toShapedValue B).getDims.length = (filter.toShapedValue B).getDims.length ∧
        2 < (input.toShapedValue B).getDims.length := by
      simp only [Tensor.toShapedValue]
      omega
    have hbody : ShapedValue.conv B fp (input.toShapedValue B)
        (filter.toShapedValue B) strides dilations layout
        (fun indices => output.map (fun t => t.get B indices))
        = some (n + 2, fun o =>
          match input.elemType with
          | .integerTy w =>
            intDot w
              (fun p => input.get B (convInputIdxs B layout n strides dilations o
                (from1DIdx B p (convCubeSize (filter.toShapedValue B) n layout))))
              (fun p => filter.get B (convFilterIdxs layout o
                (from1DIdx B p (convCubeSize (filter.toShapedValue B) n layout))))
              (get1DSize B (convCubeSize (filter.toShapedValue B) n layout))
              (output.map (fun t => t.get B o))
          | _ =>
            fp.dot input.elemType
              (fun p => input.get B (convInputIdxs B layout n strides dilations o
                (from1DIdx B p (convCubeSize (filter.toShapedValue B) n layout))))
              (fun p => filter.get B (convFilterIdxs layout o
                (from1DIdx B p (convCubeSize (filter.toShapedValue B) n layout))))
              (get1DSize B (convCubeSize (filter.toShapedValue B) n layout))
              (output.map (fun t => t.get B o))) := by
      unfold ShapedValue.conv
      simp only []
      rw [if_pos hc]
      simp only [Tensor.toShapedValue, hN, Nat.add_sub_cancel]
    have hlen : (convOutputDims B input filter strides dilations layout).length = n + 2 := by
      rw [convOutputDims_length B input filter strides dilations layout (by omega), hN]
    have hconv := congrArg (fun c => c.bind fun r =>
      Tensor.mkInitializedLambda B input.elemType
        (convOutputDims B input filter strides dilations layout) r.1 r.2) hbody
    simp only [Option.some_bind, Tensor.mkInitializedLambda] at hconv
    rw [mkLambda_some B _ _ (n + 2) _ _ (by omega) hlen] at hconv
    refine ⟨_, hconv, rfl, ?_⟩
    intro idx hidx
    have hidx2 : fitsInDims idx (convOutputDims B input filter strides dilations layout)
        = true := hidx
    exact ⟨_, from1DIdx_fits B _ (to1DIdx B idx _) (fitsInDims_pos idx _ hidx2), rfl⟩
  intro o p ho hp
  obtain ⟨hcl, hcs, hcc⟩ := cube_getD filter B n layout
  have hprod : (convCubeSize (filter.toShapedValue B) n layout).prod ≠ 0 := by
    intro h0
    rw [get1DSize_eq, h0] at hp
    simp at hp
  have hcpos := prod_ne_zero_pos _ hprod
  have hcf := from1DIdx_fits B (convCubeSize (filter.toShapedValue B) n layout) p hcpos
  obtain ⟨hcl2, hcd⟩ := (fitsInDims_getD _ _).mp hcf
  rw [hcl] at hcl2 hcd
  have hol : (convOutputDims B input filter strides dilations layout).length = n + 2 := by
    rw [convOutputDims_length B input filter strides dilations layout (by omega), hN]
  obtain ⟨hol2, hod⟩ := (fitsInDims_getD _ _).mp ho
  rw [hol] at hol2 hod
  have hci : ∀ i, i < n → (from1DIdx B p (convCubeSize (filter.toShapedValue B) n layout)).getD i 0
      < filter.getDim (specFilterSpatial layout i) := by
    intro i hi
    have := hcd i (by omega)
    rw [hcs i hi] at this
    exact this
  have hcn : (from1DIdx B p (convCubeSize (filter.toShapedValue B) n layout)).getD n 0
      < filter.getDim (specFilterInChannel layout n) := by
    have := hcd n (by omega)
    rw [hcc] at this
    exact this
  constructor
  · apply fits_of_getD
    · rw [conv_input_length, hN]
    · intro k hk
      rw [hN] at hk
      rcases input_axis_cases layout n k hk with h | h | ⟨i, hi, h⟩
      · subst h
        rw [conv_input_batch]
        have := hod 0 (by omega)
        rw [outputDims_batch] at this
        exact this
      · subst h
        rw [conv_input_channel B layout n strides dilations o _ hcl2]
        rw [hch] at hcn
        exact hcn
      · subst h
        rw [conv_input_spatial B layout n strides dilations o _ i hi]
        have hx := hod _ (spatial_lt layout n i hi).1
        rw [outputDims_spatial B input filter strides dilations layout n i hN hi] at hx
        have := coord i _ _ hi hx (hci i hi)
        rw [this.1]
        exact this.2
  · apply fits_of_getD
    · rw [conv_filter_length layout n o _ hcl2, hF]
    · intro k hk
      rw [hF] at hk
      rcases filter_axis_cases layout n k hk with h | h | ⟨i, hi, h⟩
      · subst h
        rw [conv_filter_outChannel layout n o _ hcl2 hol2]
        have := hod _ (spatial_lt layout n 0 (by omega)).2
        rw [outputDims_channel B input filter strides dilations layout n hN hF] at this
        exact this
      · subst h
        rw [conv_filter_inChannel layout n o _ hcl2]
        exact hcn
      · subst h
        rw [conv_filter_spatial layout n o _ hcl2 i hi]
        exact hci i hi


/-- The sample convolution of a 1 x 4 x 4 x 1 input with a 3 x 3 x 1 x 1 filter, strides
and dilations 1: on the first spatial axis the coordinate of the output position 1
and the filter position 2 is 3, below 4, and at the output index `(0, 1, 1, 0)` the
cells read for the cube index 8 are in bounds. -/
theorem C35_conv_reads_in_bounds_amended_witness :
    (bvAdd 64 (bvMul 64 1 ([1, 1].getD 0 0)) (bvMul 64 2 ([1, 1].getD 0 0))
        = 1 * [1, 1].getD 0 0 + 2 * [1, 1].getD 0 0 ∧
      1 * [1, 1].getD 0 0 + 2 * [1, 1].getD 0 0
        < sampleConvInput.getDim (specInputSpatial .NHWC_HWCF 0)) ∧
    (fitsInDims (convInputIdxs 64 .NHWC_HWCF 2 [1, 1] [1, 1] [0, 1, 1, 0]
        (from1DIdx 64 8 (convCubeSize (sampleConvFilter.toShapedValue 64) 2 .NHWC_HWCF)))
        sampleConvInput.dims = true ∧
      fitsInDims (convFilterIdxs .NHWC_HWCF [0, 1, 1, 0]
        (from1DIdx 64 8 (convCubeSize (sampleConvFilter.toShapedValue 64) 2 .NHWC_HWCF)))
        sampleConvFilter.dims = true) :=
  ⟨(C35_conv_reads_in_bounds_amended 64 sampleConvInput sampleConvFilter [1, 1] [1, 1]
      .NHWC_HWCF 2 (by decide) rfl rfl (by decide) (by decide)).1 0 1 2 (by decide)
      (by decide) (by decide),
    (C35_conv_reads_in_bounds_amended 64 sampleConvInput sampleConvFilter [1, 1] [1, 1]
      .NHWC_HWCF 2 (by decide) rfl rfl (by decide) (by decide)).2.2.1 [0, 1, 1, 0] 8
      (by decide) (by decide)⟩

/-- C35 as stated fails when the channel dims differ.  The sample 1 x 4 x 4 x 1 input and
the 3 x 3 x 2 x 1 filter (layout NHWC_HWCF, strides and dilations 1) satisfy the
hypotheses of the claim on both spatial axes (`D = 4`, `F = 3`, `s = d = 1`,
`d * F ≤ D`), and `conv` asserts nothing on the channel dims.  The output dims are
`[1, 2, 2, 1]`; at the in-bounds output index `(0, 0, 0, 0)` the cube index 1, below the
1-D size 18 of the cube, is the cube position `(0, 0, 1)`, and the input cell read
there is `(0, 0, 0, 1)`, which is out of the bounds of the input.  The element of the
result of `Tensor.conv` at `(0, 0, 0, 0)` is the dot product over these 18 cube
indices. -/
theorem C35_conv_reads_in_bounds_counterexample :
    sampleConvInput.dims = [1, 4, 4, 1] ∧ sampleConvFilterWide.dims = [3, 3, 2, 1] ∧
    (∀ i, i < 2 →
      1 ≤ sampleConvFilterWide.getDim (specFilterSpatial .NHWC_HWCF i) ∧
      1 ≤ [1, 1].getD i 0 ∧ 1 ≤ [1, 1].getD i 0 ∧
      [1, 1].getD i 0 * sampleConvFilterWide.getDim (specFilterSpatial .NHWC_HWCF i)
        ≤ sampleConvInput.getDim (specInputSpatial .NHWC_HWCF i) ∧
      sampleConvInput.getDim (specInputSpatial .NHWC_HWCF i) < 2 ^ 64) ∧
    convOutputDims 64 sampleConvInput sampleConvFilterWide [1, 1] [1, 1] .NHWC_HWCF
      = [1, 2, 2, 1] ∧
    fitsInDims [0, 0, 0, 0] [1, 2, 2, 1] = true ∧
    get1DSize 64 (convCubeSize (sampleConvFilterWide.toShapedValue 64) 2 .NHWC_HWCF) = 18 ∧
    from1DIdx 64 1 (convCubeSize (sampleConvFilterWide.toShapedValue 64) 2 .NHWC_HWCF)
      = [0, 0, 1] ∧
    convInputIdxs 64 .NHWC_HWCF 2 [1, 1] [1, 1] [0, 0, 0, 0] [0, 0, 1] = [0, 0, 0, 1] ∧
    fitsInDims [0, 0, 0, 1] sampleConvInput.dims = false ∧
    (sampleConvInput.conv 64 sampleFp sampleConvFilterWide [1, 1] [1, 1] .NHWC_HWCF none).map
        (fun r => (r.dims, r.get 64 [0, 0, 0, 0]))
      = some ([1, 2, 2, 1],
        intDot 32
          (fun p => sampleConvInput.get 64 (convInputIdxs 64 .NHWC_HWCF 2 [1, 1] [1, 1]
            [0, 0, 0, 0] (from1DIdx 64 p [3, 3, 2])))
          (fun p => sampleConvFilterWide.get 64 (convFilterIdxs .NHWC_HWCF [0, 0, 0, 0]
            (from1DIdx 64 p [3, 3, 2])))
          18 none) :=
  ⟨rfl, rfl, by decide, by decide, by decide, by decide, by decide, by decide, by decide,
    rfl⟩

end MlirTv
